import Mathlib

/-!
# Introspective quicksort and its partition family

A shallow embedding of `src/build_qsort/build_qsort.hpp`,
`src/build_qsort/qsort.hpp`, its alternate `src/build_qsort/ext/qsort.hpp`
(namespace `ext`), the wrappers of `src/build_qsort/test.cpp` and
the harness of `src/build_qsort/smasher/qsort_smasher.cpp` (sequence
generation, loops, trials and menus).

Conventions of the embedding.

* A range `[first, last)` is a `List α`; a position is its offset from
  `first`, so `first` is `0` and `last` is the length of the list.
* Every function that dereferences an iterator returns an `Option`: the
  value `none` means that the code would have read or written a position
  outside `[first, last)` (or moved an iterator before `first`, which the
  source always follows by a dereference), or that a loop did not finish
  within its fuel.  A result `some _` therefore certifies termination with
  all accesses inside the range.
* The ordering predicate is a function `comp : α → α → Bool`.
* Arithmetic on `int` that can leave the range of the type goes through
  `int_wrap`, the wrap-around modulo `2^32`.
* Functions of the C++ standard library that the code calls
  (`std::partition`, `std::partial_sort`) are parameters, constrained by the
  contract the C++ standard gives them.
-/

namespace QSort

variable {α : Type}

/-! ## Definitions -/

/-- Strict weak order on the values, as the C++ `Compare` requirements state it:
irreflexive, transitive, and with a transitive incomparability relation. -/
structure StrictWeakOrder (comp : α → α → Bool) : Prop where
  irrefl : ∀ a, comp a a = false
  trans : ∀ a b c, comp a b = true → comp b c = true → comp a c = true
  incomp_trans : ∀ a b c, comp a b = false → comp b a = false →
    comp b c = false → comp c b = false → comp a c = false ∧ comp c a = false

/-- Equivalence induced by the ordering predicate: neither value precedes the other. -/
def Equiv (comp : α → α → Bool) (x y : α) : Prop :=
  comp x y = false ∧ comp y x = false

/-- Ascending order under `comp`: no later element precedes an earlier one. -/
def SortedBy (comp : α → α → Bool) (xs : List α) : Prop :=
  xs.Pairwise (fun x y => comp y x = false)

/-- The comparator `std::less<int>()` that the harness sorts with. -/
def int_less (a b : Int) : Bool := decide (a < b)

/-- A reference total-order sort of `int` values, standing for the `std::sort`
that produces the control copy of the harness. -/
def ref_sort (xs : List Int) : List Int := xs.insertionSort (fun a b => a ≤ b)

/-- Pointer subtraction `p - d`; moving before the start of the range is a fault. -/
def ptr_sub (p d : Nat) : Option Nat :=
  if d ≤ p then some (p - d) else none

/-- The call `std::iter_swap(i, j)`: both positions are read and written. -/
def iter_swap (a : List α) (i j : Nat) : Option (List α) :=
  match a[i]?, a[j]? with
  | some x, some y => some ((a.set i y).set j x)
  | _, _ => none

/-- The loop `while (p(*it)) ++it;` run on the suffix starting at `it`, whose
position is `i`.  Reading past `last` is a fault. -/
def advance_while (p : α → Bool) : List α → Nat → Option Nat
  | [], _ => none
  | x :: rest, i => if p x then advance_while p rest (i + 1) else some i

/-- The loop `while (p(*it)) --it;` started at position `i`.  Moving before
`first` is a fault. -/
def retreat_while (p : α → Bool) (a : List α) : Nat → Option Nat
  | 0 =>
    match a[0]? with
    | some x => if p x then none else some 0
    | none => none
  | i + 1 =>
    match a[i + 1]? with
    | some x => if p x then retreat_while p a i else some (i + 1)
    | none => none

/-- The call `std::find_if_not(first, last, p)` on the suffix starting at position `i`. -/
def find_if_not (p : α → Bool) : List α → Nat → Nat
  | [], i => i
  | x :: rest, i => if p x then find_if_not p rest (i + 1) else i

/-! ### `build_qsort.hpp`: the partition family -/

/-- Loop of `partition_standard`: `for (next = first; next != last; ++next)`. -/
def partition_standard_loop (comp : α → α → Bool) (pivot : α) :
    Nat → List α → Nat → Nat → Option (Nat × List α)
  | 0, _, _, _ => none
  | fuel + 1, a, first, next =>
    if next = a.length then some (first, a)
    else do
      let x ← a[next]?
      if comp x pivot then do
        let a1 ← iter_swap a first next
        partition_standard_loop comp pivot fuel a1 (first + 1) (next + 1)
      else partition_standard_loop comp pivot fuel a first (next + 1)

/-- Two-way guarded partition `partition_standard(first, last, pivot, comp)`:
returns the boundary and the rearranged range. -/
def partition_standard (comp : α → α → Bool) (a : List α) (pivot : α) :
    Option (Nat × List α) :=
  let first := find_if_not (fun x => comp x pivot) a 0
  partition_standard_loop comp pivot (a.length + 1) a first first

/-- Loop `while (true)` of `partition_squeeze`. -/
def partition_squeeze_loop (comp : α → α → Bool) (pivot : α) :
    Nat → List α → Nat → Nat → Option (Nat × List α)
  | 0, _, _, _ => none
  | fuel + 1, a, first, last => do
    let first1 ← advance_while (fun x => comp x pivot) (a.drop first) first
    let last0 ← ptr_sub last 1
    let last1 ← retreat_while (fun x => comp pivot x) a last0
    if first1 < last1 then do
      let a1 ← iter_swap a first1 last1
      partition_squeeze_loop comp pivot fuel a1 (first1 + 1) last1
    else some (first1, a)

/-- Two-way unguarded partition `partition_squeeze(first, last, pivot, comp)`:
returns the boundary and the rearranged range. -/
def partition_squeeze (comp : α → α → Bool) (a : List α) (pivot : α) :
    Option (Nat × List α) :=
  partition_squeeze_loop comp pivot (a.length + 1) a 0 a.length

/-- Contract of `std::partition(first, last, p)` in the C++ standard: the range
is permuted so that the elements satisfying `p` precede those that do not, and
the returned iterator is the start of the second group. -/
def StdPartitionContract (part : (α → Bool) → List α → Nat × List α) : Prop :=
  ∀ (p : α → Bool) (xs : List α),
    (part p xs).2.Perm xs ∧ (part p xs).1 ≤ xs.length ∧
    (∀ x ∈ (part p xs).2.take (part p xs).1, p x = true) ∧
    (∀ x ∈ (part p xs).2.drop (part p xs).1, p x = false)

/-- A stable partition, one function that meets `StdPartitionContract`. -/
def ref_partition (p : α → Bool) (xs : List α) : Nat × List α :=
  ((xs.filter p).length, xs.filter p ++ xs.filter (fun x => !p x))

/-- Three-way partition `partition3_forward(first, last, pivot, comp)`: two
calls of `std::partition`, the second on `[lower, last)`.  Returns
`(lower, upper)` and the rearranged range. -/
def partition3_forward (std_partition : (α → Bool) → List α → Nat × List α)
    (comp : α → α → Bool) (a : List α) (pivot : α) : Nat × Nat × List α :=
  let r1 := std_partition (fun x => comp x pivot) a
  let lower := r1.1
  let r2 := std_partition (fun x => !comp pivot x) (r1.2.drop lower)
  let upper := lower + r2.1
  (lower, upper, r1.2.take lower ++ r2.2)

/-- Loop `for (next = first; next != last; )` of `partition3_dijkstra`. -/
def partition3_dijkstra_loop (comp : α → α → Bool) (pivot : α) :
    Nat → List α → Nat → Nat → Nat → Option (Nat × Nat × List α)
  | 0, _, _, _, _ => none
  | fuel + 1, a, first, next, last =>
    if next = last then some (first, last, a)
    else do
      let x ← a[next]?
      if comp pivot x then do
        let last1 ← ptr_sub last 1
        let a1 ← iter_swap a next last1
        partition3_dijkstra_loop comp pivot fuel a1 first next last1
      else if comp x pivot then do
        let a1 ← iter_swap a next first
        partition3_dijkstra_loop comp pivot fuel a1 (first + 1) (next + 1) last
      else partition3_dijkstra_loop comp pivot fuel a first (next + 1) last

/-- Three-way partition `partition3_dijkstra(first, last, pivot, comp)`: returns
the pair `(lower, upper)` and the rearranged range. -/
def partition3_dijkstra (comp : α → α → Bool) (a : List α) (pivot : α) :
    Option (Nat × Nat × List α) :=
  partition3_dijkstra_loop comp pivot (a.length + 1) a 0 0 a.length

/-- State of `partition3_bentley_mcilroy` between its two phases. -/
structure BMState (α : Type) where
  a : List α
  l_head : Nat
  l_tail : Nat
  r_head : Nat
  r_tail : Nat
  deriving DecidableEq, Repr

/-- Layout of the range at the `break` of the first phase of
`partition3_bentley_mcilroy`, with `rh` the right head already adjusted:
`[ equal | less | equal | greater | equal ]`. -/
structure BMLayout (comp : α → α → Bool) (pivot : α) (a : List α)
    (lh lt rh rt : Nat) : Prop where
  h1 : lh ≤ lt
  h2 : lt ≤ rh
  h3 : rh ≤ rt
  h4 : rt ≤ a.length
  eqL : ∀ k x, k < lh → a[k]? = some x → Equiv comp x pivot
  less : ∀ k x, lh ≤ k → k < lt → a[k]? = some x → comp x pivot = true
  mid : ∀ k x, lt ≤ k → k < rh → a[k]? = some x → Equiv comp x pivot
  greater : ∀ k x, rh ≤ k → k < rt → a[k]? = some x → comp pivot x = true
  eqR : ∀ k x, rt ≤ k → a[k]? = some x → Equiv comp x pivot

/-- Block `// compact equal to sequence front.` of `partition3_bentley_mcilroy`:
`if (!comp(*l_tail, pivot)) { std::iter_swap(l_tail, l_head); ++l_head; }`.
Returns the range and the new `l_head`. -/
def bm_compact_front (comp : α → α → Bool) (pivot : α) (a : List α)
    (l_tail l_head : Nat) : Option (List α × Nat) := do
  let x ← a[l_tail]?
  if !comp x pivot then do
    let a1 ← iter_swap a l_tail l_head
    pure (a1, l_head + 1)
  else pure (a, l_head)

/-- Block `// compact equal to sequence back.` of `partition3_bentley_mcilroy`:
`if (!comp(pivot, *r_head)) { --r_tail; std::iter_swap(r_head, r_tail); }`.
Returns the range and the new `r_tail`. -/
def bm_compact_back (comp : α → α → Bool) (pivot : α) (a : List α)
    (r_head r_tail : Nat) : Option (List α × Nat) := do
  let y ← a[r_head]?
  if !comp pivot y then do
    let r_tail1 ← ptr_sub r_tail 1
    let a1 ← iter_swap a r_head r_tail1
    pure (a1, r_tail1)
  else pure (a, r_tail)

/-- First phase of `partition3_bentley_mcilroy`: the loop `while (true)` that
squeezes and compacts the equal values to the edges.  The state returned is the
one at the `break`. -/
def bm_squeeze (comp : α → α → Bool) (pivot : α) :
    Nat → BMState α → Option (BMState α)
  | 0, _ => none
  | fuel + 1, s => do
    let l_tail ← advance_while (fun x => comp x pivot) (s.a.drop s.l_tail) s.l_tail
    let r_head0 ← ptr_sub s.r_head 1
    let r_head ← retreat_while (fun x => comp pivot x) s.a r_head0
    if l_tail < r_head then do
      let a1 ← iter_swap s.a l_tail r_head
      let (a2, l_head) ← bm_compact_front comp pivot a1 l_tail s.l_head
      let (a3, r_tail) ← bm_compact_back comp pivot a2 r_head s.r_tail
      bm_squeeze comp pivot fuel ⟨a3, l_head, l_tail + 1, r_head, r_tail⟩
    else some ⟨s.a, s.l_head, l_tail, r_head, s.r_tail⟩

/-- The loop `while (first != l_head) std::iter_swap(--l_head, --l_tail);`. -/
def bm_rotate_front_loop : List α → Nat → Nat → Option (List α × Nat)
  | a, 0, l_tail => some (a, l_tail)
  | a, l_head + 1, l_tail => do
    let l_tail1 ← ptr_sub l_tail 1
    let a1 ← iter_swap a l_head l_tail1
    bm_rotate_front_loop a1 l_head l_tail1

/-- The statement `if (l_head == l_tail) l_tail = first; else { while ... }`.
Returns the range and the new `l_tail`. -/
def bm_rotate_front (a : List α) (l_head l_tail : Nat) : Option (List α × Nat) :=
  if l_head = l_tail then some (a, 0)
  else bm_rotate_front_loop a l_head l_tail

/-- The loop `while (r_tail != last) std::iter_swap(r_tail++, r_head++);`. -/
def bm_rotate_back_loop : Nat → List α → Nat → Nat → Option (List α × Nat)
  | 0, _, _, _ => none
  | fuel + 1, a, r_tail, r_head =>
    if r_tail = a.length then some (a, r_head)
    else do
      let a1 ← iter_swap a r_tail r_head
      bm_rotate_back_loop fuel a1 (r_tail + 1) (r_head + 1)

/-- The statement `if (r_head == r_tail) r_head = last; else { while ... }`.
Returns the range and the new `r_head`. -/
def bm_rotate_back (a : List α) (r_head r_tail : Nat) : Option (List α × Nat) :=
  if r_head = r_tail then some (a, a.length)
  else bm_rotate_back_loop (a.length + 1) a r_tail r_head

/-- Second phase of `partition3_bentley_mcilroy`: adjust the right head and
rotate the equal runs to the partition points. -/
def bm_rotate (s : BMState α) : Option (Nat × Nat × List α) := do
  let r_head := s.r_head + 1
  let r1 ← bm_rotate_front s.a s.l_head s.l_tail
  let r2 ← bm_rotate_back r1.1 r_head s.r_tail
  pure (r1.2, r2.2, r2.1)

/-- State at the `break` of the first phase of
`partition3_bentley_mcilroy(first, last, pivot, comp)`. -/
def bm_phase1 (comp : α → α → Bool) (a : List α) (pivot : α) : Option (BMState α) :=
  bm_squeeze comp pivot (a.length + 1) ⟨a, 0, 0, a.length, a.length⟩

/-- Three-way unguarded partition
`partition3_bentley_mcilroy(first, last, pivot, comp)`: returns the pair
`(lower, upper)` and the rearranged range. -/
def partition3_bentley_mcilroy (comp : α → α → Bool) (a : List α) (pivot : α) :
    Option (Nat × Nat × List α) := do
  let s ← bm_phase1 comp a pivot
  bm_rotate s

/-! ### `build_qsort.hpp`: pivot selection -/

/-- Stochastic sampling `iter_random(first, last)`, that is
`first + std::rand() % (last - first)`.  The pseudo-random source is the
sequence `rand` of the non-negative values that the successive calls of
`std::rand()` return, and `k` is the number of calls made so far; the result is
the position and the new number of calls.  On an empty range the modulus is
zero, a fault. -/
def iter_random (rand : Nat → Nat) (k : Nat) (first last : Nat) : Option (Nat × Nat) :=
  if first < last then some (first + rand k % (last - first), k + 1) else none

/-- The call `std::max(a, b, it_comp)` on positions: `b` when `*a` precedes `*b`,
else `a`. -/
def iter_max (comp : α → α → Bool) (xs : List α) (a b : Nat) : Option Nat := do
  let va ← xs[a]?
  let vb ← xs[b]?
  pure (if comp va vb then b else a)

/-- The call `std::min(a, b, it_comp)` on positions: `b` when `*b` precedes `*a`,
else `a`. -/
def iter_min (comp : α → α → Bool) (xs : List α) (a b : Nat) : Option Nat := do
  let va ← xs[a]?
  let vb ← xs[b]?
  pure (if comp vb va then b else a)

/-- Median of three `iter_median_3(a, b, c, comp)` of `build_qsort.hpp`. -/
def iter_median_3 (comp : α → α → Bool) (xs : List α) (a b c : Nat) : Option Nat := do
  let vb ← xs[b]?
  let vc ← xs[c]?
  if comp vb vc then do
    let m ← iter_max comp xs a b
    iter_min comp xs m c
  else do
    let m ← iter_min comp xs a b
    iter_max comp xs m c

/-- Median of nine `iter_median_9(first, split, last, comp)`. -/
def iter_median_9 (comp : α → α → Bool) (xs : List α) (first split last : Nat) :
    Option Nat :=
  if last - first ≤ 7 then some split
  else if last - first ≤ 40 then do
    let l0 ← ptr_sub last 1
    iter_median_3 comp xs first split l0
  else do
    let d := (last - first) / 8
    let a ← iter_median_3 comp xs first (first + d) (first + d * 2)
    let sd ← ptr_sub split d
    let b ← iter_median_3 comp xs sd split (split + d)
    let l2 ← ptr_sub last (d * 2)
    let l1 ← ptr_sub last d
    let l0 ← ptr_sub last 1
    let c ← iter_median_3 comp xs l2 l1 l0
    iter_median_3 comp xs a b c

/-! ### `build_qsort.hpp`: the quicksort versions

Each version takes `comp` for its `std::less<value_type>()`.  The first
argument of the recursive functions bounds the nesting of the calls; running
out of it is a fault.  The result is the sorted range together with the number
of calls of the partition function that were made.  The calls of
`print_partition` only write to the output and are left out. -/

/-- Quicksort `qsort_v1(first, last)`: midpoint pivot saved at the back,
`std::partition` of `[first, last - 1)`, pivot restored at the boundary. -/
def qsort_v1 (std_partition : (α → Bool) → List α → Nat × List α)
    (comp : α → α → Bool) : Nat → List α → Option (List α × Nat)
  | 0, _ => none
  | fuel + 1, xs =>
    if xs.length ≤ 1 then some (xs, 0)
    else do
      let last1 ← ptr_sub xs.length 1
      -- select pivot, save pivot.
      let xs1 ← iter_swap xs (xs.length / 2) last1
      let pv ← xs1[last1]?
      -- partition. lower bound with respect to pivot.
      let r := std_partition (fun x => comp x pv) (xs1.take last1)
      let lower := r.1
      let xs2 := r.2 ++ xs1.drop last1
      -- restore pivot.
      let xs3 ← iter_swap xs2 lower last1
      let p ← xs3[lower]?
      -- repeat for subsequences.
      let lo ← qsort_v1 std_partition comp fuel (xs3.take lower)
      let up ← qsort_v1 std_partition comp fuel (xs3.drop (lower + 1))
      pure (lo.1 ++ p :: up.1, 1 + lo.2 + up.2)

/-- Quicksort `qsort_v2(first, last)`: midpoint pivot, `partition_squeeze`, the
two subsequences share the boundary. -/
def qsort_v2 (comp : α → α → Bool) : Nat → List α → Option (List α × Nat)
  | 0, _ => none
  | fuel + 1, xs =>
    if xs.length ≤ 1 then some (xs, 0)
    else do
      let pv ← xs[xs.length / 2]?
      let r ← partition_squeeze comp xs pv
      let lo ← qsort_v2 comp fuel (r.2.take r.1)
      let up ← qsort_v2 comp fuel (r.2.drop r.1)
      pure (lo.1 ++ up.1, 1 + lo.2 + up.2)

/-- Quicksort `qsort_v3(first, last)`: midpoint pivot, `partition3_forward`, the
equal range `[eq.first, eq.second)` is left out of the recursion. -/
def qsort_v3 (std_partition : (α → Bool) → List α → Nat × List α)
    (comp : α → α → Bool) : Nat → List α → Option (List α × Nat)
  | 0, _ => none
  | fuel + 1, xs =>
    if xs.length ≤ 1 then some (xs, 0)
    else do
      let pv ← xs[xs.length / 2]?
      let eq := partition3_forward std_partition comp xs pv
      let lo ← qsort_v3 std_partition comp fuel (eq.2.2.take eq.1)
      let up ← qsort_v3 std_partition comp fuel (eq.2.2.drop eq.2.1)
      pure (lo.1 ++ (eq.2.2.take eq.2.1).drop eq.1 ++ up.1, 1 + lo.2 + up.2)

/-- Quicksort `qsort_v4(first, last)`: median of three swapped to the midpoint,
`partition3_forward`. -/
def qsort_v4 (std_partition : (α → Bool) → List α → Nat × List α)
    (comp : α → α → Bool) : Nat → List α → Option (List α × Nat)
  | 0, _ => none
  | fuel + 1, xs =>
    if xs.length ≤ 1 then some (xs, 0)
    else do
      let split := xs.length / 2
      let last1 ← ptr_sub xs.length 1
      let pivot ← iter_median_3 comp xs 0 split last1
      let xs1 ← iter_swap xs pivot split
      let pv ← xs1[split]?
      let eq := partition3_forward std_partition comp xs1 pv
      let lo ← qsort_v4 std_partition comp fuel (eq.2.2.take eq.1)
      let up ← qsort_v4 std_partition comp fuel (eq.2.2.drop eq.2.1)
      pure (lo.1 ++ (eq.2.2.take eq.2.1).drop eq.1 ++ up.1, 1 + lo.2 + up.2)

/-- Quicksort `qsort_v5(first, last)`: random pivot, `partition3_dijkstra`.  The
argument `k` and the last component of the result count the calls of
`std::rand()`; the call on `[first, eq.first)` draws before the call on
`[eq.second, last)`. -/
def qsort_v5 (rand : Nat → Nat) (comp : α → α → Bool) :
    Nat → Nat → List α → Option (List α × Nat × Nat)
  | 0, _, _ => none
  | fuel + 1, k, xs =>
    if xs.length ≤ 1 then some (xs, 0, k)
    else do
      let pivot ← iter_random rand k 0 xs.length
      let pv ← xs[pivot.1]?
      let eq ← partition3_dijkstra comp xs pv
      let lo ← qsort_v5 rand comp fuel pivot.2 (eq.2.2.take eq.1)
      let up ← qsort_v5 rand comp fuel lo.2.2 (eq.2.2.drop eq.2.1)
      pure (lo.1 ++ (eq.2.2.take eq.2.1).drop eq.1 ++ up.1, 1 + lo.2.1 + up.2.1, up.2.2)

/-- Quicksort `qsort_v6(first, last)`: median of nine, not swapped,
`partition3_bentley_mcilroy`. -/
def qsort_v6 (comp : α → α → Bool) : Nat → List α → Option (List α × Nat)
  | 0, _ => none
  | fuel + 1, xs =>
    if xs.length ≤ 1 then some (xs, 0)
    else do
      let split := xs.length / 2
      let pivot ← iter_median_9 comp xs 0 split xs.length
      let pv ← xs[pivot]?
      let eq ← partition3_bentley_mcilroy comp xs pv
      let lo ← qsort_v6 comp fuel (eq.2.2.take eq.1)
      let up ← qsort_v6 comp fuel (eq.2.2.drop eq.2.1)
      pure (lo.1 ++ (eq.2.2.take eq.2.1).drop eq.1 ++ up.1, 1 + lo.2 + up.2)

/-! ### `qsort.hpp`: the introspective sort -/

/-- Contract of `std::partial_sort(first, last, last, comp)` (and of `std::sort`)
in the C++ standard: the whole range is permuted into ascending order. -/
def StdSortContract (comp : α → α → Bool) (sort : List α → List α) : Prop :=
  ∀ xs : List α, (sort xs).Perm xs ∧ SortedBy comp (sort xs)

/-- Event tree of one call of `algo::introspective_sort_`: which routine each
range was handed to, with the length of the range.  A `partition` node is one
pass of the loop: its left child is the nested call on `[first, split)`, its
right child the continuation of the loop on `[split, last)`. -/
inductive Trace where
  | insertion (n : Nat)
  | fallback (n : Nat)
  | partition (n : Nat) (left right : Trace)
  deriving DecidableEq, Repr

/-- Largest number of `partition_unguarded_` invocations along a chain of
nested calls and loop passes. -/
def Trace.depth : Trace → Nat
  | .insertion _ => 0
  | .fallback _ => 0
  | .partition _ l r => 1 + max l.depth r.depth

/-- Every partition and every fallback is on a range of more than `16`
elements and every insertion sort on a range of at most `16` elements. -/
def Trace.SmallRangeOk : Trace → Prop
  | .insertion n => n ≤ 16
  | .fallback n => 16 < n
  | .partition n l r => 16 < n ∧ l.SmallRangeOk ∧ r.SmallRangeOk

/-- Exact value of `static_cast<long>(2.0 * std::log2(n))` computed on the
reals, that is the floor of the binary logarithm of `n * n`; the first
argument bounds the number of halvings. -/
def floor_log2 : Nat → Nat → Nat
  | 0, _ => 0
  | fuel + 1, n => if 2 ≤ n then floor_log2 fuel (n / 2) + 1 else 0

namespace algo

/-- Median of three `iter_median_3_(a, b, c, comp)` on positions of `xs`. -/
def iter_median_3_ (comp : α → α → Bool) (xs : List α) (a b c : Nat) : Option Nat := do
  let va ← xs[a]?
  let vb ← xs[b]?
  let vc ← xs[c]?
  if comp va vb then
    if comp vb vc then pure b
    else if comp va vc then pure c
    else pure a
  else if comp va vc then pure a
  else if comp vb vc then pure c
  else pure b

/-- Pivot selection `iter_median_(first, split, last, comp)` on positions of `xs`. -/
def iter_median_ (comp : α → α → Bool) (xs : List α) (first split last : Nat) :
    Option Nat :=
  if last - first ≤ 80 then do
    let l1 ← ptr_sub last 1
    iter_median_3_ comp xs first split l1
  else do
    let d := (last - first) / 8
    let a ← iter_median_3_ comp xs first (first + d) (first + d * 2)
    let sd ← ptr_sub split d
    let b ← iter_median_3_ comp xs sd split (split + d)
    let l2 ← ptr_sub last (d * 2)
    let l1 ← ptr_sub last d
    let l0 ← ptr_sub last 1
    let c ← iter_median_3_ comp xs l2 l1 l0
    iter_median_3_ comp xs a b c

/-- Loop `while (true)` of `algo::partition_unguarded_`. -/
def partition_unguarded_loop (comp : α → α → Bool) (pivot : α) :
    Nat → List α → Nat → Nat → Option (Nat × List α)
  | 0, _, _, _ => none
  | fuel + 1, a, first, last => do
    let first1 ← advance_while (fun x => comp x pivot) (a.drop first) first
    let last0 ← ptr_sub last 1
    let last1 ← retreat_while (fun x => comp pivot x) a last0
    if first1 < last1 then do
      let a1 ← iter_swap a first1 last1
      partition_unguarded_loop comp pivot fuel a1 (first1 + 1) last1
    else some (first1, a)

/-- Unguarded partition `algo::partition_unguarded_(first, last, pivot, comp)`:
returns the boundary and the rearranged range. -/
def partition_unguarded_ (comp : α → α → Bool) (a : List α) (pivot : α) :
    Option (Nat × List α) :=
  partition_unguarded_loop comp pivot (a.length + 1) a 0 a.length

/-- Inner loop of `insertion_sort_`,
`for (Bi next = i; comp(temp, *--next); j = next) *j = std::move(*next);`
followed by `*j = std::move(temp);`.  The argument is `j`. -/
def linear_insert_unguarded (comp : α → α → Bool) (temp : α) :
    List α → Nat → Option (List α)
  | _, 0 => none
  | a, j + 1 => do
    let x ← a[j]?
    if j + 1 < a.length then
      if comp temp x then linear_insert_unguarded comp temp (a.set (j + 1) x) j
      else pure (a.set (j + 1) temp)
    else none

/-- Loop `for (Bi i = first; ++i != last; )` of `insertion_sort_`. -/
def insertion_sort_loop (comp : α → α → Bool) : Nat → List α → Nat → Option (List α)
  | 0, _, _ => none
  | fuel + 1, a, i =>
    let i1 := i + 1
    if i1 = a.length then some a
    else do
      let temp ← a[i1]?
      let f ← a[0]?
      if comp temp f then
        -- std::move_backward(first, i, ++next); *first = std::move(temp);
        insertion_sort_loop comp fuel (temp :: (a.take i1 ++ a.drop (i1 + 1))) i1
      else do
        let a1 ← linear_insert_unguarded comp temp a i1
        insertion_sort_loop comp fuel a1 i1

/-- Insertion sort `algo::insertion_sort_(first, last, comp)`. -/
def insertion_sort_ (comp : α → α → Bool) (a : List α) : Option (List α) :=
  if a.length = 0 then some a
  else insertion_sort_loop comp a.length a 0

/-- Introspective sort `algo::introspective_sort_(first, last, depth, comp)`.
The pass of the loop `while (last - first > threshold)` that partitions calls
the function on `[first, split)` with the decremented depth and goes on with
`[split, last)` and the same decremented depth, which is this function again. -/
def introspective_sort_ (std_partial_sort : List α → List α) (comp : α → α → Bool) :
    Nat → List α → Option (List α)
  | 0, xs =>
    if 16 < xs.length then some (std_partial_sort xs)
    else insertion_sort_ comp xs
  | depth + 1, xs =>
    if 16 < xs.length then do
      let split := xs.length / 2
      let m ← iter_median_ comp xs 0 split xs.length
      let xs1 ← iter_swap xs split m
      let pivot ← xs1[split]?
      let r ← partition_unguarded_ comp xs1 pivot
      let left ← introspective_sort_ std_partial_sort comp depth (r.2.take r.1)
      let right ← introspective_sort_ std_partial_sort comp depth (r.2.drop r.1)
      pure (left ++ right)
    else insertion_sort_ comp xs

/-- The function `introspective_sort_` with the event tree of the call. -/
def introspective_sort_traced (std_partial_sort : List α → List α)
    (comp : α → α → Bool) : Nat → List α → Option (List α × Trace)
  | 0, xs =>
    if 16 < xs.length then some (std_partial_sort xs, .fallback xs.length)
    else (insertion_sort_ comp xs).map (fun ys => (ys, .insertion xs.length))
  | depth + 1, xs =>
    if 16 < xs.length then do
      let split := xs.length / 2
      let m ← iter_median_ comp xs 0 split xs.length
      let xs1 ← iter_swap xs split m
      let pivot ← xs1[split]?
      let r ← partition_unguarded_ comp xs1 pivot
      let left ← introspective_sort_traced std_partial_sort comp depth (r.2.take r.1)
      let right ← introspective_sort_traced std_partial_sort comp depth (r.2.drop r.1)
      pure (left.1 ++ right.1, .partition xs.length left.2 right.2)
    else (insertion_sort_ comp xs).map (fun ys => (ys, .insertion xs.length))

/-- Depth budget of `algo::qsort`, the value of
`static_cast<long>(2.0 * std::log2(last - first))`. -/
def depth_budget (n : Nat) : Nat := floor_log2 (n * n) (n * n)

/-- Entry point `algo::qsort(first, last, comp)`. -/
def qsort (std_partial_sort : List α → List α) (comp : α → α → Bool) (xs : List α) :
    Option (List α) :=
  if xs.length ≠ 0 then
    introspective_sort_ std_partial_sort comp (depth_budget xs.length) xs
  else some xs

end algo

/-- Pivot selection of `algo::iter_median_` in the words of the specification:
the plain median of three of `first`, `split`, `last - 1` for a range of at
most `80` elements, else, with `d = (last - first) / 8`, the median of three of
the three medians of three taken at `first, first + d, first + 2d`, at
`split - d, split, split + d` and at `last - 2d, last - d, last - 1`. -/
def median_of_medians_spec (comp : α → α → Bool) (xs : List α)
    (first split last : Nat) : Option Nat :=
  if last - first ≤ 80 then algo.iter_median_3_ comp xs first split (last - 1)
  else
    match algo.iter_median_3_ comp xs first (first + (last - first) / 8)
        (first + 2 * ((last - first) / 8)),
      algo.iter_median_3_ comp xs (split - (last - first) / 8) split
        (split + (last - first) / 8),
      algo.iter_median_3_ comp xs (last - 2 * ((last - first) / 8))
        (last - (last - first) / 8) (last - 1) with
    | some a, some b, some c => algo.iter_median_3_ comp xs a b c
    | _, _, _ => none

/-! ### `test.cpp`: the routines registered with the harness -/

/-- The routine `qsort_v1_wrap(int* first, int* last)`. -/
def qsort_v1_wrap (std_partition : (Int → Bool) → List Int → Nat × List Int)
    (xs : List Int) : Option (List Int) :=
  (qsort_v1 std_partition int_less (xs.length + 1) xs).map Prod.fst

/-- The routine `qsort_v2_wrap(int* first, int* last)`. -/
def qsort_v2_wrap (xs : List Int) : Option (List Int) :=
  (qsort_v2 int_less (xs.length + 1) xs).map Prod.fst

/-- The routine `qsort_v3_wrap(int* first, int* last)`. -/
def qsort_v3_wrap (std_partition : (Int → Bool) → List Int → Nat × List Int)
    (xs : List Int) : Option (List Int) :=
  (qsort_v3 std_partition int_less (xs.length + 1) xs).map Prod.fst

/-- The routine `qsort_v4_wrap(int* first, int* last)`. -/
def qsort_v4_wrap (std_partition : (Int → Bool) → List Int → Nat × List Int)
    (xs : List Int) : Option (List Int) :=
  (qsort_v4 std_partition int_less (xs.length + 1) xs).map Prod.fst

/-- The routine `qsort_v5_wrap(int* first, int* last)`, run when `k` values of
the pseudo-random source `rand` have been drawn. -/
def qsort_v5_wrap (rand : Nat → Nat) (k : Nat) (xs : List Int) : Option (List Int) :=
  (qsort_v5 rand int_less (xs.length + 1) k xs).map Prod.fst

/-- The routine `qsort_v6_wrap(int* first, int* last)`. -/
def qsort_v6_wrap (xs : List Int) : Option (List Int) :=
  (qsort_v6 int_less (xs.length + 1) xs).map Prod.fst

/-! ### `qsort_smasher.cpp`: sequence generation -/

/-- The strategy `Sawtooth::generate(n, m, i)`, that is `i % m` on `int`. -/
def Sawtooth.generate (_n m i : Int) : Int := Int.tmod i m

/-- The loop `for (int i = 0; i < n; i++) base[i] = strategy->generate(n, m, i);`
of `smasher`, for a strategy without state. -/
def generate_base (generate : Int → Int → Int → Int) (n m : Nat) : List Int :=
  (List.range n).map (fun (i : Nat) => generate (n : Int) (m : Int) (i : Int))

/-- The sequence in which each value `0, 1, ..., m - 1` occurs `k` consecutive
times, in ascending order. -/
def value_blocks (m k : Nat) : List Int :=
  (List.range m).flatMap (fun v => List.replicate k (v : Int))

/-- Comparator of records `(key, tag)` that looks at the key only: records with
the same key are equivalent and told apart by their tag. -/
def key_less (a b : Int × Nat) : Bool := decide (a.1 < b.1)

/-- A stable sort by key, one function that meets `StdSortContract key_less`. -/
def ref_sort_by_key (xs : List (Int × Nat)) : List (Int × Nat) :=
  xs.insertionSort (fun a b => a.1 ≤ b.1)

/-! ### `qsort_smasher.cpp`: the strategies `Stagger`, `Plateau` and `Shuffle` -/

/-- Value that an `int` takes when the exact result of an arithmetic
expression is `x`: overflow wraps around modulo `2^32` into
`[-2^31, 2^31)`. -/
def int_wrap (x : Int) : Int := (x + 2147483648) % 4294967296 - 2147483648

/-- The strategy `Stagger::generate(n, m, i)`, that is `(i*m + 1) % n` on
`int`. -/
def Stagger.generate (n m i : Int) : Int := Int.tmod (int_wrap (int_wrap (i * m) + 1)) n

/-- The strategy `Plateau::generate(n, m, i)`, that is `std::min(i, m)`. -/
def Plateau.generate (_n m i : Int) : Int := if m < i then m else i

/-- The two counters `j`, `k` of the strategy `Shuffle`. -/
structure Shuffle where
  j : Int
  k : Int
  deriving DecidableEq, Repr

/-- The call `Shuffle::init()`, that is `j = 0; k = 1;`. -/
def Shuffle.init (_s : Shuffle) : Shuffle := { j := 0, k := 1 }

/-- The call `Shuffle::generate(n, m, i)`, that is
`(std::rand() % m) ? (j += 2) : (k += 2)`, where `r` is the value that
`std::rand()` returns: the generated value and the new counters. -/
def Shuffle.generate (s : Shuffle) (r : Int) (_n m _i : Int) : Int × Shuffle :=
  if Int.tmod r m ≠ 0 then (int_wrap (s.j + 2), { s with j := int_wrap (s.j + 2) })
  else (int_wrap (s.k + 2), { s with k := int_wrap (s.k + 2) })

/-- The loop `for (int i = 0; i < n; i++) base[i] = strategy->generate(n, m, i);`
for the strategy `Shuffle`, from the index `i` on; `draws` holds the values that
the calls of `std::rand()` return, one for each remaining index. -/
def Shuffle.generate_loop (n m : Int) : List Int → Int → Shuffle → List Int × Shuffle
  | [], _, s => ([], s)
  | r :: draws, i, s =>
    let g := Shuffle.generate s r n m i
    let rest := Shuffle.generate_loop n m draws (i + 1) g.2
    (g.1 :: rest.1, rest.2)

/-- One generation run of `smasher` with the strategy `Shuffle`:
`strategy->init()` and then the loop over the `n` indices, `n` being the number
of draws; `s` holds the counters as the earlier runs left them. -/
def Shuffle.generate_base (s : Shuffle) (m : Int) (draws : List Int) : List Int × Shuffle :=
  Shuffle.generate_loop (draws.length : Int) m draws 0 (Shuffle.init s)

/-! ### `qsort_smasher.cpp`: the loops and the trials of `smasher` -/

/-- The strategies of `smasher_ui`, in the order of its vector. -/
inductive StrategyKind where
  | random | sawtooth | stagger | plateau | shuffle
  deriving DecidableEq, Repr

/-- The divisor of the `%` in `generate(n, m, i)` of each strategy:
`std::rand() % m` in `Random` and `Shuffle`, `i % m` in `Sawtooth`,
`(i*m + 1) % n` in `Stagger`; `Plateau` divides by nothing. -/
def StrategyKind.divisor : StrategyKind → Int → Int → Option Int
  | .random, _, m => some m
  | .sawtooth, _, m => some m
  | .stagger, n, _ => some n
  | .plateau, _, _ => none
  | .shuffle, _, m => some m

/-- The loop `for (int m = 1; m < n*2; m *= 2)` of `smasher`, from the value `m`
on: the moduli for which the body is run within `fuel` tests of the loop
condition, and whether the loop has ended by then. -/
def smasher_m_loop (n : Int) : Nat → Int → List Int × Bool
  | 0, _ => ([], false)
  | fuel + 1, m =>
    if m < int_wrap (n * 2) then
      let r := smasher_m_loop n fuel (int_wrap (m * 2))
      (m :: r.1, r.2)
    else ([], true)

/-- The loop `for (int n = 10; n <= nmax; n *= 10)` of `smasher`, from the value
`n` on: the sizes for which the body is run within `fuel` tests of the loop
condition, and whether the loop has ended by then. -/
def smasher_n_loop (nmax : Int) : Nat → Int → List Int × Bool
  | 0, _ => ([], false)
  | fuel + 1, n =>
    if n ≤ nmax then
      let r := smasher_n_loop nmax fuel (int_wrap (n * 10))
      (n :: r.1, r.2)
    else ([], true)

/-- The transform `std::reverse(test, test + n/2)` of the trial `revfront`. -/
def reverse_front (base : List Int) : List Int :=
  (base.take (base.length / 2)).reverse ++ base.drop (base.length / 2)

/-- The transform `std::reverse(test + n/2, test + n)` of the trial `revback`. -/
def reverse_back (base : List Int) : List Int :=
  base.take (base.length / 2) ++ (base.drop (base.length / 2)).reverse

/-- The transform `for (int i = 0; i < n; i++) test[i] += i % 5;` of the trial
`dither`. -/
def dither (base : List Int) : List Int :=
  base.enum.map (fun p => int_wrap (p.2 + Int.tmod (p.1 : Int) 5))

/-- One trial of `smasher`: `sort_fn(test, test + n)` followed by
`assert(std::equal(test, test + n, ctrl))`; the value is whether the assertion
holds. -/
def trial (sort_fn : List Int → Option (List Int)) (test ctrl : List Int) : Bool :=
  decide (sort_fn test = some ctrl)

/-- The six trials that `smasher` runs on one base sequence, each with the
variant it reports and the outcome of its assertion.  The control `ctrl` is the
copy of the base sorted by `std::sort`; the trial `dither` replaces it by the
sorted copy of the dithered sequence. -/
def smasher_trials (std_sort : List Int → List Int)
    (sort_fn : List Int → Option (List Int)) (base : List Int) : List (String × Bool) :=
  let ctrl := std_sort base
  [("ident", trial sort_fn base ctrl),
   ("reverse", trial sort_fn base.reverse ctrl),
   ("revfront", trial sort_fn (reverse_front base) ctrl),
   ("revback", trial sort_fn (reverse_back base) ctrl),
   ("sorted", trial sort_fn (std_sort base) ctrl),
   ("dither", trial sort_fn (dither base) (std_sort (dither base)))]

/-- What the harness expects of a routine under test: it returns, and leaves
the ascending permutation of its input. -/
def SortRoutineContract (sort_fn : List Int → Option (List Int)) : Prop :=
  ∀ xs : List Int, ∃ ys, sort_fn xs = some ys ∧ ys.Perm xs ∧ SortedBy int_less ys

/-! ### `qsort_smasher.cpp`: the menus of `smasher_ui` -/

/-- The function `smasher_ui_getopt(msg)` on one entry of the user: a number is
returned as it is, and an entry that is not a number (absent here) is discarded
and answered by `-1`. -/
def smasher_ui_getopt (entry : Option Int) : Int :=
  match entry with
  | some opt => opt
  | none => -1

/-- One menu loop `while (true)` of `smasher_ui`: the prompt `msg` is issued and
an entry read until the option passes the test `valid` of the menu.  The result
is the option, the entries not yet read, and the prompts issued.  When the
entries run out every further read fails and the loop does not end. -/
def smasher_ui_menu (msg : String) (valid : Int → Bool) :
    List (Option Int) → Option (Int × List (Option Int) × List String)
  | [] => none
  | entry :: entries =>
    if valid (smasher_ui_getopt entry) then some (smasher_ui_getopt entry, entries, [msg])
    else
      match smasher_ui_menu msg valid entries with
      | some (option, rest, prompts) => some (option, rest, msg :: prompts)
      | none => none

/-- The function `smasher_ui(strategies, functions, outstream)` on the entries
of the user.  The result is the value returned, the arguments
`(optstrat, optfunc, optsize)` of the call of `smasher` when it is made, and the
prompts issued.  An index outside a vector is a fault; the value
`(int) std::pow(10, option)` is taken exactly. -/
def smasher_ui {σ φ : Type} (strategies : List σ) (functions : List φ)
    (entries : List (Option Int)) :
    Option (Int × Option (List σ × φ × Int) × List String) :=
  match smasher_ui_menu "Please select a function"
      (fun option => decide (option ≥ 0 ∧ option ≤ (functions.length : Int))) entries with
  | none => none
  | some (option1, entries1, prompts1) =>
    if option1 = 0 then some (-1, none, prompts1)
    else
      match functions[(option1 - 1).toNat]? with
      | none => none
      | some optfunc =>
        match smasher_ui_menu "Please select a strategy"
            (fun option => decide (option ≥ 0 ∧ option ≤ (strategies.length : Int) + 1))
            entries1 with
        | none => none
        | some (option2, entries2, prompts2) =>
          if option2 = 0 then some (-1, none, prompts1 ++ prompts2)
          else
            match (if option2 ≠ (strategies.length : Int) + 1 then
                (strategies[(option2 - 1).toNat]?).map (fun s => [s])
              else some strategies) with
            | none => none
            | some optstrat =>
              match smasher_ui_menu "Please select maximum size"
                  (fun option => decide (option ≥ 0 ∧ option < 8)) entries2 with
              | none => none
              | some (option3, _, prompts3) =>
                if option3 = 0 then some (-1, none, prompts1 ++ prompts2 ++ prompts3)
                else
                  some (0, some (optstrat, optfunc, 10 ^ option3.toNat),
                    prompts1 ++ prompts2 ++ prompts3)

/-! ### `qsort.hpp`: the depth counter of the introspective sort -/

namespace algo

/-- The function `introspective_sort_` with its counter `long depth` kept as an
integer, together with the values of `depth` on entry of every call and of every
further pass of the loop `while (last - first > threshold)`, in the order in
which they occur.  The decrement `--depth` is made on the branch `depth != 0`
only.  The first argument bounds the nesting; running out of it is a fault. -/
def introspective_sort_depths (std_partial_sort : List α → List α)
    (comp : α → α → Bool) : Nat → Int → List α → Option (List α × List Int)
  | 0, _, _ => none
  | fuel + 1, depth, xs =>
    if 16 < xs.length then
      if depth = 0 then some (std_partial_sort xs, [depth])
      else do
        let split := xs.length / 2
        let m ← iter_median_ comp xs 0 split xs.length
        let xs1 ← iter_swap xs split m
        let pivot ← xs1[split]?
        let r ← partition_unguarded_ comp xs1 pivot
        let left ← introspective_sort_depths std_partial_sort comp fuel (depth - 1)
          (r.2.take r.1)
        let right ← introspective_sort_depths std_partial_sort comp fuel (depth - 1)
          (r.2.drop r.1)
        pure (left.1 ++ right.1, depth :: (left.2 ++ right.2))
    else (insertion_sort_ comp xs).map (fun ys => (ys, [depth]))

/-- Entry point `algo::qsort` with the values that the counter `depth` takes. -/
def qsort_depths (std_partial_sort : List α → List α) (comp : α → α → Bool)
    (xs : List α) : Option (List α × List Int) :=
  if xs.length ≠ 0 then
    introspective_sort_depths std_partial_sort comp (depth_budget xs.length + 1)
      (depth_budget xs.length : Int) xs
  else some (xs, [])

end algo

/-! ### `qsort.hpp`: the events of the introspective sort -/

/-- The length of the range of a node of the event tree. -/
def Trace.size : Trace → Nat
  | .insertion n => n
  | .fallback n => n
  | .partition n _ _ => n

/-- At every partition the boundary is strictly inside the range: the range of
the nested call and the range the loop goes on with are both non-empty parts of
the partitioned range, hence strictly shorter. -/
def Trace.Shrinks : Trace → Prop
  | .insertion _ => True
  | .fallback _ => True
  | .partition n l r =>
    0 < l.size ∧ 0 < r.size ∧ l.size + r.size = n ∧ l.Shrinks ∧ r.Shrinks

/-- One routine invoked on one range of `n` values. -/
inductive Event where
  | insertion (n : Nat)
  | fallback (n : Nat)
  | partition (n : Nat)
  deriving DecidableEq, Repr

/-- The events of a call of `introspective_sort_` in the order in which they
occur: the partition of a pass of the loop, then the nested call, then the rest
of the loop. -/
def Trace.events : Trace → List Event
  | .insertion n => [.insertion n]
  | .fallback n => [.fallback n]
  | .partition n l r => .partition n :: (l.events ++ r.events)

/-- Number of runs of `insertion_sort_` in an event tree. -/
def Trace.insertions : Trace → Nat
  | .insertion _ => 1
  | .fallback _ => 0
  | .partition _ l r => l.insertions + r.insertions

/-- Number of runs of the fallback `std::partial_sort` in an event tree. -/
def Trace.fallbacks : Trace → Nat
  | .insertion _ => 0
  | .fallback _ => 1
  | .partition _ l r => l.fallbacks + r.fallbacks

/-- Number of runs of `partition_unguarded_` in an event tree. -/
def Trace.partitions : Trace → Nat
  | .insertion _ => 0
  | .fallback _ => 0
  | .partition _ l r => 1 + l.partitions + r.partitions

/-! ### `build_qsort.hpp`: the cost of `qsort_v1` -/

/-- The function `qsort_v1` with two counters: the number of applications of
the predicate `x < pivot` by its calls of `std::partition`, which the C++
standard fixes at exactly the length of the partitioned range
`[first, last - 1)`, and the nesting depth of the calls below this one, a call
that returns at the size guard having none. -/
def qsort_v1_counted (std_partition : (α → Bool) → List α → Nat × List α)
    (comp : α → α → Bool) : Nat → List α → Option (List α × Nat × Nat)
  | 0, _ => none
  | fuel + 1, xs =>
    if xs.length ≤ 1 then some (xs, 0, 0)
    else do
      let last1 ← ptr_sub xs.length 1
      let xs1 ← iter_swap xs (xs.length / 2) last1
      let pv ← xs1[last1]?
      let r := std_partition (fun x => comp x pv) (xs1.take last1)
      let lower := r.1
      let xs2 := r.2 ++ xs1.drop last1
      let xs3 ← iter_swap xs2 lower last1
      let p ← xs3[lower]?
      let lo ← qsort_v1_counted std_partition comp fuel (xs3.take lower)
      let up ← qsort_v1_counted std_partition comp fuel (xs3.drop (lower + 1))
      pure (lo.1 ++ p :: up.1, (xs1.take last1).length + lo.2.1 + up.2.1,
        1 + max lo.2.2 up.2.2)

/-! ### `ext/qsort.hpp`: the alternate engine -/

namespace ext

/-- The call `std::swap_ranges(first1, last1, first2)`: the elements of
`[first1, last1)` are swapped one by one, front to back, with those of the range
that starts at `first2`; the value is the rearranged range and the end of the
second range. -/
def swap_ranges : Nat → List α → Nat → Nat → Nat → Option (List α × Nat)
  | 0, _, _, _, _ => none
  | fuel + 1, a, first1, last1, first2 =>
    if first1 = last1 then some (a, first2)
    else do
      let a1 ← iter_swap a first1 first2
      swap_ranges fuel a1 (first1 + 1) last1 (first2 + 1)

/-- The function `swap_ranges_backward_(first1, last1, last2)` of
`ext/qsort.hpp`, that is `std::swap_ranges` on the reverse iterators: the
elements of `[first1, last1)` are swapped one by one, back to front, with those
of the range that ends at `last2`; the value is the rearranged range and the
start of the second range. -/
def swap_ranges_backward_ : Nat → List α → Nat → Nat → Nat → Option (List α × Nat)
  | 0, _, _, _, _ => none
  | fuel + 1, a, first1, last1, last2 =>
    if last1 = first1 then some (a, last2)
    else do
      let l1 ← ptr_sub last1 1
      let l2 ← ptr_sub last2 1
      let a1 ← iter_swap a l1 l2
      swap_ranges_backward_ fuel a1 first1 l1 l2

/-- The statement `if ((l_tail - l_head) <= (l_head - first)) ... else ...` of
the second phase: the shorter of the block of equal values at the front and the
block of lower values is swapped into the other.  The value is the range and
the new `l_tail`. -/
def rotate_front (a : List α) (l_head l_tail : Nat) : Option (List α × Nat) :=
  if l_tail - l_head ≤ l_head - 0 then swap_ranges (a.length + 1) a l_head l_tail 0
  else swap_ranges_backward_ (a.length + 1) a 0 l_head l_tail

/-- The statement `if ((r_tail - r_head) <= (last - r_tail)) ... else ...` of
the second phase, for the block of greater values and the block of equal values
at the back.  The value is the range and the new `r_head`. -/
def rotate_back (a : List α) (r_head r_tail : Nat) : Option (List α × Nat) :=
  if r_tail - r_head ≤ a.length - r_tail then
    swap_ranges_backward_ (a.length + 1) a r_head r_tail a.length
  else swap_ranges (a.length + 1) a r_tail a.length r_head

/-- Second phase of the three-way `partition_unguarded_` of `ext/qsort.hpp`:
the front block swap, `++r_head`, the back block swap. -/
def rotate (s : BMState α) : Option (Nat × Nat × List α) := do
  let r1 ← rotate_front s.a s.l_head s.l_tail
  let r_head := s.r_head + 1
  let r2 ← rotate_back r1.1 r_head s.r_tail
  pure (r1.2, r2.2, r2.1)

/-- Three-way unguarded partition `algo::partition_unguarded_` of
`ext/qsort.hpp`.  Its first phase is, statement by statement, the loop of
`partition3_bentley_mcilroy`; the second phase swaps blocks. -/
def partition_unguarded_ (comp : α → α → Bool) (a : List α) (pivot : α) :
    Option (Nat × Nat × List α) := do
  let s ← bm_phase1 comp a pivot
  rotate s

/-- Introspective sort `algo::introspective_sort_` of `ext/qsort.hpp`: the
median is not swapped, the nested call takes the range before the equal range
and the loop goes on with the range after it.  The functions `iter_median_` and
`insertion_sort_` of this file are those of `qsort.hpp`. -/
def introspective_sort_ (std_partial_sort : List α → List α) (comp : α → α → Bool) :
    Nat → List α → Option (List α)
  | 0, xs =>
    if 16 < xs.length then some (std_partial_sort xs)
    else algo.insertion_sort_ comp xs
  | depth + 1, xs =>
    if 16 < xs.length then do
      let split := xs.length / 2
      let m ← algo.iter_median_ comp xs 0 split xs.length
      let pivot ← xs[m]?
      let eq ← partition_unguarded_ comp xs pivot
      let left ← introspective_sort_ std_partial_sort comp depth (eq.2.2.take eq.1)
      let right ← introspective_sort_ std_partial_sort comp depth (eq.2.2.drop eq.2.1)
      pure (left ++ (eq.2.2.take eq.2.1).drop eq.1 ++ right)
    else algo.insertion_sort_ comp xs

/-- Entry point `algo::qsort(first, last, comp)` of `ext/qsort.hpp`. -/
def qsort (std_partial_sort : List α → List α) (comp : α → α → Bool) (xs : List α) :
    Option (List α) :=
  if xs.length ≠ 0 then
    introspective_sort_ std_partial_sort comp (algo.depth_budget xs.length) xs
  else some xs

end ext

/-! ## Lemmas -/

theorem StrictWeakOrder.asymm {comp : α → α → Bool} (h : StrictWeakOrder comp) {x y : α}
    (hxy : comp x y = true) : comp y x = false := by
  cases hyx : comp y x with
  | false => rfl
  | true =>
    have := h.trans x y x hxy hyx
    rw [h.irrefl] at this
    exact absurd this (by simp)

theorem StrictWeakOrder.neg_trans {comp : α → α → Bool} (h : StrictWeakOrder comp) {x p y : α}
    (hpx : comp p x = false) (hyp : comp y p = false) : comp y x = false := by
  cases hyx : comp y x with
  | false => rfl
  | true =>
    cases hpy : comp p y with
    | true =>
      have := h.trans p y x hpy hyx
      rw [hpx] at this; exact absurd this (by simp)
    | false =>
      cases hxp : comp x p with
      | true =>
        have := h.trans y x p hyx hxp
        rw [hyp] at this; exact absurd this (by simp)
      | false =>
        have := (h.incomp_trans y p x hyp hpy hpx hxp).1
        rw [hyx] at this; exact absurd this (by simp)

theorem ptr_sub_eq_some {p d r : Nat} (h : ptr_sub p d = some r) : d ≤ p ∧ r = p - d := by
  unfold ptr_sub at h
  split at h
  · exact ⟨by assumption, by simpa using h.symm⟩
  · simp at h

theorem ptr_sub_of_le {p d : Nat} (h : d ≤ p) : ptr_sub p d = some (p - d) := by
  simp [ptr_sub, h]

theorem getElem?_lt {a : List α} {i : Nat} {x : α} (h : a[i]? = some x) : i < a.length := by
  by_contra hc
  rw [List.getElem?_eq_none (by omega)] at h
  simp at h

theorem iter_swap_eq_some {a a' : List α} {i j : Nat} (h : iter_swap a i j = some a') :
    ∃ x y, a[i]? = some x ∧ a[j]? = some y ∧ a' = (a.set i y).set j x := by
  unfold iter_swap at h
  split at h
  · next x y hx hy => exact ⟨x, y, hx, hy, by simpa using h.symm⟩
  · simp at h

theorem iter_swap_of_lt (a : List α) {i j : Nat} (hi : i < a.length) (hj : j < a.length) :
    ∃ a', iter_swap a i j = some a' := by
  unfold iter_swap
  rw [List.getElem?_eq_getElem hi, List.getElem?_eq_getElem hj]
  exact ⟨_, rfl⟩

theorem iter_swap_length {a a' : List α} {i j : Nat} (h : iter_swap a i j = some a') :
    a'.length = a.length := by
  obtain ⟨x, y, _, _, rfl⟩ := iter_swap_eq_some h
  simp

theorem iter_swap_getElem? {a a' : List α} {i j : Nat} (h : iter_swap a i j = some a')
    (k : Nat) : a'[k]? = if k = j then a[i]? else if k = i then a[j]? else a[k]? := by
  obtain ⟨x, y, hx, hy, rfl⟩ := iter_swap_eq_some h
  have hi := getElem?_lt hx
  have hj := getElem?_lt hy
  rw [List.getElem?_set, List.getElem?_set]
  by_cases hkj : k = j
  · subst hkj; simp [hx, hj]
  · by_cases hki : k = i
    · subst hki
      simp [hkj, hy, hi, Ne.symm hkj]
    · simp [hkj, hki, Ne.symm hkj, Ne.symm hki]

theorem set_set_perm_aux (a : List α) (i j : Nat) (x y : α) (hij : i < j)
    (hx : a[i]? = some x) (hy : a[j]? = some y) : ((a.set i y).set j x).Perm a := by
  induction a generalizing i j with
  | nil => simp at hx
  | cons h t ih =>
    cases j with
    | zero => omega
    | succ j =>
      cases i with
      | zero =>
        simp at hx hy
        subst hx
        simp only [List.set_cons_zero, List.set_cons_succ]
        clear ih hij
        induction t generalizing j with
        | nil => simp at hy
        | cons u t ih2 =>
          cases j with
          | zero =>
            simp at hy; subst hy
            simp only [List.set_cons_zero]
            exact List.Perm.swap _ _ _
          | succ j =>
            simp at hy
            simp only [List.set_cons_succ]
            have := ih2 j hy
            exact ((List.Perm.swap u y _).trans ((this.cons u).trans (List.Perm.swap _ _ _)))
      | succ i =>
        simp at hx hy
        simp only [List.set_cons_succ]
        exact (ih i j (by omega) hx hy).cons h

theorem iter_swap_perm {a a' : List α} {i j : Nat} (h : iter_swap a i j = some a') :
    a'.Perm a := by
  obtain ⟨x, y, hx, hy, rfl⟩ := iter_swap_eq_some h
  rcases Nat.lt_trichotomy i j with hij | hij | hij
  · exact set_set_perm_aux a i j x y hij hx hy
  · subst hij
    have : x = y := by rw [hx] at hy; exact Option.some.inj hy
    subst this
    have hlt : i < a.length := getElem?_lt hx
    have : a.set i x = a := by
      apply List.ext_getElem?; intro k
      rw [List.getElem?_set]; split
      · next h => subst h; simp [hlt, hx]
      · rfl
    rw [List.set_set, this]
  · rw [List.set_comm _ _ _ (by omega)]
    exact set_set_perm_aux a j i y x hij hy hx

/-- Upward scan: with a stopper at or after the start, the scan ends on the
first position whose value fails `p`, having read only positions up to it. -/
theorem advance_while_spec (p : α → Bool) (a : List α) (first : Nat)
    (hstop : ∃ i x, first ≤ i ∧ a[i]? = some x ∧ p x = false) :
    ∃ r x, advance_while p (a.drop first) first = some r ∧ first ≤ r ∧
      a[r]? = some x ∧ p x = false ∧
      ∀ k y, first ≤ k → k < r → a[k]? = some y → p y = true := by
  obtain ⟨i, x, hi, hx, hpx⟩ := hstop
  obtain ⟨m, rfl⟩ : ∃ m, i = first + m := ⟨i - first, by omega⟩
  clear hi
  induction m generalizing first with
  | zero =>
    simp only [Nat.add_zero] at hx
    have hlt := getElem?_lt hx
    rw [List.drop_eq_getElem_cons hlt]
    have hxe : a[first] = x := by
      rw [List.getElem?_eq_getElem hlt] at hx; exact Option.some.inj hx
    refine ⟨first, x, ?_, le_refl _, hx, hpx, ?_⟩
    · simp [advance_while, hxe, hpx]
    · intro k y h1 h2; omega
  | succ m ih =>
    have hlt : first < a.length := by have := getElem?_lt hx; omega
    rw [List.drop_eq_getElem_cons hlt]
    cases hp : p a[first] with
    | false =>
      refine ⟨first, a[first], ?_, le_refl _, List.getElem?_eq_getElem hlt, hp, ?_⟩
      · simp [advance_while, hp]
      · intro k y h1 h2; omega
    | true =>
      have hx' : a[first + 1 + m]? = some x := by
        rw [show first + 1 + m = first + (m + 1) by omega]; exact hx
      obtain ⟨r, z, hr, hle, hz, hpz, hall⟩ := ih (first + 1) hx'
      refine ⟨r, z, ?_, by omega, hz, hpz, ?_⟩
      · simp [advance_while, hp, hr]
      · intro k y h1 h2 hk
        by_cases hkf : k = first
        · subst hkf
          rw [List.getElem?_eq_getElem hlt] at hk
          rw [← Option.some.inj hk]; exact hp
        · exact hall k y (by omega) h2 hk

/-- Downward scan: with a stopper at or before the start, the scan ends on the
last position whose value fails `p`, having read only positions down to it. -/
theorem retreat_while_spec (p : α → Bool) (a : List α) (start : Nat)
    (hstart : start < a.length)
    (hstop : ∃ j x, j ≤ start ∧ a[j]? = some x ∧ p x = false) :
    ∃ r x, retreat_while p a start = some r ∧ r ≤ start ∧
      a[r]? = some x ∧ p x = false ∧
      ∀ k y, r < k → k ≤ start → a[k]? = some y → p y = true := by
  obtain ⟨j, x, hj, hx, hpx⟩ := hstop
  induction start with
  | zero =>
    have : j = 0 := by omega
    subst this
    refine ⟨0, x, ?_, le_refl _, hx, hpx, ?_⟩
    · simp [retreat_while, hx, hpx]
    · intro k y h1 h2; omega
  | succ s ih =>
    cases hp : p a[s + 1] with
    | false =>
      refine ⟨s + 1, a[s + 1], ?_, le_refl _, List.getElem?_eq_getElem hstart, hp, ?_⟩
      · simp [retreat_while, List.getElem?_eq_getElem hstart, hp]
      · intro k y h1 h2; omega
    | true =>
      have hjs : j ≤ s := by
        by_contra hc
        have : j = s + 1 := by omega
        subst this
        rw [List.getElem?_eq_getElem hstart] at hx
        rw [Option.some.inj hx] at hp
        rw [hp] at hpx; exact absurd hpx (by simp)
      obtain ⟨r, z, hr, hle, hz, hpz, hall⟩ := ih (by omega) hjs
      refine ⟨r, z, ?_, by omega, hz, hpz, ?_⟩
      · simp [retreat_while, List.getElem?_eq_getElem hstart, hp, hr]
      · intro k y h1 h2 hk
        by_cases hks : k = s + 1
        · subst hks
          rw [List.getElem?_eq_getElem hstart] at hk
          rw [← Option.some.inj hk]; exact hp
        · exact hall k y h1 (by omega) hk

/-- Invariant-based specification of the loop of `partition_squeeze`. -/
theorem partition_squeeze_loop_spec (comp : α → α → Bool) (pivot : α)
    (hasym : ∀ x y, comp x y = true → comp y x = false) :
    ∀ (fuel : Nat) (a : List α) (first last : Nat),
      first ≤ last → last ≤ a.length → last < fuel + first →
      (∃ i x, first ≤ i ∧ a[i]? = some x ∧ comp x pivot = false) →
      (∃ j x, j < last ∧ a[j]? = some x ∧ comp pivot x = false) →
      (∀ k x, k < first → a[k]? = some x → comp pivot x = false) →
      (∀ k x, last ≤ k → a[k]? = some x → comp x pivot = false) →
      ∃ b a', partition_squeeze_loop comp pivot fuel a first last = some (b, a') ∧
        a'.Perm a ∧ first ≤ b ∧ b ≤ a.length ∧
        (∀ k x, k < b → a'[k]? = some x → comp pivot x = false) ∧
        (∀ k x, b ≤ k → a'[k]? = some x → comp x pivot = false) ∧
        ((∃ k x, first ≤ k ∧ k < last ∧ a[k]? = some x ∧ comp x pivot = true) →
          first < b) := by
  intro fuel
  induction fuel with
  | zero => intro a first last h1 _ h3; omega
  | succ fuel ih =>
    intro a first last hfl hla hfuel hup hdown hL hR
    obtain ⟨i0, x0, hadv, hfi, hx0, hpx0, hscanU⟩ :=
      advance_while_spec (fun x => comp x pivot) a first hup
    obtain ⟨j, xj, hjl, hxj, hpxj⟩ := hdown
    obtain ⟨j0, y0, hret, hjle, hy0, hpy0, hscanD⟩ :=
      retreat_while_spec (fun x => comp pivot x) a (last - 1) (by omega)
        ⟨j, xj, by omega, hxj, hpxj⟩
    have hi0 := getElem?_lt hx0
    have hj0 := getElem?_lt hy0
    have hsub : ptr_sub last 1 = some (last - 1) := ptr_sub_of_le (by omega)
    by_cases hlt : i0 < j0
    · obtain ⟨a1, hsw⟩ := iter_swap_of_lt a hi0 hj0
      have hlen := iter_swap_length hsw
      have hget := iter_swap_getElem? hsw
      have hrec := ih a1 (i0 + 1) j0 (by omega) (by omega) (by omega)
        ⟨j0, x0, by omega, by rw [hget]; simp [hx0], hpx0⟩
        ⟨i0, y0, by omega, by
          rw [hget, if_neg (by omega)]; simp [hy0], hpy0⟩
        (by
          intro k x hk hkx
          rw [hget, if_neg (by omega)] at hkx
          by_cases hki : k = i0
          · rw [if_pos hki, hy0] at hkx
            rw [← Option.some.inj hkx]; exact hpy0
          · rw [if_neg hki] at hkx
            by_cases hkf : k < first
            · exact hL k x hkf hkx
            · exact hasym _ _ (hscanU k x (by omega) (by omega) hkx))
        (by
          intro k x hk hkx
          rw [hget] at hkx
          by_cases hkj : k = j0
          · rw [if_pos hkj, hx0] at hkx
            rw [← Option.some.inj hkx]; exact hpx0
          · rw [if_neg hkj, if_neg (by omega)] at hkx
            by_cases hkl : last ≤ k
            · exact hR k x hkl hkx
            · exact hasym _ _ (hscanD k x (by omega) (by omega) hkx))
      obtain ⟨b, a', hres, hperm, hfb, hbl, hpL, hpR, _⟩ := hrec
      refine ⟨b, a', ?_, hperm.trans (iter_swap_perm hsw), by omega, by omega, hpL, hpR,
        fun _ => by omega⟩
      simp [partition_squeeze_loop, hadv, hsub, hret, hlt, hsw, hres]
    · refine ⟨i0, a, ?_, List.Perm.refl _, hfi, by omega, ?_, ?_, ?_⟩
      · simp [partition_squeeze_loop, hadv, hsub, hret, hlt]
      · intro k x hk hkx
        by_cases hkf : k < first
        · exact hL k x hkf hkx
        · exact hasym _ _ (hscanU k x (by omega) hk hkx)
      · intro k x hk hkx
        by_cases hki : k = i0
        · subst hki; rw [hx0] at hkx
          rw [← Option.some.inj hkx]; exact hpx0
        · by_cases hkl : last ≤ k
          · exact hR k x hkl hkx
          · exact hasym _ _ (hscanD k x (by omega) (by omega) hkx)
      · rintro ⟨k, x, hk1, hk2, hkx, hcx⟩
        by_contra hc
        have hif : i0 = first := by omega
        have hkne : k ≠ i0 := by
          intro hki; subst hki
          rw [hx0] at hkx
          rw [Option.some.inj hkx] at hpx0
          rw [hpx0] at hcx; exact absurd hcx (by simp)
        have := hscanD k x (by omega) (by omega) hkx
        have h2 := hasym _ _ hcx
        simp only at this
        rw [h2] at this; exact absurd this (by simp)

/-- Specification of `partition_squeeze` under its unguarded precondition. -/
theorem partition_squeeze_spec (comp : α → α → Bool)
    (hasym : ∀ x y, comp x y = true → comp y x = false) (a : List α) (pivot : α)
    (hge : ∃ x ∈ a, comp x pivot = false) (hle : ∃ x ∈ a, comp pivot x = false) :
    ∃ b a', partition_squeeze comp a pivot = some (b, a') ∧ a'.Perm a ∧ b ≤ a.length ∧
      (∀ x ∈ a'.take b, comp pivot x = false) ∧
      (∀ x ∈ a'.drop b, comp x pivot = false) ∧
      ((∃ x ∈ a, comp x pivot = true) → 0 < b) := by
  obtain ⟨x, hxa, hx⟩ := hge
  obtain ⟨y, hya, hy⟩ := hle
  obtain ⟨i, hi⟩ := List.mem_iff_getElem?.1 hxa
  obtain ⟨j, hj⟩ := List.mem_iff_getElem?.1 hya
  obtain ⟨b, a', hres, hperm, _, hbl, hL, hR, hpos⟩ :=
    partition_squeeze_loop_spec comp pivot hasym (a.length + 1) a 0 a.length
      (by omega) (le_refl _) (by omega) ⟨i, x, by omega, hi, hx⟩
      ⟨j, y, getElem?_lt hj, hj, hy⟩ (by intro k x hk; omega)
      (by intro k x hk hkx; have := getElem?_lt hkx; omega)
  refine ⟨b, a', hres, hperm, hbl, ?_, ?_, ?_⟩
  · intro z hz
    obtain ⟨k, hk⟩ := List.mem_iff_getElem?.1 hz
    rw [List.getElem?_take] at hk
    split at hk
    · next hkb => exact hL k z hkb hk
    · simp at hk
  · intro z hz
    obtain ⟨k, hk⟩ := List.mem_iff_getElem?.1 hz
    rw [List.getElem?_drop] at hk
    exact hR (b + k) z (by omega) hk
  · rintro ⟨z, hza, hz⟩
    obtain ⟨k, hk⟩ := List.mem_iff_getElem?.1 hza
    exact hpos ⟨k, z, by omega, getElem?_lt hk, hk, hz⟩

/-- The call `std::find_if_not` returns the first position at or after the
start whose value fails `p`, or `last` when there is none. -/
theorem find_if_not_spec (p : α → Bool) (a : List α) (i : Nat) (hi : i ≤ a.length) :
    i ≤ find_if_not p (a.drop i) i ∧ find_if_not p (a.drop i) i ≤ a.length ∧
      (∀ k y, i ≤ k → k < find_if_not p (a.drop i) i → a[k]? = some y → p y = true) ∧
      (∀ y, a[find_if_not p (a.drop i) i]? = some y → p y = false) := by
  obtain ⟨m, hm⟩ : ∃ m, m = a.length - i := ⟨_, rfl⟩
  induction m generalizing i with
  | zero =>
    have : i = a.length := by omega
    subst this
    simp only [List.drop_length, find_if_not]
    refine ⟨le_refl _, le_refl _, by intro k y h1 h2; omega, ?_⟩
    intro y hy; simp at hy
  | succ m ih =>
    have hlt : i < a.length := by omega
    rw [List.drop_eq_getElem_cons hlt]
    cases hp : p a[i] with
    | false =>
      simp only [find_if_not, hp, Bool.false_eq_true, if_false]
      refine ⟨le_refl _, by omega, by intro k y h1 h2; omega, ?_⟩
      intro y hy
      rw [List.getElem?_eq_getElem hlt] at hy
      rw [← Option.some.inj hy]; exact hp
    | true =>
      simp only [find_if_not, hp, if_true]
      obtain ⟨h1, h2, h3, h4⟩ := ih (i + 1) (by omega) (by omega)
      refine ⟨by omega, h2, ?_, h4⟩
      intro k y hk1 hk2 hky
      by_cases hki : k = i
      · subst hki
        rw [List.getElem?_eq_getElem hlt] at hky
        rw [← Option.some.inj hky]; exact hp
      · exact h3 k y (by omega) hk2 hky

/-- Invariant-based specification of the loop of `partition_standard`. -/
theorem partition_standard_loop_spec (comp : α → α → Bool) (pivot : α) :
    ∀ (fuel : Nat) (a : List α) (first next : Nat),
      first ≤ next → next ≤ a.length → a.length < fuel + next →
      (∀ k x, k < first → a[k]? = some x → comp x pivot = true) →
      (∀ k x, first ≤ k → k < next → a[k]? = some x → comp x pivot = false) →
      ∃ b a', partition_standard_loop comp pivot fuel a first next = some (b, a') ∧
        a'.Perm a ∧ b ≤ a.length ∧
        (∀ k x, k < b → a'[k]? = some x → comp x pivot = true) ∧
        (∀ k x, b ≤ k → a'[k]? = some x → comp x pivot = false) := by
  intro fuel
  induction fuel with
  | zero => intro a first next _ h2 h3; omega
  | succ fuel ih =>
    intro a first next hfn hnl hfuel hL hM
    by_cases hend : next = a.length
    · refine ⟨first, a, by simp [partition_standard_loop, hend], List.Perm.refl _,
        by omega, hL, ?_⟩
      intro k x hk hkx
      exact hM k x hk (by have := getElem?_lt hkx; omega) hkx
    · have hlt : next < a.length := by omega
      have hnx : a[next]? = some a[next] := List.getElem?_eq_getElem hlt
      cases hc : comp a[next] pivot with
      | true =>
        obtain ⟨a1, hsw⟩ := iter_swap_of_lt a (show first < a.length by omega) hlt
        have hlen := iter_swap_length hsw
        have hget := iter_swap_getElem? hsw
        obtain ⟨b, a', hres, hperm, hbl, hpL, hpR⟩ :=
          ih a1 (first + 1) (next + 1) (by omega) (by omega) (by omega)
            (by
              intro k x hk hkx
              rw [hget] at hkx
              by_cases hkn : k = next
              · have hkf : first = next := by omega
                rw [if_pos hkn, hkf, hnx] at hkx
                rw [← Option.some.inj hkx]; exact hc
              · rw [if_neg hkn] at hkx
                by_cases hkf : k = first
                · rw [if_pos hkf, hnx] at hkx
                  rw [← Option.some.inj hkx]; exact hc
                · rw [if_neg hkf] at hkx
                  exact hL k x (by omega) hkx)
            (by
              intro k x hk1 hk2 hkx
              rw [hget] at hkx
              by_cases hkn : k = next
              · rw [if_pos hkn] at hkx
                exact hM first x (le_refl _) (by omega) hkx
              · rw [if_neg hkn, if_neg (by omega)] at hkx
                exact hM k x (by omega) (by omega) hkx)
        refine ⟨b, a', ?_, hperm.trans (iter_swap_perm hsw), by omega, hpL, hpR⟩
        simp [partition_standard_loop, hend, hnx, hc, hsw, hres]
      | false =>
        obtain ⟨b, a', hres, hperm, hbl, hpL, hpR⟩ :=
          ih a first (next + 1) (by omega) (by omega) (by omega) hL
            (by
              intro k x hk1 hk2 hkx
              by_cases hkn : k = next
              · subst hkn; rw [hnx] at hkx
                rw [← Option.some.inj hkx]; exact hc
              · exact hM k x hk1 (by omega) hkx)
        refine ⟨b, a', ?_, hperm, hbl, hpL, hpR⟩
        simp [partition_standard_loop, hend, hnx, hc, hres]

theorem forall_mem_take_of_index {a : List α} {b : Nat} {P : α → Prop}
    (h : ∀ k x, k < b → a[k]? = some x → P x) : ∀ x ∈ a.take b, P x := by
  intro z hz
  obtain ⟨k, hk⟩ := List.mem_iff_getElem?.1 hz
  rw [List.getElem?_take] at hk
  split at hk
  · next hkb => exact h k z hkb hk
  · simp at hk

theorem forall_mem_drop_of_index {a : List α} {b : Nat} {P : α → Prop}
    (h : ∀ k x, b ≤ k → a[k]? = some x → P x) : ∀ x ∈ a.drop b, P x := by
  intro z hz
  obtain ⟨k, hk⟩ := List.mem_iff_getElem?.1 hz
  rw [List.getElem?_drop] at hk
  exact h (b + k) z (by omega) hk

/-- A boundary that separates the values satisfying `p` from the others in a
permutation of `a` is the number of values of `a` satisfying `p`. -/
theorem boundary_eq_countP (p : α → Bool) {a a' : List α} {b : Nat} (hperm : a'.Perm a)
    (hb : b ≤ a.length) (hL : ∀ x ∈ a'.take b, p x = true)
    (hR : ∀ x ∈ a'.drop b, p x = false) : b = a.countP p := by
  have h1 : a.countP p = a'.countP p := (hperm.countP_eq p).symm
  have h2 : a'.countP p = (a'.take b).countP p + (a'.drop b).countP p := by
    rw [← List.countP_append, List.take_append_drop]
  have h3 : (a'.take b).countP p = (a'.take b).length :=
    List.countP_eq_length.2 hL
  have h4 : (a'.drop b).countP p = 0 := by
    rw [List.countP_eq_zero]
    intro x hx; simp [hR x hx]
  have h5 : (a'.take b).length = b := by
    rw [List.length_take, hperm.length_eq]; omega
  omega

/-- Specification of `partition_standard`. -/
theorem partition_standard_spec (comp : α → α → Bool) (a : List α) (pivot : α) :
    ∃ b a', partition_standard comp a pivot = some (b, a') ∧ a'.Perm a ∧
      b = a.countP (fun x => comp x pivot) ∧
      (∀ x ∈ a'.take b, comp x pivot = true) ∧
      (∀ x ∈ a'.drop b, comp x pivot = false) := by
  have hf := find_if_not_spec (fun x => comp x pivot) a 0 (by omega)
  simp only [List.drop_zero] at hf
  obtain ⟨_, hf2, hf3, _⟩ := hf
  obtain ⟨b, a', hres, hperm, hbl, hpL, hpR⟩ :=
    partition_standard_loop_spec comp pivot (a.length + 1) a
      (find_if_not (fun x => comp x pivot) a 0) (find_if_not (fun x => comp x pivot) a 0)
      (le_refl _) hf2 (by omega)
      (by intro k x hk hkx; exact hf3 k x (by omega) hk hkx)
      (by intro k x h1 h2; omega)
  have hL := forall_mem_take_of_index (P := fun x => comp x pivot = true) hpL
  have hR := forall_mem_drop_of_index (P := fun x => comp x pivot = false) hpR
  exact ⟨b, a', hres, hperm, boundary_eq_countP (fun x => comp x pivot) hperm hbl hL hR, hL, hR⟩

/-- The boundary returned by any `std::partition` is the number of values satisfying `p`. -/
theorem std_partition_boundary {part : (α → Bool) → List α → Nat × List α}
    (h : StdPartitionContract part) (p : α → Bool) (xs : List α) :
    (part p xs).1 = xs.countP p := by
  obtain ⟨h1, h2, h3, h4⟩ := h p xs
  exact boundary_eq_countP p h1 h2 h3 h4

/-- Invariant-based specification of the loop of `partition3_dijkstra`. -/
theorem partition3_dijkstra_loop_spec (comp : α → α → Bool) (pivot : α) :
    ∀ (fuel : Nat) (a : List α) (first next last : Nat),
      first ≤ next → next ≤ last → last ≤ a.length → last < fuel + next →
      (∀ k x, k < first → a[k]? = some x → comp x pivot = true) →
      (∀ k x, first ≤ k → k < next → a[k]? = some x → Equiv comp x pivot) →
      (∀ k x, last ≤ k → a[k]? = some x → comp pivot x = true) →
      ∃ lo hi a', partition3_dijkstra_loop comp pivot fuel a first next last =
          some (lo, hi, a') ∧
        a'.Perm a ∧ lo ≤ hi ∧ hi ≤ a.length ∧
        (∀ k x, k < lo → a'[k]? = some x → comp x pivot = true) ∧
        (∀ k x, lo ≤ k → k < hi → a'[k]? = some x → Equiv comp x pivot) ∧
        (∀ k x, hi ≤ k → a'[k]? = some x → comp pivot x = true) := by
  intro fuel
  induction fuel with
  | zero => intro a first next last _ _ _ h; omega
  | succ fuel ih =>
    intro a first next last hfn hnl hla hfuel hL hM hR
    by_cases hend : next = last
    · subst hend
      exact ⟨first, next, a, by simp [partition3_dijkstra_loop], List.Perm.refl _, hfn, hla,
        hL, hM, hR⟩
    · have hlt : next < a.length := by omega
      have hnx : a[next]? = some a[next] := List.getElem?_eq_getElem hlt
      cases hg : comp pivot a[next] with
      | true =>
        have hsub : ptr_sub last 1 = some (last - 1) := ptr_sub_of_le (by omega)
        obtain ⟨a1, hsw⟩ := iter_swap_of_lt a hlt (show last - 1 < a.length by omega)
        have hlen := iter_swap_length hsw
        have hget := iter_swap_getElem? hsw
        obtain ⟨lo, hi, a', hres, hperm, h1, h2, hpL, hpM, hpR⟩ :=
          ih a1 first next (last - 1) hfn (by omega) (by omega) (by omega)
            (by
              intro k x hk hkx
              rw [hget, if_neg (by omega), if_neg (by omega)] at hkx
              exact hL k x hk hkx)
            (by
              intro k x hk1 hk2 hkx
              rw [hget, if_neg (by omega), if_neg (by omega)] at hkx
              exact hM k x hk1 hk2 hkx)
            (by
              intro k x hk hkx
              rw [hget] at hkx
              by_cases hkl : k = last - 1
              · rw [if_pos hkl, hnx] at hkx
                rw [← Option.some.inj hkx]; exact hg
              · rw [if_neg hkl, if_neg (by omega)] at hkx
                exact hR k x (by omega) hkx)
        refine ⟨lo, hi, a', ?_, hperm.trans (iter_swap_perm hsw), h1, by omega, hpL, hpM, hpR⟩
        simp [partition3_dijkstra_loop, hend, hnx, hg, hsub, hsw, hres]
      | false =>
        cases hc : comp a[next] pivot with
        | true =>
          obtain ⟨a1, hsw⟩ := iter_swap_of_lt a hlt (show first < a.length by omega)
          have hlen := iter_swap_length hsw
          have hget := iter_swap_getElem? hsw
          obtain ⟨lo, hi, a', hres, hperm, h1, h2, hpL, hpM, hpR⟩ :=
            ih a1 (first + 1) (next + 1) last (by omega) (by omega) (by omega) (by omega)
              (by
                intro k x hk hkx
                rw [hget] at hkx
                by_cases hkf : k = first
                · rw [if_pos hkf, hnx] at hkx
                  rw [← Option.some.inj hkx]; exact hc
                · rw [if_neg hkf, if_neg (by omega)] at hkx
                  exact hL k x (by omega) hkx)
              (by
                intro k x hk1 hk2 hkx
                rw [hget, if_neg (by omega)] at hkx
                by_cases hkn : k = next
                · rw [if_pos hkn] at hkx
                  exact hM first x (le_refl _) (by omega) hkx
                · rw [if_neg hkn] at hkx
                  exact hM k x (by omega) (by omega) hkx)
              (by
                intro k x hk hkx
                rw [hget, if_neg (by omega), if_neg (by omega)] at hkx
                exact hR k x hk hkx)
          refine ⟨lo, hi, a', ?_, hperm.trans (iter_swap_perm hsw), h1, by omega, hpL, hpM,
            hpR⟩
          simp [partition3_dijkstra_loop, hend, hnx, hg, hc, hsw, hres]
        | false =>
          obtain ⟨lo, hi, a', hres, hperm, h1, h2, hpL, hpM, hpR⟩ :=
            ih a first (next + 1) last (by omega) (by omega) hla (by omega) hL
              (by
                intro k x hk1 hk2 hkx
                by_cases hkn : k = next
                · subst hkn; rw [hnx] at hkx
                  rw [← Option.some.inj hkx]; exact ⟨hc, hg⟩
                · exact hM k x hk1 (by omega) hkx)
              hR
          refine ⟨lo, hi, a', ?_, hperm, h1, h2, hpL, hpM, hpR⟩
          simp [partition3_dijkstra_loop, hend, hnx, hg, hc, hres]

theorem forall_mem_take_drop_of_index {a : List α} {lo hi : Nat} {P : α → Prop}
    (h : ∀ k x, lo ≤ k → k < hi → a[k]? = some x → P x) :
    ∀ x ∈ (a.take hi).drop lo, P x := by
  intro z hz
  obtain ⟨k, hk⟩ := List.mem_iff_getElem?.1 hz
  rw [List.getElem?_drop, List.getElem?_take] at hk
  split at hk
  · next hkb => exact h (lo + k) z (by omega) hkb hk
  · simp at hk

/-- Specification of `partition3_dijkstra`, for every range and every predicate. -/
theorem partition3_dijkstra_spec (comp : α → α → Bool) (a : List α) (pivot : α) :
    ∃ lo hi a', partition3_dijkstra comp a pivot = some (lo, hi, a') ∧ a'.Perm a ∧
      lo ≤ hi ∧ hi ≤ a.length ∧
      (∀ x ∈ a'.take lo, comp x pivot = true) ∧
      (∀ x ∈ (a'.take hi).drop lo, Equiv comp x pivot) ∧
      (∀ x ∈ a'.drop hi, comp pivot x = true) := by
  obtain ⟨lo, hi, a', hres, hperm, h1, h2, hpL, hpM, hpR⟩ :=
    partition3_dijkstra_loop_spec comp pivot (a.length + 1) a 0 0 a.length (le_refl _)
      (by omega) (le_refl _) (by omega) (by intro k x hk; omega)
      (by intro k x h1 h2; omega)
      (by intro k x hk hkx; have := getElem?_lt hkx; omega)
  exact ⟨lo, hi, a', hres, hperm, h1, h2,
    forall_mem_take_of_index (P := fun x => comp x pivot = true) hpL,
    forall_mem_take_drop_of_index (P := fun x => Equiv comp x pivot) hpM,
    forall_mem_drop_of_index (P := fun x => comp pivot x = true) hpR⟩

theorem countP_not_eq (p : α → Bool) (a : List α) :
    a.countP (fun x => !p x) = a.length - a.countP p := by
  induction a with
  | nil => simp
  | cons h t ih =>
    have := List.countP_le_length p (l := t)
    cases hp : p h
    · simp [List.countP_cons, hp, ih]; omega
    · simp [List.countP_cons, hp, ih]

/-- Specification of `partition3_forward` for any `std::partition`. -/
theorem partition3_forward_spec {part : (α → Bool) → List α → Nat × List α}
    (hpart : StdPartitionContract part) (comp : α → α → Bool)
    (hasym : ∀ x y, comp x y = true → comp y x = false) (a : List α) (pivot : α) :
    (partition3_forward part comp a pivot).2.2.Perm a ∧
    (partition3_forward part comp a pivot).1 = a.countP (fun x => comp x pivot) ∧
    (partition3_forward part comp a pivot).2.1 =
      a.length - a.countP (fun x => comp pivot x) ∧
    (partition3_forward part comp a pivot).1 ≤ (partition3_forward part comp a pivot).2.1 ∧
    (partition3_forward part comp a pivot).2.1 ≤ a.length ∧
    (∀ x ∈ (partition3_forward part comp a pivot).2.2.take
        (partition3_forward part comp a pivot).1, comp x pivot = true) ∧
    (∀ x ∈ ((partition3_forward part comp a pivot).2.2.take
        (partition3_forward part comp a pivot).2.1).drop
        (partition3_forward part comp a pivot).1, Equiv comp x pivot) ∧
    (∀ x ∈ (partition3_forward part comp a pivot).2.2.drop
        (partition3_forward part comp a pivot).2.1, comp pivot x = true) := by
  obtain ⟨hp1, hb1, hL1, hR1⟩ := hpart (fun x => comp x pivot) a
  generalize hr1 : part (fun x => comp x pivot) a = r1 at hp1 hb1 hL1 hR1
  obtain ⟨hp2, hb2, hL2, hR2⟩ := hpart (fun x => !comp pivot x) (r1.2.drop r1.1)
  generalize hr2 : part (fun x => !comp pivot x) (r1.2.drop r1.1) = r2 at hp2 hb2 hL2 hR2
  have hdef : partition3_forward part comp a pivot =
      (r1.1, r1.1 + r2.1, r1.2.take r1.1 ++ r2.2) := by
    simp [partition3_forward, hr1, hr2]
  rw [hdef]
  simp only
  have hlen1 : r1.2.length = a.length := hp1.length_eq
  have htl : (r1.2.take r1.1).length = r1.1 := by rw [List.length_take]; omega
  have hdl : (r1.2.drop r1.1).length = a.length - r1.1 := by rw [List.length_drop]; omega
  have hlen2 : r2.2.length = a.length - r1.1 := by rw [hp2.length_eq, hdl]
  have hperm : (r1.2.take r1.1 ++ r2.2).Perm a :=
    ((List.Perm.append_left _ hp2).trans (by rw [List.take_append_drop])).trans hp1
  have htake : (r1.2.take r1.1 ++ r2.2).take r1.1 = r1.2.take r1.1 := by
    rw [List.take_append_eq_append_take, htl]; simp
  have htake2 : (r1.2.take r1.1 ++ r2.2).take (r1.1 + r2.1) =
      r1.2.take r1.1 ++ r2.2.take r2.1 := by
    rw [List.take_append_eq_append_take, htl, List.take_of_length_le (by omega)]
    simp
  have hmid : ((r1.2.take r1.1 ++ r2.2).take (r1.1 + r2.1)).drop r1.1 = r2.2.take r2.1 := by
    rw [htake2, List.drop_append_eq_append_drop, htl, List.drop_of_length_le (by omega)]
    simp
  have hdrop : (r1.2.take r1.1 ++ r2.2).drop (r1.1 + r2.1) = r2.2.drop r2.1 := by
    rw [List.drop_append_eq_append_drop, htl, List.drop_of_length_le (by omega)]
    simp
  have hnl : ∀ x ∈ r2.2, comp x pivot = false := fun x hx => hR1 x (hp2.subset hx)
  have hM : ∀ x ∈ r2.2.take r2.1, Equiv comp x pivot := fun x hx =>
    ⟨hnl x (List.mem_of_mem_take hx), by simpa using hL2 x hx⟩
  have hG : ∀ x ∈ r2.2.drop r2.1, comp pivot x = true := fun x hx => by
    simpa using hR2 x hx
  have hhi : r1.1 + r2.1 ≤ a.length := by omega
  have hcnt : r1.1 + r2.1 = a.countP (fun x => !comp pivot x) := by
    apply boundary_eq_countP (fun x => !comp pivot x) hperm hhi
    · rw [htake2]
      intro x hx
      rcases List.mem_append.1 hx with h | h
      · simp [hasym _ _ (hL1 x h)]
      · simp [(hM x h).2]
    · rw [hdrop]
      intro x hx; simp [hG x hx]
  refine ⟨hperm, ?_, ?_, by omega, hhi, ?_, ?_, ?_⟩
  · exact boundary_eq_countP (fun x => comp x pivot) hp1 hb1 hL1 hR1
  · rw [hcnt, countP_not_eq]
  · rw [htake]; exact hL1
  · rw [hmid]; exact hM
  · rw [hdrop]; exact hG

/-- The block that compacts an equal value to the front keeps the layout
`[ equal | less ]` on the positions up to `l_tail`. -/
theorem bm_compact_front_spec (comp : α → α → Bool) (pivot : α) (a : List α) (i lh : Nat)
    (hlh : lh ≤ i) (hi : i < a.length)
    (hEL : ∀ k x, k < lh → a[k]? = some x → Equiv comp x pivot)
    (hL : ∀ k x, lh ≤ k → k < i → a[k]? = some x → comp x pivot = true)
    (hy : ∀ x, a[i]? = some x → comp pivot x = false) :
    ∃ a2 lh2, bm_compact_front comp pivot a i lh = some (a2, lh2) ∧ a2.Perm a ∧
      a2.length = a.length ∧ lh ≤ lh2 ∧ lh2 ≤ i + 1 ∧
      (∀ k, i < k → a2[k]? = a[k]?) ∧
      (∀ k x, k < lh2 → a2[k]? = some x → Equiv comp x pivot) ∧
      (∀ k x, lh2 ≤ k → k < i + 1 → a2[k]? = some x → comp x pivot = true) := by
  have hix : a[i]? = some a[i] := List.getElem?_eq_getElem hi
  cases hc : comp a[i] pivot with
  | true =>
    refine ⟨a, lh, by simp [bm_compact_front, hix, hc], List.Perm.refl _, rfl, le_refl _,
      by omega, fun _ _ => rfl, hEL, ?_⟩
    intro k x hk1 hk2 hkx
    by_cases hki : k = i
    · subst hki; rw [hix] at hkx
      rw [← Option.some.inj hkx]; exact hc
    · exact hL k x hk1 (by omega) hkx
  | false =>
    obtain ⟨a2, hsw⟩ := iter_swap_of_lt a hi (show lh < a.length by omega)
    have hget := iter_swap_getElem? hsw
    refine ⟨a2, lh + 1, by simp [bm_compact_front, hix, hc, hsw], iter_swap_perm hsw,
      iter_swap_length hsw, by omega, by omega, ?_, ?_, ?_⟩
    · intro k hk
      rw [hget, if_neg (by omega), if_neg (by omega)]
    · intro k x hk hkx
      rw [hget] at hkx
      by_cases hkl : k = lh
      · rw [if_pos hkl, hix] at hkx
        rw [← Option.some.inj hkx]; exact ⟨hc, hy _ hix⟩
      · rw [if_neg hkl, if_neg (by omega)] at hkx
        exact hEL k x (by omega) hkx
    · intro k x hk1 hk2 hkx
      rw [hget, if_neg (by omega)] at hkx
      by_cases hki : k = i
      · rw [if_pos hki] at hkx
        exact hL lh x (le_refl _) (by omega) hkx
      · rw [if_neg hki] at hkx
        exact hL k x (by omega) (by omega) hkx

/-- The block that compacts an equal value to the back keeps the layout
`[ greater | equal ]` on the positions from `r_head`. -/
theorem bm_compact_back_spec (comp : α → α → Bool) (pivot : α) (a : List α) (j rt : Nat)
    (hj : j < rt) (hrt : rt ≤ a.length)
    (hG : ∀ k x, j < k → k < rt → a[k]? = some x → comp pivot x = true)
    (hER : ∀ k x, rt ≤ k → a[k]? = some x → Equiv comp x pivot)
    (hx : ∀ x, a[j]? = some x → comp x pivot = false) :
    ∃ a3 rt3, bm_compact_back comp pivot a j rt = some (a3, rt3) ∧ a3.Perm a ∧
      a3.length = a.length ∧ j ≤ rt3 ∧ rt3 ≤ rt ∧
      (∀ k, k < j → a3[k]? = a[k]?) ∧
      (∀ k x, j ≤ k → k < rt3 → a3[k]? = some x → comp pivot x = true) ∧
      (∀ k x, rt3 ≤ k → a3[k]? = some x → Equiv comp x pivot) := by
  have hjl : j < a.length := by omega
  have hjx : a[j]? = some a[j] := List.getElem?_eq_getElem hjl
  cases hc : comp pivot a[j] with
  | true =>
    refine ⟨a, rt, by simp [bm_compact_back, hjx, hc], List.Perm.refl _, rfl, by omega,
      le_refl _, fun _ _ => rfl, ?_, hER⟩
    intro k x hk1 hk2 hkx
    by_cases hkj : k = j
    · subst hkj; rw [hjx] at hkx
      rw [← Option.some.inj hkx]; exact hc
    · exact hG k x (by omega) hk2 hkx
  | false =>
    have hsub : ptr_sub rt 1 = some (rt - 1) := ptr_sub_of_le (by omega)
    obtain ⟨a3, hsw⟩ := iter_swap_of_lt a hjl (show rt - 1 < a.length by omega)
    have hget := iter_swap_getElem? hsw
    refine ⟨a3, rt - 1, by simp [bm_compact_back, hjx, hc, hsub, hsw], iter_swap_perm hsw,
      iter_swap_length hsw, by omega, by omega, ?_, ?_, ?_⟩
    · intro k hk
      rw [hget, if_neg (by omega), if_neg (by omega)]
    · intro k x hk1 hk2 hkx
      rw [hget, if_neg (by omega)] at hkx
      by_cases hkj : k = j
      · rw [if_pos hkj] at hkx
        exact hG (rt - 1) x (by omega) (by omega) hkx
      · rw [if_neg hkj] at hkx
        exact hG k x (by omega) (by omega) hkx
    · intro k x hk hkx
      rw [hget] at hkx
      by_cases hkr : k = rt - 1
      · rw [if_pos hkr, hjx] at hkx
        rw [← Option.some.inj hkx]; exact ⟨hx _ hjx, hc⟩
      · rw [if_neg hkr, if_neg (by omega)] at hkx
        exact hER k x (by omega) hkx

/-- Invariant-based specification of the first phase of `partition3_bentley_mcilroy`. -/
theorem bm_squeeze_spec (comp : α → α → Bool) (pivot : α)
    (hasym : ∀ x y, comp x y = true → comp y x = false) :
    ∀ (fuel : Nat) (s : BMState α),
      s.l_head ≤ s.l_tail → s.l_tail ≤ s.r_head → s.r_head ≤ s.r_tail →
      s.r_tail ≤ s.a.length → s.r_head < fuel + s.l_tail →
      (∃ i x, s.l_tail ≤ i ∧ i ≤ s.r_head ∧ s.a[i]? = some x ∧ comp x pivot = false) →
      (∃ j x, j < s.r_head ∧ s.a[j]? = some x ∧ comp pivot x = false) →
      (∀ k x, k < s.l_head → s.a[k]? = some x → Equiv comp x pivot) →
      (∀ k x, s.l_head ≤ k → k < s.l_tail → s.a[k]? = some x → comp x pivot = true) →
      (∀ k x, s.r_head ≤ k → k < s.r_tail → s.a[k]? = some x → comp pivot x = true) →
      (∀ k x, s.r_tail ≤ k → s.a[k]? = some x → Equiv comp x pivot) →
      ∃ t, bm_squeeze comp pivot fuel s = some t ∧ t.a.Perm s.a ∧
        BMLayout comp pivot t.a t.l_head t.l_tail (t.r_head + 1) t.r_tail := by
  intro fuel
  induction fuel with
  | zero => intro s _ h2 _ _ h5; omega
  | succ fuel ih =>
    intro s h1 h2 h3 h4 hfuel hup hdown hEL hL hG hER
    obtain ⟨is, xs, his1, his2, hxs, hpxs⟩ := hup
    obtain ⟨i0, x0, hadv, hfi, hx0, hpx0, hscanU⟩ :=
      advance_while_spec (fun x => comp x pivot) s.a s.l_tail ⟨is, xs, his1, hxs, hpxs⟩
    have hi0s : i0 ≤ is := by
      by_contra hc
      have := hscanU is xs his1 (by omega) hxs
      simp only at this
      rw [hpxs] at this; exact absurd this (by simp)
    obtain ⟨j, xj, hjl, hxj, hpxj⟩ := hdown
    obtain ⟨j0, y0, hret, hjle, hy0, hpy0, hscanD⟩ :=
      retreat_while_spec (fun x => comp pivot x) s.a (s.r_head - 1) (by omega)
        ⟨j, xj, by omega, hxj, hpxj⟩
    have hi0 := getElem?_lt hx0
    have hj0 := getElem?_lt hy0
    have hsub : ptr_sub s.r_head 1 = some (s.r_head - 1) := ptr_sub_of_le (by omega)
    -- every position below the left cursor holds a value that is not greater
    have hnotgt : ∀ k x, k < i0 → s.a[k]? = some x → comp pivot x = false := by
      intro k x hk hkx
      by_cases hk1 : k < s.l_head
      · exact (hEL k x hk1 hkx).2
      · by_cases hk2 : k < s.l_tail
        · exact hasym _ _ (hL k x (by omega) hk2 hkx)
        · exact hasym _ _ (hscanU k x (by omega) hk hkx)
    -- every position above the right cursor holds a value that is greater or equal
    have hgtAbove : ∀ k x, j0 < k → k < s.r_tail → s.a[k]? = some x →
        comp pivot x = true := by
      intro k x hk1 hk2 hkx
      by_cases hk : s.r_head ≤ k
      · exact hG k x hk hk2 hkx
      · exact hscanD k x hk1 (by omega) hkx
    by_cases hlt : i0 < j0
    · obtain ⟨a1, hsw⟩ := iter_swap_of_lt s.a hi0 hj0
      have hlen1 := iter_swap_length hsw
      have hget1 := iter_swap_getElem? hsw
      obtain ⟨a2, lh2, hcf, hperm2, hlen2, hlh1, hlh2, hsame2, hEL2, hL2⟩ :=
        bm_compact_front_spec comp pivot a1 i0 s.l_head (by omega) (by omega)
          (by
            intro k x hk hkx
            rw [hget1, if_neg (by omega), if_neg (by omega)] at hkx
            exact hEL k x hk hkx)
          (by
            intro k x hk1 hk2 hkx
            rw [hget1, if_neg (by omega), if_neg (by omega)] at hkx
            by_cases hk : k < s.l_tail
            · exact hL k x hk1 hk hkx
            · exact hscanU k x (by omega) hk2 hkx)
          (by
            intro x hx
            rw [hget1, if_neg (by omega), if_pos rfl, hy0] at hx
            rw [← Option.some.inj hx]; exact hpy0)
      obtain ⟨a3, rt3, hcb, hperm3, hlen3, hrt1, hrt2, hsame3, hG3, hER3⟩ :=
        bm_compact_back_spec comp pivot a2 j0 s.r_tail (by omega) (by omega)
          (by
            intro k x hk1 hk2 hkx
            rw [hsame2 k (by omega), hget1, if_neg (by omega), if_neg (by omega)] at hkx
            exact hgtAbove k x hk1 hk2 hkx)
          (by
            intro k x hk hkx
            rw [hsame2 k (by omega), hget1, if_neg (by omega), if_neg (by omega)] at hkx
            exact hER k x hk hkx)
          (by
            intro x hx
            rw [hsame2 j0 hlt, hget1, if_pos rfl, hx0] at hx
            rw [← Option.some.inj hx]; exact hpx0)
      have hj3 : j0 < a3.length := by omega
      have hi3 : i0 < a3.length := by omega
      obtain ⟨t, hres, hpermt, hlay⟩ := ih ⟨a3, lh2, i0 + 1, j0, rt3⟩
        (by simpa using hlh2) (by simp; omega) (by simpa using hrt1) (by simp; omega)
        (by simp; omega)
        ⟨j0, a3[j0], by simp; omega, le_refl _, List.getElem?_eq_getElem hj3, by
          by_cases hjr : j0 < rt3
          · exact hasym _ _ (hG3 j0 _ (le_refl _) hjr (List.getElem?_eq_getElem hj3))
          · exact (hER3 j0 _ (by omega) (List.getElem?_eq_getElem hj3)).1⟩
        ⟨i0, a3[i0], hlt, List.getElem?_eq_getElem hi3, by
          have h := List.getElem?_eq_getElem hi3
          rw [hsame3 i0 hlt] at h
          by_cases hil : i0 < lh2
          · exact (hEL2 i0 _ hil h).2
          · exact hasym _ _ (hL2 i0 _ (by omega) (by omega) h)⟩
        (by
          intro k x hk hkx
          simp only at hk hkx
          rw [hsame3 k (by omega)] at hkx
          exact hEL2 k x hk hkx)
        (by
          intro k x hk1 hk2 hkx
          simp only at hk1 hk2 hkx
          rw [hsame3 k (by omega)] at hkx
          exact hL2 k x hk1 hk2 hkx)
        (by
          intro k x hk1 hk2 hkx
          exact hG3 k x hk1 hk2 hkx)
        (by
          intro k x hk hkx
          exact hER3 k x hk hkx)
      refine ⟨t, ?_, ?_, hlay⟩
      · simp [bm_squeeze, hadv, hsub, hret, hlt, hsw, hcf, hcb, hres]
      · exact hpermt.trans (hperm3.trans (hperm2.trans (iter_swap_perm hsw)))
    · refine ⟨⟨s.a, s.l_head, i0, j0, s.r_tail⟩, ?_, List.Perm.refl _, ?_⟩
      · simp [bm_squeeze, hadv, hsub, hret, hlt]
      · have hij : i0 ≤ j0 + 1 := by
          by_contra hc
          have hlt1 : i0 - 1 < s.a.length := by omega
          have hv := List.getElem?_eq_getElem hlt1
          have hg := hscanD (i0 - 1) _ (by omega) (by omega) hv
          have hn := hnotgt (i0 - 1) _ (by omega) hv
          simp only at hg
          rw [hn] at hg; exact absurd hg (by simp)
        refine ⟨by simp; omega, by simpa using hij, by simp; omega, by simpa using h4,
          hEL, ?_, ?_, ?_, hER⟩
        · intro k x hk1 hk2 hkx
          simp only at hk1 hk2 hkx
          by_cases hk : k < s.l_tail
          · exact hL k x hk1 hk hkx
          · exact hscanU k x (by omega) hk2 hkx
        · intro k x hk1 hk2 hkx
          simp only at hk1 hk2 hkx
          have hki : k = i0 := by omega
          have hkj : k = j0 := by omega
          refine ⟨?_, ?_⟩
          · subst hki; rw [hx0] at hkx
            rw [← Option.some.inj hkx]; exact hpx0
          · subst hkj; rw [hy0] at hkx
            rw [← Option.some.inj hkx]; exact hpy0
        · intro k x hk1 hk2 hkx
          simp only at hk1 hk2 hkx
          exact hgtAbove k x (by omega) hk2 hkx

/-- The front rotation turns `[ equal | less ]` on `[0, lt)` into `[ less | equal ]`
and leaves the positions from `lt` untouched. -/
theorem bm_rotate_front_spec (comp : α → α → Bool) (pivot : α) :
    ∀ (lh : Nat) (a : List α) (lt : Nat), lh ≤ lt → lt ≤ a.length →
      (∀ k x, k < lh → a[k]? = some x → Equiv comp x pivot) →
      (∀ k x, lh ≤ k → k < lt → a[k]? = some x → comp x pivot = true) →
      ∃ a', bm_rotate_front_loop a lh lt = some (a', lt - lh) ∧ a'.Perm a ∧
        (∀ k, lt ≤ k → a'[k]? = a[k]?) ∧
        (∀ k x, k < lt - lh → a'[k]? = some x → comp x pivot = true) ∧
        (∀ k x, lt - lh ≤ k → k < lt → a'[k]? = some x → Equiv comp x pivot) := by
  intro lh
  induction lh with
  | zero =>
    intro a lt _ _ hE hL
    exact ⟨a, by simp [bm_rotate_front_loop], List.Perm.refl _, fun _ _ => rfl,
      fun k x hk => hL k x (by omega) (by omega), fun k x h1 h2 => by omega⟩
  | succ lh ih =>
    intro a lt h1 h2 hE hL
    have hsub : ptr_sub lt 1 = some (lt - 1) := ptr_sub_of_le (by omega)
    obtain ⟨a1, hsw⟩ := iter_swap_of_lt a (show lh < a.length by omega)
      (show lt - 1 < a.length by omega)
    have hget := iter_swap_getElem? hsw
    have hlen := iter_swap_length hsw
    obtain ⟨a', hres, hperm, hsame, hpL, hpE⟩ := ih a1 (lt - 1) (by omega) (by omega)
      (by
        intro k x hk hkx
        rw [hget, if_neg (by omega), if_neg (by omega)] at hkx
        exact hE k x (by omega) hkx)
      (by
        intro k x hk1 hk2 hkx
        rw [hget, if_neg (by omega)] at hkx
        by_cases hkl : k = lh
        · rw [if_pos hkl] at hkx
          exact hL (lt - 1) x (by omega) (by omega) hkx
        · rw [if_neg hkl] at hkx
          exact hL k x (by omega) (by omega) hkx)
    have heq : lt - 1 - lh = lt - (lh + 1) := by omega
    refine ⟨a', ?_, hperm.trans (iter_swap_perm hsw), ?_, ?_, ?_⟩
    · simp [bm_rotate_front_loop, hsub, hsw, hres, heq]
    · intro k hk
      rw [hsame k (by omega), hget, if_neg (by omega), if_neg (by omega)]
    · intro k x hk hkx
      exact hpL k x (by omega) hkx
    · intro k x hk1 hk2 hkx
      by_cases hkl : k = lt - 1
      · rw [hsame k (by omega), hget, if_pos hkl] at hkx
        exact hE lh x (by omega) hkx
      · exact hpE k x (by omega) (by omega) hkx

/-- The back rotation turns `[ greater | equal ]` on `[rh, last)` into
`[ equal | greater ]` and leaves the positions before `rh` untouched. -/
theorem bm_rotate_back_spec (comp : α → α → Bool) (pivot : α) :
    ∀ (fuel : Nat) (a : List α) (rt rh : Nat), rh ≤ rt → rt ≤ a.length →
      a.length < fuel + rt →
      (∀ k x, rh ≤ k → k < rt → a[k]? = some x → comp pivot x = true) →
      (∀ k x, rt ≤ k → a[k]? = some x → Equiv comp x pivot) →
      ∃ a', bm_rotate_back_loop fuel a rt rh = some (a', rh + (a.length - rt)) ∧ a'.Perm a ∧
        (∀ k, k < rh → a'[k]? = a[k]?) ∧
        (∀ k x, rh ≤ k → k < rh + (a.length - rt) → a'[k]? = some x →
          Equiv comp x pivot) ∧
        (∀ k x, rh + (a.length - rt) ≤ k → a'[k]? = some x → comp pivot x = true) := by
  intro fuel
  induction fuel with
  | zero => intro a rt rh _ h2 h3; omega
  | succ fuel ih =>
    intro a rt rh h1 h2 hfuel hG hE
    by_cases hend : rt = a.length
    · refine ⟨a, by simp [bm_rotate_back_loop, hend], List.Perm.refl _, fun _ _ => rfl, ?_, ?_⟩
      · intro k x hk1 hk2; omega
      · intro k x hk hkx
        exact hG k x (by omega) (by have := getElem?_lt hkx; omega) hkx
    · obtain ⟨a1, hsw⟩ := iter_swap_of_lt a (show rt < a.length by omega)
        (show rh < a.length by omega)
      have hget := iter_swap_getElem? hsw
      have hlen := iter_swap_length hsw
      obtain ⟨a', hres, hperm, hsame, hpE, hpG⟩ := ih a1 (rt + 1) (rh + 1) (by omega)
        (by omega) (by omega)
        (by
          intro k x hk1 hk2 hkx
          rw [hget, if_neg (by omega)] at hkx
          by_cases hkr : k = rt
          · rw [if_pos hkr] at hkx
            exact hG rh x (le_refl _) (by omega) hkx
          · rw [if_neg hkr] at hkx
            exact hG k x (by omega) (by omega) hkx)
        (by
          intro k x hk hkx
          rw [hget, if_neg (by omega), if_neg (by omega)] at hkx
          exact hE k x (by omega) hkx)
      have heq : rh + 1 + (a1.length - (rt + 1)) = rh + (a.length - rt) := by omega
      rw [heq] at hres hpE hpG
      refine ⟨a', ?_, hperm.trans (iter_swap_perm hsw), ?_, ?_, hpG⟩
      · simp [bm_rotate_back_loop, hend, hsw, hres]
      · intro k hk
        rw [hsame k (by omega), hget, if_neg (by omega), if_neg (by omega)]
      · intro k x hk1 hk2 hkx
        by_cases hkr : k = rh
        · rw [hsame k (by omega), hget, if_pos hkr] at hkx
          exact hE rt x (le_refl _) hkx
        · exact hpE k x (by omega) hk2 hkx

/-- Specification of the second phase of `partition3_bentley_mcilroy` on a
state that has the layout of the `break`. -/
theorem bm_rotate_spec (comp : α → α → Bool) (pivot : α) (s : BMState α)
    (h : BMLayout comp pivot s.a s.l_head s.l_tail (s.r_head + 1) s.r_tail) :
    ∃ lo hi a', bm_rotate s = some (lo, hi, a') ∧ a'.Perm s.a ∧
      lo = s.l_tail - s.l_head ∧ hi = s.r_head + 1 + (s.a.length - s.r_tail) ∧
      (∀ k x, k < lo → a'[k]? = some x → comp x pivot = true) ∧
      (∀ k x, lo ≤ k → k < hi → a'[k]? = some x → Equiv comp x pivot) ∧
      (∀ k x, hi ≤ k → a'[k]? = some x → comp pivot x = true) := by
  obtain ⟨h1, h2, h3, h4, hEL, hL, hM, hG, hER⟩ := h
  -- front rotation
  have hfront : ∃ a1, bm_rotate_front s.a s.l_head s.l_tail =
        some (a1, s.l_tail - s.l_head) ∧
      a1.Perm s.a ∧ (∀ k, s.l_tail ≤ k → a1[k]? = s.a[k]?) ∧
      (∀ k x, k < s.l_tail - s.l_head → a1[k]? = some x → comp x pivot = true) ∧
      (∀ k x, s.l_tail - s.l_head ≤ k → k < s.l_tail → a1[k]? = some x →
        Equiv comp x pivot) := by
    by_cases he : s.l_head = s.l_tail
    · refine ⟨s.a, by simp [bm_rotate_front, he], List.Perm.refl _, fun _ _ => rfl, ?_, ?_⟩
      · intro k x hk; omega
      · intro k x _ hk2 hkx
        exact hEL k x (by omega) hkx
    · rw [bm_rotate_front, if_neg he]
      exact bm_rotate_front_spec comp pivot s.l_head s.a s.l_tail h1 (by omega) hEL hL
  obtain ⟨a1, hf, hperm1, hsame1, hL1, hE1⟩ := hfront
  have hlen1 : a1.length = s.a.length := hperm1.length_eq
  -- back rotation
  have hback : ∃ a2, bm_rotate_back a1 (s.r_head + 1) s.r_tail =
        some (a2, s.r_head + 1 + (s.a.length - s.r_tail)) ∧
      a2.Perm a1 ∧ (∀ k, k < s.r_head + 1 → a2[k]? = a1[k]?) ∧
      (∀ k x, s.r_head + 1 ≤ k → k < s.r_head + 1 + (s.a.length - s.r_tail) →
        a2[k]? = some x → Equiv comp x pivot) ∧
      (∀ k x, s.r_head + 1 + (s.a.length - s.r_tail) ≤ k → a2[k]? = some x →
        comp pivot x = true) := by
    have hG1 : ∀ k x, s.r_head + 1 ≤ k → k < s.r_tail → a1[k]? = some x →
        comp pivot x = true := by
      intro k x hk1 hk2 hkx
      rw [hsame1 k (by omega)] at hkx
      exact hG k x hk1 hk2 hkx
    have hER1 : ∀ k x, s.r_tail ≤ k → a1[k]? = some x → Equiv comp x pivot := by
      intro k x hk hkx
      rw [hsame1 k (by omega)] at hkx
      exact hER k x hk hkx
    by_cases he : s.r_head + 1 = s.r_tail
    · refine ⟨a1, ?_, List.Perm.refl _, fun _ _ => rfl, ?_, ?_⟩
      · rw [bm_rotate_back, if_pos he]
        have : a1.length = s.r_head + 1 + (s.a.length - s.r_tail) := by omega
        simp [← this]
      · intro k x hk1 _ hkx
        exact hER1 k x (by omega) hkx
      · intro k x hk hkx
        have := getElem?_lt hkx
        omega
    · rw [bm_rotate_back, if_neg he]
      have := bm_rotate_back_spec comp pivot (a1.length + 1) a1 s.r_tail (s.r_head + 1) h3
        (by omega) (by omega) hG1 hER1
      rw [hlen1] at this
      rw [hlen1]
      exact this
  obtain ⟨a2, hb, hperm2, hsame2, hE2, hG2⟩ := hback
  refine ⟨s.l_tail - s.l_head, s.r_head + 1 + (s.a.length - s.r_tail), a2, ?_,
    hperm2.trans hperm1, rfl, rfl, ?_, ?_, hG2⟩
  · simp [bm_rotate, hf, hb]
  · intro k x hk hkx
    rw [hsame2 k (by omega)] at hkx
    exact hL1 k x hk hkx
  · intro k x hk1 hk2 hkx
    by_cases hk : k < s.r_head + 1
    · rw [hsame2 k hk] at hkx
      by_cases hkt : k < s.l_tail
      · exact hE1 k x hk1 hkt hkx
      · rw [hsame1 k (by omega)] at hkx
        exact hM k x (by omega) hk hkx
    · exact hE2 k x (by omega) hk2 hkx

/-- Specification of `partition3_bentley_mcilroy` under its unguarded precondition. -/
theorem partition3_bentley_mcilroy_spec (comp : α → α → Bool)
    (hasym : ∀ x y, comp x y = true → comp y x = false) (a : List α) (pivot : α)
    (hge : ∃ x ∈ a, comp x pivot = false) (hle : ∃ x ∈ a, comp pivot x = false) :
    ∃ s lo hi a', bm_phase1 comp a pivot = some s ∧
      BMLayout comp pivot s.a s.l_head s.l_tail (s.r_head + 1) s.r_tail ∧ s.a.Perm a ∧
      partition3_bentley_mcilroy comp a pivot = some (lo, hi, a') ∧ a'.Perm a ∧
      lo = s.l_tail - s.l_head ∧ lo ≤ hi ∧ hi ≤ a.length ∧
      (∀ x ∈ a'.take lo, comp x pivot = true) ∧
      (∀ x ∈ (a'.take hi).drop lo, Equiv comp x pivot) ∧
      (∀ x ∈ a'.drop hi, comp pivot x = true) := by
  obtain ⟨x, hxa, hx⟩ := hge
  obtain ⟨y, hya, hy⟩ := hle
  obtain ⟨i, hi⟩ := List.mem_iff_getElem?.1 hxa
  obtain ⟨j, hj⟩ := List.mem_iff_getElem?.1 hya
  obtain ⟨s, hs, hperm, hlay⟩ := bm_squeeze_spec comp pivot hasym (a.length + 1)
    ⟨a, 0, 0, a.length, a.length⟩ (le_refl _) (by simp) (le_refl _) (le_refl _)
    (by simp)
    ⟨i, x, by simp, by simpa using (getElem?_lt hi).le, hi, hx⟩
    ⟨j, y, getElem?_lt hj, hj, hy⟩
    (by intro k x hk; simp at hk)
    (by intro k x h1 h2; simp at h2)
    (by intro k x h1 h2; simp at h1 h2; omega)
    (by intro k x hk hkx; have := getElem?_lt hkx; simp at hk this; omega)
  obtain ⟨lo, hi', a', hrot, hperm', hlo, hhi, hL, hM, hG⟩ := bm_rotate_spec comp pivot s hlay
  have hlen : s.a.length = a.length := hperm.length_eq
  have hbounds := hlay
  obtain ⟨b1, b2, b3, b4, _⟩ := hbounds
  refine ⟨s, lo, hi', a', hs, hlay, hperm, ?_, hperm'.trans hperm, hlo, by omega, by omega,
    forall_mem_take_of_index (P := fun x => comp x pivot = true) hL,
    forall_mem_take_drop_of_index (P := fun x => Equiv comp x pivot) hM,
    forall_mem_drop_of_index (P := fun x => comp pivot x = true) hG⟩
  have hs1 : bm_phase1 comp a pivot = some s := hs
  simp [partition3_bentley_mcilroy, hs1, hrot]

namespace algo

/-- The loop of `partition_unguarded_` is the loop of `partition_squeeze`. -/
theorem partition_unguarded_loop_eq (comp : α → α → Bool) (pivot : α) :
    ∀ (fuel : Nat) (a : List α) (first last : Nat),
      partition_unguarded_loop comp pivot fuel a first last =
        partition_squeeze_loop comp pivot fuel a first last := by
  intro fuel
  induction fuel with
  | zero => intro a first last; rfl
  | succ fuel ih =>
    intro a first last
    simp only [partition_unguarded_loop, partition_squeeze_loop, ih]

/-- The function `algo::partition_unguarded_` computes what `partition_squeeze` computes. -/
theorem partition_unguarded_eq (comp : α → α → Bool) (a : List α) (pivot : α) :
    partition_unguarded_ comp a pivot = partition_squeeze comp a pivot := by
  simp only [partition_unguarded_, partition_squeeze, partition_unguarded_loop_eq]

/-- The call `iter_median_3_` on three valid positions returns one of them. -/
theorem iter_median_3_spec (comp : α → α → Bool) (xs : List α) (a b c : Nat)
    (ha : a < xs.length) (hb : b < xs.length) (hc : c < xs.length) :
    ∃ m, iter_median_3_ comp xs a b c = some m ∧ (m = a ∨ m = b ∨ m = c) := by
  simp only [iter_median_3_, List.getElem?_eq_getElem ha, List.getElem?_eq_getElem hb,
    List.getElem?_eq_getElem hc, Option.bind_eq_bind, Option.some_bind]
  split
  · split
    · exact ⟨b, rfl, Or.inr (Or.inl rfl)⟩
    · split
      · exact ⟨c, rfl, Or.inr (Or.inr rfl)⟩
      · exact ⟨a, rfl, Or.inl rfl⟩
  · split
    · exact ⟨a, rfl, Or.inl rfl⟩
    · split
      · exact ⟨c, rfl, Or.inr (Or.inr rfl)⟩
      · exact ⟨b, rfl, Or.inr (Or.inl rfl)⟩

/-- The pivot position chosen by `iter_median_` for a whole non-empty range
with `split` at its midpoint is inside the range. -/
theorem iter_median_in_range (comp : α → α → Bool) (xs : List α) (hn : 0 < xs.length) :
    ∃ m, iter_median_ comp xs 0 (xs.length / 2) xs.length = some m ∧ m < xs.length := by
  unfold iter_median_
  by_cases h80 : xs.length - 0 ≤ 80
  · rw [if_pos h80]
    obtain ⟨m, hm, hcase⟩ := iter_median_3_spec comp xs 0 (xs.length / 2) (xs.length - 1)
      hn (by omega) (by omega)
    refine ⟨m, ?_, by omega⟩
    simp [ptr_sub_of_le (show 1 ≤ xs.length by omega), hm]
  · rw [if_neg h80]
    simp only [Nat.sub_zero, Nat.zero_add] at h80 ⊢
    obtain ⟨ma, hma, hca⟩ := iter_median_3_spec comp xs 0 (xs.length / 8)
      (xs.length / 8 * 2) (by omega) (by omega) (by omega)
    obtain ⟨mb, hmb, hcb⟩ := iter_median_3_spec comp xs (xs.length / 2 - xs.length / 8)
      (xs.length / 2) (xs.length / 2 + xs.length / 8) (by omega) (by omega) (by omega)
    obtain ⟨mc, hmc, hcc⟩ := iter_median_3_spec comp xs (xs.length - xs.length / 8 * 2)
      (xs.length - xs.length / 8) (xs.length - 1) (by omega) (by omega) (by omega)
    obtain ⟨m, hm, hcase⟩ := iter_median_3_spec comp xs ma mb mc (by omega) (by omega)
      (by omega)
    refine ⟨m, ?_, by omega⟩
    simp [hma, ptr_sub_of_le (show xs.length / 8 ≤ xs.length / 2 by omega), hmb,
      ptr_sub_of_le (show xs.length / 8 * 2 ≤ xs.length by omega),
      ptr_sub_of_le (show xs.length / 8 ≤ xs.length by omega),
      ptr_sub_of_le (show 1 ≤ xs.length by omega), hmc, hm]

end algo

namespace algo

/-- Inner loop of the insertion sort: with a stopper below `j`, the values of
`[0, j)` that follow `temp` move up by one position and `temp` lands below them. -/
theorem linear_insert_unguarded_spec (comp : α → α → Bool) (temp : α) :
    ∀ (j : Nat) (a : List α), j < a.length →
      (∃ x ∈ a.take j, comp temp x = false) →
      ∃ l1 l2, a.take j = l1 ++ l2 ∧
        linear_insert_unguarded comp temp a j = some (l1 ++ temp :: l2 ++ a.drop (j + 1)) ∧
        (∀ x ∈ l2, comp temp x = true) ∧
        (∃ x, l1.getLast? = some x ∧ comp temp x = false) := by
  intro j
  induction j with
  | zero => intro a _ h; simp at h
  | succ j ih =>
    intro a hj hstop
    have hjl : j < a.length := by omega
    have hjx : a[j]? = some a[j] := List.getElem?_eq_getElem hjl
    have htake : a.take (j + 1) = a.take j ++ [a[j]] := by
      rw [List.take_succ, hjx]; rfl
    cases hc : comp temp a[j] with
    | false =>
      refine ⟨a.take (j + 1), [], by simp, ?_, by simp, a[j], ?_, hc⟩
      · simp only [linear_insert_unguarded, hjx, Option.bind_eq_bind, Option.some_bind, hj,
          if_true, hc, Bool.false_eq_true, if_false]
        congr 1
        rw [List.set_eq_take_append_cons_drop, if_pos hj]
        simp
      · rw [htake, List.getLast?_concat]
    | true =>
      have hstop2 : ∃ x ∈ (a.set (j + 1) a[j]).take j, comp temp x = false := by
        obtain ⟨x, hx, hcx⟩ := hstop
        rw [htake] at hx
        rcases List.mem_append.1 hx with h | h
        · refine ⟨x, ?_, hcx⟩
          rw [List.take_set_of_lt _ _ (by omega)]; exact h
        · simp at h; subst h
          rw [hc] at hcx; exact absurd hcx (by simp)
      obtain ⟨l1, l2, h1, h2, h3, h4⟩ := ih (a.set (j + 1) a[j]) (by simp; omega) hstop2
      rw [List.take_set_of_lt _ _ (by omega)] at h1
      refine ⟨l1, l2 ++ [a[j]], ?_, ?_, ?_, h4⟩
      · rw [htake, h1]; simp
      · simp only [linear_insert_unguarded, hjx, Option.bind_eq_bind, Option.some_bind, hj,
          if_true, hc, h2]
        congr 1
        have : (a.set (j + 1) a[j]).drop (j + 1) = a[j] :: a.drop (j + 1 + 1) := by
          have hl : j + 1 < (a.set (j + 1) a[j]).length := by simp; omega
          rw [List.drop_eq_getElem_cons hl, List.drop_set_of_lt _ _ (by omega)]
          simp
        rw [this]; simp
      · intro x hx
        rcases List.mem_append.1 hx with h | h
        · exact h3 x h
        · simp at h; subst h; exact hc

/-- Invariant-based specification of the outer loop of the insertion sort:
the prefix `[first, i]` is in ascending order. -/
theorem insertion_sort_loop_spec (comp : α → α → Bool) (hswo : StrictWeakOrder comp) :
    ∀ (fuel : Nat) (a : List α) (i : Nat), i < a.length → a.length ≤ fuel + i →
      SortedBy comp (a.take (i + 1)) →
      ∃ ys, insertion_sort_loop comp fuel a i = some ys ∧ ys.Perm a ∧ SortedBy comp ys := by
  intro fuel
  induction fuel with
  | zero => intro a i h1 h2; omega
  | succ fuel ih =>
    intro a i hi hfuel hsorted
    by_cases hend : i + 1 = a.length
    · refine ⟨a, by simp [insertion_sort_loop, hend], List.Perm.refl _, ?_⟩
      rw [hend, List.take_length] at hsorted
      exact hsorted
    · have hi1 : i + 1 < a.length := by omega
      have htx : a[i + 1]? = some a[i + 1] := List.getElem?_eq_getElem hi1
      have h0 : 0 < a.length := by omega
      have hfx : a[0]? = some a[0] := List.getElem?_eq_getElem h0
      have hsplit : a = a.take (i + 1) ++ a[i + 1] :: a.drop (i + 1 + 1) := by
        rw [← List.drop_eq_getElem_cons hi1, List.take_append_drop]
      have hhead : a.take (i + 1) = a[0] :: (a.take (i + 1)).tail := by
        cases a with
        | nil => simp at h0
        | cons h t => simp
      cases hc : comp a[i + 1] a[0] with
      | true =>
        have hlen : (a[i + 1] :: (a.take (i + 1) ++ a.drop (i + 1 + 1))).length = a.length := by
          simp only [List.length_cons, List.length_append, List.length_take, List.length_drop]
          omega
        have hperm : (a[i + 1] :: (a.take (i + 1) ++ a.drop (i + 1 + 1))).Perm a := by
          conv => rhs; rw [hsplit]
          exact List.perm_middle.symm
        have htk : (a[i + 1] :: (a.take (i + 1) ++ a.drop (i + 1 + 1))).take (i + 1 + 1) =
            a[i + 1] :: a.take (i + 1) := by
          rw [List.take_succ_cons, List.take_append_eq_append_take]
          simp only [List.length_take]
          rw [Nat.min_eq_left (by omega), Nat.sub_self, List.take_zero, List.append_nil,
            List.take_take, Nat.min_self]
        obtain ⟨ys, hres, hp, hs⟩ := ih _ (i + 1) (by rw [hlen]; exact hi1)
          (by rw [hlen]; omega)
          (by
            rw [htk]
            refine List.Pairwise.cons ?_ hsorted
            intro y hy
            have hyf : comp y a[0] = false := by
              rw [hhead] at hy hsorted
              rcases List.mem_cons.1 hy with h | h
              · rw [h]; exact hswo.irrefl _
              · exact List.rel_of_pairwise_cons hsorted h
            cases hyt : comp y a[i + 1] with
            | false => rfl
            | true =>
              have := hswo.trans _ _ _ hyt hc
              rw [hyf] at this; exact absurd this (by simp))
        refine ⟨ys, ?_, hp.trans hperm, hs⟩
        simp [insertion_sort_loop, hend, htx, hfx, hc, hres]
      | false =>
        obtain ⟨l1, l2, h1, h2, h3, xl, h4, h5⟩ :=
          linear_insert_unguarded_spec comp a[i + 1] (i + 1) a hi1
            ⟨a[0], by rw [hhead]; simp, hc⟩
        have hl12 : l1.length + l2.length = i + 1 := by
          have := congrArg List.length h1
          simp only [List.length_take, List.length_append] at this
          omega
        have hperm : (l1 ++ a[i + 1] :: l2 ++ a.drop (i + 1 + 1)).Perm a := by
          conv => rhs; rw [hsplit, h1]
          simp only [List.append_assoc, List.cons_append]
          exact List.Perm.append_left _ List.perm_middle.symm
        have hlen : (l1 ++ a[i + 1] :: l2 ++ a.drop (i + 1 + 1)).length = a.length :=
          hperm.length_eq
        have htk : (l1 ++ a[i + 1] :: l2 ++ a.drop (i + 1 + 1)).take (i + 1 + 1) =
            l1 ++ a[i + 1] :: l2 := by
          rw [List.take_append_eq_append_take]
          have : (l1 ++ a[i + 1] :: l2).length = i + 1 + 1 := by simp; omega
          rw [this, Nat.sub_self, List.take_zero, List.append_nil, ← this, List.take_length]
        rw [h1] at hsorted
        obtain ⟨hs1, hs2, hs12⟩ := List.pairwise_append.1 hsorted
        obtain ⟨init, hinit⟩ : ∃ init, l1 = init ++ [xl] := by
          rcases List.eq_nil_or_concat l1 with h | ⟨init, x, h⟩
          · rw [h] at h4; simp at h4
          · refine ⟨init, ?_⟩
            rw [h, List.concat_eq_append, List.getLast?_concat] at h4
            rw [h, List.concat_eq_append, Option.some.inj h4]
        have hl1 : ∀ x ∈ l1, comp a[i + 1] x = false := by
          intro x hx
          rw [hinit] at hx hs1
          rcases List.mem_append.1 hx with h | h
          · have hxl : comp xl x = false :=
              (List.pairwise_append.1 hs1).2.2 x h xl (by simp)
            exact hswo.neg_trans hxl h5
          · simp at h; rw [h]; exact h5
        obtain ⟨ys, hres, hp, hs⟩ := ih _ (i + 1) (by rw [hlen]; exact hi1)
          (by rw [hlen]; omega)
          (by
            rw [htk]
            refine List.pairwise_append.2 ⟨hs1, List.Pairwise.cons ?_ hs2, ?_⟩
            · intro z hz
              exact hswo.asymm (h3 z hz)
            · intro x hx y hy
              rcases List.mem_cons.1 hy with h | h
              · rw [h]; exact hl1 x hx
              · exact hs12 x hx y h)
        refine ⟨ys, ?_, hp.trans hperm, hs⟩
        simp only [List.append_assoc, List.cons_append] at hres h2
        simp [insertion_sort_loop, hend, htx, hfx, hc, h2, hres]

/-- The function `insertion_sort_` returns the ascending permutation of every range. -/
theorem insertion_sort_spec (comp : α → α → Bool) (hswo : StrictWeakOrder comp)
    (a : List α) :
    ∃ ys, insertion_sort_ comp a = some ys ∧ ys.Perm a ∧ SortedBy comp ys := by
  unfold insertion_sort_
  by_cases h0 : a.length = 0
  · rw [if_pos h0]
    have : a = [] := List.length_eq_zero.1 h0
    subst this
    exact ⟨[], rfl, List.Perm.refl _, List.Pairwise.nil⟩
  · rw [if_neg h0]
    refine insertion_sort_loop_spec comp hswo a.length a 0 (by omega) (by omega) ?_
    cases a with
    | nil => simp at h0
    | cons h t => simp [SortedBy]

end algo

/-- The function `floor_log2` with enough fuel is the floor of the binary logarithm. -/
theorem floor_log2_spec : ∀ (fuel n : Nat), 1 ≤ n → n ≤ fuel →
    2 ^ floor_log2 fuel n ≤ n ∧ n < 2 ^ (floor_log2 fuel n + 1) := by
  intro fuel
  induction fuel with
  | zero => intro n h1 h2; omega
  | succ fuel ih =>
    intro n h1 h2
    by_cases h : 2 ≤ n
    · obtain ⟨ih1, ih2⟩ := ih (n / 2) (by omega) (by omega)
      simp only [floor_log2, if_pos h]
      rw [pow_succ, pow_succ]
      rw [pow_succ] at ih2
      constructor <;> omega
    · simp only [floor_log2, if_neg h]
      have : n = 1 := by omega
      subst this
      simp

namespace algo

/-- The traced function returns the result of `introspective_sort_`. -/
theorem introspective_sort_traced_fst (ps : List α → List α) (comp : α → α → Bool) :
    ∀ (depth : Nat) (xs : List α),
      (introspective_sort_traced ps comp depth xs).map Prod.fst =
        introspective_sort_ ps comp depth xs := by
  intro depth
  induction depth with
  | zero =>
    intro xs
    simp only [introspective_sort_traced, introspective_sort_]
    split
    · rfl
    · cases insertion_sort_ comp xs <;> rfl
  | succ depth ih =>
    intro xs
    simp only [introspective_sort_traced, introspective_sort_]
    split
    · cases iter_median_ comp xs 0 (xs.length / 2) xs.length with
      | none => rfl
      | some m =>
        simp only [Option.bind_eq_bind, Option.some_bind]
        cases iter_swap xs (xs.length / 2) m with
        | none => rfl
        | some xs1 =>
          simp only [Option.some_bind]
          cases xs1[xs.length / 2]? with
          | none => rfl
          | some pivot =>
            simp only [Option.some_bind]
            cases partition_unguarded_ comp xs1 pivot with
            | none => rfl
            | some r =>
              simp only [Option.some_bind]
              rw [← ih (r.2.take r.1), ← ih (r.2.drop r.1)]
              cases introspective_sort_traced ps comp depth (r.2.take r.1) with
              | none => rfl
              | some l =>
                cases introspective_sort_traced ps comp depth (r.2.drop r.1) with
                | none => rfl
                | some rr => rfl
    · cases insertion_sort_ comp xs <;> rfl

/-- Specification of `introspective_sort_` with its event tree: the call
returns, the chain of partitions is bounded by the depth budget, the
small-range discipline holds, and with a correct fallback the result is the
ascending permutation of the range. -/
theorem introspective_sort_traced_spec (ps : List α → List α) (comp : α → α → Bool)
    (hswo : StrictWeakOrder comp) :
    ∀ (depth : Nat) (xs : List α),
      ∃ ys t, introspective_sort_traced ps comp depth xs = some (ys, t) ∧
        t.depth ≤ depth ∧ t.SmallRangeOk ∧
        (StdSortContract comp ps → ys.Perm xs ∧ SortedBy comp ys) := by
  intro depth
  induction depth with
  | zero =>
    intro xs
    by_cases h16 : 16 < xs.length
    · refine ⟨ps xs, .fallback xs.length, by simp [introspective_sort_traced, h16],
        by simp [Trace.depth], by simpa [Trace.SmallRangeOk] using h16, fun h => h xs⟩
    · obtain ⟨ys, hys, hp, hs⟩ := insertion_sort_spec comp hswo xs
      refine ⟨ys, .insertion xs.length, by simp [introspective_sort_traced, h16, hys],
        by simp [Trace.depth], by simp only [Trace.SmallRangeOk]; omega, fun _ => ⟨hp, hs⟩⟩
  | succ depth ih =>
    intro xs
    by_cases h16 : 16 < xs.length
    · obtain ⟨m, hm, hmlt⟩ := iter_median_in_range comp xs (by omega)
      obtain ⟨xs1, hsw⟩ := iter_swap_of_lt xs (show xs.length / 2 < xs.length by omega) hmlt
      have hlen1 := iter_swap_length hsw
      have hsplit : xs.length / 2 < xs1.length := by omega
      have hpv : xs1[xs.length / 2]? = some xs1[xs.length / 2] :=
        List.getElem?_eq_getElem hsplit
      have hmem : xs1[xs.length / 2] ∈ xs1 := List.getElem_mem hsplit
      obtain ⟨b, xs2, hpart, hperm2, hb, hL, hR, _⟩ :=
        partition_squeeze_spec comp (fun _ _ h => hswo.asymm h) xs1 xs1[xs.length / 2]
          ⟨_, hmem, hswo.irrefl _⟩ ⟨_, hmem, hswo.irrefl _⟩
      rw [← partition_unguarded_eq] at hpart
      obtain ⟨l, tl, hl, hdl, hol, hsl⟩ := ih (xs2.take b)
      obtain ⟨r, tr, hr, hdr, hor, hsr⟩ := ih (xs2.drop b)
      refine ⟨l ++ r, .partition xs.length tl tr, ?_, ?_, ?_, ?_⟩
      · simp [introspective_sort_traced, h16, hm, hsw, hpv, hpart, hl, hr]
      · simp only [Trace.depth]; omega
      · exact ⟨h16, hol, hor⟩
      · intro hc
        obtain ⟨hpl, hsl'⟩ := hsl hc
        obtain ⟨hpr, hsr'⟩ := hsr hc
        refine ⟨?_, ?_⟩
        · have : (l ++ r).Perm (xs2.take b ++ xs2.drop b) := hpl.append hpr
          rw [List.take_append_drop] at this
          exact this.trans (hperm2.trans (iter_swap_perm hsw))
        · refine List.pairwise_append.2 ⟨hsl', hsr', ?_⟩
          intro x hx y hy
          exact hswo.neg_trans (hL x (hpl.subset hx)) (hR y (hpr.subset hy))
    · obtain ⟨ys, hys, hp, hs⟩ := insertion_sort_spec comp hswo xs
      refine ⟨ys, .insertion xs.length, by simp [introspective_sort_traced, h16, hys],
        by simp [Trace.depth], by simp only [Trace.SmallRangeOk]; omega, fun _ => ⟨hp, hs⟩⟩

/-- The function `introspective_sort_` returns the ascending permutation of
every range, whatever the depth budget. -/
theorem introspective_sort_spec (ps : List α → List α) (comp : α → α → Bool)
    (hswo : StrictWeakOrder comp) (hps : StdSortContract comp ps) (depth : Nat)
    (xs : List α) :
    ∃ ys, introspective_sort_ ps comp depth xs = some ys ∧ ys.Perm xs ∧
      SortedBy comp ys := by
  obtain ⟨ys, t, h, _, _, hc⟩ := introspective_sort_traced_spec ps comp hswo depth xs
  refine ⟨ys, ?_, hc hps⟩
  rw [← introspective_sort_traced_fst, h]; rfl

/-- The function `qsort` returns the ascending permutation of every range. -/
theorem qsort_spec (ps : List α → List α) (comp : α → α → Bool)
    (hswo : StrictWeakOrder comp) (hps : StdSortContract comp ps) (xs : List α) :
    ∃ ys, qsort ps comp xs = some ys ∧ ys.Perm xs ∧ SortedBy comp ys := by
  unfold qsort
  by_cases h : xs.length ≠ 0
  · rw [if_pos h]
    exact introspective_sort_spec ps comp hswo hps _ xs
  · rw [if_neg h]
    have : xs = [] := List.length_eq_zero.1 (by simpa using h)
    subst this
    exact ⟨[], rfl, List.Perm.refl _, List.Pairwise.nil⟩

end algo

/-- The comparator `std::less<int>()` is a strict weak order. -/
theorem int_less_swo : StrictWeakOrder int_less := by
  refine ⟨?_, ?_, ?_⟩
  · intro a; simp [int_less]
  · intro a b c h1 h2
    simp only [int_less, decide_eq_true_eq] at *
    omega
  · intro a b c h1 h2 h3 h4
    simp only [int_less, decide_eq_false_iff_not] at *
    omega

/-- On `int`, ascending order under `std::less<int>()` is order by `≤`. -/
theorem sortedBy_int_less_iff (xs : List Int) :
    SortedBy int_less xs ↔ xs.Sorted (fun a b => a ≤ b) := by
  unfold SortedBy List.Sorted
  constructor
  · intro h
    exact h.imp (fun hab => by simpa [int_less] using hab)
  · intro h
    exact h.imp (fun hab => by simpa [int_less] using hab)

/-- The reference sort meets the contract of a standard sort. -/
theorem ref_sort_contract : StdSortContract int_less ref_sort := by
  intro xs
  exact ⟨List.perm_insertionSort _ xs,
    (sortedBy_int_less_iff _).2 (List.sorted_insertionSort _ xs)⟩

/-- On `int` the ascending permutation of a range is unique. -/
theorem sorted_perm_unique_int {xs ys zs : List Int} (hy : ys.Perm xs)
    (hys : SortedBy int_less ys) (hz : zs.Perm xs) (hzs : SortedBy int_less zs) :
    ys = zs :=
  List.eq_of_perm_of_sorted (hy.trans hz.symm) ((sortedBy_int_less_iff _).1 hys)
    ((sortedBy_int_less_iff _).1 hzs)

/-- The stable partition meets the contract of `std::partition`. -/
theorem ref_partition_contract : StdPartitionContract (ref_partition (α := α)) := by
  intro p xs
  simp only [ref_partition]
  refine ⟨?_, List.length_filter_le _ _, ?_, ?_⟩
  · exact List.filter_append_perm p xs
  · intro x hx
    rw [List.take_left] at hx
    exact (List.mem_filter.1 hx).2
  · intro x hx
    rw [List.drop_left] at hx
    simpa using (List.mem_filter.1 hx).2

/-- The upward scan never moves back. -/
theorem advance_while_ge (p : α → Bool) :
    ∀ (l : List α) (i r : Nat), advance_while p l i = some r → i ≤ r ∧ r < i + l.length := by
  intro l
  induction l with
  | nil => intro i r h; simp [advance_while] at h
  | cons x rest ih =>
    intro i r h
    simp only [advance_while] at h
    split at h
    · have := ih (i + 1) r h
      simp only [List.length_cons]; omega
    · have : i = r := by simpa using h
      subst this
      simp

/-- The loop of `partition_squeeze` returns a boundary at or after `first` that
is the position of an element of the range. -/
theorem partition_squeeze_loop_bounds (comp : α → α → Bool) (pivot : α) :
    ∀ (fuel : Nat) (a : List α) (first last b : Nat) (a' : List α),
      partition_squeeze_loop comp pivot fuel a first last = some (b, a') →
      first ≤ b ∧ b < a.length := by
  intro fuel
  induction fuel with
  | zero => intro a first last b a' h; simp [partition_squeeze_loop] at h
  | succ fuel ih =>
    intro a first last b a' h
    simp only [partition_squeeze_loop, Option.bind_eq_bind, Option.bind_eq_some] at h
    obtain ⟨first1, hadv, last0, _, last1, _, h⟩ := h
    have hb := advance_while_ge _ _ _ _ hadv
    have hlen : first + (a.drop first).length ≤ a.length ∨ a.length < first := by
      rw [List.length_drop]; omega
    have hf1 : first1 < a.length := by
      rcases hlen with h1 | h1
      · omega
      · rw [List.drop_eq_nil_of_le (by omega)] at hadv
        simp [advance_while] at hadv
    split at h
    · simp only [Option.bind_eq_some] at h
      obtain ⟨a1, hsw, h⟩ := h
      have := ih a1 (first1 + 1) last1 b a' h
      rw [iter_swap_length hsw] at this
      omega
    · have : first1 = b := by
        have := congrArg Prod.fst (Option.some.inj h)
        simpa using this
      omega

/-- With a value that is not greater than the pivot at a position after `first`,
the loop of `partition_squeeze` returns a boundary after `first`. -/
theorem partition_squeeze_loop_pos (comp : α → α → Bool) (pivot : α)
    (fuel : Nat) (a : List α) (first last b : Nat) (a' : List α)
    (h : partition_squeeze_loop comp pivot fuel a first last = some (b, a'))
    (hl : last ≤ a.length)
    (hk : ∃ k x, first < k ∧ k < last ∧ a[k]? = some x ∧ comp pivot x = false) :
    first < b := by
  cases fuel with
  | zero => simp [partition_squeeze_loop] at h
  | succ fuel =>
    obtain ⟨k, x, hk1, hk2, hkx, hcx⟩ := hk
    simp only [partition_squeeze_loop, Option.bind_eq_bind, Option.bind_eq_some] at h
    obtain ⟨first1, hadv, last0, hsub, last1, hret, h⟩ := h
    have hb := advance_while_ge _ _ _ _ hadv
    obtain ⟨_, hl0⟩ := ptr_sub_eq_some hsub
    subst hl0
    obtain ⟨r, y, hr, _, _, _, hscan⟩ :=
      retreat_while_spec (fun x => comp pivot x) a (last - 1) (by omega)
        ⟨k, x, by omega, hkx, hcx⟩
    rw [hret] at hr
    have hr' : last1 = r := Option.some.inj hr
    subst hr'
    have hkr : k ≤ last1 := by
      by_contra hc
      have := hscan k x (by omega) (by omega) hkx
      simp only at this
      rw [hcx] at this; exact absurd this (by simp)
    split at h
    · simp only [Option.bind_eq_some] at h
      obtain ⟨a1, _, h⟩ := h
      have := (partition_squeeze_loop_bounds comp pivot fuel a1 (first1 + 1) last1 b a' h).1
      omega
    · next hnlt =>
      have : first1 = b := by
        have := congrArg Prod.fst (Option.some.inj h)
        simpa using this
      omega

/-- The boundary returned by `partition_squeeze` is the position of an element,
and it is past `first` when some later position holds a value not greater than
the pivot. -/
theorem partition_squeeze_bounds (comp : α → α → Bool) (a : List α) (pivot : α)
    (b : Nat) (a' : List α) (h : partition_squeeze comp a pivot = some (b, a')) :
    b < a.length ∧
    ((∃ k x, 0 < k ∧ a[k]? = some x ∧ comp pivot x = false) → 0 < b) := by
  refine ⟨(partition_squeeze_loop_bounds comp pivot _ a 0 a.length b a' h).2, ?_⟩
  rintro ⟨k, x, hk, hkx, hcx⟩
  exact partition_squeeze_loop_pos comp pivot _ a 0 a.length b a' h (le_refl _)
    ⟨k, x, hk, getElem?_lt hkx, hkx, hcx⟩

/-- A lower boundary below which every value is less than the pivot is not
`last` when some value of the range is not less than the pivot. -/
theorem lower_lt_length_of_not_less {comp : α → α → Bool} {pivot : α} {a a' : List α}
    {lo : Nat} (hperm : a'.Perm a) (hL : ∀ x ∈ a'.take lo, comp x pivot = true)
    (hge : ∃ x ∈ a, comp x pivot = false) : lo < a.length := by
  by_contra hc
  obtain ⟨x, hx, hcx⟩ := hge
  have hx' : x ∈ a'.take lo := by
    rw [List.take_of_length_le (by rw [hperm.length_eq]; omega)]
    exact hperm.symm.subset hx
  rw [hL x hx'] at hcx
  exact absurd hcx (by simp)

namespace algo

/-- The value at the position returned by `iter_median_3_` is a median of the
three values. -/
theorem iter_median_3_median (comp : α → α → Bool)
    (hasym : ∀ x y, comp x y = true → comp y x = false) (xs : List α) (a b c : Nat)
    (va vb vc : α) (ha : xs[a]? = some va) (hb : xs[b]? = some vb)
    (hc : xs[c]? = some vc) :
    (iter_median_3_ comp xs a b c = some a ∧
        (comp va vb = false ∨ comp va vc = false) ∧
        (comp vb va = false ∨ comp vc va = false)) ∨
    (iter_median_3_ comp xs a b c = some b ∧
        (comp vb va = false ∨ comp vb vc = false) ∧
        (comp va vb = false ∨ comp vc vb = false)) ∨
    (iter_median_3_ comp xs a b c = some c ∧
        (comp vc va = false ∨ comp vc vb = false) ∧
        (comp va vc = false ∨ comp vb vc = false)) := by
  simp only [iter_median_3_, ha, hb, hc, Option.bind_eq_bind, Option.some_bind]
  cases hab : comp va vb <;> cases hbc : comp vb vc <;> cases hac : comp va vc <;>
    simp [hasym _ _, hab, hbc, hac]

end algo


/-- A range is its part before `lo`, its part between `lo` and `hi` and its
part from `hi`. -/
theorem take_mid_drop (ys : List α) {lo hi : Nat} (h : lo ≤ hi) :
    ys.take lo ++ (ys.take hi).drop lo ++ ys.drop hi = ys := by
  have h1 : ys.take lo = (ys.take hi).take lo := by
    rw [List.take_take, Nat.min_eq_left h]
  rw [h1, List.take_append_drop, List.take_append_drop]

/-- Two ascending permutations of the two parts of a range split as
`[ not greater | not less ]` make the ascending permutation of the range. -/
theorem two_way_combine {comp : α → α → Bool} (hswo : StrictWeakOrder comp) {pivot : α}
    {ys l u : List α} {b : Nat} (hL : ∀ x ∈ ys.take b, comp pivot x = false)
    (hR : ∀ x ∈ ys.drop b, comp x pivot = false)
    (hl : l.Perm (ys.take b)) (hls : SortedBy comp l)
    (hu : u.Perm (ys.drop b)) (hus : SortedBy comp u) :
    (l ++ u).Perm ys ∧ SortedBy comp (l ++ u) := by
  refine ⟨?_, ?_⟩
  · have : (l ++ u).Perm (ys.take b ++ ys.drop b) := hl.append hu
    rwa [List.take_append_drop] at this
  · refine List.pairwise_append.2 ⟨hls, hus, ?_⟩
    intro x hx y hy
    exact hswo.neg_trans (hL x (hl.subset hx)) (hR y (hu.subset hy))

/-- Two ascending permutations of the outer parts of a range split as
`[ less | equal | greater ]`, with the equal part between them, make the
ascending permutation of the range. -/
theorem three_way_combine {comp : α → α → Bool} (hswo : StrictWeakOrder comp) {pivot : α}
    {ys l g : List α} {lo hi : Nat} (hlohi : lo ≤ hi)
    (hL : ∀ x ∈ ys.take lo, comp x pivot = true)
    (hM : ∀ x ∈ (ys.take hi).drop lo, Equiv comp x pivot)
    (hG : ∀ x ∈ ys.drop hi, comp pivot x = true)
    (hl : l.Perm (ys.take lo)) (hls : SortedBy comp l)
    (hg : g.Perm (ys.drop hi)) (hgs : SortedBy comp g) :
    (l ++ (ys.take hi).drop lo ++ g).Perm ys ∧
      SortedBy comp (l ++ (ys.take hi).drop lo ++ g) := by
  refine ⟨?_, ?_⟩
  · have : (l ++ (ys.take hi).drop lo ++ g).Perm
        (ys.take lo ++ (ys.take hi).drop lo ++ ys.drop hi) :=
      (hl.append_right _).append hg
    rwa [take_mid_drop ys hlohi] at this
  · have hmid : SortedBy comp ((ys.take hi).drop lo) := by
      apply List.pairwise_of_forall_mem_list
      intro x hx y hy
      obtain ⟨hx1, hx2⟩ := hM x hx
      obtain ⟨hy1, hy2⟩ := hM y hy
      exact (hswo.incomp_trans y pivot x hy1 hy2 hx2 hx1).1
    refine List.pairwise_append.2 ⟨List.pairwise_append.2 ⟨hls, hmid, ?_⟩, hgs, ?_⟩
    · intro x hx y hy
      have hxl := hL x (hl.subset hx)
      cases hyx : comp y x with
      | false => rfl
      | true =>
        have := hswo.trans _ _ _ hyx hxl
        rw [(hM y hy).1] at this; exact absurd this (by simp)
    · intro x hx y hy
      have hyg := hG y (hg.subset hy)
      cases hyx : comp y x with
      | false => rfl
      | true =>
        have hpx := hswo.trans _ _ _ hyg hyx
        rcases List.mem_append.1 hx with h | h
        · have := hswo.asymm (hL x (hl.subset h))
          rw [hpx] at this; exact absurd this (by simp)
        · rw [(hM x h).2] at hpx; exact absurd hpx (by simp)

/-- The equal range of a three-way partition around a value of the range is
not empty. -/
theorem equal_range_nonempty {comp : α → α → Bool} {pivot : α}
    (hirr : comp pivot pivot = false) {ys : List α} {lo hi : Nat} (hlohi : lo ≤ hi)
    (hmem : pivot ∈ ys) (hL : ∀ x ∈ ys.take lo, comp x pivot = true)
    (hG : ∀ x ∈ ys.drop hi, comp pivot x = true) :
    lo < hi ∧ lo < ys.length := by
  rw [← take_mid_drop ys hlohi] at hmem
  have hmid : pivot ∈ (ys.take hi).drop lo := by
    rcases List.mem_append.1 hmem with h | h
    · rcases List.mem_append.1 h with h | h
      · have := hL _ h
        rw [hirr] at this; exact absurd this (by simp)
      · exact h
    · have := hG _ h
      rw [hirr] at this; exact absurd this (by simp)
  have hlen : 0 < ((ys.take hi).drop lo).length := List.length_pos_of_mem hmid
  rw [List.length_drop, List.length_take] at hlen
  omega

/-- A range of at most one element is in ascending order. -/
theorem sortedBy_of_length_le_one (comp : α → α → Bool) {xs : List α}
    (h : xs.length ≤ 1) : SortedBy comp xs := by
  match xs, h with
  | [], _ => exact List.Pairwise.nil
  | [x], _ => exact List.pairwise_singleton _ _
  | _ :: _ :: _, h => simp at h

/-- A three-way split of a permutation of `n` copies of the pivot has an empty
less part and an empty greater part. -/
theorem three_way_all_equal {comp : α → α → Bool} {v : α} (hirr : comp v v = false)
    {n : Nat} {ys : List α} {lo hi : Nat} (hperm : ys.Perm (List.replicate n v))
    (hlohi : lo ≤ hi) (hhi : hi ≤ n) (hL : ∀ x ∈ ys.take lo, comp x v = true)
    (hG : ∀ x ∈ ys.drop hi, comp v x = true) :
    lo = 0 ∧ hi = n ∧ ys = List.replicate n v := by
  have hys : ys = List.replicate n v := by
    rw [List.eq_replicate_iff]
    refine ⟨by simpa using hperm.length_eq, ?_⟩
    intro b hb
    exact List.eq_of_mem_replicate (hperm.subset hb)
  subst hys
  refine ⟨?_, ?_, rfl⟩
  · by_contra hc
    have hmem : v ∈ (List.replicate n v).take lo := by
      rw [List.take_replicate]
      exact List.mem_replicate.2 ⟨by omega, rfl⟩
    have := hL v hmem
    rw [hirr] at this; exact absurd this (by simp)
  · by_contra hc
    have hmem : v ∈ (List.replicate n v).drop hi := by
      rw [List.drop_replicate]
      exact List.mem_replicate.2 ⟨by omega, rfl⟩
    have := hG v hmem
    rw [hirr] at this; exact absurd this (by simp)


/-- On a range of at least two elements, `partition_squeeze` around the value
at the midpoint returns a boundary strictly between `first` and `last`. -/
theorem partition_squeeze_midpoint (comp : α → α → Bool) (hswo : StrictWeakOrder comp)
    (xs : List α) (hn : 2 ≤ xs.length) :
    ∃ pv b ys, xs[xs.length / 2]? = some pv ∧
      partition_squeeze comp xs pv = some (b, ys) ∧ 0 < b ∧ b < xs.length ∧
      ys.Perm xs ∧ (∀ x ∈ ys.take b, comp pv x = false) ∧
      (∀ x ∈ ys.drop b, comp x pv = false) := by
  have hmid : xs.length / 2 < xs.length := by omega
  have hpv : xs[xs.length / 2]? = some xs[xs.length / 2] := List.getElem?_eq_getElem hmid
  have hmem : xs[xs.length / 2] ∈ xs := List.getElem_mem hmid
  obtain ⟨b, ys, h, hp, _, hL, hR, _⟩ :=
    partition_squeeze_spec comp (fun _ _ h => hswo.asymm h) xs xs[xs.length / 2]
      ⟨_, hmem, hswo.irrefl _⟩ ⟨_, hmem, hswo.irrefl _⟩
  obtain ⟨hb1, hb2⟩ := partition_squeeze_bounds comp xs _ b ys h
  exact ⟨_, b, ys, hpv, h, hb2 ⟨xs.length / 2, _, by omega, hpv, hswo.irrefl _⟩, hb1, hp,
    hL, hR⟩

/-- The function `qsort_v2` with enough fuel returns the ascending permutation
of every range. -/
theorem qsort_v2_spec (comp : α → α → Bool) (hswo : StrictWeakOrder comp) :
    ∀ (fuel : Nat) (xs : List α), xs.length < fuel →
      ∃ ys c, qsort_v2 comp fuel xs = some (ys, c) ∧ ys.Perm xs ∧ SortedBy comp ys := by
  intro fuel
  induction fuel with
  | zero => intro xs h; omega
  | succ fuel ih =>
    intro xs hfuel
    by_cases h1 : xs.length ≤ 1
    · exact ⟨xs, 0, by simp [qsort_v2, h1], List.Perm.refl _,
        sortedBy_of_length_le_one comp h1⟩
    · obtain ⟨pv, b, ys, hpv, hpart, hb0, hbn, hperm, hL, hR⟩ :=
        partition_squeeze_midpoint comp hswo xs (by omega)
      have hlen := hperm.length_eq
      obtain ⟨l, cl, hl, hlp, hls⟩ := ih (ys.take b) (by rw [List.length_take]; omega)
      obtain ⟨u, cu, hu, hup, hus⟩ := ih (ys.drop b) (by rw [List.length_drop]; omega)
      obtain ⟨hcp, hcs⟩ := two_way_combine hswo hL hR hlp hls hup hus
      refine ⟨l ++ u, 1 + cl + cu, ?_, hcp.trans hperm, hcs⟩
      simp [qsort_v2, h1, hpv, hpart, hl, hu]

/-- The function `qsort_v3` with enough fuel returns the ascending permutation
of every range, whatever `std::partition` does within its contract. -/
theorem qsort_v3_spec {part : (α → Bool) → List α → Nat × List α}
    (hpart : StdPartitionContract part) (comp : α → α → Bool)
    (hswo : StrictWeakOrder comp) :
    ∀ (fuel : Nat) (xs : List α), xs.length < fuel →
      ∃ ys c, qsort_v3 part comp fuel xs = some (ys, c) ∧ ys.Perm xs ∧
        SortedBy comp ys := by
  intro fuel
  induction fuel with
  | zero => intro xs h; omega
  | succ fuel ih =>
    intro xs hfuel
    by_cases h1 : xs.length ≤ 1
    · exact ⟨xs, 0, by simp [qsort_v3, h1], List.Perm.refl _,
        sortedBy_of_length_le_one comp h1⟩
    · have hmid : xs.length / 2 < xs.length := by omega
      have hpv : xs[xs.length / 2]? = some xs[xs.length / 2] :=
        List.getElem?_eq_getElem hmid
      obtain ⟨hperm, _, _, hlohi, hhi, hL, hM, hG⟩ :=
        partition3_forward_spec hpart comp (fun _ _ h => hswo.asymm h) xs
          xs[xs.length / 2]
      generalize heq : partition3_forward part comp xs xs[xs.length / 2] = eq at *
      have hlen := hperm.length_eq
      obtain ⟨hne, _⟩ := equal_range_nonempty (hswo.irrefl _) hlohi
        (hperm.symm.subset (List.getElem_mem hmid)) hL hG
      obtain ⟨l, cl, hl, hlp, hls⟩ := ih (eq.2.2.take eq.1)
        (by rw [List.length_take]; omega)
      obtain ⟨g, cg, hg, hgp, hgs⟩ := ih (eq.2.2.drop eq.2.1)
        (by rw [List.length_drop]; omega)
      obtain ⟨hcp, hcs⟩ := three_way_combine hswo hlohi hL hM hG hlp hls hgp hgs
      refine ⟨l ++ (eq.2.2.take eq.2.1).drop eq.1 ++ g, 1 + cl + cg, ?_,
        hcp.trans hperm, hcs⟩
      simp [qsort_v3, h1, hpv, heq, hl, hg]


/-- The call `std::max` on two valid positions returns one of them. -/
theorem iter_max_spec (comp : α → α → Bool) (xs : List α) (a b : Nat)
    (ha : a < xs.length) (hb : b < xs.length) :
    ∃ m, iter_max comp xs a b = some m ∧ (m = a ∨ m = b) := by
  simp only [iter_max, List.getElem?_eq_getElem ha, List.getElem?_eq_getElem hb,
    Option.bind_eq_bind, Option.some_bind]
  split
  · exact ⟨b, rfl, Or.inr rfl⟩
  · exact ⟨a, rfl, Or.inl rfl⟩

/-- The call `std::min` on two valid positions returns one of them. -/
theorem iter_min_spec (comp : α → α → Bool) (xs : List α) (a b : Nat)
    (ha : a < xs.length) (hb : b < xs.length) :
    ∃ m, iter_min comp xs a b = some m ∧ (m = a ∨ m = b) := by
  simp only [iter_min, List.getElem?_eq_getElem ha, List.getElem?_eq_getElem hb,
    Option.bind_eq_bind, Option.some_bind]
  split
  · exact ⟨b, rfl, Or.inr rfl⟩
  · exact ⟨a, rfl, Or.inl rfl⟩

/-- The call `iter_median_3` on three valid positions returns one of them. -/
theorem iter_median_3_in_range (comp : α → α → Bool) (xs : List α) (a b c : Nat)
    (ha : a < xs.length) (hb : b < xs.length) (hc : c < xs.length) :
    ∃ m, iter_median_3 comp xs a b c = some m ∧ (m = a ∨ m = b ∨ m = c) := by
  simp only [iter_median_3, List.getElem?_eq_getElem hb, List.getElem?_eq_getElem hc,
    Option.bind_eq_bind, Option.some_bind]
  split
  · obtain ⟨m, hm, hcase⟩ := iter_max_spec comp xs a b ha hb
    obtain ⟨m2, hm2, hcase2⟩ := iter_min_spec comp xs m c (by rcases hcase with h | h <;> omega) hc
    refine ⟨m2, by simp [hm, hm2], ?_⟩
    rcases hcase2 with h | h <;> rcases hcase with h' | h' <;> simp [h, h']
  · obtain ⟨m, hm, hcase⟩ := iter_min_spec comp xs a b ha hb
    obtain ⟨m2, hm2, hcase2⟩ := iter_max_spec comp xs m c (by rcases hcase with h | h <;> omega) hc
    refine ⟨m2, by simp [hm, hm2], ?_⟩
    rcases hcase2 with h | h <;> rcases hcase with h' | h' <;> simp [h, h']

/-- The pivot position chosen by `iter_median_9` for a whole non-empty range
with `split` at its midpoint is inside the range. -/
theorem iter_median_9_in_range (comp : α → α → Bool) (xs : List α) (hn : 0 < xs.length) :
    ∃ m, iter_median_9 comp xs 0 (xs.length / 2) xs.length = some m ∧ m < xs.length := by
  unfold iter_median_9
  simp only [Nat.sub_zero, Nat.zero_add]
  by_cases h7 : xs.length ≤ 7
  · rw [if_pos h7]
    exact ⟨_, rfl, by omega⟩
  · rw [if_neg h7]
    by_cases h40 : xs.length ≤ 40
    · rw [if_pos h40]
      obtain ⟨m, hm, hcase⟩ := iter_median_3_in_range comp xs 0 (xs.length / 2) (xs.length - 1)
        hn (by omega) (by omega)
      refine ⟨m, ?_, by omega⟩
      simp [ptr_sub_of_le (show 1 ≤ xs.length by omega), hm]
    · rw [if_neg h40]
      obtain ⟨ma, hma, hca⟩ := iter_median_3_in_range comp xs 0 (xs.length / 8)
        (xs.length / 8 * 2) (by omega) (by omega) (by omega)
      obtain ⟨mb, hmb, hcb⟩ := iter_median_3_in_range comp xs (xs.length / 2 - xs.length / 8)
        (xs.length / 2) (xs.length / 2 + xs.length / 8) (by omega) (by omega) (by omega)
      obtain ⟨mc, hmc, hcc⟩ := iter_median_3_in_range comp xs (xs.length - xs.length / 8 * 2)
        (xs.length - xs.length / 8) (xs.length - 1) (by omega) (by omega) (by omega)
      obtain ⟨m, hm, hcase⟩ := iter_median_3_in_range comp xs ma mb mc (by omega) (by omega)
        (by omega)
      refine ⟨m, ?_, by omega⟩
      simp [hma, ptr_sub_of_le (show xs.length / 8 ≤ xs.length / 2 by omega), hmb,
        ptr_sub_of_le (show xs.length / 8 * 2 ≤ xs.length by omega),
        ptr_sub_of_le (show xs.length / 8 ≤ xs.length by omega),
        ptr_sub_of_le (show 1 ≤ xs.length by omega), hmc, hm]

/-- On a non-empty range `iter_random` draws once and returns a position of the
range. -/
theorem iter_random_spec (rand : Nat → Nat) (k n : Nat) (hn : 0 < n) :
    ∃ p, iter_random rand k 0 n = some (p, k + 1) ∧ p < n := by
  refine ⟨rand k % n, by simp [iter_random, hn], Nat.mod_lt _ hn⟩

/-- The function `qsort_v4` with enough fuel returns the ascending permutation
of every range, whatever `std::partition` does within its contract. -/
theorem qsort_v4_spec {part : (α → Bool) → List α → Nat × List α}
    (hpart : StdPartitionContract part) (comp : α → α → Bool)
    (hswo : StrictWeakOrder comp) :
    ∀ (fuel : Nat) (xs : List α), xs.length < fuel →
      ∃ ys c, qsort_v4 part comp fuel xs = some (ys, c) ∧ ys.Perm xs ∧
        SortedBy comp ys := by
  intro fuel
  induction fuel with
  | zero => intro xs h; omega
  | succ fuel ih =>
    intro xs hfuel
    by_cases h1 : xs.length ≤ 1
    · exact ⟨xs, 0, by simp [qsort_v4, h1], List.Perm.refl _,
        sortedBy_of_length_le_one comp h1⟩
    · have hmid : xs.length / 2 < xs.length := by omega
      have hsub : ptr_sub xs.length 1 = some (xs.length - 1) := ptr_sub_of_le (by omega)
      obtain ⟨m, hm, hcase⟩ := iter_median_3_in_range comp xs 0 (xs.length / 2)
        (xs.length - 1) (by omega) hmid (by omega)
      obtain ⟨xs1, hsw⟩ := iter_swap_of_lt xs (show m < xs.length by omega) hmid
      have hlen1 := iter_swap_length hsw
      have hmid1 : xs.length / 2 < xs1.length := by omega
      have hpv : xs1[xs.length / 2]? = some xs1[xs.length / 2] :=
        List.getElem?_eq_getElem hmid1
      obtain ⟨hperm, _, _, hlohi, hhi, hL, hM, hG⟩ :=
        partition3_forward_spec hpart comp (fun _ _ h => hswo.asymm h) xs1
          xs1[xs.length / 2]
      generalize heq : partition3_forward part comp xs1 xs1[xs.length / 2] = eq at *
      have hlen := hperm.length_eq
      obtain ⟨hne, _⟩ := equal_range_nonempty (hswo.irrefl _) hlohi
        (hperm.symm.subset (List.getElem_mem hmid1)) hL hG
      obtain ⟨l, cl, hl, hlp, hls⟩ := ih (eq.2.2.take eq.1)
        (by rw [List.length_take]; omega)
      obtain ⟨g, cg, hg, hgp, hgs⟩ := ih (eq.2.2.drop eq.2.1)
        (by rw [List.length_drop]; omega)
      obtain ⟨hcp, hcs⟩ := three_way_combine hswo hlohi hL hM hG hlp hls hgp hgs
      refine ⟨l ++ (eq.2.2.take eq.2.1).drop eq.1 ++ g, 1 + cl + cg, ?_,
        hcp.trans (hperm.trans (iter_swap_perm hsw)), hcs⟩
      simp [qsort_v4, h1, hsub, hm, hsw, hpv, heq, hl, hg]

/-- The function `qsort_v5` with enough fuel returns the ascending permutation
of every range, whatever the pseudo-random source returns. -/
theorem qsort_v5_spec (rand : Nat → Nat) (comp : α → α → Bool)
    (hswo : StrictWeakOrder comp) :
    ∀ (fuel k : Nat) (xs : List α), xs.length < fuel →
      ∃ ys c k', qsort_v5 rand comp fuel k xs = some (ys, c, k') ∧ ys.Perm xs ∧
        SortedBy comp ys := by
  intro fuel
  induction fuel with
  | zero => intro k xs h; omega
  | succ fuel ih =>
    intro k xs hfuel
    by_cases h1 : xs.length ≤ 1
    · exact ⟨xs, 0, k, by simp [qsort_v5, h1], List.Perm.refl _,
        sortedBy_of_length_le_one comp h1⟩
    · obtain ⟨p, hp, hpn⟩ := iter_random_spec rand k xs.length (by omega)
      have hpv : xs[p]? = some xs[p] := List.getElem?_eq_getElem hpn
      obtain ⟨lo, hi, ys, hpart, hperm, hlohi, hhi, hL, hM, hG⟩ :=
        partition3_dijkstra_spec comp xs xs[p]
      have hlen := hperm.length_eq
      obtain ⟨hne, _⟩ := equal_range_nonempty (hswo.irrefl _) hlohi
        (hperm.symm.subset (List.getElem_mem hpn)) hL hG
      obtain ⟨l, cl, kl, hl, hlp, hls⟩ := ih (k + 1) (ys.take lo)
        (by rw [List.length_take]; omega)
      obtain ⟨g, cg, kg, hg, hgp, hgs⟩ := ih kl (ys.drop hi)
        (by rw [List.length_drop]; omega)
      obtain ⟨hcp, hcs⟩ := three_way_combine hswo hlohi hL hM hG hlp hls hgp hgs
      refine ⟨l ++ (ys.take hi).drop lo ++ g, 1 + cl + cg, kg, ?_, hcp.trans hperm, hcs⟩
      simp [qsort_v5, h1, hp, hpv, hpart, hl, hg]

/-- The function `qsort_v6` with enough fuel returns the ascending permutation
of every range. -/
theorem qsort_v6_spec (comp : α → α → Bool) (hswo : StrictWeakOrder comp) :
    ∀ (fuel : Nat) (xs : List α), xs.length < fuel →
      ∃ ys c, qsort_v6 comp fuel xs = some (ys, c) ∧ ys.Perm xs ∧ SortedBy comp ys := by
  intro fuel
  induction fuel with
  | zero => intro xs h; omega
  | succ fuel ih =>
    intro xs hfuel
    by_cases h1 : xs.length ≤ 1
    · exact ⟨xs, 0, by simp [qsort_v6, h1], List.Perm.refl _,
        sortedBy_of_length_le_one comp h1⟩
    · obtain ⟨p, hp, hpn⟩ := iter_median_9_in_range comp xs (by omega)
      have hpv : xs[p]? = some xs[p] := List.getElem?_eq_getElem hpn
      have hmem : xs[p] ∈ xs := List.getElem_mem hpn
      obtain ⟨_, lo, hi, ys, _, _, _, hpart, hperm, _, hlohi, hhi, hL, hM, hG⟩ :=
        partition3_bentley_mcilroy_spec comp (fun _ _ h => hswo.asymm h) xs xs[p]
          ⟨_, hmem, hswo.irrefl _⟩ ⟨_, hmem, hswo.irrefl _⟩
      have hlen := hperm.length_eq
      obtain ⟨hne, _⟩ := equal_range_nonempty (hswo.irrefl _) hlohi
        (hperm.symm.subset hmem) hL hG
      obtain ⟨l, cl, hl, hlp, hls⟩ := ih (ys.take lo) (by rw [List.length_take]; omega)
      obtain ⟨g, cg, hg, hgp, hgs⟩ := ih (ys.drop hi) (by rw [List.length_drop]; omega)
      obtain ⟨hcp, hcs⟩ := three_way_combine hswo hlohi hL hM hG hlp hls hgp hgs
      refine ⟨l ++ (ys.take hi).drop lo ++ g, 1 + cl + cg, ?_, hcp.trans hperm, hcs⟩
      simp [qsort_v6, h1, hp, hpv, hpart, hl, hg]


theorem mem_take_of_getElem? {a : List α} {k b : Nat} {x : α} (h : a[k]? = some x)
    (hk : k < b) : x ∈ a.take b :=
  List.mem_iff_getElem?.2 ⟨k, by rw [List.getElem?_take, if_pos hk, h]⟩

theorem mem_drop_of_getElem? {a : List α} {k b : Nat} {x : α} (h : a[k]? = some x)
    (hk : b ≤ k) : x ∈ a.drop b :=
  List.mem_iff_getElem?.2 ⟨k - b, by
    rw [List.getElem?_drop, show b + (k - b) = k by omega, h]⟩

/-- A range is its part before a position, the value at the position and its
part after the position. -/
theorem take_cons_drop {a : List α} {k : Nat} {x : α} (h : a[k]? = some x) :
    a = a.take k ++ x :: a.drop (k + 1) := by
  have hlt := getElem?_lt h
  have hx : a[k] = x := by
    rw [List.getElem?_eq_getElem hlt] at h; exact Option.some.inj h
  rw [← hx, ← List.drop_eq_getElem_cons hlt, List.take_append_drop]

/-- One step of `qsort_v1` on a range of at least two elements: the pivot ends
at the boundary, with the values less than it before and the others after. -/
theorem qsort_v1_step {part : (α → Bool) → List α → Nat × List α}
    (hpart : StdPartitionContract part) (comp : α → α → Bool) (xs : List α)
    (hn : 2 ≤ xs.length) :
    ∃ xs1 pv xs3, iter_swap xs (xs.length / 2) (xs.length - 1) = some xs1 ∧
      xs1[xs.length - 1]? = some pv ∧
      iter_swap ((part (fun x => comp x pv) (xs1.take (xs.length - 1))).2 ++
          xs1.drop (xs.length - 1))
        (part (fun x => comp x pv) (xs1.take (xs.length - 1))).1 (xs.length - 1) =
        some xs3 ∧
      xs3[(part (fun x => comp x pv) (xs1.take (xs.length - 1))).1]? = some pv ∧
      (part (fun x => comp x pv) (xs1.take (xs.length - 1))).1 < xs.length ∧
      xs3.Perm xs ∧
      (∀ x ∈ xs3.take (part (fun x => comp x pv) (xs1.take (xs.length - 1))).1,
        comp x pv = true) ∧
      (∀ x ∈ xs3.drop ((part (fun x => comp x pv) (xs1.take (xs.length - 1))).1 + 1),
        comp x pv = false) := by
  obtain ⟨xs1, hsw1⟩ := iter_swap_of_lt xs (show xs.length / 2 < xs.length by omega)
    (show xs.length - 1 < xs.length by omega)
  have hlen1 := iter_swap_length hsw1
  have hlast : xs.length - 1 < xs1.length := by omega
  have hpv : xs1[xs.length - 1]? = some xs1[xs.length - 1] :=
    List.getElem?_eq_getElem hlast
  obtain ⟨hp, hb, hL, hR⟩ := hpart (fun x => comp x xs1[xs.length - 1])
    (xs1.take (xs.length - 1))
  generalize hr : part (fun x => comp x xs1[xs.length - 1]) (xs1.take (xs.length - 1)) = r
    at hp hb hL hR
  have htl : (xs1.take (xs.length - 1)).length = xs.length - 1 := by
    rw [List.length_take]; omega
  have hrl : r.2.length = xs.length - 1 := by rw [hp.length_eq, htl]
  rw [htl] at hb
  have hdrop : xs1.drop (xs.length - 1) = [xs1[xs.length - 1]] := by
    rw [List.drop_eq_getElem_cons hlast, List.drop_of_length_le (by omega)]
  have hlen2 : (r.2 ++ xs1.drop (xs.length - 1)).length = xs.length := by
    rw [List.length_append, hrl, hdrop]; simp; omega
  have hget2 : ∀ k, (r.2 ++ xs1.drop (xs.length - 1))[k]? =
      if k < xs.length - 1 then r.2[k]?
      else if k = xs.length - 1 then some xs1[xs.length - 1] else none := by
    intro k
    rw [List.getElem?_append, hrl, hdrop]
    split
    · rfl
    · split
      · next h => simp [h]
      · next h1 h2 =>
        rw [List.getElem?_eq_none (by simp; omega)]
  obtain ⟨xs3, hsw3⟩ := iter_swap_of_lt (r.2 ++ xs1.drop (xs.length - 1))
    (show r.1 < (r.2 ++ xs1.drop (xs.length - 1)).length by omega)
    (show xs.length - 1 < (r.2 ++ xs1.drop (xs.length - 1)).length by omega)
  have hget3 := iter_swap_getElem? hsw3
  have hperm2 : (r.2 ++ xs1.drop (xs.length - 1)).Perm xs1 := by
    have := hp.append_right (xs1.drop (xs.length - 1))
    rwa [List.take_append_drop] at this
  refine ⟨xs1, xs1[xs.length - 1], xs3, hsw1, hpv, ?_, ?_, ?_,
    (iter_swap_perm hsw3).trans (hperm2.trans (iter_swap_perm hsw1)), ?_, ?_⟩
  all_goals rw [hr]
  · exact hsw3
  · rw [hget3]
    by_cases h : r.1 = xs.length - 1
    · rw [if_pos h, h, hget2, if_neg (by omega), if_pos rfl]
    · rw [if_neg h, if_pos rfl, hget2, if_neg (by omega), if_pos rfl]
  · omega
  · apply forall_mem_take_of_index
    intro k x hk hkx
    rw [hget3, if_neg (by omega), if_neg (by omega), hget2, if_pos (by omega)] at hkx
    exact hL x (mem_take_of_getElem? hkx hk)
  · apply forall_mem_drop_of_index
    intro k x hk hkx
    have hklt : k < xs.length := by
      have := getElem?_lt hkx
      rw [iter_swap_length hsw3, hlen2] at this; exact this
    rw [hget3] at hkx
    by_cases hkl : k = xs.length - 1
    · rw [if_pos hkl, hget2, if_pos (by omega)] at hkx
      exact hR x (mem_drop_of_getElem? hkx (le_refl _))
    · rw [if_neg hkl, if_neg (by omega), hget2, if_pos (by omega)] at hkx
      exact hR x (mem_drop_of_getElem? hkx (by omega))

/-- The function `qsort_v1` with enough fuel returns the ascending permutation
of every range, whatever `std::partition` does within its contract. -/
theorem qsort_v1_spec {part : (α → Bool) → List α → Nat × List α}
    (hpart : StdPartitionContract part) (comp : α → α → Bool)
    (hswo : StrictWeakOrder comp) :
    ∀ (fuel : Nat) (xs : List α), xs.length < fuel →
      ∃ ys c, qsort_v1 part comp fuel xs = some (ys, c) ∧ ys.Perm xs ∧
        SortedBy comp ys := by
  intro fuel
  induction fuel with
  | zero => intro xs h; omega
  | succ fuel ih =>
    intro xs hfuel
    by_cases h1 : xs.length ≤ 1
    · exact ⟨xs, 0, by simp [qsort_v1, h1], List.Perm.refl _,
        sortedBy_of_length_le_one comp h1⟩
    · obtain ⟨xs1, pv, xs3, hsw1, hpv, hsw3, hp3, hlow, hperm, hL, hR⟩ :=
        qsort_v1_step hpart comp xs (by omega)
      generalize hr : part (fun x => comp x pv) (xs1.take (xs.length - 1)) = r at *
      have hlen := hperm.length_eq
      have hsub : ptr_sub xs.length 1 = some (xs.length - 1) := ptr_sub_of_le (by omega)
      obtain ⟨l, cl, hl, hlp, hls⟩ := ih (xs3.take r.1) (by rw [List.length_take]; omega)
      obtain ⟨u, cu, hu, hup, hus⟩ := ih (xs3.drop (r.1 + 1))
        (by rw [List.length_drop]; omega)
      refine ⟨l ++ pv :: u, 1 + cl + cu, ?_, ?_, ?_⟩
      · simp [qsort_v1, h1, hsub, hsw1, hpv, hr, hsw3, hp3, hl, hu]
      · have h3 := take_cons_drop hp3
        have : (l ++ pv :: u).Perm (xs3.take r.1 ++ pv :: xs3.drop (r.1 + 1)) :=
          hlp.append (hup.cons pv)
        rw [← h3] at this
        exact this.trans hperm
      · refine List.pairwise_append.2 ⟨hls, List.Pairwise.cons ?_ hus, ?_⟩
        · intro y hy
          exact hR y (hup.subset hy)
        · intro x hx y hy
          have hxl := hL x (hlp.subset hx)
          rcases List.mem_cons.1 hy with h | h
          · rw [h]; exact hswo.asymm hxl
          · exact hswo.neg_trans (hswo.asymm hxl) (hR y (hup.subset h))


/-- In an ascending range no value at a later position precedes the value at an
earlier position. -/
theorem sortedBy_getElem? {comp : α → α → Bool} {xs : List α} (h : SortedBy comp xs)
    {i j : Nat} {x y : α} (hij : i < j) (hx : xs[i]? = some x) (hy : xs[j]? = some y) :
    comp y x = false := by
  obtain ⟨hi, rfl⟩ := List.getElem?_eq_some_iff.1 hx
  obtain ⟨hj, rfl⟩ := List.getElem?_eq_some_iff.1 hy
  exact List.pairwise_iff_getElem.1 h i j hi hj hij

theorem sorted_perm_not_lt_at {comp : α → α → Bool} (hswo : StrictWeakOrder comp)
    {xs ys : List α} (hxs : SortedBy comp xs) (hys : SortedBy comp ys)
    (hperm : ys.Perm xs) {i : Nat} {x y : α} (hx : xs[i]? = some x)
    (hy : ys[i]? = some y) : comp x y = false := by
  cases hxy : comp x y with
  | false => rfl
  | true =>
    exfalso
    have hi := getElem?_lt hx
    have h1 : ys.countP (fun z => comp z y) ≤ i := by
      have hsplit : ys.countP (fun z => comp z y) =
          (ys.take i).countP (fun z => comp z y) + (ys.drop i).countP (fun z => comp z y) := by
        rw [← List.countP_append, List.take_append_drop]
      have hd : (ys.drop i).countP (fun z => comp z y) = 0 := by
        rw [List.countP_eq_zero]
        intro z hz
        obtain ⟨k, hk⟩ := List.mem_iff_getElem?.1 hz
        rw [List.getElem?_drop] at hk
        by_cases hk0 : k = 0
        · subst hk0
          rw [Nat.add_zero, hy] at hk
          rw [← Option.some.inj hk]; simp [hswo.irrefl]
        · simp [sortedBy_getElem? hys (show i < i + k by omega) hy hk]
      have ht : (ys.take i).countP (fun z => comp z y) ≤ i :=
        (List.countP_le_length _).trans (by rw [List.length_take]; omega)
      omega
    have h2 : i + 1 ≤ xs.countP (fun z => comp z y) := by
      have hsplit : xs.countP (fun z => comp z y) =
          (xs.take (i + 1)).countP (fun z => comp z y) +
            (xs.drop (i + 1)).countP (fun z => comp z y) := by
        rw [← List.countP_append, List.take_append_drop]
      have ht : (xs.take (i + 1)).countP (fun z => comp z y) = (xs.take (i + 1)).length := by
        rw [List.countP_eq_length]
        intro z hz
        obtain ⟨k, hk⟩ := List.mem_iff_getElem?.1 hz
        rw [List.getElem?_take] at hk
        split at hk
        · next hki =>
          by_cases hke : k = i
          · subst hke
            rw [hx] at hk
            rw [← Option.some.inj hk]; exact hxy
          · have hxz := sortedBy_getElem? hxs (show k < i by omega) hk hx
            cases hzy : comp z y with
            | true => rfl
            | false =>
              have := hswo.neg_trans hzy hxz
              rw [hxy] at this; exact absurd this (by simp)
        · simp at hk
      rw [List.length_take] at ht
      omega
    have h3 := hperm.countP_eq (fun z => comp z y)
    omega

/-- Two ascending permutations of the same values hold equivalent values at
every position. -/
theorem sorted_perm_equiv_at {comp : α → α → Bool} (hswo : StrictWeakOrder comp)
    {xs ys : List α} (hxs : SortedBy comp xs) (hys : SortedBy comp ys)
    (hperm : ys.Perm xs) {i : Nat} {x y : α} (hx : xs[i]? = some x)
    (hy : ys[i]? = some y) : Equiv comp x y :=
  ⟨sorted_perm_not_lt_at hswo hxs hys hperm hx hy,
    sorted_perm_not_lt_at hswo hys hxs hperm.symm hy hx⟩

/-- Two ascending permutations of the same values are equal when equivalent
values are equal. -/
theorem sorted_perm_unique {comp : α → α → Bool} (hswo : StrictWeakOrder comp)
    (htotal : ∀ x y, Equiv comp x y → x = y) {xs ys : List α} (hxs : SortedBy comp xs)
    (hys : SortedBy comp ys) (hperm : ys.Perm xs) : ys = xs := by
  apply List.ext_getElem?
  intro i
  by_cases hi : i < xs.length
  · have hi' : i < ys.length := by rw [hperm.length_eq]; exact hi
    rw [List.getElem?_eq_getElem hi, List.getElem?_eq_getElem hi']
    congr 1
    exact (htotal _ _ (sorted_perm_equiv_at hswo hxs hys hperm
      (List.getElem?_eq_getElem hi) (List.getElem?_eq_getElem hi'))).symm
  · have hl := hperm.length_eq
    rw [List.getElem?_eq_none (by omega), List.getElem?_eq_none (by omega)]

/-- The comparator on keys is a strict weak order. -/
theorem key_less_swo : StrictWeakOrder key_less := by
  refine ⟨?_, ?_, ?_⟩
  · intro a; simp [key_less]
  · intro a b c h1 h2
    simp only [key_less, decide_eq_true_eq] at *
    omega
  · intro a b c h1 h2 h3 h4
    simp only [key_less, decide_eq_false_iff_not] at *
    omega

/-- The stable sort by key meets the contract of a standard sort. -/
theorem ref_sort_by_key_contract : StdSortContract key_less ref_sort_by_key := by
  intro xs
  refine ⟨List.perm_insertionSort _ xs, ?_⟩
  have h : List.Sorted (fun a b : Int × Nat => a.1 ≤ b.1)
      (List.insertionSort (fun a b : Int × Nat => a.1 ≤ b.1) xs) := by
    haveI : IsTotal (Int × Nat) (fun a b => a.1 ≤ b.1) := ⟨fun a b => le_total a.1 b.1⟩
    haveI : IsTrans (Int × Nat) (fun a b => a.1 ≤ b.1) :=
      ⟨fun a b c h1 h2 => le_trans h1 h2⟩
    exact List.sorted_insertionSort _ xs
  exact h.imp (fun hab => by simpa [key_less] using hab)


/-- The Sawtooth base sequence is `i mod m` at every index. -/
theorem generate_base_sawtooth (n m : Nat) :
    generate_base Sawtooth.generate n m = (List.range n).map (fun (i : Nat) => ((i % m : Nat) : Int)) := by
  unfold generate_base Sawtooth.generate
  apply List.map_congr_left
  intro i _
  exact (Int.ofNat_tmod i m).symm

theorem flatMap_replicate_succ_perm (k : Nat) (l : List Nat) :
    (l.flatMap (fun v => List.replicate (k + 1) (v : Int))).Perm
      (l.map (fun (v : Nat) => (v : Int)) ++ l.flatMap (fun v => List.replicate k (v : Int))) := by
  induction l with
  | nil => simp
  | cons a t ih =>
    simp only [List.flatMap_cons, List.map_cons, List.replicate_succ, List.cons_append]
    refine List.Perm.cons _ ?_
    exact (List.Perm.append_left _ ih).trans (List.perm_append_comm_assoc _ _ _)

/-- The Sawtooth sequence of length `m * k` is a permutation of the blocks. -/
theorem sawtooth_perm_blocks (m k : Nat) :
    (value_blocks m k).Perm (generate_base Sawtooth.generate (m * k) m) := by
  rw [generate_base_sawtooth]
  induction k with
  | zero => simp [value_blocks]
  | succ k ih =>
    have hstep : (List.range (m * (k + 1))).map (fun (i : Nat) => ((i % m : Nat) : Int)) =
        (List.range (m * k)).map (fun (i : Nat) => ((i % m : Nat) : Int)) ++
          (List.range m).map (fun (v : Nat) => (v : Int)) := by
      rw [Nat.mul_succ, List.range_add, List.map_append, List.map_map]
      congr 1
      apply List.map_congr_left
      intro j hj
      have hjm : j < m := List.mem_range.1 hj
      simp only [Function.comp_apply, Nat.mul_add_mod, Nat.mod_eq_of_lt hjm]
    rw [hstep]
    unfold value_blocks at ih ⊢
    exact (flatMap_replicate_succ_perm k (List.range m)).trans
      (List.perm_append_comm.trans (List.Perm.append_right _ ih))

theorem flatMap_replicate_sorted (k : Nat) (l : List Nat)
    (h : l.Sorted (fun a b => a < b)) :
    (l.flatMap (fun v => List.replicate k (v : Int))).Sorted (fun a b => a ≤ b) := by
  induction l with
  | nil => simp
  | cons a t ih =>
    obtain ⟨ha, ht⟩ := List.pairwise_cons.1 h
    simp only [List.flatMap_cons]
    refine List.pairwise_append.2 ⟨?_, ih ht, ?_⟩
    · apply List.pairwise_of_forall_mem_list
      intro x hx y hy
      rw [List.eq_of_mem_replicate hx, List.eq_of_mem_replicate hy]
    · intro x hx y hy
      rw [List.eq_of_mem_replicate hx]
      obtain ⟨b, hb, hyb⟩ := List.mem_flatMap.1 hy
      rw [List.eq_of_mem_replicate hyb]
      exact_mod_cast (ha b hb).le

/-- The blocks are in ascending order. -/
theorem value_blocks_sorted (m k : Nat) : SortedBy int_less (value_blocks m k) :=
  (sortedBy_int_less_iff _).2 (flatMap_replicate_sorted k _ (List.sorted_lt_range m))


namespace algo

/-- The function `iter_median_` selects what the specification words say, on
every non-empty range whose `split - d` is a position. -/
theorem iter_median_eq_spec (comp : α → α → Bool) (xs : List α) (first split last : Nat)
    (hne : first < last) (hsd : 80 < last - first → (last - first) / 8 ≤ split) :
    iter_median_ comp xs first split last =
      median_of_medians_spec comp xs first split last := by
  unfold iter_median_ median_of_medians_spec
  by_cases h80 : last - first ≤ 80
  · simp [h80, ptr_sub_of_le (show 1 ≤ last by omega)]
  · simp only [h80, if_false, ptr_sub_of_le (hsd (by omega)),
      ptr_sub_of_le (show (last - first) / 8 * 2 ≤ last by omega),
      ptr_sub_of_le (show (last - first) / 8 ≤ last by omega),
      ptr_sub_of_le (show 1 ≤ last by omega), Option.bind_eq_bind, Option.some_bind]
    rw [Nat.mul_comm ((last - first) / 8) 2]
    cases iter_median_3_ comp xs first (first + (last - first) / 8)
        (first + 2 * ((last - first) / 8)) with
    | none => rfl
    | some a =>
      cases iter_median_3_ comp xs (split - (last - first) / 8) split
          (split + (last - first) / 8) with
      | none => rfl
      | some b =>
        cases iter_median_3_ comp xs (last - 2 * ((last - first) / 8))
            (last - (last - first) / 8) (last - 1) with
        | none => rfl
        | some c => rfl

end algo

/-- The three-way partitions leave a range of copies of the pivot unchanged and
return the whole range as the equal range. -/
theorem partition3_all_equal {part : (α → Bool) → List α → Nat × List α}
    (hpart : StdPartitionContract part) (comp : α → α → Bool)
    (hswo : StrictWeakOrder comp) (v : α) (n : Nat) (hn : 1 ≤ n) :
    partition3_forward part comp (List.replicate n v) v = (0, n, List.replicate n v) ∧
    partition3_dijkstra comp (List.replicate n v) v = some (0, n, List.replicate n v) ∧
    partition3_bentley_mcilroy comp (List.replicate n v) v =
      some (0, n, List.replicate n v) := by
  have hirr := hswo.irrefl v
  have hmem : v ∈ List.replicate n v := List.mem_replicate.2 ⟨by omega, rfl⟩
  refine ⟨?_, ?_, ?_⟩
  · obtain ⟨hperm, _, _, hlohi, hhi, hL, _, hG⟩ :=
      partition3_forward_spec hpart comp (fun _ _ h => hswo.asymm h) (List.replicate n v) v
    rw [List.length_replicate] at hhi
    obtain ⟨h1, h2, h3⟩ := three_way_all_equal hirr hperm hlohi hhi hL hG
    exact Prod.ext h1 (Prod.ext h2 h3)
  · obtain ⟨lo, hi, ys, h, hperm, hlohi, hhi, hL, _, hG⟩ :=
      partition3_dijkstra_spec comp (List.replicate n v) v
    rw [List.length_replicate] at hhi
    obtain ⟨h1, h2, h3⟩ := three_way_all_equal hirr hperm hlohi hhi hL hG
    rw [h, h1, h2, h3]
  · obtain ⟨_, lo, hi, ys, _, _, _, h, hperm, _, hlohi, hhi, hL, _, hG⟩ :=
      partition3_bentley_mcilroy_spec comp (fun _ _ h => hswo.asymm h)
        (List.replicate n v) v ⟨v, hmem, hirr⟩ ⟨v, hmem, hirr⟩
    rw [List.length_replicate] at hhi
    obtain ⟨h1, h2, h3⟩ := three_way_all_equal hirr hperm hlohi hhi hL hG
    rw [h, h1, h2, h3]

/-- On at least two copies of one value, `qsort_v3`, `qsort_v4`, `qsort_v5` and
`qsort_v6` call their partition once and return the range unchanged. -/
theorem qsort_all_equal {part : (α → Bool) → List α → Nat × List α}
    (hpart : StdPartitionContract part) (comp : α → α → Bool)
    (hswo : StrictWeakOrder comp) (v : α) (n : Nat) (hn : 2 ≤ n) (fuel : Nat)
    (hfuel : 2 ≤ fuel) :
    qsort_v3 part comp fuel (List.replicate n v) = some (List.replicate n v, 1) ∧
    qsort_v4 part comp fuel (List.replicate n v) = some (List.replicate n v, 1) ∧
    (∀ (rand : Nat → Nat) (k : Nat),
      qsort_v5 rand comp fuel k (List.replicate n v) =
        some (List.replicate n v, 1, k + 1)) ∧
    qsort_v6 comp fuel (List.replicate n v) = some (List.replicate n v, 1) := by
  obtain ⟨f, rfl⟩ : ∃ f, fuel = f + 2 := ⟨fuel - 2, by omega⟩
  obtain ⟨hfw, hdj, hbm⟩ := partition3_all_equal hpart comp hswo v n (by omega)
  have hlen : (List.replicate n v).length = n := List.length_replicate _ _
  have h1 : ¬ n ≤ 1 := by omega
  have hget : ∀ p, p < n → (List.replicate n v)[p]? = some v := by
    intro p hp
    rw [List.getElem?_eq_getElem (by rw [hlen]; exact hp), List.getElem_replicate]
  refine ⟨?_, ?_, ?_, ?_⟩
  · have hnil : qsort_v3 part comp (f + 1) ([] : List α) = some ([], 0) := by
      simp [qsort_v3]
    rw [qsort_v3]
    simp only [hlen, h1, if_false, hget (n / 2) (by omega), hfw, Option.bind_eq_bind,
      Option.some_bind, List.take_zero, hnil]
    simp [hnil]
  · obtain ⟨m, hm, hcase⟩ := iter_median_3_in_range comp (List.replicate n v) 0 (n / 2)
      (n - 1) (by rw [hlen]; omega) (by rw [hlen]; omega) (by rw [hlen]; omega)
    obtain ⟨xs1, hsw⟩ := iter_swap_of_lt (List.replicate n v)
      (show m < (List.replicate n v).length by rw [hlen]; omega)
      (show n / 2 < (List.replicate n v).length by rw [hlen]; omega)
    have hxs1 : xs1 = List.replicate n v := List.perm_replicate.1 (iter_swap_perm hsw)
    subst hxs1
    have hnil : qsort_v4 part comp (f + 1) ([] : List α) = some ([], 0) := by
      simp [qsort_v4]
    rw [qsort_v4]
    simp only [hlen, h1, if_false, ptr_sub_of_le (show 1 ≤ n by omega), hm, hsw,
      hget (n / 2) (by omega), hfw, Option.bind_eq_bind, Option.some_bind,
      List.take_zero, hnil]
    simp [hnil]
  · intro rand k
    obtain ⟨p, hp, hpn⟩ := iter_random_spec rand k n (by omega)
    have hnil : ∀ k', qsort_v5 rand comp (f + 1) k' ([] : List α) = some ([], 0, k') := by
      intro k'; simp [qsort_v5]
    rw [qsort_v5]
    simp only [hlen, h1, if_false, hp, hget p hpn, hdj, Option.bind_eq_bind,
      Option.some_bind, List.take_zero, hnil]
    simp [hnil]
  · obtain ⟨p, hp, hpn⟩ := iter_median_9_in_range comp (List.replicate n v)
      (by rw [hlen]; omega)
    rw [hlen] at hp hpn
    have hnil : qsort_v6 comp (f + 1) ([] : List α) = some ([], 0) := by
      simp [qsort_v6]
    rw [qsort_v6]
    simp only [hlen, h1, if_false, hp, hget p hpn, hbm, Option.bind_eq_bind,
      Option.some_bind, List.take_zero, hnil]
    simp [hnil]

theorem int_wrap_of_range {x : Int} (h0 : -2147483648 ≤ x) (h1 : x < 2147483648) :
    int_wrap x = x := by
  unfold int_wrap
  omega

theorem stagger_injective {n m : Nat} (hcop : Nat.Coprime m n) {i j : Nat} (hi : i < n)
    (hj : j < n) (h : (i * m + 1) % n = (j * m + 1) % n) : i = j := by
  have h1 : i * m + 1 ≡ j * m + 1 [MOD n] := h
  have h2 : i * m ≡ j * m [MOD n] := Nat.ModEq.add_right_cancel' 1 h1
  have h3 : i ≡ j [MOD n] := Nat.ModEq.cancel_right_of_coprime (Nat.coprime_comm.mp hcop) h2
  exact Nat.ModEq.eq_of_lt_of_lt h3 hi hj

theorem stagger_perm_range (n m : Nat) (hn : 1 ≤ n) (hcop : Nat.Coprime m n) :
    ((List.range n).map (fun (i : Nat) => (i * m + 1) % n)).Perm (List.range n) := by
  have hnd : ((List.range n).map (fun (i : Nat) => (i * m + 1) % n)).Nodup := by
    refine (List.nodup_map_iff_inj_on (List.nodup_range n)).mpr ?_
    intro i hi j hj h
    exact stagger_injective hcop (List.mem_range.mp hi) (List.mem_range.mp hj) h
  have hsub : (List.range n).map (fun (i : Nat) => (i * m + 1) % n) ⊆ List.range n := by
    intro x hx
    obtain ⟨i, _, rfl⟩ := List.mem_map.mp hx
    exact List.mem_range.mpr (Nat.mod_lt _ (by omega))
  exact (List.subperm_of_subset hnd hsub).perm_of_length_le (by simp)

theorem range_cast_sorted (n : Nat) :
    SortedBy int_less ((List.range n).map (fun (i : Nat) => (i : Int))) := by
  unfold SortedBy
  rw [List.pairwise_map]
  refine (List.pairwise_lt_range n).imp ?_
  intro a b hab
  simp only [int_less, decide_eq_false_iff_not, not_lt]
  exact_mod_cast hab.le

theorem generate_base_stagger (n m : Nat) (hexact : (n - 1) * m + 1 < 2147483648) :
    generate_base Stagger.generate n m =
      (List.range n).map (fun (i : Nat) => (((i * m + 1) % n : Nat) : Int)) := by
  unfold generate_base
  refine List.map_congr_left ?_
  intro i hi
  have hin : i < n := List.mem_range.mp hi
  have him : i * m ≤ (n - 1) * m := Nat.mul_le_mul_right m (by omega)
  have h0 : (0 : Int) ≤ (i : Int) * (m : Int) := by positivity
  have h1 : (i : Int) * (m : Int) + 1 < 2147483648 := by
    have : i * m + 1 < 2147483648 := by omega
    exact_mod_cast this
  unfold Stagger.generate
  have hw : int_wrap ((i : Int) * (m : Int)) = (i : Int) * (m : Int) :=
    int_wrap_of_range (by omega) (by omega)
  rw [hw, int_wrap_of_range (by omega) h1, Int.tmod_eq_emod (by omega) (Int.ofNat_nonneg n)]
  push_cast
  rfl

theorem plateau_sorted (n m : Nat) :
    SortedBy int_less (generate_base Plateau.generate n m) := by
  unfold SortedBy generate_base
  rw [List.pairwise_map]
  refine (List.pairwise_lt_range n).imp ?_
  intro a b hab
  simp only [Plateau.generate, int_less, decide_eq_false_iff_not, not_lt]
  have : (a : Int) < (b : Int) := by exact_mod_cast hab
  split <;> split <;> omega

theorem shuffle_loop_length (n m : Int) : ∀ (draws : List Int) (i : Int) (s : Shuffle),
    (Shuffle.generate_loop n m draws i s).1.length = draws.length := by
  intro draws
  induction draws with
  | nil => intro i s; rfl
  | cons r ds ih => intro i s; simp [Shuffle.generate_loop, ih]

theorem shuffle_loop_getElem? (n m : Int) : ∀ (draws : List Int) (i : Int) (s : Shuffle),
    0 ≤ s.j → 0 ≤ s.k → s.j + 2 * (draws.length : Int) < 2147483648 →
    s.k + 2 * (draws.length : Int) < 2147483648 →
    ∀ (t : Nat) (r : Int), draws[t]? = some r →
      (Shuffle.generate_loop n m draws i s).1[t]? =
        some (if Int.tmod r m ≠ 0 then
            s.j + 2 * ((draws.take (t + 1)).countP (fun x => decide (Int.tmod x m ≠ 0)) : Nat)
          else
            s.k + 2 * ((draws.take (t + 1)).countP (fun x => decide (Int.tmod x m = 0)) : Nat))
    := by
  intro draws
  induction draws with
  | nil => intro i s _ _ _ _ t r h; simp at h
  | cons d ds ih =>
    intro i s hj hk hjb hkb t r h
    simp only [List.length_cons, Nat.cast_add, Nat.cast_one] at hjb hkb
    cases t with
    | zero =>
      simp only [List.getElem?_cons_zero, Option.some.injEq] at h
      subst h
      by_cases hd : Int.tmod d m = 0
      · simp [Shuffle.generate_loop, Shuffle.generate, hd,
          int_wrap_of_range (x := s.k + 2) (by omega) (by omega)]
      · simp [Shuffle.generate_loop, Shuffle.generate, hd,
          int_wrap_of_range (x := s.j + 2) (by omega) (by omega)]
    | succ t =>
      simp only [List.getElem?_cons_succ] at h
      by_cases hd : Int.tmod d m = 0
      · have hw := int_wrap_of_range (x := s.k + 2) (by omega) (by omega)
        have := ih (i + 1) { s with k := s.k + 2 } hj (by simp; omega)
          (by simp; omega) (by simp; omega) t r h
        simp only [Shuffle.generate_loop, Shuffle.generate, hd, ne_eq, not_true_eq_false,
          if_false, hw, List.getElem?_cons_succ, this, List.take_succ_cons,
          List.countP_cons, decide_False, decide_True, if_true]
        congr 1
        split <;> first | (simp; ring) | simp
      · have hw := int_wrap_of_range (x := s.j + 2) (by omega) (by omega)
        have := ih (i + 1) { s with j := s.j + 2 } (by simp; omega) hk (by simp; omega)
          (by simp; omega) t r h
        simp only [Shuffle.generate_loop, Shuffle.generate, hd, ne_eq, not_false_eq_true,
          if_true, hw, List.getElem?_cons_succ, this, List.take_succ_cons,
          List.countP_cons, decide_False, decide_True, if_false]
        congr 1
        split <;> first | (simp; ring) | simp

theorem shuffle_loop_values (n m : Int) : ∀ (draws : List Int) (i : Int) (s : Shuffle),
    0 ≤ s.j → 0 ≤ s.k → s.j % 2 = 0 → s.k % 2 = 1 →
    s.j + 2 * (draws.length : Int) < 2147483648 →
    s.k + 2 * (draws.length : Int) < 2147483648 →
    (∀ v ∈ (Shuffle.generate_loop n m draws i s).1,
      (v % 2 = 0 ∧ s.j < v) ∨ (v % 2 = 1 ∧ s.k < v)) ∧
    (Shuffle.generate_loop n m draws i s).1.Pairwise (fun a b => a ≠ b) ∧
    ((Shuffle.generate_loop n m draws i s).1.filter (fun v => decide (v % 2 = 0))).Pairwise
      (fun a b => a < b) ∧
    ((Shuffle.generate_loop n m draws i s).1.filter (fun v => decide (v % 2 = 1))).Pairwise
      (fun a b => a < b) := by
  intro draws
  induction draws with
  | nil =>
    intro i s _ _ _ _ _ _
    simp [Shuffle.generate_loop]
  | cons d ds ih =>
    intro i s hj hk hje hko hjb hkb
    simp only [List.length_cons, Nat.cast_add, Nat.cast_one] at hjb hkb
    by_cases hd : Int.tmod d m = 0
    · have hw := int_wrap_of_range (x := s.k + 2) (by omega) (by omega)
      obtain ⟨h1, h2, h3, h4⟩ := ih (i + 1) { s with k := s.k + 2 } hj
        (by simp; omega) hje (by simp; omega) (by simp; omega) (by simp; omega)
      simp only at h1
      have hodd : decide ((s.k + 2) % 2 = 1) = true := by simp; omega
      have hev : decide ((s.k + 2) % 2 = 0) = false := by simp; omega
      simp only [Shuffle.generate_loop, Shuffle.generate, hd, ne_eq, not_true_eq_false,
        if_false, hw]
      refine ⟨?_, ?_, ?_, ?_⟩
      · intro v hv
        rcases List.mem_cons.mp hv with rfl | hv
        · right; omega
        · rcases h1 v hv with h | h
          · left; exact h
          · right; omega
      · refine List.pairwise_cons.mpr ⟨?_, h2⟩
        intro v hv
        rcases h1 v hv with h | h <;> omega
      · simp only [List.filter_cons, hev, Bool.false_eq_true, if_false]
        exact h3
      · simp only [List.filter_cons, hodd, if_true]
        refine List.pairwise_cons.mpr ⟨?_, h4⟩
        intro v hv
        obtain ⟨hv1, hv2⟩ := List.mem_filter.mp hv
        simp only [decide_eq_true_eq] at hv2
        rcases h1 v hv1 with h | h <;> omega
    · have hw := int_wrap_of_range (x := s.j + 2) (by omega) (by omega)
      obtain ⟨h1, h2, h3, h4⟩ := ih (i + 1) { s with j := s.j + 2 } (by simp; omega) hk
        (by simp; omega) hko (by simp; omega) (by simp; omega)
      simp only at h1
      have hodd : decide ((s.j + 2) % 2 = 1) = false := by simp; omega
      have hev : decide ((s.j + 2) % 2 = 0) = true := by simp; omega
      simp only [Shuffle.generate_loop, Shuffle.generate, hd, ne_eq, not_false_eq_true,
        if_true, hw]
      refine ⟨?_, ?_, ?_, ?_⟩
      · intro v hv
        rcases List.mem_cons.mp hv with rfl | hv
        · left; omega
        · rcases h1 v hv with h | h
          · left; omega
          · right; exact h
      · refine List.pairwise_cons.mpr ⟨?_, h2⟩
        intro v hv
        rcases h1 v hv with h | h <;> omega
      · simp only [List.filter_cons, hev, if_true]
        refine List.pairwise_cons.mpr ⟨?_, h3⟩
        intro v hv
        obtain ⟨hv1, hv2⟩ := List.mem_filter.mp hv
        simp only [decide_eq_true_eq] at hv2
        rcases h1 v hv1 with h | h <;> omega
      · simp only [List.filter_cons, hodd, Bool.false_eq_true, if_false]
        exact h4

theorem reverse_front_perm (base : List Int) : (reverse_front base).Perm base := by
  unfold reverse_front
  have h := (List.reverse_perm (base.take (base.length / 2))).append_right
    (base.drop (base.length / 2))
  rwa [List.take_append_drop] at h

theorem reverse_back_perm (base : List Int) : (reverse_back base).Perm base := by
  unfold reverse_back
  have h := (List.reverse_perm (base.drop (base.length / 2))).append_left
    (base.take (base.length / 2))
  rwa [List.take_append_drop] at h

theorem trial_of_perm {std_sort : List Int → List Int}
    (hstd : StdSortContract int_less std_sort) {sort_fn : List Int → Option (List Int)}
    (hfn : SortRoutineContract sort_fn) {test base : List Int} (hperm : test.Perm base) :
    sort_fn test = some (std_sort base) := by
  obtain ⟨ys, h, hp, hs⟩ := hfn test
  rw [h, sorted_perm_unique_int (hp.trans hperm) hs (hstd base).1 (hstd base).2]

theorem qsort_sort_routine (ps : List Int → List Int) (hps : StdSortContract int_less ps) :
    SortRoutineContract (algo.qsort ps int_less) :=
  fun xs => algo.qsort_spec ps int_less int_less_swo hps xs

theorem dither_length (base : List Int) : (dither base).length = base.length := by
  simp [dither]

theorem dither_getElem? (base : List Int) (i : Nat) :
    (dither base)[i]? =
      (base[i]?).map (fun x => int_wrap (x + Int.tmod (i : Int) 5)) := by
  unfold dither
  rw [List.getElem?_map, List.getElem?_enum]
  cases base[i]? <;> rfl

theorem smasher_m_loop_spec (n : Int) (hn0 : 0 < n) (hn : n ≤ 536870912) :
    ∀ (fuel j : Nat), j ≤ 30 → 31 ≤ fuel + j →
      (smasher_m_loop n fuel (2 ^ j)).2 = true ∧
      (∀ x, x ∈ (smasher_m_loop n fuel (2 ^ j)).1 ↔
        ∃ i : Nat, j ≤ i ∧ x = 2 ^ i ∧ x < 2 * n) ∧
      (smasher_m_loop n fuel (2 ^ j)).1.Pairwise (fun a b => a < b) := by
  have hw : int_wrap (n * 2) = n * 2 := int_wrap_of_range (by omega) (by omega)
  have hmono : ∀ {a b : Nat}, a ≤ b → (2 : Int) ^ a ≤ 2 ^ b :=
    fun h => pow_le_pow_right₀ (by norm_num) h
  intro fuel
  induction fuel with
  | zero => intro j h1 h2; omega
  | succ fuel ih =>
    intro j hj hfuel
    have hpos : (0 : Int) < 2 ^ j := by positivity
    have h30 : (2 : Int) ^ j ≤ 1073741824 := by
      have := hmono hj
      norm_num at this
      exact this
    by_cases hlt : (2 : Int) ^ j < n * 2
    · have hj29 : j ≤ 29 := by
        by_contra hc
        have hj30 : j = 30 := by omega
        subst hj30
        norm_num at hlt
        omega
      have hw2 : int_wrap (2 ^ j * 2) = 2 ^ (j + 1) := by
        rw [int_wrap_of_range (by omega) (by omega), pow_succ]
      obtain ⟨ih1, ih2, ih3⟩ := ih (j + 1) (by omega) (by omega)
      simp only [smasher_m_loop, hw, hlt, if_true, hw2]
      refine ⟨ih1, ?_, ?_⟩
      · intro x
        rw [List.mem_cons, ih2]
        constructor
        · rintro (rfl | ⟨i, hi, hx, hxn⟩)
          · exact ⟨j, le_refl j, rfl, by omega⟩
          · exact ⟨i, by omega, hx, hxn⟩
        · rintro ⟨i, hi, hx, hxn⟩
          rcases Nat.eq_or_lt_of_le hi with h | h
          · left; rw [hx, h]
          · right; exact ⟨i, h, hx, hxn⟩
      · refine List.pairwise_cons.mpr ⟨?_, ih3⟩
        intro x hx
        obtain ⟨i, hi, rfl, _⟩ := (ih2 x).mp hx
        have h1 : (2 : Int) ^ (j + 1) ≤ 2 ^ i := hmono hi
        rw [pow_succ] at h1
        omega
    · simp only [smasher_m_loop, hw, hlt, if_false, List.not_mem_nil, false_iff, not_exists,
        not_and, not_lt, List.Pairwise.nil, and_true, true_and]
      intro x i hi hx
      have := hmono hi
      omega

theorem smasher_n_loop_spec (nmax : Int) (hnmax : nmax < 1000000000) :
    ∀ (fuel j : Nat), j ≤ 9 → 10 ≤ fuel + j →
      (smasher_n_loop nmax fuel (10 ^ j)).2 = true ∧
      (∀ x, x ∈ (smasher_n_loop nmax fuel (10 ^ j)).1 ↔
        ∃ i : Nat, j ≤ i ∧ x = 10 ^ i ∧ x ≤ nmax) ∧
      (smasher_n_loop nmax fuel (10 ^ j)).1.Pairwise (fun a b => a < b) := by
  have hmono : ∀ {a b : Nat}, a ≤ b → (10 : Int) ^ a ≤ 10 ^ b :=
    fun h => pow_le_pow_right₀ (by norm_num) h
  intro fuel
  induction fuel with
  | zero => intro j h1 h2; omega
  | succ fuel ih =>
    intro j hj hfuel
    have hpos : (0 : Int) < 10 ^ j := by positivity
    have h9 : (10 : Int) ^ j ≤ 1000000000 := by
      have := hmono hj
      norm_num at this
      exact this
    by_cases hle : (10 : Int) ^ j ≤ nmax
    · have hj8 : j ≤ 8 := by
        by_contra hc
        have hj9 : j = 9 := by omega
        subst hj9
        norm_num at hle
        omega
      have h8 : (10 : Int) ^ j ≤ 100000000 := by
        have := hmono hj8
        norm_num at this
        exact this
      have hw2 : int_wrap (10 ^ j * 10) = 10 ^ (j + 1) := by
        rw [int_wrap_of_range (by omega) (by omega), pow_succ]
      obtain ⟨ih1, ih2, ih3⟩ := ih (j + 1) (by omega) (by omega)
      simp only [smasher_n_loop, hle, if_true, hw2]
      refine ⟨ih1, ?_, ?_⟩
      · intro x
        rw [List.mem_cons, ih2]
        constructor
        · rintro (rfl | ⟨i, hi, hx, hxn⟩)
          · exact ⟨j, le_refl j, rfl, hle⟩
          · exact ⟨i, by omega, hx, hxn⟩
        · rintro ⟨i, hi, hx, hxn⟩
          rcases Nat.eq_or_lt_of_le hi with h | h
          · left; rw [hx, h]
          · right; exact ⟨i, h, hx, hxn⟩
      · refine List.pairwise_cons.mpr ⟨?_, ih3⟩
        intro x hx
        obtain ⟨i, hi, rfl, _⟩ := (ih2 x).mp hx
        have h1 : (10 : Int) ^ (j + 1) ≤ 10 ^ i := hmono hi
        rw [pow_succ] at h1
        omega
    · simp only [smasher_n_loop, hle, if_false, List.not_mem_nil, false_iff, not_exists,
        not_and, not_le, List.Pairwise.nil, and_true, true_and]
      intro x i hi hx
      have := hmono hi
      omega

namespace algo

theorem introspective_sort_depths_fst (ps : List α → List α) (comp : α → α → Bool) :
    ∀ (fuel depth : Nat) (xs : List α), depth < fuel →
      (introspective_sort_depths ps comp fuel (depth : Int) xs).map Prod.fst =
        introspective_sort_ ps comp depth xs := by
  intro fuel
  induction fuel with
  | zero => intro depth xs h; omega
  | succ fuel ih =>
    intro depth xs hfuel
    cases depth with
    | zero =>
      simp only [introspective_sort_depths, introspective_sort_, Nat.cast_zero, if_true]
      split
      · rfl
      · cases insertion_sort_ comp xs <;> rfl
    | succ depth =>
      have hne : ((depth + 1 : Nat) : Int) ≠ 0 := by omega
      have hsub : ((depth + 1 : Nat) : Int) - 1 = (depth : Int) := by omega
      simp only [introspective_sort_depths, introspective_sort_, hne, if_false, hsub]
      split
      · cases iter_median_ comp xs 0 (xs.length / 2) xs.length with
        | none => rfl
        | some m =>
          simp only [Option.bind_eq_bind, Option.some_bind]
          cases iter_swap xs (xs.length / 2) m with
          | none => rfl
          | some xs1 =>
            simp only [Option.some_bind]
            cases xs1[xs.length / 2]? with
            | none => rfl
            | some pivot =>
              simp only [Option.some_bind]
              cases partition_unguarded_ comp xs1 pivot with
              | none => rfl
              | some r =>
                simp only [Option.some_bind]
                rw [← ih depth (r.2.take r.1) (by omega),
                  ← ih depth (r.2.drop r.1) (by omega)]
                cases introspective_sort_depths ps comp fuel (depth : Int) (r.2.take r.1) with
                | none => rfl
                | some l =>
                  cases introspective_sort_depths ps comp fuel (depth : Int)
                      (r.2.drop r.1) with
                  | none => rfl
                  | some rr => rfl
      · cases insertion_sort_ comp xs <;> rfl

theorem introspective_sort_depths_range (ps : List α → List α) (comp : α → α → Bool) :
    ∀ (fuel : Nat) (depth : Int) (xs : List α) (r : List α × List Int), 0 ≤ depth →
      introspective_sort_depths ps comp fuel depth xs = some r →
      r.2.head? = some depth ∧ ∀ d ∈ r.2, 0 ≤ d ∧ d ≤ depth := by
  intro fuel
  induction fuel with
  | zero => intro depth xs r _ h; simp [introspective_sort_depths] at h
  | succ fuel ih =>
    intro depth xs r h0 h
    simp only [introspective_sort_depths] at h
    split at h
    · split at h
      · simp only [Option.some.injEq] at h
        subst h
        simp [h0]
      · next hne =>
        simp only [Option.bind_eq_bind, Option.bind_eq_some] at h
        obtain ⟨m, _, xs1, _, pivot, _, p, _, left, hl, right, hr, h⟩ := h
        simp only [Option.pure_def, Option.some.injEq] at h
        subst h
        have hl2 := (ih (depth - 1) _ left (by omega) hl).2
        have hr2 := (ih (depth - 1) _ right (by omega) hr).2
        refine ⟨rfl, ?_⟩
        intro d hd
        rcases List.mem_cons.mp hd with rfl | hd
        · exact ⟨h0, le_refl _⟩
        · rcases List.mem_append.mp hd with hd | hd
          · have := hl2 d hd; omega
          · have := hr2 d hd; omega
    · simp only [Option.map_eq_some'] at h
      obtain ⟨ys, _, rfl⟩ := h
      simp [h0]

end algo

theorem smasher_ui_menu_skip (msg : String) (valid : Int → Bool) (v : Int)
    (hv : valid v = true) (rest : List (Option Int)) :
    ∀ junk : List (Option Int), (∀ e ∈ junk, valid (smasher_ui_getopt e) = false) →
      smasher_ui_menu msg valid (junk ++ some v :: rest) =
        some (v, rest, List.replicate (junk.length + 1) msg) := by
  intro junk
  induction junk with
  | nil =>
    intro _
    simp [smasher_ui_menu, smasher_ui_getopt, hv]
  | cons e junk ih =>
    intro h
    have he := h e (List.mem_cons_self e junk)
    have ih1 := ih (fun x hx => h x (List.mem_cons_of_mem e hx))
    rw [List.cons_append, smasher_ui_menu, if_neg (by simp [he]), ih1]
    rfl

theorem smasher_ui_rejected (hi : Int) (valid : Int → Bool)
    (hvalid : ∀ x, valid x = decide (x ≥ 0 ∧ x ≤ hi)) (junk : List (Option Int))
    (h : ∀ v, some v ∈ junk → v < 0 ∨ hi < v) :
    ∀ e ∈ junk, valid (smasher_ui_getopt e) = false := by
  intro e he
  rw [hvalid]
  cases e with
  | none => simp [smasher_ui_getopt]
  | some v =>
    have := h v he
    simp only [smasher_ui_getopt, decide_eq_false_iff_not]
    omega

theorem iter_median_3_equiv_aux (comp : α → α → Bool) (hswo : StrictWeakOrder comp)
    (xs : List α) (a b c : Nat) (x y z : α) (ha : xs[a]? = some x) (hb : xs[b]? = some y)
    (hc : xs[c]? = some z) (p q : Nat) (vp vq : α)
    (h1 : iter_median_3 comp xs a b c = some p)
    (h2 : algo.iter_median_3_ comp xs a b c = some q)
    (hp : xs[p]? = some vp) (hq : xs[q]? = some vq) : Equiv comp vp vq := by
  have hxx := hswo.irrefl x
  have hyy := hswo.irrefl y
  have hzz := hswo.irrefl z
  have a1 : comp x y = true → comp y x = false := hswo.asymm
  have a2 : comp y z = true → comp z y = false := hswo.asymm
  have a3 : comp x z = true → comp z x = false := hswo.asymm
  have t1 := hswo.trans x y z
  have t2 := hswo.trans x z y
  have t3 := hswo.trans y x z
  have t4 := hswo.trans y z x
  have t5 := hswo.trans z x y
  have t6 := hswo.trans z y x
  have i1 := hswo.incomp_trans x y z
  have i2 := hswo.incomp_trans x z y
  have i3 := hswo.incomp_trans y x z
  simp only [iter_median_3, iter_max, iter_min, algo.iter_median_3_, ha, hb, hc,
    Option.bind_eq_bind, Option.some_bind, Option.pure_def] at h1 h2
  unfold Equiv
  cases hxy : comp x y <;> cases hyx : comp y x <;> cases hyz : comp y z <;>
    cases hzy : comp z y <;> cases hxz : comp x z <;> cases hzx : comp z x <;>
    simp only [hxy, hyx, hyz, hzy, hxz, hzx, Bool.false_eq_true, if_false, if_true,
      forall_true_left, forall_false, imp_false, not_true_eq_false, true_and, and_true,
      and_self, and_false, false_and, imp_self, not_false_eq_true, IsEmpty.forall_iff,
      ha, hb, hc, Option.some_bind, Option.some.injEq, reduceCtorEq]
      at a1 a2 a3 t1 t2 t3 t4 t5 t6 i1 i2 i3 h1 h2 <;>
    (subst h1; subst h2; simp_all)

theorem partition_squeeze_first_iff (comp : α → α → Bool) (a : List α) (pivot : α)
    (hge : ∃ x ∈ a, comp x pivot = false) (hle : ∃ x ∈ a, comp pivot x = false)
    (b : Nat) (a' : List α) (h : partition_squeeze comp a pivot = some (b, a')) :
    b = 0 ↔ (∃ x, a[0]? = some x ∧ comp x pivot = false) ∧
      ∀ k x, 0 < k → a[k]? = some x → comp pivot x = true := by
  have hlen : 0 < a.length := by
    obtain ⟨x, hx, _⟩ := hge
    exact List.length_pos_of_mem hx
  obtain ⟨i, hi, hxi⟩ : ∃ i x, 0 ≤ i ∧ a[i]? = some x ∧ comp x pivot = false := by
    obtain ⟨x, hx, hc⟩ := hge
    obtain ⟨i, hi⟩ := List.mem_iff_getElem?.mp hx
    exact ⟨i, x, Nat.zero_le i, hi, hc⟩
  obtain ⟨r1, x1, hadv, _, hx1, hpx1, hbefore⟩ :=
    advance_while_spec (fun x => comp x pivot) a 0 ⟨i, hi, hxi⟩
  obtain ⟨j, y, hj, hyj⟩ : ∃ j x, j ≤ a.length - 1 ∧ a[j]? = some x ∧
      comp pivot x = false := by
    obtain ⟨x, hx, hc⟩ := hle
    obtain ⟨j, hj⟩ := List.mem_iff_getElem?.mp hx
    have := getElem?_lt hj
    exact ⟨j, x, by omega, hj, hc⟩
  obtain ⟨r2, x2, hret, hr2, hx2, hpx2, hafter⟩ :=
    retreat_while_spec (fun x => comp pivot x) a (a.length - 1) (by omega) ⟨j, y, hj, hyj⟩
  have hbody : partition_squeeze comp a pivot =
      if r1 < r2 then
        (iter_swap a r1 r2).bind (fun a1 =>
          partition_squeeze_loop comp pivot a.length a1 (r1 + 1) r2)
      else some (r1, a) := by
    simp only [partition_squeeze, partition_squeeze_loop, hadv,
      ptr_sub_of_le (show 1 ≤ a.length by omega), hret, Option.bind_eq_bind,
      Option.some_bind]
  rw [hbody] at h
  constructor
  · intro hb0
    subst hb0
    by_cases hlt : r1 < r2
    · rw [if_pos hlt] at h
      obtain ⟨a1, _, h2⟩ := Option.bind_eq_some.mp h
      have := (partition_squeeze_loop_bounds comp pivot _ _ _ _ _ _ h2).1
      omega
    · rw [if_neg hlt] at h
      simp only [Option.some.injEq, Prod.mk.injEq] at h
      have hr1 : r1 = 0 := h.1
      have hr2' : r2 = 0 := by omega
      subst hr1 hr2'
      refine ⟨⟨x1, hx1, hpx1⟩, ?_⟩
      intro k x hk hkx
      have := getElem?_lt hkx
      exact hafter k x hk (by omega) hkx
  · rintro ⟨⟨x, hx0, hcx⟩, hall⟩
    have hr1 : r1 = 0 := by
      by_contra hne
      have := hbefore 0 x (le_refl 0) (by omega) hx0
      simp only [hcx] at this
      exact absurd this (by simp)
    have hr2' : r2 = 0 := by
      by_contra hne
      have := hall r2 x2 (by omega) hx2
      simp only [this] at hpx2
      exact absurd hpx2 (by simp)
    subst hr1 hr2'
    rw [if_neg (by omega)] at h
    simp only [Option.some.injEq, Prod.mk.injEq] at h
    exact h.1.symm

theorem Trace.leaves_eq (t : Trace) : t.insertions + t.fallbacks = t.partitions + 1 := by
  induction t with
  | insertion n => rfl
  | fallback n => rfl
  | partition n l r ihl ihr => simp only [Trace.insertions, Trace.fallbacks, Trace.partitions]; omega

theorem Trace.insertion_mem_events {t : Trace} (h : t.SmallRangeOk) :
    ∀ k, Event.insertion k ∈ t.events → k ≤ 16 := by
  induction t with
  | insertion n =>
    intro k hk
    simp only [Trace.events, List.mem_singleton, Event.insertion.injEq] at hk
    simp only [Trace.SmallRangeOk] at h
    omega
  | fallback n => intro k hk; simp [Trace.events] at hk
  | partition n l r ihl ihr =>
    intro k hk
    simp only [Trace.SmallRangeOk] at h
    simp only [Trace.events, List.mem_cons, List.mem_append, reduceCtorEq, false_or] at hk
    rcases hk with hk | hk
    · exact ihl h.2.1 k hk
    · exact ihr h.2.2 k hk

namespace algo

/-- One pass of the loop of `introspective_sort_` on a range of at least two
elements: the pivot is the value at the midpoint, the unguarded precondition
holds and the boundary is strictly inside the range. -/
theorem introspective_sort_step (comp : α → α → Bool) (hswo : StrictWeakOrder comp)
    (xs : List α) (hn : 2 ≤ xs.length) :
    ∃ m xs1 pivot b ys, iter_median_ comp xs 0 (xs.length / 2) xs.length = some m ∧
      m < xs.length ∧ iter_swap xs (xs.length / 2) m = some xs1 ∧
      xs1[xs.length / 2]? = some pivot ∧
      (∃ x ∈ xs1, comp x pivot = false) ∧ (∃ x ∈ xs1, comp pivot x = false) ∧
      partition_unguarded_ comp xs1 pivot = some (b, ys) ∧ ys.length = xs.length ∧
      0 < b ∧ b < xs.length := by
  obtain ⟨m, hm, hmlt⟩ := iter_median_in_range comp xs (by omega)
  obtain ⟨xs1, hsw⟩ := iter_swap_of_lt xs (show xs.length / 2 < xs.length by omega) hmlt
  have hlen1 := iter_swap_length hsw
  obtain ⟨pv, b, ys, hpv, hpart, hb0, hbn, hperm, _, _⟩ :=
    partition_squeeze_midpoint comp hswo xs1 (by omega)
  rw [hlen1] at hpv hbn
  have hmem : pv ∈ xs1 := List.mem_iff_getElem?.mpr ⟨_, hpv⟩
  refine ⟨m, xs1, pv, b, ys, hm, hmlt, hsw, hpv, ⟨pv, hmem, hswo.irrefl _⟩,
    ⟨pv, hmem, hswo.irrefl _⟩, ?_, ?_, hb0, hbn⟩
  · rw [partition_unguarded_eq]; exact hpart
  · rw [hperm.length_eq, hlen1]

theorem introspective_sort_traced_shrinks (ps : List α → List α) (comp : α → α → Bool)
    (hswo : StrictWeakOrder comp) :
    ∀ (depth : Nat) (xs : List α) (r : List α × Trace),
      introspective_sort_traced ps comp depth xs = some r →
      r.2.size = xs.length ∧ r.2.Shrinks := by
  intro depth
  induction depth with
  | zero =>
    intro xs r h
    simp only [introspective_sort_traced] at h
    split at h
    · simp only [Option.some.injEq] at h
      subst h
      exact ⟨rfl, trivial⟩
    · obtain ⟨ys, _, rfl⟩ := Option.map_eq_some'.mp h
      exact ⟨rfl, trivial⟩
  | succ depth ih =>
    intro xs r h
    simp only [introspective_sort_traced] at h
    split at h
    · next h16 =>
      obtain ⟨m, xs1, pivot, b, ys, hm, _, hsw, hpv, _, _, hpart, hlen, hb0, hbn⟩ :=
        introspective_sort_step comp hswo xs (by omega)
      simp only [hm, hsw, hpv, hpart, Option.bind_eq_bind, Option.some_bind,
        Option.bind_eq_some] at h
      obtain ⟨left, hl, right, hr, h⟩ := h
      simp only [Option.pure_def, Option.some.injEq] at h
      subst h
      obtain ⟨hl1, hl2⟩ := ih _ left hl
      obtain ⟨hr1, hr2⟩ := ih _ right hr
      rw [List.length_take] at hl1
      rw [List.length_drop] at hr1
      refine ⟨rfl, ?_⟩
      simp only [Trace.Shrinks]
      exact ⟨by omega, by omega, by omega, hl2, hr2⟩
    · obtain ⟨ys, _, rfl⟩ := Option.map_eq_some'.mp h
      exact ⟨rfl, trivial⟩

end algo

theorem qsort_v1_counted_fst (part : (α → Bool) → List α → Nat × List α)
    (comp : α → α → Bool) : ∀ (fuel : Nat) (xs : List α),
      (qsort_v1_counted part comp fuel xs).map Prod.fst =
        (qsort_v1 part comp fuel xs).map Prod.fst := by
  intro fuel
  induction fuel with
  | zero => intro xs; rfl
  | succ fuel ih =>
    intro xs
    simp only [qsort_v1_counted, qsort_v1]
    split
    · rfl
    · cases ptr_sub xs.length 1 with
      | none => rfl
      | some last1 =>
        simp only [Option.bind_eq_bind, Option.some_bind]
        cases iter_swap xs (xs.length / 2) last1 with
        | none => rfl
        | some xs1 =>
          simp only [Option.some_bind]
          cases xs1[last1]? with
          | none => rfl
          | some pv =>
            simp only [Option.some_bind]
            cases iter_swap ((part (fun x => comp x pv) (xs1.take last1)).2 ++
                xs1.drop last1) (part (fun x => comp x pv) (xs1.take last1)).1 last1 with
            | none => rfl
            | some xs3 =>
              simp only [Option.some_bind]
              cases xs3[(part (fun x => comp x pv) (xs1.take last1)).1]? with
              | none => rfl
              | some p =>
                simp only [Option.some_bind]
                have h1 := ih (xs3.take (part (fun x => comp x pv) (xs1.take last1)).1)
                have h2 := ih (xs3.drop ((part (fun x => comp x pv) (xs1.take last1)).1 + 1))
                cases hlo : qsort_v1_counted part comp fuel
                    (xs3.take (part (fun x => comp x pv) (xs1.take last1)).1) with
                | none =>
                  rw [hlo] at h1
                  cases hlo2 : qsort_v1 part comp fuel
                      (xs3.take (part (fun x => comp x pv) (xs1.take last1)).1) with
                  | none => rfl
                  | some l2 => rw [hlo2] at h1; simp at h1
                | some l =>
                  rw [hlo] at h1
                  cases hlo2 : qsort_v1 part comp fuel
                      (xs3.take (part (fun x => comp x pv) (xs1.take last1)).1) with
                  | none => rw [hlo2] at h1; simp at h1
                  | some l2 =>
                    rw [hlo2] at h1
                    simp only [Option.map_some', Option.some.injEq] at h1
                    cases hup : qsort_v1_counted part comp fuel
                        (xs3.drop ((part (fun x => comp x pv) (xs1.take last1)).1 + 1)) with
                    | none =>
                      rw [hup] at h2
                      cases hup2 : qsort_v1 part comp fuel
                          (xs3.drop ((part (fun x => comp x pv) (xs1.take last1)).1 + 1)) with
                      | none => rfl
                      | some u2 => rw [hup2] at h2; simp at h2
                    | some u =>
                      rw [hup] at h2
                      cases hup2 : qsort_v1 part comp fuel
                          (xs3.drop ((part (fun x => comp x pv) (xs1.take last1)).1 + 1)) with
                      | none => rw [hup2] at h2; simp at h2
                      | some u2 =>
                        rw [hup2] at h2
                        simp only [Option.map_some', Option.some.injEq] at h2
                        simp [h1, h2]

theorem std_partition_all_equal {part : (α → Bool) → List α → Nat × List α}
    (hpart : StdPartitionContract part) (comp : α → α → Bool) {v : α}
    (hirr : comp v v = false) (k : Nat) :
    part (fun x => comp x v) (List.replicate k v) = (0, List.replicate k v) := by
  have h1 : (part (fun x => comp x v) (List.replicate k v)).1 = 0 := by
    rw [std_partition_boundary hpart, List.countP_eq_zero]
    intro x hx
    rw [List.eq_of_mem_replicate hx]
    simp [hirr]
  have h2 : (part (fun x => comp x v) (List.replicate k v)).2 = List.replicate k v :=
    List.perm_replicate.1 (hpart _ _).1
  exact Prod.ext h1 h2

theorem qsort_v1_counted_all_equal {part : (α → Bool) → List α → Nat × List α}
    (hpart : StdPartitionContract part) (comp : α → α → Bool) {v : α}
    (hirr : comp v v = false) :
    ∀ (n fuel : Nat), 1 ≤ n → n ≤ fuel →
      qsort_v1_counted part comp fuel (List.replicate n v) =
        some (List.replicate n v, n * (n - 1) / 2, n - 1) := by
  intro n
  induction n with
  | zero => intro fuel h; omega
  | succ n ih =>
    intro fuel _ hfuel
    obtain ⟨f, rfl⟩ : ∃ f, fuel = f + 1 := ⟨fuel - 1, by omega⟩
    by_cases hn0 : n = 0
    · subst hn0
      simp [qsort_v1_counted]
    · have hlen : (List.replicate (n + 1) v).length = n + 1 := List.length_replicate _ _
      have hget : ∀ p, p < n + 1 → (List.replicate (n + 1) v)[p]? = some v := by
        intro p hp
        rw [List.getElem?_eq_getElem (by rw [hlen]; exact hp), List.getElem_replicate]
      obtain ⟨xs1, hsw⟩ := iter_swap_of_lt (List.replicate (n + 1) v)
        (show (n + 1) / 2 < (List.replicate (n + 1) v).length by rw [hlen]; omega)
        (show n < (List.replicate (n + 1) v).length by rw [hlen]; omega)
      have hxs1 : xs1 = List.replicate (n + 1) v := List.perm_replicate.1 (iter_swap_perm hsw)
      subst hxs1
      have htake : (List.replicate (n + 1) v).take n = List.replicate n v := by
        rw [List.take_replicate]; congr 1; omega
      have hdrop : (List.replicate (n + 1) v).drop n = [v] := by
        rw [List.drop_replicate]; simp
      have hcat : List.replicate n v ++ [v] = List.replicate (n + 1) v := by
        rw [List.replicate_succ']
      obtain ⟨xs3, hsw3⟩ := iter_swap_of_lt (List.replicate (n + 1) v)
        (show 0 < (List.replicate (n + 1) v).length by rw [hlen]; omega)
        (show n < (List.replicate (n + 1) v).length by rw [hlen]; omega)
      have hxs3 : xs3 = List.replicate (n + 1) v := List.perm_replicate.1 (iter_swap_perm hsw3)
      subst hxs3
      have hdrop1 : (List.replicate (n + 1) v).drop 1 = List.replicate n v := by
        rw [List.drop_replicate]; simp
      have hnil : qsort_v1_counted part comp f ([] : List α) = some ([], 0, 0) := by
        obtain ⟨g, rfl⟩ : ∃ g, f = g + 1 := ⟨f - 1, by omega⟩
        simp [qsort_v1_counted]
      have hrec := ih f (by omega) (by omega)
      rw [qsort_v1_counted]
      simp only [hlen, show ¬ n + 1 ≤ 1 by omega, if_false,
        ptr_sub_of_le (show 1 ≤ n + 1 by omega), Nat.add_sub_cancel, hsw, hget n (by omega),
        htake, hdrop, std_partition_all_equal hpart comp hirr, hcat, hsw3,
        hget 0 (by omega), Option.bind_eq_bind, Option.some_bind, List.take_zero, hnil,
        Nat.zero_add, hdrop1, hrec, Option.pure_def, List.nil_append,
        List.length_replicate]
      have h1 : n + 0 + n * (n - 1) / 2 = (n + 1) * (n + 1 - 1) / 2 := by
        rw [Nat.add_sub_cancel]
        have hev : 2 ∣ n * (n - 1) := by
          rcases Nat.even_or_odd n with h | h
          · exact Dvd.dvd.mul_right h.two_dvd _
          · have : Even (n - 1) := Nat.Odd.sub_odd h (by decide)
            exact Dvd.dvd.mul_left this.two_dvd _
        obtain ⟨c, hc⟩ := hev
        have h2 : (n + 1) * n = 2 * (n + c) := by
          have : (n + 1) * n = n * (n - 1) + 2 * n := by
            cases n with
            | zero => rfl
            | succ m => simp only [Nat.add_sub_cancel]; ring
          rw [this, hc]; ring
        rw [hc, h2, Nat.mul_div_cancel_left _ (by omega), Nat.mul_div_cancel_left _ (by omega)]
        omega
      have h2 : 1 + max 0 (n - 1) = n + 1 - 1 := by
        rw [Nat.zero_max]; omega
      rw [h1, h2]
      rfl

theorem filter_equiv_move {comp : α → α → Bool} (hswo : StrictWeakOrder comp) (v t : α)
    {l : List α} (hl : ∀ x ∈ l, comp t x = true) :
    (t :: l).filter (fun x => !comp x v && !comp v x) =
      (l ++ [t]).filter (fun x => !comp x v && !comp v x) := by
  rw [List.filter_append]
  by_cases ht : (!comp t v && !comp v t) = true
  · have hnil : l.filter (fun x => !comp x v && !comp v x) = [] := by
      rw [List.filter_eq_nil_iff]
      intro x hx hxv
      simp only [Bool.and_eq_true, Bool.not_eq_true'] at ht hxv
      have := (hswo.incomp_trans t v x ht.1 ht.2 hxv.2 hxv.1).1
      rw [hl x hx] at this
      exact absurd this (by simp)
    simp only [List.filter_cons, ht, if_true, hnil, List.nil_append, List.filter_nil]
  · simp only [List.filter_cons, ht, Bool.false_eq_true, if_false, List.filter_nil,
      List.append_nil]

namespace algo

/-- One pass of the outer loop of the insertion sort: the value at `i + 1` moves
into the sorted prefix without passing a value equivalent to it. -/
theorem insertion_sort_loop_step (comp : α → α → Bool) (hswo : StrictWeakOrder comp)
    (a : List α) (i : Nat) (hi1 : i + 1 < a.length)
    (hsorted : SortedBy comp (a.take (i + 1))) :
    ∃ a1, (∀ fuel, insertion_sort_loop comp (fuel + 1) a i =
        insertion_sort_loop comp fuel a1 (i + 1)) ∧
      a1.length = a.length ∧ SortedBy comp (a1.take (i + 1 + 1)) ∧ a1.Perm a ∧
      ∀ v, a1.filter (fun x => !comp x v && !comp v x) =
        a.filter (fun x => !comp x v && !comp v x) := by
  have hend : ¬ i + 1 = a.length := by omega
  have htx : a[i + 1]? = some a[i + 1] := List.getElem?_eq_getElem hi1
  have h0 : 0 < a.length := by omega
  have hfx : a[0]? = some a[0] := List.getElem?_eq_getElem h0
  have hsplit : a = a.take (i + 1) ++ a[i + 1] :: a.drop (i + 1 + 1) := by
    rw [← List.drop_eq_getElem_cons hi1, List.take_append_drop]
  have hhead : a.take (i + 1) = a[0] :: (a.take (i + 1)).tail := by
    cases a with
    | nil => simp at h0
    | cons h t => simp
  cases hc : comp a[i + 1] a[0] with
  | true =>
    have hlen : (a[i + 1] :: (a.take (i + 1) ++ a.drop (i + 1 + 1))).length = a.length := by
      simp only [List.length_cons, List.length_append, List.length_take, List.length_drop]
      omega
    have hperm : (a[i + 1] :: (a.take (i + 1) ++ a.drop (i + 1 + 1))).Perm a := by
      conv => rhs; rw [hsplit]
      exact List.perm_middle.symm
    have htk : (a[i + 1] :: (a.take (i + 1) ++ a.drop (i + 1 + 1))).take (i + 1 + 1) =
        a[i + 1] :: a.take (i + 1) := by
      rw [List.take_succ_cons, List.take_append_eq_append_take]
      simp only [List.length_take]
      rw [Nat.min_eq_left (by omega), Nat.sub_self, List.take_zero, List.append_nil,
        List.take_take, Nat.min_self]
    have hyf : ∀ y ∈ a.take (i + 1), comp y a[0] = false := by
      intro y hy
      rw [hhead] at hy hsorted
      rcases List.mem_cons.1 hy with h | h
      · rw [h]; exact hswo.irrefl _
      · exact List.rel_of_pairwise_cons hsorted h
    have hlt : ∀ y ∈ a.take (i + 1), comp a[i + 1] y = true := by
      intro y hy
      cases hty : comp a[i + 1] y with
      | true => rfl
      | false =>
        have := hswo.neg_trans (hyf y hy) hty
        rw [hc] at this; exact absurd this (by simp)
    refine ⟨_, ?_, hlen, ?_, hperm, ?_⟩
    · intro fuel
      simp [insertion_sort_loop, hend, htx, hfx, hc]
    · rw [htk]
      refine List.Pairwise.cons ?_ hsorted
      intro y hy
      exact hswo.asymm (hlt y hy)
    · intro v
      conv => rhs; rw [hsplit]
      rw [← List.cons_append, List.filter_append, filter_equiv_move hswo v _ hlt,
        ← List.filter_append]
      simp
  | false =>
    obtain ⟨l1, l2, h1, h2, h3, xl, h4, h5⟩ :=
      linear_insert_unguarded_spec comp a[i + 1] (i + 1) a hi1
        ⟨a[0], by rw [hhead]; simp, hc⟩
    have hl12 : l1.length + l2.length = i + 1 := by
      have := congrArg List.length h1
      simp only [List.length_take, List.length_append] at this
      omega
    have hperm : (l1 ++ a[i + 1] :: l2 ++ a.drop (i + 1 + 1)).Perm a := by
      conv => rhs; rw [hsplit, h1]
      simp only [List.append_assoc, List.cons_append]
      exact List.Perm.append_left _ List.perm_middle.symm
    have hlen : (l1 ++ a[i + 1] :: l2 ++ a.drop (i + 1 + 1)).length = a.length :=
      hperm.length_eq
    have htk : (l1 ++ a[i + 1] :: l2 ++ a.drop (i + 1 + 1)).take (i + 1 + 1) =
        l1 ++ a[i + 1] :: l2 := by
      rw [List.take_append_eq_append_take]
      have : (l1 ++ a[i + 1] :: l2).length = i + 1 + 1 := by simp; omega
      rw [this, Nat.sub_self, List.take_zero, List.append_nil, ← this, List.take_length]
    have hsorted2 := hsorted
    rw [h1] at hsorted2
    obtain ⟨hs1, hs2, hs12⟩ := List.pairwise_append.1 hsorted2
    obtain ⟨init, hinit⟩ : ∃ init, l1 = init ++ [xl] := by
      rcases List.eq_nil_or_concat l1 with h | ⟨init, x, h⟩
      · rw [h] at h4; simp at h4
      · refine ⟨init, ?_⟩
        rw [h, List.concat_eq_append, List.getLast?_concat] at h4
        rw [h, List.concat_eq_append, Option.some.inj h4]
    have hl1 : ∀ x ∈ l1, comp a[i + 1] x = false := by
      intro x hx
      rw [hinit] at hx hs1
      rcases List.mem_append.1 hx with h | h
      · have hxl : comp xl x = false :=
          (List.pairwise_append.1 hs1).2.2 x h xl (by simp)
        exact hswo.neg_trans hxl h5
      · simp at h; rw [h]; exact h5
    refine ⟨_, ?_, hlen, ?_, hperm, ?_⟩
    · intro fuel
      simp only [List.append_assoc, List.cons_append] at h2
      simp [insertion_sort_loop, hend, htx, hfx, hc, h2]
    · rw [htk]
      refine List.pairwise_append.2 ⟨hs1, List.Pairwise.cons ?_ hs2, ?_⟩
      · intro z hz
        exact hswo.asymm (h3 z hz)
      · intro x hx y hy
        rcases List.mem_cons.1 hy with h | h
        · rw [h]; exact hl1 x hx
        · exact hs12 x hx y h
    · intro v
      conv => rhs; rw [hsplit, h1]
      have e1 : l1 ++ a[i + 1] :: l2 ++ a.drop (i + 1 + 1) =
          l1 ++ ((a[i + 1] :: l2) ++ a.drop (i + 1 + 1)) := by simp
      have e2 : (l1 ++ l2) ++ a[i + 1] :: a.drop (i + 1 + 1) =
          l1 ++ ((l2 ++ [a[i + 1]]) ++ a.drop (i + 1 + 1)) := by simp
      rw [e1, e2, List.filter_append l1, List.filter_append (a[i + 1] :: l2),
        filter_equiv_move hswo v a[i + 1] h3, List.filter_append l1,
        List.filter_append (l2 ++ [a[i + 1]])]

theorem insertion_sort_loop_stable (comp : α → α → Bool) (hswo : StrictWeakOrder comp) :
    ∀ (fuel : Nat) (a : List α) (i : Nat), i < a.length → a.length ≤ fuel + i →
      SortedBy comp (a.take (i + 1)) →
      ∃ ys, insertion_sort_loop comp fuel a i = some ys ∧
        ∀ v, ys.filter (fun x => !comp x v && !comp v x) =
          a.filter (fun x => !comp x v && !comp v x) := by
  intro fuel
  induction fuel with
  | zero => intro a i h1 h2; omega
  | succ fuel ih =>
    intro a i hi hfuel hsorted
    by_cases hend : i + 1 = a.length
    · exact ⟨a, by simp [insertion_sort_loop, hend], fun _ => rfl⟩
    · obtain ⟨a1, hstep, hlen, hs, _, hf⟩ :=
        insertion_sort_loop_step comp hswo a i (by omega) hsorted
      obtain ⟨ys, hres, hys⟩ := ih a1 (i + 1) (by omega) (by omega) hs
      refine ⟨ys, by rw [hstep, hres], ?_⟩
      intro v
      rw [hys v, hf v]

end algo

namespace ext

/-- Swapping two disjoint blocks of `k` elements front to back. -/
theorem swap_ranges_spec : ∀ (k fuel : Nat) (a : List α) (p q : Nat), k < fuel →
    p + k ≤ a.length → q + k ≤ a.length → (p + k ≤ q ∨ q + k ≤ p) →
    ∃ a', swap_ranges fuel a p (p + k) q = some (a', q + k) ∧ a'.Perm a ∧
      (∀ i, i < k → a'[p + i]? = a[q + i]? ∧ a'[q + i]? = a[p + i]?) ∧
      (∀ j, (j < p ∨ p + k ≤ j) → (j < q ∨ q + k ≤ j) → a'[j]? = a[j]?) := by
  intro k
  induction k with
  | zero =>
    intro fuel a p q hfuel _ _ _
    obtain ⟨f, rfl⟩ : ∃ f, fuel = f + 1 := ⟨fuel - 1, by omega⟩
    exact ⟨a, by simp [swap_ranges], List.Perm.refl _, fun i hi => by omega, fun _ _ _ => rfl⟩
  | succ k ih =>
    intro fuel a p q hfuel hp hq hdis
    obtain ⟨f, rfl⟩ : ∃ f, fuel = f + 1 := ⟨fuel - 1, by omega⟩
    obtain ⟨a1, hsw⟩ := iter_swap_of_lt a (show p < a.length by omega)
      (show q < a.length by omega)
    have hlen1 := iter_swap_length hsw
    have hget := iter_swap_getElem? hsw
    obtain ⟨a', hres, hperm, hblk, hout⟩ := ih f a1 (p + 1) (q + 1) (by omega) (by omega)
      (by omega) (by omega)
    refine ⟨a', ?_, hperm.trans (iter_swap_perm hsw), ?_, ?_⟩
    · rw [swap_ranges, if_neg (by omega)]
      simp only [hsw, Option.bind_eq_bind, Option.some_bind]
      rw [show p + (k + 1) = p + 1 + k by omega, hres, show q + 1 + k = q + (k + 1) by omega]
    · intro i hi
      cases i with
      | zero =>
        have h1 := hout p (by omega) (by omega)
        have h2 := hout q (by omega) (by omega)
        rw [Nat.add_zero, Nat.add_zero, h1, h2, hget p, hget q]
        have hpq : p ≠ q := by omega
        simp [hpq]
      | succ i =>
        obtain ⟨h1, h2⟩ := hblk i (by omega)
        rw [show p + (i + 1) = p + 1 + i by omega, show q + (i + 1) = q + 1 + i by omega,
          h1, h2, hget, hget]
        constructor
        · rw [if_neg (by omega), if_neg (by omega)]
        · rw [if_neg (by omega), if_neg (by omega)]
    · intro j hj1 hj2
      rw [hout j (by omega) (by omega), hget]
      rw [if_neg (by omega), if_neg (by omega)]

/-- Swapping two disjoint blocks of `k` elements back to front. -/
theorem swap_ranges_backward_spec : ∀ (k fuel : Nat) (a : List α) (p q : Nat), k < fuel →
    p + k ≤ a.length → q + k ≤ a.length → (p + k ≤ q ∨ q + k ≤ p) →
    ∃ a', swap_ranges_backward_ fuel a p (p + k) (q + k) = some (a', q) ∧ a'.Perm a ∧
      (∀ i, i < k → a'[p + i]? = a[q + i]? ∧ a'[q + i]? = a[p + i]?) ∧
      (∀ j, (j < p ∨ p + k ≤ j) → (j < q ∨ q + k ≤ j) → a'[j]? = a[j]?) := by
  intro k
  induction k with
  | zero =>
    intro fuel a p q hfuel _ _ _
    obtain ⟨f, rfl⟩ : ∃ f, fuel = f + 1 := ⟨fuel - 1, by omega⟩
    exact ⟨a, by simp [swap_ranges_backward_], List.Perm.refl _, fun i hi => by omega,
      fun _ _ _ => rfl⟩
  | succ k ih =>
    intro fuel a p q hfuel hp hq hdis
    obtain ⟨f, rfl⟩ : ∃ f, fuel = f + 1 := ⟨fuel - 1, by omega⟩
    obtain ⟨a1, hsw⟩ := iter_swap_of_lt a (show p + k < a.length by omega)
      (show q + k < a.length by omega)
    have hlen1 := iter_swap_length hsw
    have hget := iter_swap_getElem? hsw
    obtain ⟨a', hres, hperm, hblk, hout⟩ := ih f a1 p q (by omega) (by omega)
      (by omega) (by omega)
    refine ⟨a', ?_, hperm.trans (iter_swap_perm hsw), ?_, ?_⟩
    · rw [swap_ranges_backward_, if_neg (by omega)]
      simp only [ptr_sub_of_le (show 1 ≤ p + (k + 1) by omega),
        ptr_sub_of_le (show 1 ≤ q + (k + 1) by omega), Option.bind_eq_bind,
        Option.some_bind]
      rw [show p + (k + 1) - 1 = p + k by omega, show q + (k + 1) - 1 = q + k by omega,
        hsw]
      exact hres
    · intro i hi
      by_cases hik : i = k
      · subst hik
        have h1 := hout (p + i) (by omega) (by omega)
        have h2 := hout (q + i) (by omega) (by omega)
        rw [h1, h2, hget (p + i), hget (q + i)]
        have hpq : p + i ≠ q + i := by omega
        simp [hpq]
      · obtain ⟨h1, h2⟩ := hblk i (by omega)
        rw [h1, h2, hget, hget]
        constructor
        · rw [if_neg (by omega), if_neg (by omega)]
        · rw [if_neg (by omega), if_neg (by omega)]
    · intro j hj1 hj2
      rw [hout j (by omega) (by omega), hget]
      rw [if_neg (by omega), if_neg (by omega)]

end ext

namespace ext

/-- The block swaps of the second phase put the equal values between the lower
and the greater ones. -/
theorem rotate_spec (comp : α → α → Bool) (pivot : α) (s : BMState α)
    (h : BMLayout comp pivot s.a s.l_head s.l_tail (s.r_head + 1) s.r_tail) :
    ∃ lo hi a', rotate s = some (lo, hi, a') ∧ a'.Perm s.a ∧
      lo = s.l_tail - s.l_head ∧ hi = s.r_head + 1 + (s.a.length - s.r_tail) ∧
      (∀ k x, k < lo → a'[k]? = some x → comp x pivot = true) ∧
      (∀ k x, lo ≤ k → k < hi → a'[k]? = some x → Equiv comp x pivot) ∧
      (∀ k x, hi ≤ k → a'[k]? = some x → comp pivot x = true) := by
  obtain ⟨h1, h2, h3, h4, hEL, hL, hM, hG, hER⟩ := h
  -- front block swap
  have hfront : ∃ a1, rotate_front s.a s.l_head s.l_tail =
        some (a1, s.l_tail - s.l_head) ∧
      a1.Perm s.a ∧ (∀ k, s.l_tail ≤ k → a1[k]? = s.a[k]?) ∧
      (∀ k x, k < s.l_tail - s.l_head → a1[k]? = some x → comp x pivot = true) ∧
      (∀ k x, s.l_tail - s.l_head ≤ k → k < s.l_tail → a1[k]? = some x →
        Equiv comp x pivot) := by
    unfold rotate_front
    by_cases hc : s.l_tail - s.l_head ≤ s.l_head - 0
    · rw [if_pos hc]
      obtain ⟨a1, hres, hperm, hblk, hout⟩ := swap_ranges_spec (s.l_tail - s.l_head)
        (s.a.length + 1) s.a s.l_head 0 (by omega) (by omega) (by omega) (by omega)
      rw [show s.l_head + (s.l_tail - s.l_head) = s.l_tail by omega, Nat.zero_add] at hres
      refine ⟨a1, hres, hperm, fun k hk => hout k (by omega) (by omega), ?_, ?_⟩
      · intro k x hk hkx
        have := (hblk k hk).2
        rw [Nat.zero_add] at this
        rw [this] at hkx
        exact hL _ x (by omega) (by omega) hkx
      · intro k x hk1 hk2 hkx
        by_cases hkl : k < s.l_head
        · rw [hout k (by omega) (by omega)] at hkx
          exact hEL k x hkl hkx
        · have := (hblk (k - s.l_head) (by omega)).1
          rw [show s.l_head + (k - s.l_head) = k by omega, Nat.zero_add] at this
          rw [this] at hkx
          exact hEL _ x (by omega) hkx
    · rw [if_neg hc]
      obtain ⟨a1, hres, hperm, hblk, hout⟩ := swap_ranges_backward_spec s.l_head
        (s.a.length + 1) s.a 0 (s.l_tail - s.l_head) (by omega) (by omega) (by omega)
        (by omega)
      rw [Nat.zero_add, show s.l_tail - s.l_head + s.l_head = s.l_tail by omega] at hres
      refine ⟨a1, hres, hperm, fun k hk => hout k (by omega) (by omega), ?_, ?_⟩
      · intro k x hk hkx
        by_cases hkl : k < s.l_head
        · have := (hblk k hkl).1
          rw [Nat.zero_add] at this
          rw [this] at hkx
          exact hL _ x (by omega) (by omega) hkx
        · rw [hout k (by omega) (by omega)] at hkx
          exact hL k x (by omega) (by omega) hkx
      · intro k x hk1 hk2 hkx
        have := (hblk (k - (s.l_tail - s.l_head)) (by omega)).2
        rw [show s.l_tail - s.l_head + (k - (s.l_tail - s.l_head)) = k by omega,
          Nat.zero_add] at this
        rw [this] at hkx
        exact hEL _ x (by omega) hkx
  obtain ⟨a1, hf, hperm1, hsame1, hL1, hE1⟩ := hfront
  have hlen1 : a1.length = s.a.length := hperm1.length_eq
  have hG1 : ∀ k x, s.r_head + 1 ≤ k → k < s.r_tail → a1[k]? = some x →
      comp pivot x = true := by
    intro k x hk1 hk2 hkx
    rw [hsame1 k (by omega)] at hkx
    exact hG k x hk1 hk2 hkx
  have hER1 : ∀ k x, s.r_tail ≤ k → a1[k]? = some x → Equiv comp x pivot := by
    intro k x hk hkx
    rw [hsame1 k (by omega)] at hkx
    exact hER k x hk hkx
  -- back block swap
  have hback : ∃ a2, rotate_back a1 (s.r_head + 1) s.r_tail =
        some (a2, s.r_head + 1 + (s.a.length - s.r_tail)) ∧
      a2.Perm a1 ∧ (∀ k, k < s.r_head + 1 → a2[k]? = a1[k]?) ∧
      (∀ k x, s.r_head + 1 ≤ k → k < s.r_head + 1 + (s.a.length - s.r_tail) →
        a2[k]? = some x → Equiv comp x pivot) ∧
      (∀ k x, s.r_head + 1 + (s.a.length - s.r_tail) ≤ k → a2[k]? = some x →
        comp pivot x = true) := by
    unfold rotate_back
    rw [hlen1]
    by_cases hc : s.r_tail - (s.r_head + 1) ≤ s.a.length - s.r_tail
    · rw [if_pos hc]
      obtain ⟨a2, hres, hperm, hblk, hout⟩ := swap_ranges_backward_spec
        (s.r_tail - (s.r_head + 1)) (s.a.length + 1) a1 (s.r_head + 1)
        (s.a.length - (s.r_tail - (s.r_head + 1))) (by omega) (by omega) (by omega)
        (by omega)
      rw [show s.r_head + 1 + (s.r_tail - (s.r_head + 1)) = s.r_tail by omega,
        show s.a.length - (s.r_tail - (s.r_head + 1)) + (s.r_tail - (s.r_head + 1)) =
          s.a.length by omega,
        show s.a.length - (s.r_tail - (s.r_head + 1)) =
          s.r_head + 1 + (s.a.length - s.r_tail) by omega] at hres
      refine ⟨a2, hres, hperm, fun k hk => hout k (by omega) (by omega), ?_, ?_⟩
      · intro k x hk1 hk2 hkx
        by_cases hkt : k < s.r_tail
        · have := (hblk (k - (s.r_head + 1)) (by omega)).1
          rw [show s.r_head + 1 + (k - (s.r_head + 1)) = k by omega] at this
          rw [this] at hkx
          exact hER1 _ x (by omega) hkx
        · rw [hout k (by omega) (by omega)] at hkx
          exact hER1 k x (by omega) hkx
      · intro k x hk hkx
        have hkn : k < s.a.length := by
          have := getElem?_lt hkx
          rw [hperm.length_eq, hlen1] at this
          exact this
        have := (hblk (k - (s.a.length - (s.r_tail - (s.r_head + 1)))) (by omega)).2
        rw [show s.a.length - (s.r_tail - (s.r_head + 1)) +
          (k - (s.a.length - (s.r_tail - (s.r_head + 1)))) = k by omega] at this
        rw [this] at hkx
        exact hG1 _ x (by omega) (by omega) hkx
    · rw [if_neg hc]
      obtain ⟨a2, hres, hperm, hblk, hout⟩ := swap_ranges_spec (s.a.length - s.r_tail)
        (s.a.length + 1) a1 s.r_tail (s.r_head + 1) (by omega) (by omega) (by omega)
        (by omega)
      rw [show s.r_tail + (s.a.length - s.r_tail) = s.a.length by omega] at hres
      refine ⟨a2, hres, hperm, fun k hk => hout k (by omega) (by omega), ?_, ?_⟩
      · intro k x hk1 hk2 hkx
        have := (hblk (k - (s.r_head + 1)) (by omega)).2
        rw [show s.r_head + 1 + (k - (s.r_head + 1)) = k by omega] at this
        rw [this] at hkx
        exact hER1 _ x (by omega) hkx
      · intro k x hk hkx
        have hkn : k < s.a.length := by
          have := getElem?_lt hkx
          rw [hperm.length_eq, hlen1] at this
          exact this
        by_cases hkt : k < s.r_tail
        · rw [hout k (by omega) (by omega)] at hkx
          exact hG1 k x (by omega) hkt hkx
        · have := (hblk (k - s.r_tail) (by omega)).1
          rw [show s.r_tail + (k - s.r_tail) = k by omega] at this
          rw [this] at hkx
          exact hG1 _ x (by omega) (by omega) hkx
  obtain ⟨a2, hb, hperm2, hsame2, hE2, hG2⟩ := hback
  refine ⟨s.l_tail - s.l_head, s.r_head + 1 + (s.a.length - s.r_tail), a2, ?_,
    hperm2.trans hperm1, rfl, rfl, ?_, ?_, hG2⟩
  · simp only [rotate, hf, Option.bind_eq_bind, Option.some_bind, hb, Option.pure_def]
  · intro k x hk hkx
    rw [hsame2 k (by omega)] at hkx
    exact hL1 k x hk hkx
  · intro k x hk1 hk2 hkx
    by_cases hk : k < s.r_head + 1
    · rw [hsame2 k hk] at hkx
      by_cases hkt : k < s.l_tail
      · exact hE1 k x hk1 hkt hkx
      · rw [hsame1 k (by omega)] at hkx
        exact hM k x (by omega) hk hkx
    · exact hE2 k x (by omega) hk2 hkx

/-- Specification of the three-way `partition_unguarded_` of `ext/qsort.hpp`
under its unguarded precondition. -/
theorem partition_unguarded_spec (comp : α → α → Bool)
    (hasym : ∀ x y, comp x y = true → comp y x = false) (a : List α) (pivot : α)
    (hge : ∃ x ∈ a, comp x pivot = false) (hle : ∃ x ∈ a, comp pivot x = false) :
    ∃ lo hi a', partition_unguarded_ comp a pivot = some (lo, hi, a') ∧ a'.Perm a ∧
      lo ≤ hi ∧ hi ≤ a.length ∧
      (∀ x ∈ a'.take lo, comp x pivot = true) ∧
      (∀ x ∈ (a'.take hi).drop lo, Equiv comp x pivot) ∧
      (∀ x ∈ a'.drop hi, comp pivot x = true) := by
  obtain ⟨s, _, _, _, hs, hlay, hperm, _⟩ :=
    partition3_bentley_mcilroy_spec comp hasym a pivot hge hle
  obtain ⟨lo, hi, a', hrot, hperm', hlo, hhi, hL, hM, hG⟩ := rotate_spec comp pivot s hlay
  have hlen : s.a.length = a.length := hperm.length_eq
  obtain ⟨b1, b2, b3, b4, _⟩ := hlay
  refine ⟨lo, hi, a', ?_, hperm'.trans hperm, by omega, by omega,
    forall_mem_take_of_index (P := fun x => comp x pivot = true) hL,
    forall_mem_take_drop_of_index (P := fun x => Equiv comp x pivot) hM,
    forall_mem_drop_of_index (P := fun x => comp pivot x = true) hG⟩
  simp [partition_unguarded_, hs, hrot]

end ext

/-- A three-way partition whose range holds a value equivalent to the pivot
has a non-empty equal range, so both ranges outside it are strictly shorter. -/
theorem equal_range_nonempty_of_equiv {comp : α → α → Bool} {pivot : α} {a ys : List α}
    {lo hi : Nat} (hperm : ys.Perm a) (hlohi : lo ≤ hi) (hhi : hi ≤ a.length)
    (hmem : ∃ x ∈ a, Equiv comp x pivot) (hL : ∀ x ∈ ys.take lo, comp x pivot = true)
    (hG : ∀ x ∈ ys.drop hi, comp pivot x = true) :
    lo < hi ∧ (ys.take lo).length < a.length ∧ (ys.drop hi).length < a.length := by
  obtain ⟨x, hx, hx1, hx2⟩ := hmem
  have hxy : x ∈ ys := hperm.symm.subset hx
  rw [← take_mid_drop ys hlohi] at hxy
  have hmid : x ∈ (ys.take hi).drop lo := by
    rcases List.mem_append.1 hxy with h | h
    · rcases List.mem_append.1 h with h | h
      · have := hL _ h
        rw [hx1] at this; exact absurd this (by simp)
      · exact h
    · have := hG _ h
      rw [hx2] at this; exact absurd this (by simp)
  have hlen : 0 < ((ys.take hi).drop lo).length := List.length_pos_of_mem hmid
  have hl := hperm.length_eq
  rw [List.length_drop, List.length_take] at hlen
  rw [List.length_take, List.length_drop]
  omega

namespace ext

/-- The function `introspective_sort_` of `ext/qsort.hpp` returns the ascending
permutation of every range, whatever the depth budget. -/
theorem introspective_sort_sorts (ps : List α → List α) (comp : α → α → Bool)
    (hswo : StrictWeakOrder comp) (hps : StdSortContract comp ps) :
    ∀ (depth : Nat) (xs : List α),
      ∃ ys, introspective_sort_ ps comp depth xs = some ys ∧ ys.Perm xs ∧
        SortedBy comp ys := by
  intro depth
  induction depth with
  | zero =>
    intro xs
    by_cases h16 : 16 < xs.length
    · exact ⟨ps xs, by simp [introspective_sort_, h16], (hps xs).1, (hps xs).2⟩
    · obtain ⟨ys, hys, hp, hs⟩ := algo.insertion_sort_spec comp hswo xs
      exact ⟨ys, by simp [introspective_sort_, h16, hys], hp, hs⟩
  | succ depth ih =>
    intro xs
    by_cases h16 : 16 < xs.length
    · obtain ⟨m, hm, hmlt⟩ := algo.iter_median_in_range comp xs (by omega)
      have hpv : xs[m]? = some xs[m] := List.getElem?_eq_getElem hmlt
      have hmem : xs[m] ∈ xs := List.getElem_mem hmlt
      obtain ⟨lo, hi, ys, hpart, hperm, hlohi, hhi, hL, hM, hG⟩ :=
        partition_unguarded_spec comp (fun _ _ h => hswo.asymm h) xs xs[m]
          ⟨_, hmem, hswo.irrefl _⟩ ⟨_, hmem, hswo.irrefl _⟩
      obtain ⟨l, hl, hlp, hls⟩ := ih (ys.take lo)
      obtain ⟨g, hg, hgp, hgs⟩ := ih (ys.drop hi)
      obtain ⟨hcp, hcs⟩ := three_way_combine hswo hlohi hL hM hG hlp hls hgp hgs
      refine ⟨l ++ (ys.take hi).drop lo ++ g, ?_, hcp.trans hperm, hcs⟩
      simp [introspective_sort_, h16, hm, hpv, hpart, hl, hg]
    · obtain ⟨ys, hys, hp, hs⟩ := algo.insertion_sort_spec comp hswo xs
      exact ⟨ys, by simp [introspective_sort_, h16, hys], hp, hs⟩

/-- The function `qsort` of `ext/qsort.hpp` returns the ascending permutation of
every range. -/
theorem qsort_sorts (ps : List α → List α) (comp : α → α → Bool)
    (hswo : StrictWeakOrder comp) (hps : StdSortContract comp ps) (xs : List α) :
    ∃ ys, qsort ps comp xs = some ys ∧ ys.Perm xs ∧ SortedBy comp ys := by
  unfold qsort
  by_cases h : xs.length ≠ 0
  · rw [if_pos h]
    exact introspective_sort_sorts ps comp hswo hps _ xs
  · rw [if_neg h]
    have : xs = [] := List.length_eq_zero.1 (by simpa using h)
    subst this
    exact ⟨[], rfl, List.Perm.refl _, List.Pairwise.nil⟩

end ext

/-- The loop of one generation run on a sequence of draws that is cut in two:
the second part continues from the counters that the first part left. -/
theorem shuffle_loop_append (n m : Int) : ∀ (l1 l2 : List Int) (i : Int) (s : Shuffle),
    Shuffle.generate_loop n m (l1 ++ l2) i s =
      ((Shuffle.generate_loop n m l1 i s).1 ++
        (Shuffle.generate_loop n m l2 (i + l1.length) (Shuffle.generate_loop n m l1 i s).2).1,
       (Shuffle.generate_loop n m l2 (i + l1.length) (Shuffle.generate_loop n m l1 i s).2).2) := by
  intro l1
  induction l1 with
  | nil => intro l2 i s; simp [Shuffle.generate_loop]
  | cons r l1 ih =>
    intro l2 i s
    have e : i + ((l1.length : Int) + 1) = i + 1 + (l1.length : Int) := by ring
    rw [List.cons_append]
    simp only [Shuffle.generate_loop, List.length_cons, Nat.cast_add, Nat.cast_one,
      List.cons_append]
    rw [ih, e]

/-- The counters after `k` draws that are all non-zero modulo `m`, as long as
the even counter stays within `int`. -/
theorem shuffle_loop_replicate_state (n m r : Int) (hr : Int.tmod r m ≠ 0) :
    ∀ (k : Nat) (i : Int) (s : Shuffle), 0 ≤ s.j → s.j + 2 * (k : Int) < 2147483648 →
      (Shuffle.generate_loop n m (List.replicate k r) i s).2 =
        { j := s.j + 2 * (k : Int), k := s.k } := by
  intro k
  induction k with
  | zero => intro i s _ _; simp [Shuffle.generate_loop]
  | succ k ih =>
    intro i s h0 h1
    have hw : int_wrap (s.j + 2) = s.j + 2 :=
      int_wrap_of_range (by omega) (by push_cast at h1; omega)
    simp only [List.replicate_succ, Shuffle.generate_loop, Shuffle.generate, if_pos hr, hw]
    rw [ih _ _ (by simp; omega) (by push_cast at h1; simp; omega)]
    simp only [Shuffle.mk.injEq, and_true]
    push_cast
    ring

/-- The value that follows `k` draws that are non-zero modulo `m`, when the
next step of the even counter leaves `int`: the counter wraps to `-2^31`. -/
theorem shuffle_wrap_at (s : Shuffle) (m r : Int) (hr : Int.tmod r m ≠ 0) (k : Nat)
    (hk : 2 * (k : Int) + 2 = 2147483648) :
    (Shuffle.generate_base s m (List.replicate (k + 1) r)).1[k]? = some (-2147483648) := by
  have e : List.replicate (k + 1) r = List.replicate k r ++ [r] := by
    rw [List.replicate_succ']
  rw [Shuffle.generate_base, e, shuffle_loop_append]
  have hlen := shuffle_loop_length (((List.replicate k r ++ [r]).length : Nat) : Int) m
    (List.replicate k r) 0 (Shuffle.init s)
  rw [List.length_replicate] at hlen
  rw [List.getElem?_append_right (by omega), hlen, Nat.sub_self,
    shuffle_loop_replicate_state _ m r hr k 0 (Shuffle.init s) (by simp [Shuffle.init])
      (by simp only [Shuffle.init]; omega)]
  simp only [Shuffle.generate_loop, Shuffle.generate, if_pos hr, Shuffle.init,
    List.getElem?_cons_zero, Option.some.injEq]
  have e2 : (0 : Int) + 2 * (k : Int) + 2 = 2147483648 := by omega
  rw [e2]
  decide

/-- The number of draws that are non-zero modulo `m` in a run of equal draws
that are all non-zero modulo `m`. -/
theorem shuffle_count_replicate (m r : Int) (hr : Int.tmod r m ≠ 0) (k : Nat) :
    ((List.replicate k r).take k).countP (fun x => decide (Int.tmod x m ≠ 0)) = k := by
  rw [List.take_replicate, Nat.min_self, List.countP_replicate]
  simp [hr]

/-- A call has at least one event. -/
theorem Trace.events_ne_nil (t : Trace) : t.events ≠ [] := by
  cases t <;> simp [Trace.events]

/-- The last event of a call: the run of `insertion_sort_` on at most `16`
elements, or the fallback, on a range that is not longer than the range of the
call. -/
theorem Trace.events_getLast {t : Trace} (h : t.SmallRangeOk) (hs : t.Shrinks) :
    ∃ k, k ≤ t.size ∧ ((t.events.getLast? = some (.insertion k) ∧ k ≤ 16) ∨
      (t.events.getLast? = some (.fallback k) ∧ 16 < k)) := by
  induction t with
  | insertion n => exact ⟨n, le_rfl, Or.inl ⟨rfl, h⟩⟩
  | fallback n => exact ⟨n, le_rfl, Or.inr ⟨rfl, h⟩⟩
  | partition n l r _ ihr =>
    simp only [Trace.SmallRangeOk] at h
    simp only [Trace.Shrinks] at hs
    have e : (Trace.partition n l r).events = (Event.partition n :: l.events) ++ r.events := rfl
    rw [e, List.getLast?_append_of_ne_nil _ r.events_ne_nil]
    obtain ⟨k, hk, h1⟩ := ihr h.2.2 hs.2.2.2.2
    exact ⟨k, by simp only [Trace.size]; omega, h1⟩

/-- The depth budget of a range of more than `16` elements is not zero. -/
theorem depth_budget_ne_zero {n : Nat} (h : 16 < n) : algo.depth_budget n ≠ 0 := by
  intro h0
  have h1 : 1 ≤ n * n := Nat.mul_pos (by omega) (by omega)
  have := (floor_log2_spec (n * n) (n * n) h1 le_rfl).2
  rw [algo.depth_budget] at h0
  rw [h0] at this
  have : 16 * 16 < n * n := Nat.mul_lt_mul'' h h
  omega

namespace algo

/-- One pass of the loop of `introspective_sort_` on more than `16` elements
with a non-zero depth: the partition, the nested call on `[first, split)` and
the rest of the loop on `[split, last)`. -/
theorem introspective_sort_traced_pass (ps : List α → List α) (comp : α → α → Bool)
    (hswo : StrictWeakOrder comp) (d : Nat) (xs : List α) (h16 : 16 < xs.length) :
    ∃ m xs1 pivot b ws yl tl yr tr,
      iter_median_ comp xs 0 (xs.length / 2) xs.length = some m ∧
      iter_swap xs (xs.length / 2) m = some xs1 ∧
      xs1[xs.length / 2]? = some pivot ∧
      partition_unguarded_ comp xs1 pivot = some (b, ws) ∧
      0 < b ∧ b < xs.length ∧ ws.length = xs.length ∧
      introspective_sort_traced ps comp d (ws.take b) = some (yl, tl) ∧
      introspective_sort_traced ps comp d (ws.drop b) = some (yr, tr) ∧
      introspective_sort_traced ps comp (d + 1) xs =
        some (yl ++ yr, .partition xs.length tl tr) ∧
      tl.size = b ∧ tr.size = xs.length - b ∧ tl.SmallRangeOk ∧ tr.SmallRangeOk ∧
      tl.Shrinks ∧ tr.Shrinks := by
  obtain ⟨m, xs1, pivot, b, ws, hm, _, hsw, hpv, _, _, hpart, hlen, hb0, hbn⟩ :=
    introspective_sort_step comp hswo xs (by omega)
  obtain ⟨yl, tl, hl, _, hokl, _⟩ := introspective_sort_traced_spec ps comp hswo d (ws.take b)
  obtain ⟨yr, tr, hr, _, hokr, _⟩ := introspective_sort_traced_spec ps comp hswo d (ws.drop b)
  obtain ⟨hsl, hshl⟩ := introspective_sort_traced_shrinks ps comp hswo d _ _ hl
  obtain ⟨hsr, hshr⟩ := introspective_sort_traced_shrinks ps comp hswo d _ _ hr
  rw [List.length_take] at hsl
  rw [List.length_drop] at hsr
  refine ⟨m, xs1, pivot, b, ws, yl, tl, yr, tr, hm, hsw, hpv, hpart, hb0, hbn, hlen, hl, hr,
    ?_, by simp only at hsl; omega, by simp only at hsr; omega, hokl, hokr, hshl, hshr⟩
  simp only [introspective_sort_traced, if_pos h16, hm, hsw, hpv, hpart, hl, hr,
    Option.bind_eq_bind, Option.some_bind, Option.pure_def]

/-- The first event of a call of `introspective_sort_`. -/
theorem introspective_sort_traced_head (ps : List α → List α) (comp : α → α → Bool)
    (hswo : StrictWeakOrder comp) (depth : Nat) (xs : List α) (r : List α × Trace)
    (h : introspective_sort_traced ps comp depth xs = some r) :
    r.2.events.head? =
      some (if 16 < xs.length then
          (if depth = 0 then .fallback xs.length else .partition xs.length)
        else .insertion xs.length) := by
  by_cases h16 : 16 < xs.length
  · cases depth with
    | zero =>
      simp only [introspective_sort_traced, if_pos h16, Option.some.injEq] at h
      subst h
      simp [Trace.events, h16]
    | succ d =>
      obtain ⟨m, xs1, pivot, b, ws, yl, tl, yr, tr, _, _, _, _, _, _, _, _, _, ht, _⟩ :=
        introspective_sort_traced_pass ps comp hswo d xs h16
      rw [ht, Option.some.injEq] at h
      subst h
      simp [Trace.events, h16]
  · have h2 : introspective_sort_traced ps comp depth xs =
        (insertion_sort_ comp xs).map (fun ys => (ys, .insertion xs.length)) := by
      cases depth <;> simp [introspective_sort_traced, h16]
    rw [h2] at h
    obtain ⟨zs, _, rfl⟩ := Option.map_eq_some'.mp h
    simp [Trace.events, h16]

end algo

/-! ## The claims -/

/-- C1: for every finite sequence and every strict weak order, `algo::qsort`
returns (so it terminates with every access inside the range) and leaves the
ascending permutation of its input, whatever correct `std::partial_sort` it
falls back on; on `int` with `std::less<int>()` the result is therefore equal,
position by position, to the copy sorted by any reference sort. -/
theorem C1_qsort_sorts :
    (∀ (β : Type) (comp : β → β → Bool) (ps : List β → List β),
      StrictWeakOrder comp → StdSortContract comp ps → ∀ xs : List β,
        ∃ ys, algo.qsort ps comp xs = some ys ∧ ys.Perm xs ∧ SortedBy comp ys) ∧
    (∀ (ps ref : List Int → List Int),
      StdSortContract int_less ps → StdSortContract int_less ref → ∀ xs : List Int,
        algo.qsort ps int_less xs = some (ref xs)) := by
  refine ⟨fun β comp ps hswo hps xs => algo.qsort_spec ps comp hswo hps xs, ?_⟩
  intro ps ref hps href xs
  obtain ⟨ys, hys, hp, hs⟩ := algo.qsort_spec ps int_less int_less_swo hps xs
  rw [hys, sorted_perm_unique_int hp hs (href xs).1 (href xs).2]

/-- Witness of C1 on a range of 23 values, above the insertion-sort threshold. -/
theorem C1_qsort_sorts_witness :
    StrictWeakOrder int_less ∧ StdSortContract int_less ref_sort ∧
    algo.qsort ref_sort int_less
        [3, 1, 4, 1, 5, 9, 2, 6, 4, 4, 8, 7, 6, 5, 4, 3, 2, 1, 0, -1, 5, 5, 5] =
      some [-1, 0, 1, 1, 1, 2, 2, 3, 3, 4, 4, 4, 4, 5, 5, 5, 5, 5, 6, 6, 7, 8, 9] :=
  ⟨int_less_swo, ref_sort_contract,
    (C1_qsort_sorts.2 ref_sort ref_sort ref_sort_contract ref_sort_contract _).trans
      (by decide)⟩

/-- C2: on every range holding a value not less than the pivot and a value not
greater than it, under a strict weak order, `partition_squeeze` and
`algo::partition_unguarded_` return (they terminate with every access inside
`[first, last)`), leave a permutation of the range, and the boundary `b`
is such that no value of `[first, b)` is greater than the pivot and no value of
`[b, last)` is less than it. -/
theorem C2_partition_squeeze (comp : α → α → Bool) (hswo : StrictWeakOrder comp)
    (a : List α) (pivot : α) (hge : ∃ x ∈ a, comp x pivot = false)
    (hle : ∃ x ∈ a, comp pivot x = false) :
    ∃ b a', partition_squeeze comp a pivot = some (b, a') ∧
      algo.partition_unguarded_ comp a pivot = some (b, a') ∧
      a'.Perm a ∧ b ≤ a.length ∧
      (∀ x ∈ a'.take b, comp pivot x = false) ∧
      (∀ x ∈ a'.drop b, comp x pivot = false) := by
  obtain ⟨b, a', h, hp, hb, hL, hR, _⟩ :=
    partition_squeeze_spec comp (fun _ _ h => hswo.asymm h) a pivot hge hle
  exact ⟨b, a', h, by rw [algo.partition_unguarded_eq, h], hp, hb, hL, hR⟩

/-- Witness of C2 on the range `3 1 4 1 5 9 2 6` with pivot `4`. -/
theorem C2_partition_squeeze_witness :
    (∃ x ∈ [3, 1, 4, 1, 5, 9, 2, 6], int_less x 4 = false) ∧
    (∃ x ∈ [3, 1, 4, 1, 5, 9, 2, 6], int_less 4 x = false) ∧
    ∃ b a', partition_squeeze int_less [3, 1, 4, 1, 5, 9, 2, 6] 4 = some (b, a') ∧
      algo.partition_unguarded_ int_less [3, 1, 4, 1, 5, 9, 2, 6] 4 = some (b, a') ∧
      a'.Perm [3, 1, 4, 1, 5, 9, 2, 6] ∧ b ≤ [3, 1, 4, 1, 5, 9, 2, 6].length ∧
      (∀ x ∈ a'.take b, int_less 4 x = false) ∧
      (∀ x ∈ a'.drop b, int_less x 4 = false) :=
  ⟨by decide, by decide,
    C2_partition_squeeze int_less int_less_swo [3, 1, 4, 1, 5, 9, 2, 6] 4 (by decide)
      (by decide)⟩

/-- C3: on every range holding a value not less than the pivot and a value not
greater than it, under a strict weak order, `partition3_bentley_mcilroy`
returns (it terminates with every access inside `[first, last)`), leaves a
permutation of the range, and its pair `(lo, hi)` satisfies
`first ≤ lo ≤ hi ≤ last` with `[first, lo)` less than the pivot, `[lo, hi)`
equivalent to it and `[hi, last)` greater. -/
theorem C3_partition3_bentley_mcilroy (comp : α → α → Bool) (hswo : StrictWeakOrder comp)
    (a : List α) (pivot : α) (hge : ∃ x ∈ a, comp x pivot = false)
    (hle : ∃ x ∈ a, comp pivot x = false) :
    ∃ lo hi a', partition3_bentley_mcilroy comp a pivot = some (lo, hi, a') ∧
      a'.Perm a ∧ lo ≤ hi ∧ hi ≤ a.length ∧
      (∀ x ∈ a'.take lo, comp x pivot = true) ∧
      (∀ x ∈ (a'.take hi).drop lo, Equiv comp x pivot) ∧
      (∀ x ∈ a'.drop hi, comp pivot x = true) := by
  obtain ⟨_, lo, hi, a', _, _, _, h, hp, _, h1, h2, hL, hM, hG⟩ :=
    partition3_bentley_mcilroy_spec comp (fun _ _ h => hswo.asymm h) a pivot hge hle
  exact ⟨lo, hi, a', h, hp, h1, h2, hL, hM, hG⟩

/-- Witness of C3 on the range `3 1 4 1 5 9 2 6 4 4` with pivot `4`. -/
theorem C3_partition3_bentley_mcilroy_witness :
    (∃ x ∈ [3, 1, 4, 1, 5, 9, 2, 6, 4, 4], int_less x 4 = false) ∧
    (∃ x ∈ [3, 1, 4, 1, 5, 9, 2, 6, 4, 4], int_less 4 x = false) ∧
    ∃ lo hi a',
      partition3_bentley_mcilroy int_less [3, 1, 4, 1, 5, 9, 2, 6, 4, 4] 4 =
        some (lo, hi, a') ∧
      a'.Perm [3, 1, 4, 1, 5, 9, 2, 6, 4, 4] ∧ lo ≤ hi ∧
      hi ≤ [3, 1, 4, 1, 5, 9, 2, 6, 4, 4].length ∧
      (∀ x ∈ a'.take lo, int_less x 4 = true) ∧
      (∀ x ∈ (a'.take hi).drop lo, Equiv int_less x 4) ∧
      (∀ x ∈ a'.drop hi, int_less 4 x = true) :=
  ⟨by decide, by decide,
    C3_partition3_bentley_mcilroy int_less int_less_swo [3, 1, 4, 1, 5, 9, 2, 6, 4, 4] 4
      (by decide) (by decide)⟩

/-- C4, as stated, fails: on the range `5 7` with pivot `5` the unguarded
precondition holds and the first phase ends with `l_head == l_tail`, yet `7` is
not equivalent to the pivot and the returned pair is `(first, first + 1)`, not
`(first, last)`. -/
theorem C4_counterexample :
    (∃ x ∈ [5, 7], int_less x 5 = false) ∧ (∃ x ∈ [5, 7], int_less 5 x = false) ∧
    bm_phase1 int_less [5, 7] 5 = some ⟨[5, 7], 0, 0, 0, 2⟩ ∧
    ¬ (∀ x ∈ [5, 7], Equiv int_less x 5) ∧
    partition3_bentley_mcilroy int_less [5, 7] 5 = some (0, 1, [5, 7]) ∧
    partition3_bentley_mcilroy int_less [5, 7] 5 ≠ some (0, [5, 7].length, [5, 7]) := by
  refine ⟨by decide, by decide, by decide, ?_, by decide, by decide⟩
  intro h
  have := (h 7 (by simp)).2
  revert this
  decide

/-- C4, amended: under the unguarded precondition and a strict weak order,
whenever the first phase of `partition3_bentley_mcilroy` ends with
`l_head == l_tail`, no value of the range is less than the pivot and the
returned equal range starts at `first`: the pair is `(first, hi)` with
`[first, hi)` equivalent to the pivot and `[hi, last)` greater; it is
`(first, last)` when moreover no value is greater than the pivot. -/
theorem C4_equal_head_tail (comp : α → α → Bool) (hswo : StrictWeakOrder comp)
    (a : List α) (pivot : α) (hge : ∃ x ∈ a, comp x pivot = false)
    (hle : ∃ x ∈ a, comp pivot x = false) (s : BMState α)
    (hs : bm_phase1 comp a pivot = some s) (hhead : s.l_head = s.l_tail) :
    (∀ x ∈ a, comp x pivot = false) ∧
    ∃ hi a', partition3_bentley_mcilroy comp a pivot = some (0, hi, a') ∧ a'.Perm a ∧
      hi ≤ a.length ∧
      (∀ x ∈ a'.take hi, Equiv comp x pivot) ∧
      (∀ x ∈ a'.drop hi, comp pivot x = true) ∧
      ((∀ x ∈ a, comp pivot x = false) → hi = a.length) := by
  obtain ⟨s', lo, hi, a', hs', _, _, h, hp, hlo, _, h2, _, hM, hG⟩ :=
    partition3_bentley_mcilroy_spec comp (fun _ _ h => hswo.asymm h) a pivot hge hle
  rw [hs] at hs'
  have hss : s = s' := Option.some.inj hs'
  subst hss
  have hlo0 : lo = 0 := by omega
  subst hlo0
  rw [List.drop_zero] at hM
  have hall : ∀ x ∈ a, comp x pivot = false := by
    intro x hx
    have hx' : x ∈ a'.take hi ++ a'.drop hi := by
      rw [List.take_append_drop]; exact hp.symm.subset hx
    rcases List.mem_append.1 hx' with h | h
    · exact (hM x h).1
    · exact hswo.asymm (hG x h)
  refine ⟨hall, hi, a', h, hp, h2, hM, hG, ?_⟩
  intro hng
  by_contra hne
  have hlt : hi < a'.length := by rw [hp.length_eq]; omega
  have hmem : a'[hi] ∈ a'.drop hi :=
    List.mem_iff_getElem?.2 ⟨0, by
      rw [List.getElem?_drop, Nat.add_zero, List.getElem?_eq_getElem hlt]⟩
  have h1 := hG _ hmem
  have h2 := hng _ (hp.subset (List.getElem_mem hlt))
  rw [h2] at h1; exact absurd h1 (by simp)

/-- Witness of the amended C4 on the range `5 7` with pivot `5`. -/
theorem C4_equal_head_tail_witness :
    (∀ x ∈ [5, 7], int_less x 5 = false) ∧
    ∃ hi a', partition3_bentley_mcilroy int_less [5, 7] 5 = some (0, hi, a') ∧
      a'.Perm [5, 7] ∧ hi ≤ [5, 7].length ∧
      (∀ x ∈ a'.take hi, Equiv int_less x 5) ∧
      (∀ x ∈ a'.drop hi, int_less 5 x = true) ∧
      ((∀ x ∈ [5, 7], int_less 5 x = false) → hi = [5, 7].length) :=
  C4_equal_head_tail int_less int_less_swo [5, 7] 5 (by decide) (by decide)
    ⟨[5, 7], 0, 0, 0, 2⟩ (by decide) rfl

/-- C5: for every range, the empty one included, every pivot and every ordering
predicate (so for every strict weak order), `partition3_dijkstra` returns,
leaves a permutation of the range, and its pair `(lo, hi)` satisfies
`first ≤ lo ≤ hi ≤ last` with `[first, lo)` less than the pivot, `[lo, hi)`
equivalent to it and `[hi, last)` greater. -/
theorem C5_partition3_dijkstra (comp : α → α → Bool) (a : List α) (pivot : α) :
    ∃ lo hi a', partition3_dijkstra comp a pivot = some (lo, hi, a') ∧ a'.Perm a ∧
      lo ≤ hi ∧ hi ≤ a.length ∧
      (∀ x ∈ a'.take lo, comp x pivot = true) ∧
      (∀ x ∈ (a'.take hi).drop lo, Equiv comp x pivot) ∧
      (∀ x ∈ a'.drop hi, comp pivot x = true) :=
  partition3_dijkstra_spec comp a pivot

/-- C6: for every range, pivot and strict weak order, and whatever
`std::partition` does within its contract, `partition3_forward` leaves a
permutation of the range and returns `(lo, hi)` with `lo` the number of values
less than the pivot and `hi` the length minus the number of values greater than
it, so that `[first, lo)` holds the values less than the pivot, `[lo, hi)` those
equivalent to it and `[hi, last)` those greater. -/
theorem C6_partition3_forward (part : (α → Bool) → List α → Nat × List α)
    (hpart : StdPartitionContract part) (comp : α → α → Bool)
    (hswo : StrictWeakOrder comp) (a : List α) (pivot : α) :
    (partition3_forward part comp a pivot).2.2.Perm a ∧
    (partition3_forward part comp a pivot).1 = a.countP (fun x => comp x pivot) ∧
    (partition3_forward part comp a pivot).2.1 =
      a.length - a.countP (fun x => comp pivot x) ∧
    (partition3_forward part comp a pivot).1 ≤ (partition3_forward part comp a pivot).2.1 ∧
    (partition3_forward part comp a pivot).2.1 ≤ a.length ∧
    (∀ x ∈ (partition3_forward part comp a pivot).2.2.take
        (partition3_forward part comp a pivot).1, comp x pivot = true) ∧
    (∀ x ∈ ((partition3_forward part comp a pivot).2.2.take
        (partition3_forward part comp a pivot).2.1).drop
        (partition3_forward part comp a pivot).1, Equiv comp x pivot) ∧
    (∀ x ∈ (partition3_forward part comp a pivot).2.2.drop
        (partition3_forward part comp a pivot).2.1, comp pivot x = true) :=
  partition3_forward_spec hpart comp (fun _ _ h => hswo.asymm h) a pivot

/-- Witness of C6 on the range `3 1 4 1 5 9 2 6 4 4` with pivot `4` and the
stable partition as `std::partition`. -/
theorem C6_partition3_forward_witness :
    StdPartitionContract (ref_partition (α := Int)) ∧ StrictWeakOrder int_less ∧
    partition3_forward ref_partition int_less [3, 1, 4, 1, 5, 9, 2, 6, 4, 4] 4 =
      (4, 7, [3, 1, 1, 2, 4, 4, 4, 5, 9, 6]) ∧
    (partition3_forward ref_partition int_less [3, 1, 4, 1, 5, 9, 2, 6, 4, 4] 4).1 =
      [3, 1, 4, 1, 5, 9, 2, 6, 4, 4].countP (fun x => int_less x 4) ∧
    (partition3_forward ref_partition int_less [3, 1, 4, 1, 5, 9, 2, 6, 4, 4] 4).2.1 =
      [3, 1, 4, 1, 5, 9, 2, 6, 4, 4].length -
        [3, 1, 4, 1, 5, 9, 2, 6, 4, 4].countP (fun x => int_less 4 x) :=
  ⟨ref_partition_contract, int_less_swo, by decide,
    (C6_partition3_forward ref_partition ref_partition_contract int_less int_less_swo
      [3, 1, 4, 1, 5, 9, 2, 6, 4, 4] 4).2.1,
    (C6_partition3_forward ref_partition ref_partition_contract int_less int_less_swo
      [3, 1, 4, 1, 5, 9, 2, 6, 4, 4] 4).2.2.1⟩

/-- C7: for every range, the empty one included, every pivot and every ordering
predicate (so for every strict weak order), `partition_standard` returns,
leaves a permutation of the range, and its boundary `b` is the number of values
less than the pivot, with `[first, b)` less than the pivot and `[b, last)` not
less; the boundary is the one any `std::partition` returns for the predicate
`x < pivot`. -/
theorem C7_partition_standard (comp : α → α → Bool) (a : List α) (pivot : α) :
    ∃ b a', partition_standard comp a pivot = some (b, a') ∧ a'.Perm a ∧
      b = a.countP (fun x => comp x pivot) ∧
      (∀ x ∈ a'.take b, comp x pivot = true) ∧
      (∀ x ∈ a'.drop b, comp x pivot = false) ∧
      (∀ part : (α → Bool) → List α → Nat × List α, StdPartitionContract part →
        (part (fun x => comp x pivot) a).1 = b) := by
  obtain ⟨b, a', h, hp, hb, hL, hR⟩ := partition_standard_spec comp a pivot
  refine ⟨b, a', h, hp, hb, hL, hR, ?_⟩
  intro part hpart
  rw [std_partition_boundary hpart, hb]

/-- Witness of C7 on the range `3 1 4 1 5 9 2 6` with pivot `4`, against the
stable partition as `std::partition`. -/
theorem C7_partition_standard_witness :
    StdPartitionContract (ref_partition (α := Int)) ∧
    partition_standard int_less [3, 1, 4, 1, 5, 9, 2, 6] 4 =
      some (4, [3, 1, 1, 2, 5, 9, 4, 6]) ∧
    (ref_partition (fun x => int_less x 4) [3, 1, 4, 1, 5, 9, 2, 6]).1 = 4 := by
  obtain ⟨b, a', h, _, _, _, _, hstd⟩ :=
    C7_partition_standard int_less [3, 1, 4, 1, 5, 9, 2, 6] 4
  have hb : b = 4 := by
    have h4 : partition_standard int_less [3, 1, 4, 1, 5, 9, 2, 6] 4 =
        some (4, [3, 1, 1, 2, 5, 9, 4, 6]) := by decide
    rw [h4] at h
    exact (congrArg Prod.fst (Option.some.inj h)).symm
  refine ⟨ref_partition_contract, by decide, ?_⟩
  rw [hstd ref_partition ref_partition_contract, hb]

/-- C8: whenever the range holds a value strictly less than the pivot and a
value strictly greater than it, under a strict weak order, the boundary
returned by `partition_squeeze` is not the initial `first`: the left part
`[first, b)` is not empty. -/
theorem C8_partition_squeeze_progress (comp : α → α → Bool) (hswo : StrictWeakOrder comp)
    (a : List α) (pivot : α) (hlt : ∃ x ∈ a, comp x pivot = true)
    (hgt : ∃ x ∈ a, comp pivot x = true) :
    ∃ b a', partition_squeeze comp a pivot = some (b, a') ∧ 0 < b ∧ a'.take b ≠ [] := by
  obtain ⟨x, hx, hcx⟩ := hlt
  obtain ⟨y, hy, hcy⟩ := hgt
  obtain ⟨b, a', h, hp, hb, _, _, hpos⟩ :=
    partition_squeeze_spec comp (fun _ _ h => hswo.asymm h) a pivot
      ⟨y, hy, hswo.asymm hcy⟩ ⟨x, hx, hswo.asymm hcx⟩
  have hb0 : 0 < b := hpos ⟨x, hx, hcx⟩
  refine ⟨b, a', h, hb0, ?_⟩
  intro hnil
  have := congrArg List.length hnil
  rw [List.length_take, hp.length_eq] at this
  simp only [List.length_nil] at this
  omega

/-- Witness of C8 on the range `9 1 4 1 5 3 2 6` with pivot `4`. -/
theorem C8_partition_squeeze_progress_witness :
    (∃ x ∈ [9, 1, 4, 1, 5, 3, 2, 6], int_less x 4 = true) ∧
    (∃ x ∈ [9, 1, 4, 1, 5, 3, 2, 6], int_less 4 x = true) ∧
    ∃ b a', partition_squeeze int_less [9, 1, 4, 1, 5, 3, 2, 6] 4 = some (b, a') ∧
      0 < b ∧ a'.take b ≠ [] :=
  ⟨by decide, by decide,
    C8_partition_squeeze_progress int_less int_less_swo [9, 1, 4, 1, 5, 3, 2, 6] 4
      (by decide) (by decide)⟩

/-- C9: in `algo::qsort` on `n` values, and in every call of
`introspective_sort_` with budget `depth`, the call returns and the number of
`partition_unguarded_` invocations along any chain of nested calls and loop
passes is at most the budget, which for `algo::qsort` is the floor of
`2 * log2(n)`; a call whose budget is zero hands a range of more than 16 values
to the fallback, whole, and partitions nothing. -/
theorem C9_depth_bound (comp : α → α → Bool) (hswo : StrictWeakOrder comp)
    (ps : List α → List α) :
    (∀ (depth : Nat) (xs : List α), ∃ ys t,
      algo.introspective_sort_traced ps comp depth xs = some (ys, t) ∧
      algo.introspective_sort_ ps comp depth xs = some ys ∧ t.depth ≤ depth) ∧
    (∀ xs : List α, xs ≠ [] → ∃ ys t,
      algo.introspective_sort_traced ps comp (algo.depth_budget xs.length) xs =
        some (ys, t) ∧
      algo.qsort ps comp xs = some ys ∧ t.depth ≤ algo.depth_budget xs.length ∧
      2 ^ algo.depth_budget xs.length ≤ xs.length * xs.length ∧
      xs.length * xs.length < 2 ^ (algo.depth_budget xs.length + 1)) ∧
    (∀ xs : List α, 16 < xs.length →
      algo.introspective_sort_traced ps comp 0 xs = some (ps xs, .fallback xs.length) ∧
      algo.introspective_sort_ ps comp 0 xs = some (ps xs)) := by
  have hgen : ∀ (depth : Nat) (xs : List α), ∃ ys t,
      algo.introspective_sort_traced ps comp depth xs = some (ys, t) ∧
      algo.introspective_sort_ ps comp depth xs = some ys ∧ t.depth ≤ depth := by
    intro depth xs
    obtain ⟨ys, t, h, hd, _, _⟩ := algo.introspective_sort_traced_spec ps comp hswo depth xs
    refine ⟨ys, t, h, ?_, hd⟩
    rw [← algo.introspective_sort_traced_fst, h]; rfl
  refine ⟨hgen, ?_, ?_⟩
  · intro xs hne
    have hlen : xs.length ≠ 0 := fun h => hne (List.length_eq_zero.1 h)
    obtain ⟨ys, t, h, hq, hd⟩ := hgen (algo.depth_budget xs.length) xs
    have hpos : 1 ≤ xs.length * xs.length := Nat.mul_pos (by omega) (by omega)
    obtain ⟨hl1, hl2⟩ := floor_log2_spec (xs.length * xs.length) (xs.length * xs.length)
      hpos (le_refl _)
    refine ⟨ys, t, h, ?_, hd, hl1, hl2⟩
    simp only [algo.qsort, if_pos hlen, hq]
  · intro xs h16
    simp [algo.introspective_sort_traced, algo.introspective_sort_, h16]

/-- Witness of C9 on a range of 23 values with budget 1: one partition, then
two insertion sorts. -/
theorem C9_depth_bound_witness :
    StrictWeakOrder int_less ∧
    algo.introspective_sort_traced ref_sort int_less 1
        [3, 1, 4, 1, 5, 9, 2, 6, 4, 4, 8, 7, 6, 5, 4, 3, 2, 1, 0, -1, 5, 5, 5] =
      some ([-1, 0, 1, 1, 1, 2, 2, 3, 3, 4, 4, 4, 4, 5, 5, 5, 5, 5, 6, 6, 7, 8, 9],
        .partition 23 (.insertion 15) (.insertion 8)) ∧
    ∃ ys t, algo.introspective_sort_traced ref_sort int_less 1
        [3, 1, 4, 1, 5, 9, 2, 6, 4, 4, 8, 7, 6, 5, 4, 3, 2, 1, 0, -1, 5, 5, 5] =
        some (ys, t) ∧
      algo.introspective_sort_ ref_sort int_less 1
        [3, 1, 4, 1, 5, 9, 2, 6, 4, 4, 8, 7, 6, 5, 4, 3, 2, 1, 0, -1, 5, 5, 5] = some ys ∧
      t.depth ≤ 1 :=
  ⟨int_less_swo, by decide, (C9_depth_bound int_less int_less_swo ref_sort).1 1 _⟩

/-- C10: in every call of `introspective_sort_`, so in every execution of
`algo::qsort`, the call returns, `partition_unguarded_` and the fallback are
invoked only on ranges of more than 16 values and `insertion_sort_` only on
ranges of at most 16; a range of at most 16 values is handed to
`insertion_sort_` and to nothing else. -/
theorem C10_small_ranges (comp : α → α → Bool) (hswo : StrictWeakOrder comp)
    (ps : List α → List α) :
    (∀ (depth : Nat) (xs : List α), ∃ ys t,
      algo.introspective_sort_traced ps comp depth xs = some (ys, t) ∧
      algo.introspective_sort_ ps comp depth xs = some ys ∧ t.SmallRangeOk) ∧
    (∀ (depth : Nat) (xs : List α), xs.length ≤ 16 →
      algo.introspective_sort_traced ps comp depth xs =
        (algo.insertion_sort_ comp xs).map (fun ys => (ys, .insertion xs.length)) ∧
      algo.introspective_sort_ ps comp depth xs = algo.insertion_sort_ comp xs) := by
  refine ⟨?_, ?_⟩
  · intro depth xs
    obtain ⟨ys, t, h, _, hok, _⟩ := algo.introspective_sort_traced_spec ps comp hswo depth xs
    refine ⟨ys, t, h, ?_, hok⟩
    rw [← algo.introspective_sort_traced_fst, h]; rfl
  · intro depth xs h16
    have hn : ¬ 16 < xs.length := by omega
    cases depth <;>
      simp [algo.introspective_sort_traced, algo.introspective_sort_, hn]

/-- Witness of C10 on a range of 23 values with budget 9: the range of 23 is
partitioned, the ranges of 15 and 8 go to the insertion sort. -/
theorem C10_small_ranges_witness :
    StrictWeakOrder int_less ∧
    algo.introspective_sort_traced ref_sort int_less 9
        [3, 1, 4, 1, 5, 9, 2, 6, 4, 4, 8, 7, 6, 5, 4, 3, 2, 1, 0, -1, 5, 5, 5] =
      some ([-1, 0, 1, 1, 1, 2, 2, 3, 3, 4, 4, 4, 4, 5, 5, 5, 5, 5, 6, 6, 7, 8, 9],
        .partition 23 (.insertion 15) (.insertion 8)) ∧
    ∃ ys t, algo.introspective_sort_traced ref_sort int_less 9
        [3, 1, 4, 1, 5, 9, 2, 6, 4, 4, 8, 7, 6, 5, 4, 3, 2, 1, 0, -1, 5, 5, 5] =
        some (ys, t) ∧
      algo.introspective_sort_ ref_sort int_less 9
        [3, 1, 4, 1, 5, 9, 2, 6, 4, 4, 8, 7, 6, 5, 4, 3, 2, 1, 0, -1, 5, 5, 5] = some ys ∧
      t.SmallRangeOk :=
  ⟨int_less_swo, by decide, (C10_small_ranges int_less int_less_swo ref_sort).1 9 _⟩

/-- C11, as stated, fails: 17 records with the same key and the tags
`0, 1, ..., 16` are in ascending order under the comparison of keys, and
`algo::qsort` returns them with the tags reversed, so every position but the
middle one holds another record than before. -/
theorem C11_counterexample :
    StrictWeakOrder key_less ∧ StdSortContract key_less ref_sort_by_key ∧
    SortedBy key_less
      [(0, 0), (0, 1), (0, 2), (0, 3), (0, 4), (0, 5), (0, 6), (0, 7), (0, 8), (0, 9),
        (0, 10), (0, 11), (0, 12), (0, 13), (0, 14), (0, 15), (0, 16)] ∧
    algo.qsort ref_sort_by_key key_less
      [(0, 0), (0, 1), (0, 2), (0, 3), (0, 4), (0, 5), (0, 6), (0, 7), (0, 8), (0, 9),
        (0, 10), (0, 11), (0, 12), (0, 13), (0, 14), (0, 15), (0, 16)] =
      some [(0, 16), (0, 15), (0, 14), (0, 13), (0, 12), (0, 11), (0, 10), (0, 9), (0, 8),
        (0, 7), (0, 6), (0, 5), (0, 4), (0, 3), (0, 2), (0, 1), (0, 0)] ∧
    algo.qsort ref_sort_by_key key_less
      [(0, 0), (0, 1), (0, 2), (0, 3), (0, 4), (0, 5), (0, 6), (0, 7), (0, 8), (0, 9),
        (0, 10), (0, 11), (0, 12), (0, 13), (0, 14), (0, 15), (0, 16)] ≠
      some [(0, 0), (0, 1), (0, 2), (0, 3), (0, 4), (0, 5), (0, 6), (0, 7), (0, 8), (0, 9),
        (0, 10), (0, 11), (0, 12), (0, 13), (0, 14), (0, 15), (0, 16)] :=
  ⟨key_less_swo, ref_sort_by_key_contract, by unfold SortedBy; decide, by decide,
    by decide⟩

/-- C11, amended: for every sequence already in ascending order under a strict
weak order, `algo::qsort` returns a sequence of the same length in which every
position holds a value equivalent to the one it held before; when equivalent
values are equal, as for `int` under `<`, every position holds the same value
as before. -/
theorem C11_sorted_input (comp : α → α → Bool) (hswo : StrictWeakOrder comp)
    (ps : List α → List α) (hps : StdSortContract comp ps) (xs : List α)
    (hsorted : SortedBy comp xs) :
    ∃ ys, algo.qsort ps comp xs = some ys ∧ ys.length = xs.length ∧
      (∀ (i : Nat) (x y : α), xs[i]? = some x → ys[i]? = some y → Equiv comp x y) ∧
      ((∀ x y, Equiv comp x y → x = y) → ys = xs) := by
  obtain ⟨ys, h, hp, hs⟩ := algo.qsort_spec ps comp hswo hps xs
  exact ⟨ys, h, hp.length_eq, fun i x y hx hy => sorted_perm_equiv_at hswo hsorted hs hp hx hy,
    fun htotal => sorted_perm_unique hswo htotal hsorted hs hp⟩

/-- Witness of the amended C11 on 23 `int` values in ascending order. -/
theorem C11_sorted_input_witness :
    StrictWeakOrder int_less ∧ StdSortContract int_less ref_sort ∧
    SortedBy int_less
      [-1, 0, 1, 1, 1, 2, 2, 3, 3, 4, 4, 4, 4, 5, 5, 5, 5, 5, 6, 6, 7, 8, 9] ∧
    ∃ ys, algo.qsort ref_sort int_less
        [-1, 0, 1, 1, 1, 2, 2, 3, 3, 4, 4, 4, 4, 5, 5, 5, 5, 5, 6, 6, 7, 8, 9] = some ys ∧
      ys.length =
        [-1, 0, 1, 1, 1, 2, 2, 3, 3, 4, 4, 4, 4, 5, 5, 5, 5, 5, 6, 6, 7, 8, 9].length ∧
      (∀ (i : Nat) (x y : Int),
        [-1, 0, 1, 1, 1, 2, 2, 3, 3, 4, 4, 4, 4, 5, 5, 5, 5, 5, 6, 6, 7, 8, 9][i]? =
          some x → ys[i]? = some y → Equiv int_less x y) ∧
      ((∀ x y, Equiv int_less x y → x = y) →
        ys = [-1, 0, 1, 1, 1, 2, 2, 3, 3, 4, 4, 4, 4, 5, 5, 5, 5, 5, 6, 6, 7, 8, 9]) :=
  ⟨int_less_swo, ref_sort_contract, by unfold SortedBy; decide,
    C11_sorted_input int_less int_less_swo ref_sort ref_sort_contract _
      (by unfold SortedBy; decide)⟩

/-- C12, as stated, fails for `n = 1`: on a single value the quicksort versions
return at the size guard and make no partition call. -/
theorem C12_counterexample :
    qsort_v3 ref_partition int_less 2 [7] = some ([7], 0) ∧
    qsort_v4 ref_partition int_less 2 [7] = some ([7], 0) ∧
    qsort_v5 (fun _ => 0) int_less 2 0 [7] = some ([7], 0, 0) ∧
    qsort_v6 int_less 2 [7] = some ([7], 0) ∧
    qsort_v3 ref_partition int_less 2 [7] ≠ some ([7], 1) := by
  decide

/-- C12, amended: for every sequence of `n ≥ 1` copies of one value and the
pivot equal to that value, each three-way partition returns the pair
`(first, last)` and leaves the sequence unchanged; so for `n ≥ 2` the versions
`qsort_v3`, `qsort_v4`, `qsort_v5` and `qsort_v6` make exactly one partition
call and return the input unchanged, and for `n = 1` they return it at the size
guard with no partition call. -/
theorem C12_all_equal (part : (α → Bool) → List α → Nat × List α)
    (hpart : StdPartitionContract part) (comp : α → α → Bool)
    (hswo : StrictWeakOrder comp) (v : α) (n : Nat) (hn : 1 ≤ n) :
    (partition3_forward part comp (List.replicate n v) v = (0, n, List.replicate n v) ∧
      partition3_dijkstra comp (List.replicate n v) v = some (0, n, List.replicate n v) ∧
      partition3_bentley_mcilroy comp (List.replicate n v) v =
        some (0, n, List.replicate n v)) ∧
    (2 ≤ n → ∀ fuel, 2 ≤ fuel →
      qsort_v3 part comp fuel (List.replicate n v) = some (List.replicate n v, 1) ∧
      qsort_v4 part comp fuel (List.replicate n v) = some (List.replicate n v, 1) ∧
      (∀ (rand : Nat → Nat) (k : Nat),
        qsort_v5 rand comp fuel k (List.replicate n v) =
          some (List.replicate n v, 1, k + 1)) ∧
      qsort_v6 comp fuel (List.replicate n v) = some (List.replicate n v, 1)) ∧
    (n = 1 → ∀ fuel, 1 ≤ fuel →
      qsort_v3 part comp fuel [v] = some ([v], 0) ∧
      qsort_v4 part comp fuel [v] = some ([v], 0) ∧
      (∀ (rand : Nat → Nat) (k : Nat), qsort_v5 rand comp fuel k [v] = some ([v], 0, k)) ∧
      qsort_v6 comp fuel [v] = some ([v], 0)) := by
  refine ⟨partition3_all_equal hpart comp hswo v n hn, ?_, ?_⟩
  · intro h2 fuel hfuel
    exact qsort_all_equal hpart comp hswo v n h2 fuel hfuel
  · intro _ fuel hfuel
    obtain ⟨f, rfl⟩ : ∃ f, fuel = f + 1 := ⟨fuel - 1, by omega⟩
    refine ⟨by simp [qsort_v3], by simp [qsort_v4], fun _ _ => by simp [qsort_v5],
      by simp [qsort_v6]⟩

/-- Witness of the amended C12 on five copies of `7`. -/
theorem C12_all_equal_witness :
    StdPartitionContract (ref_partition (α := Int)) ∧ StrictWeakOrder int_less ∧
    partition3_forward ref_partition int_less [7, 7, 7, 7, 7] 7 = (0, 5, [7, 7, 7, 7, 7]) ∧
    partition3_dijkstra int_less [7, 7, 7, 7, 7] 7 = some (0, 5, [7, 7, 7, 7, 7]) ∧
    partition3_bentley_mcilroy int_less [7, 7, 7, 7, 7] 7 = some (0, 5, [7, 7, 7, 7, 7]) ∧
    qsort_v3 ref_partition int_less 6 [7, 7, 7, 7, 7] = some ([7, 7, 7, 7, 7], 1) ∧
    qsort_v6 int_less 6 [7, 7, 7, 7, 7] = some ([7, 7, 7, 7, 7], 1) :=
  ⟨ref_partition_contract, int_less_swo,
    (C12_all_equal ref_partition ref_partition_contract int_less int_less_swo 7 5
      (by decide)).1.1,
    (C12_all_equal ref_partition ref_partition_contract int_less int_less_swo 7 5
      (by decide)).1.2.1,
    (C12_all_equal ref_partition ref_partition_contract int_less int_less_swo 7 5
      (by decide)).1.2.2,
    ((C12_all_equal ref_partition ref_partition_contract int_less int_less_swo 7 5
      (by decide)).2.1 (by decide) 6 (by decide)).1,
    ((C12_all_equal ref_partition ref_partition_contract int_less int_less_swo 7 5
      (by decide)).2.1 (by decide) 6 (by decide)).2.2.2⟩

/-- C13: for every three valid positions and every strict weak order,
`algo::iter_median_3_` returns one of the three positions, and of the other two
values at least one is not greater than the returned value and at least one is
not less than it. -/
theorem C13_iter_median_3 (comp : α → α → Bool) (hswo : StrictWeakOrder comp)
    (xs : List α) (a b c : Nat) (ha : a < xs.length) (hb : b < xs.length)
    (hc : c < xs.length) :
    (algo.iter_median_3_ comp xs a b c = some a ∧
        (comp xs[a] xs[b] = false ∨ comp xs[a] xs[c] = false) ∧
        (comp xs[b] xs[a] = false ∨ comp xs[c] xs[a] = false)) ∨
    (algo.iter_median_3_ comp xs a b c = some b ∧
        (comp xs[b] xs[a] = false ∨ comp xs[b] xs[c] = false) ∧
        (comp xs[a] xs[b] = false ∨ comp xs[c] xs[b] = false)) ∨
    (algo.iter_median_3_ comp xs a b c = some c ∧
        (comp xs[c] xs[a] = false ∨ comp xs[c] xs[b] = false) ∧
        (comp xs[a] xs[c] = false ∨ comp xs[b] xs[c] = false)) :=
  algo.iter_median_3_median comp (fun _ _ h => hswo.asymm h) xs a b c xs[a] xs[b] xs[c]
    (List.getElem?_eq_getElem ha) (List.getElem?_eq_getElem hb)
    (List.getElem?_eq_getElem hc)

/-- Witness of C13 on the range `5 3 9`, whose median `5` is at position 0. -/
theorem C13_iter_median_3_witness :
    StrictWeakOrder int_less ∧ algo.iter_median_3_ int_less [5, 3, 9] 0 1 2 = some 0 ∧
    ((algo.iter_median_3_ int_less [5, 3, 9] 0 1 2 = some 0 ∧
        (int_less 5 3 = false ∨ int_less 5 9 = false) ∧
        (int_less 3 5 = false ∨ int_less 9 5 = false)) ∨
      (algo.iter_median_3_ int_less [5, 3, 9] 0 1 2 = some 1 ∧
        (int_less 3 5 = false ∨ int_less 3 9 = false) ∧
        (int_less 5 3 = false ∨ int_less 9 3 = false)) ∨
      (algo.iter_median_3_ int_less [5, 3, 9] 0 1 2 = some 2 ∧
        (int_less 9 5 = false ∨ int_less 9 3 = false) ∧
        (int_less 5 9 = false ∨ int_less 3 9 = false))) :=
  ⟨int_less_swo, by decide,
    C13_iter_median_3 int_less int_less_swo [5, 3, 9] 0 1 2 (by decide) (by decide)
      (by decide)⟩

/-- C14: on every non-empty range of at most 80 elements `algo::iter_median_`
returns exactly `iter_median_3_(first, split, last - 1)`; on every longer range
whose `split - d` is a position, with `d = (last - first) / 8`, it returns the
median of three of the medians of three taken at `first, first + d, first + 2d`,
at `split - d, split, split + d` and at `last - 2d, last - d, last - 1`. -/
theorem C14_iter_median (comp : α → α → Bool) (xs : List α) (first split last : Nat)
    (hne : first < last) (hsd : 80 < last - first → (last - first) / 8 ≤ split) :
    algo.iter_median_ comp xs first split last =
      median_of_medians_spec comp xs first split last ∧
    (last - first ≤ 80 →
      algo.iter_median_ comp xs first split last =
        algo.iter_median_3_ comp xs first split (last - 1)) := by
  have h := algo.iter_median_eq_spec comp xs first split last hne hsd
  refine ⟨h, ?_⟩
  intro h80
  rw [h, median_of_medians_spec, if_pos h80]

/-- Witness of C14 on the range `5 3 9 1 7` and on a range of 88 values, both
with `split` at the midpoint. -/
theorem C14_iter_median_witness :
    (algo.iter_median_ int_less [5, 3, 9, 1, 7] 0 2 5 =
        median_of_medians_spec int_less [5, 3, 9, 1, 7] 0 2 5 ∧
      (5 - 0 ≤ 80 →
        algo.iter_median_ int_less [5, 3, 9, 1, 7] 0 2 5 =
          algo.iter_median_3_ int_less [5, 3, 9, 1, 7] 0 2 (5 - 1))) ∧
    algo.iter_median_ int_less
        ((List.range 88).map (fun (i : Nat) => ((i * 37 % 88 : Nat) : Int))) 0 44 88 =
      some 44 ∧
    algo.iter_median_ int_less
        ((List.range 88).map (fun (i : Nat) => ((i * 37 % 88 : Nat) : Int))) 0 44 88 =
      median_of_medians_spec int_less
        ((List.range 88).map (fun (i : Nat) => ((i * 37 % 88 : Nat) : Int))) 0 44 88 :=
  ⟨C14_iter_median int_less [5, 3, 9, 1, 7] 0 2 5 (by decide) (by decide), by decide,
    (C14_iter_median int_less _ 0 44 88 (by decide) (by decide)).1⟩

/-- C15: whenever some value of the range is not less than the pivot, the
boundary returned by `partition_standard` is not `last`; so is the boundary of
`partition_squeeze` under its unguarded precondition, and so is the lower
boundary of the pair returned by each three-way partition. -/
theorem C15_never_last (part : (α → Bool) → List α → Nat × List α)
    (hpart : StdPartitionContract part) (comp : α → α → Bool)
    (hswo : StrictWeakOrder comp) (a : List α) (pivot : α)
    (hge : ∃ x ∈ a, comp x pivot = false) :
    (∃ b a', partition_standard comp a pivot = some (b, a') ∧ b < a.length) ∧
    ((∃ x ∈ a, comp pivot x = false) →
      ∃ b a', partition_squeeze comp a pivot = some (b, a') ∧ b < a.length) ∧
    (partition3_forward part comp a pivot).1 < a.length ∧
    (∃ lo hi a', partition3_dijkstra comp a pivot = some (lo, hi, a') ∧
      lo < a.length) ∧
    ((∃ x ∈ a, comp pivot x = false) →
      ∃ lo hi a', partition3_bentley_mcilroy comp a pivot = some (lo, hi, a') ∧
        lo < a.length) := by
  refine ⟨?_, ?_, ?_, ?_, ?_⟩
  · obtain ⟨b, a', h, hp, _, hL, _⟩ := partition_standard_spec comp a pivot
    exact ⟨b, a', h, lower_lt_length_of_not_less hp hL hge⟩
  · intro hle
    obtain ⟨b, a', h, _⟩ :=
      partition_squeeze_spec comp (fun _ _ h => hswo.asymm h) a pivot hge hle
    exact ⟨b, a', h, (partition_squeeze_bounds comp a pivot b a' h).1⟩
  · obtain ⟨hp, _, _, _, _, hL, _⟩ :=
      partition3_forward_spec hpart comp (fun _ _ h => hswo.asymm h) a pivot
    exact lower_lt_length_of_not_less hp hL hge
  · obtain ⟨lo, hi, a', h, hp, _, _, hL, _⟩ := partition3_dijkstra_spec comp a pivot
    exact ⟨lo, hi, a', h, lower_lt_length_of_not_less hp hL hge⟩
  · intro hle
    obtain ⟨_, lo, hi, a', _, _, _, h, hp, _, _, _, hL, _⟩ :=
      partition3_bentley_mcilroy_spec comp (fun _ _ h => hswo.asymm h) a pivot hge hle
    exact ⟨lo, hi, a', h, lower_lt_length_of_not_less hp hL hge⟩

/-- Witness of C15 on the range `3 1 4 1 5 9 2 6` with pivot `9`, the maximum. -/
theorem C15_never_last_witness :
    (∃ x ∈ [3, 1, 4, 1, 5, 9, 2, 6], int_less x 9 = false) ∧
    partition_standard int_less [3, 1, 4, 1, 5, 9, 2, 6] 9 =
      some (7, [3, 1, 4, 1, 5, 2, 6, 9]) ∧
    (∃ b a', partition_standard int_less [3, 1, 4, 1, 5, 9, 2, 6] 9 = some (b, a') ∧
      b < [3, 1, 4, 1, 5, 9, 2, 6].length) :=
  ⟨by decide, by decide,
    (C15_never_last ref_partition ref_partition_contract int_less int_less_swo
      [3, 1, 4, 1, 5, 9, 2, 6] 9 (by decide)).1⟩

/-- C16: for every `int` sequence, `qsort_v1` returns (with the fuel of the
harness routine and with any larger fuel) and leaves the ascending permutation
of its input, equal position by position to the copy sorted by any reference
sort, whatever `std::partition` does within its contract. -/
theorem C16_qsort_v1_sorts (part : (Int → Bool) → List Int → Nat × List Int)
    (hpart : StdPartitionContract part) (ref : List Int → List Int)
    (href : StdSortContract int_less ref) (xs : List Int) :
    qsort_v1_wrap part xs = some (ref xs) ∧
    (∀ fuel, xs.length < fuel →
      (qsort_v1 part int_less fuel xs).map Prod.fst = some (ref xs)) := by
  have hgen : ∀ fuel, xs.length < fuel →
      (qsort_v1 part int_less fuel xs).map Prod.fst = some (ref xs) := by
    intro fuel hfuel
    obtain ⟨ys, c, h, hp, hs⟩ := qsort_v1_spec hpart int_less int_less_swo fuel xs hfuel
    rw [h, Option.map_some', sorted_perm_unique_int hp hs (href xs).1 (href xs).2]
  exact ⟨hgen _ (Nat.lt_succ_self _), hgen⟩

/-- Witness of C16 on the range `3 1 4 1 5 9 2 6 5 3 5`. -/
theorem C16_qsort_v1_sorts_witness :
    StdPartitionContract (ref_partition (α := Int)) ∧ StdSortContract int_less ref_sort ∧
    qsort_v1_wrap ref_partition [3, 1, 4, 1, 5, 9, 2, 6, 5, 3, 5] =
      some [1, 1, 2, 3, 3, 4, 5, 5, 5, 6, 9] :=
  ⟨ref_partition_contract, ref_sort_contract,
    (C16_qsort_v1_sorts ref_partition ref_partition_contract ref_sort ref_sort_contract
      [3, 1, 4, 1, 5, 9, 2, 6, 5, 3, 5]).1.trans (by decide)⟩

/-- C17: for every `int` sequence, `qsort_v2` returns and leaves the ascending
permutation of its input, equal position by position to the copy sorted by any
reference sort; on every range of at least two elements the boundary that
`partition_squeeze` returns for the midpoint value is strictly between `first`
and `last`, so both subsequences are strictly shorter. -/
theorem C17_qsort_v2_sorts (ref : List Int → List Int)
    (href : StdSortContract int_less ref) (xs : List Int) :
    qsort_v2_wrap xs = some (ref xs) ∧
    (∀ fuel, xs.length < fuel →
      (qsort_v2 int_less fuel xs).map Prod.fst = some (ref xs)) ∧
    (2 ≤ xs.length → ∃ pv b ys, xs[xs.length / 2]? = some pv ∧
      partition_squeeze int_less xs pv = some (b, ys) ∧ 0 < b ∧ b < xs.length ∧
      (ys.take b).length < xs.length ∧ (ys.drop b).length < xs.length) := by
  have hgen : ∀ fuel, xs.length < fuel →
      (qsort_v2 int_less fuel xs).map Prod.fst = some (ref xs) := by
    intro fuel hfuel
    obtain ⟨ys, c, h, hp, hs⟩ := qsort_v2_spec int_less int_less_swo fuel xs hfuel
    rw [h, Option.map_some', sorted_perm_unique_int hp hs (href xs).1 (href xs).2]
  refine ⟨hgen _ (Nat.lt_succ_self _), hgen, ?_⟩
  intro h2
  obtain ⟨pv, b, ys, hpv, hpart, hb0, hbn, hperm, _, _⟩ :=
    partition_squeeze_midpoint int_less int_less_swo xs h2
  have hlen := hperm.length_eq
  refine ⟨pv, b, ys, hpv, hpart, hb0, hbn, ?_, ?_⟩
  · rw [List.length_take]; omega
  · rw [List.length_drop]; omega

/-- Witness of C17 on the range `3 1 4 1 5 9 2 6 5 3 5`. -/
theorem C17_qsort_v2_sorts_witness :
    StdSortContract int_less ref_sort ∧
    qsort_v2_wrap [3, 1, 4, 1, 5, 9, 2, 6, 5, 3, 5] =
      some [1, 1, 2, 3, 3, 4, 5, 5, 5, 6, 9] ∧
    partition_squeeze int_less [3, 1, 4, 1, 5, 9, 2, 6, 5, 3, 5] 9 =
      some (10, [3, 1, 4, 1, 5, 5, 2, 6, 5, 3, 9]) :=
  ⟨ref_sort_contract,
    (C17_qsort_v2_sorts ref_sort ref_sort_contract
      [3, 1, 4, 1, 5, 9, 2, 6, 5, 3, 5]).1.trans (by decide), by decide⟩

/-- C18: for every `int` sequence, `qsort_v6` returns and leaves the ascending
permutation of its input, equal position by position to the copy sorted by any
reference sort; on every range of at least two elements `iter_median_9` returns
a position of the range, so the pivot is a value of the range and the unguarded
precondition of `partition3_bentley_mcilroy` holds. -/
theorem C18_qsort_v6_sorts (ref : List Int → List Int)
    (href : StdSortContract int_less ref) (xs : List Int) :
    qsort_v6_wrap xs = some (ref xs) ∧
    (∀ fuel, xs.length < fuel →
      (qsort_v6 int_less fuel xs).map Prod.fst = some (ref xs)) ∧
    (2 ≤ xs.length → ∃ p pv, iter_median_9 int_less xs 0 (xs.length / 2) xs.length = some p ∧
      xs[p]? = some pv ∧ (∃ x ∈ xs, int_less x pv = false) ∧
      (∃ x ∈ xs, int_less pv x = false)) := by
  have hgen : ∀ fuel, xs.length < fuel →
      (qsort_v6 int_less fuel xs).map Prod.fst = some (ref xs) := by
    intro fuel hfuel
    obtain ⟨ys, c, h, hp, hs⟩ := qsort_v6_spec int_less int_less_swo fuel xs hfuel
    rw [h, Option.map_some', sorted_perm_unique_int hp hs (href xs).1 (href xs).2]
  refine ⟨hgen _ (Nat.lt_succ_self _), hgen, ?_⟩
  intro h2
  obtain ⟨p, hp, hpn⟩ := iter_median_9_in_range int_less xs (by omega)
  have hmem : xs[p] ∈ xs := List.getElem_mem hpn
  exact ⟨p, xs[p], hp, List.getElem?_eq_getElem hpn, ⟨_, hmem, int_less_swo.irrefl _⟩,
    ⟨_, hmem, int_less_swo.irrefl _⟩⟩

/-- Witness of C18 on the range `3 1 4 1 5 9 2 6 5 3 5`. -/
theorem C18_qsort_v6_sorts_witness :
    StdSortContract int_less ref_sort ∧
    qsort_v6_wrap [3, 1, 4, 1, 5, 9, 2, 6, 5, 3, 5] =
      some [1, 1, 2, 3, 3, 4, 5, 5, 5, 6, 9] :=
  ⟨ref_sort_contract,
    (C18_qsort_v6_sorts ref_sort ref_sort_contract
      [3, 1, 4, 1, 5, 9, 2, 6, 5, 3, 5]).1.trans (by decide)⟩

/-- C19: on every range of at least two elements, whatever non-negative values
the pseudo-random source returns, `iter_random` returns a position inside
`[first, last)`; for every `int` sequence `qsort_v5` returns, and two runs with
different draws end in the same array, the ascending permutation of the
input. -/
theorem C19_qsort_v5_random (ref : List Int → List Int)
    (href : StdSortContract int_less ref) (xs : List Int) :
    (∀ (rand : Nat → Nat) (k n : Nat), 2 ≤ n →
      ∃ p, iter_random rand k 0 n = some (p, k + 1) ∧ p < n) ∧
    (∀ (rand : Nat → Nat) (k : Nat), qsort_v5_wrap rand k xs = some (ref xs)) ∧
    (∀ (rand1 rand2 : Nat → Nat) (k1 k2 : Nat),
      qsort_v5_wrap rand1 k1 xs = qsort_v5_wrap rand2 k2 xs) := by
  have hgen : ∀ (rand : Nat → Nat) (k : Nat), qsort_v5_wrap rand k xs = some (ref xs) := by
    intro rand k
    obtain ⟨ys, c, k', h, hp, hs⟩ :=
      qsort_v5_spec rand int_less int_less_swo (xs.length + 1) k xs (Nat.lt_succ_self _)
    rw [qsort_v5_wrap, h, Option.map_some',
      sorted_perm_unique_int hp hs (href xs).1 (href xs).2]
  refine ⟨fun rand k n hn => iter_random_spec rand k n (by omega), hgen, ?_⟩
  intro rand1 rand2 k1 k2
  rw [hgen rand1 k1, hgen rand2 k2]

/-- Witness of C19 on the range `3 1 4 1 5 9 2 6 5 3 5` with two different
sources. -/
theorem C19_qsort_v5_random_witness :
    StdSortContract int_less ref_sort ∧
    qsort_v5_wrap (fun k => 7 * k + 3) 0 [3, 1, 4, 1, 5, 9, 2, 6, 5, 3, 5] =
      some [1, 1, 2, 3, 3, 4, 5, 5, 5, 6, 9] ∧
    qsort_v5_wrap (fun k => 7 * k + 3) 0 [3, 1, 4, 1, 5, 9, 2, 6, 5, 3, 5] =
      qsort_v5_wrap (fun _ => 0) 5 [3, 1, 4, 1, 5, 9, 2, 6, 5, 3, 5] :=
  ⟨ref_sort_contract, by decide,
    (C19_qsort_v5_random ref_sort ref_sort_contract
      [3, 1, 4, 1, 5, 9, 2, 6, 5, 3, 5]).2.2 _ _ _ _⟩

/-- C20: for every modulus `m ≥ 1` and every `n` that is a multiple of `m`,
`algo::qsort` turns the Sawtooth sequence `i mod m`, `0 ≤ i < n`, into the
sequence in which each value `0, 1, ..., m - 1` occurs `n / m` consecutive
times in ascending order. -/
theorem C20_sawtooth_sorted (ps : List Int → List Int)
    (hps : StdSortContract int_less ps) (m n : Nat) (hm : 1 ≤ m) (hdiv : m ∣ n) :
    algo.qsort ps int_less (generate_base Sawtooth.generate n m) =
      some (value_blocks m (n / m)) := by
  obtain ⟨k, rfl⟩ := hdiv
  rw [Nat.mul_div_cancel_left k (by omega)]
  obtain ⟨ys, h, hp, hs⟩ := algo.qsort_spec ps int_less int_less_swo hps
    (generate_base Sawtooth.generate (m * k) m)
  rw [h, sorted_perm_unique_int hp hs (sawtooth_perm_blocks m k) (value_blocks_sorted m k)]

/-- Witness of C20 for `n = 9`, `m = 3`: the sequence `0 1 2 0 1 2 0 1 2` is
sorted into `0 0 0 1 1 1 2 2 2`. -/
theorem C20_sawtooth_sorted_witness :
    StdSortContract int_less ref_sort ∧
    generate_base Sawtooth.generate 9 3 = [0, 1, 2, 0, 1, 2, 0, 1, 2] ∧
    value_blocks 3 (9 / 3) = [0, 0, 0, 1, 1, 1, 2, 2, 2] ∧
    algo.qsort ref_sort int_less [0, 1, 2, 0, 1, 2, 0, 1, 2] =
      some [0, 0, 0, 1, 1, 1, 2, 2, 2] :=
  ⟨ref_sort_contract, by decide, by decide,
    (C20_sawtooth_sorted ref_sort ref_sort_contract 3 9 (by decide) (by decide)).trans
      (by decide)⟩

/-- C21: for every `n ≥ 1` and every `m` coprime to `n`, the sequence
`(i*m + 1) mod n`, `0 ≤ i < n`, is a permutation of `0, 1, ..., n - 1` and
`algo::qsort` sorts it to `0, 1, ..., n - 1`; whenever the products stay within
`int`, so that the arithmetic of `Stagger::generate` is exact, this is the
Stagger sequence that the harness generates. -/
theorem C21_stagger_sorted (ps : List Int → List Int)
    (hps : StdSortContract int_less ps) (n m : Nat) (hn : 1 ≤ n)
    (hcop : Nat.Coprime m n) :
    ((List.range n).map (fun (i : Nat) => (((i * m + 1) % n : Nat) : Int))).Perm
      ((List.range n).map (fun (i : Nat) => (i : Int))) ∧
    algo.qsort ps int_less
        ((List.range n).map (fun (i : Nat) => (((i * m + 1) % n : Nat) : Int))) =
      some ((List.range n).map (fun (i : Nat) => (i : Int))) ∧
    ((n - 1) * m + 1 < 2147483648 →
      generate_base Stagger.generate n m =
        (List.range n).map (fun (i : Nat) => (((i * m + 1) % n : Nat) : Int)) ∧
      algo.qsort ps int_less (generate_base Stagger.generate n m) =
        some ((List.range n).map (fun (i : Nat) => (i : Int)))) := by
  have hperm : ((List.range n).map (fun (i : Nat) => (((i * m + 1) % n : Nat) : Int))).Perm
      ((List.range n).map (fun (i : Nat) => (i : Int))) := by
    have h := (stagger_perm_range n m hn hcop).map (fun (i : Nat) => (i : Int))
    rwa [List.map_map] at h
  have hsort : algo.qsort ps int_less
        ((List.range n).map (fun (i : Nat) => (((i * m + 1) % n : Nat) : Int))) =
      some ((List.range n).map (fun (i : Nat) => (i : Int))) := by
    obtain ⟨ys, h, hp, hs⟩ := algo.qsort_spec ps int_less int_less_swo hps
      ((List.range n).map (fun (i : Nat) => (((i * m + 1) % n : Nat) : Int)))
    rw [h, sorted_perm_unique_int hp hs hperm.symm (range_cast_sorted n)]
  refine ⟨hperm, hsort, ?_⟩
  intro hexact
  rw [generate_base_stagger n m hexact]
  exact ⟨rfl, hsort⟩

/-- Witness of C21 for `n = 5`, `m = 2`: the sequence `1 3 0 2 4` is sorted into
`0 1 2 3 4`. -/
theorem C21_stagger_sorted_witness :
    StdSortContract int_less ref_sort ∧
    generate_base Stagger.generate 5 2 = [1, 3, 0, 2, 4] ∧
    algo.qsort ref_sort int_less [1, 3, 0, 2, 4] = some [0, 1, 2, 3, 4] :=
  ⟨ref_sort_contract, by decide,
    ((C21_stagger_sorted ref_sort ref_sort_contract 5 2 (by decide) (by decide)).2.2
      (by decide)).2.trans (by decide)⟩

/-- C22: for every `n ≥ 0` and `m ≥ 0`, the Plateau sequence `min(i, m)`,
`0 ≤ i < n`, is non-decreasing and `algo::qsort` returns it unchanged. -/
theorem C22_plateau_unchanged (ps : List Int → List Int)
    (hps : StdSortContract int_less ps) (n m : Nat) :
    generate_base Plateau.generate n m =
      (List.range n).map (fun (i : Nat) => ((min i m : Nat) : Int)) ∧
    (generate_base Plateau.generate n m).Sorted (fun a b => a ≤ b) ∧
    algo.qsort ps int_less (generate_base Plateau.generate n m) =
      some (generate_base Plateau.generate n m) := by
  refine ⟨?_, (sortedBy_int_less_iff _).1 (plateau_sorted n m), ?_⟩
  · unfold generate_base
    refine List.map_congr_left ?_
    intro i _
    simp only [Plateau.generate]
    split <;> omega
  · obtain ⟨ys, h, hp, hs⟩ := algo.qsort_spec ps int_less int_less_swo hps
      (generate_base Plateau.generate n m)
    rw [h, sorted_perm_unique_int hp hs (List.Perm.refl _) (plateau_sorted n m)]

/-- Witness of C22 for `n = 6`, `m = 2`: the sequence `0 1 2 2 2 2`. -/
theorem C22_plateau_unchanged_witness :
    StdSortContract int_less ref_sort ∧
    generate_base Plateau.generate 6 2 = [0, 1, 2, 2, 2, 2] ∧
    algo.qsort ref_sort int_less (generate_base Plateau.generate 6 2) =
      some [0, 1, 2, 2, 2, 2] :=
  ⟨ref_sort_contract, by decide,
    (C22_plateau_unchanged ref_sort ref_sort_contract 6 2).2.2.trans (by decide)⟩

/-- Counterexample to C23 as stated: a generation run of `2^30` draws that are
all `1`, with `m = 2`.  Every draw is non-zero modulo `m`, so that the last
value, the `2^30`-th, should be `2 * 2^30`; the even counter is then
`2147483646`, the step `j += 2` leaves `int`, and the value is `-2147483648`,
which is below the values before it. -/
theorem C23_counterexample :
    Int.tmod 1 2 ≠ 0 ∧
    ((List.replicate 1073741824 (1 : Int)).take 1073741824).countP
      (fun x => decide (Int.tmod x 2 ≠ 0)) = 1073741824 ∧
    (Shuffle.generate { j := 2147483646, k := 1 } 1 1073741824 2 1073741823).1 = -2147483648 ∧
    (Shuffle.generate_base { j := 0, k := 1 } 2 (List.replicate 1073741824 1)).1[1073741823]? =
      some (-2147483648) ∧
    (Shuffle.generate_base { j := 0, k := 1 } 2 (List.replicate 1073741824 1)).1[1073741823]? ≠
      some (2 * ((((List.replicate 1073741824 (1 : Int)).take 1073741824).countP
        (fun x => decide (Int.tmod x 2 ≠ 0)) : Nat) : Int)) := by
  have hc := shuffle_count_replicate 2 1 (by decide) 1073741824
  have hv := shuffle_wrap_at { j := 0, k := 1 } 2 1 (by decide) 1073741823 (by decide)
  refine ⟨by decide, hc, by decide, hv, ?_⟩
  rw [hv, hc]
  decide

/-- C23, amended: in one generation run of fewer than `2^30` values of the
strategy `Shuffle`, which starts with `init()`, the `t`-th value is `2*e` when
the `t`-th draw is non-zero modulo `m` (`e` being the number of such draws so
far, this one included) and `1 + 2*z` otherwise (`z` being the number of draws
that are zero modulo `m` so far, this one included); the values are pairwise
distinct, the even ones form a strictly increasing subsequence and so do the
odd ones, and they do not depend on the counters that an earlier run left.
Every power of ten that an `int` holds is below `2^30`, so that every run of
the harness is covered; in a longer run a counter can leave `int`. -/
theorem C23_shuffle_values (s : Shuffle) (m : Int) (draws : List Int)
    (hlen : draws.length < 1073741824) :
    (∀ (t : Nat) (r : Int), draws[t]? = some r →
      (Shuffle.generate_base s m draws).1[t]? =
        some (if Int.tmod r m ≠ 0 then
            2 * ((draws.take (t + 1)).countP (fun x => decide (Int.tmod x m ≠ 0)) : Nat)
          else
            1 + 2 * ((draws.take (t + 1)).countP (fun x => decide (Int.tmod x m = 0)) : Nat)))
      ∧
    (Shuffle.generate_base s m draws).1.length = draws.length ∧
    (Shuffle.generate_base s m draws).1.Nodup ∧
    ((Shuffle.generate_base s m draws).1.filter (fun v => decide (v % 2 = 0))).Sorted
      (fun a b => a < b) ∧
    ((Shuffle.generate_base s m draws).1.filter (fun v => decide (v % 2 = 1))).Sorted
      (fun a b => a < b) ∧
    (∀ s1 : Shuffle,
      (Shuffle.generate_base s1 m draws).1 = (Shuffle.generate_base s m draws).1) := by
  have hl : (draws.length : Int) < 1073741824 := by exact_mod_cast hlen
  refine ⟨?_, shuffle_loop_length _ _ _ _ _, ?_, ?_, ?_, fun _ => rfl⟩
  · intro t r h
    have := shuffle_loop_getElem? (draws.length : Int) m draws 0 (Shuffle.init s)
      (by simp [Shuffle.init]) (by simp [Shuffle.init]) (by simp [Shuffle.init]; omega)
      (by simp [Shuffle.init]; omega) t r h
    simpa [Shuffle.generate_base, Shuffle.init] using this
  · exact (shuffle_loop_values (draws.length : Int) m draws 0 (Shuffle.init s)
      (by simp [Shuffle.init]) (by simp [Shuffle.init]) (by simp [Shuffle.init])
      (by simp [Shuffle.init]) (by simp [Shuffle.init]; omega)
      (by simp [Shuffle.init]; omega)).2.1
  · exact (shuffle_loop_values (draws.length : Int) m draws 0 (Shuffle.init s)
      (by simp [Shuffle.init]) (by simp [Shuffle.init]) (by simp [Shuffle.init])
      (by simp [Shuffle.init]) (by simp [Shuffle.init]; omega)
      (by simp [Shuffle.init]; omega)).2.2.1
  · exact (shuffle_loop_values (draws.length : Int) m draws 0 (Shuffle.init s)
      (by simp [Shuffle.init]) (by simp [Shuffle.init]) (by simp [Shuffle.init])
      (by simp [Shuffle.init]) (by simp [Shuffle.init]; omega)
      (by simp [Shuffle.init]; omega)).2.2.2

/-- Witness of C23 for `m = 2` and the draws `1 0 3 4 5 7 0`, after a run that
left the counters at `5` and `7`: the values are `2 3 4 5 6 8 7`. -/
theorem C23_shuffle_values_witness :
    (Shuffle.generate_base { j := 5, k := 7 } 2 [1, 0, 3, 4, 5, 7, 0]).1 =
      [2, 3, 4, 5, 6, 8, 7] ∧
    (Shuffle.generate_base { j := 5, k := 7 } 2 [1, 0, 3, 4, 5, 7, 0]).1.Nodup ∧
    (∀ s1 : Shuffle,
      (Shuffle.generate_base s1 2 [1, 0, 3, 4, 5, 7, 0]).1 =
        (Shuffle.generate_base { j := 5, k := 7 } 2 [1, 0, 3, 4, 5, 7, 0]).1) :=
  ⟨by decide,
    (C23_shuffle_values { j := 5, k := 7 } 2 [1, 0, 3, 4, 5, 7, 0] (by decide)).2.2.1,
    (C23_shuffle_values { j := 5, k := 7 } 2 [1, 0, 3, 4, 5, 7, 0] (by decide)).2.2.2.2.2⟩

/-- C24: each of the five transforms identity, reverse of `[0, n)`, reverse of
`[0, n/2)`, reverse of `[n/2, n)` and pre-sorted yields a permutation of the
base, so a routine that returns the ascending permutation of its input turns
each of them into the sorted copy of the base, and the first five assertions of
the harness hold. -/
theorem C24_transforms (std_sort : List Int → List Int)
    (hstd : StdSortContract int_less std_sort) (sort_fn : List Int → Option (List Int))
    (hfn : SortRoutineContract sort_fn) (base : List Int) :
    (base.reverse.Perm base ∧ (reverse_front base).Perm base ∧
      (reverse_back base).Perm base ∧ (std_sort base).Perm base) ∧
    (sort_fn base = some (std_sort base) ∧ sort_fn base.reverse = some (std_sort base) ∧
      sort_fn (reverse_front base) = some (std_sort base) ∧
      sort_fn (reverse_back base) = some (std_sort base) ∧
      sort_fn (std_sort base) = some (std_sort base)) ∧
    (smasher_trials std_sort sort_fn base).take 5 =
      [("ident", true), ("reverse", true), ("revfront", true), ("revback", true),
        ("sorted", true)] := by
  have h1 := trial_of_perm hstd hfn (List.Perm.refl base)
  have h2 := trial_of_perm hstd hfn (List.reverse_perm base)
  have h3 := trial_of_perm hstd hfn (reverse_front_perm base)
  have h4 := trial_of_perm hstd hfn (reverse_back_perm base)
  have h5 := trial_of_perm hstd hfn (hstd base).1
  refine ⟨⟨List.reverse_perm base, reverse_front_perm base, reverse_back_perm base,
    (hstd base).1⟩, ⟨h1, h2, h3, h4, h5⟩, ?_⟩
  simp [smasher_trials, trial, h1, h2, h3, h4, h5]

/-- Witness of C24: the reverse `2 1 0 2 1 0 2 1 0` of the Sawtooth base for
`n = 9`, `m = 3` is sorted by `algo::qsort` into `0 0 0 1 1 1 2 2 2`, the sorted
copy of the base. -/
theorem C24_transforms_witness :
    (generate_base Sawtooth.generate 9 3).reverse = [2, 1, 0, 2, 1, 0, 2, 1, 0] ∧
    ref_sort (generate_base Sawtooth.generate 9 3) = [0, 0, 0, 1, 1, 1, 2, 2, 2] ∧
    algo.qsort ref_sort int_less (generate_base Sawtooth.generate 9 3).reverse =
      some (ref_sort (generate_base Sawtooth.generate 9 3)) ∧
    (smasher_trials ref_sort (algo.qsort ref_sort int_less)
        (generate_base Sawtooth.generate 9 3)).take 5 =
      [("ident", true), ("reverse", true), ("revfront", true), ("revback", true),
        ("sorted", true)] :=
  ⟨by decide, by decide,
    (C24_transforms ref_sort ref_sort_contract (algo.qsort ref_sort int_less)
      (qsort_sort_routine ref_sort ref_sort_contract)
      (generate_base Sawtooth.generate 9 3)).2.1.2.1,
    (C24_transforms ref_sort ref_sort_contract (algo.qsort ref_sort int_less)
      (qsort_sort_routine ref_sort ref_sort_contract)
      (generate_base Sawtooth.generate 9 3)).2.2⟩

/-- C25: the trial `dither` sorts the sequence `test[i] = base[i] + (i mod 5)`
(exact whenever the sums stay within `int`) and compares the result with the
sorted copy of that dithered sequence; for a routine that returns the ascending
permutation of its input the assertion holds. -/
theorem C25_dither (std_sort : List Int → List Int)
    (hstd : StdSortContract int_less std_sort) (sort_fn : List Int → Option (List Int))
    (hfn : SortRoutineContract sort_fn) (base : List Int) :
    (dither base).length = base.length ∧
    (∀ (i : Nat) (x : Int), base[i]? = some x → -2147483648 ≤ x → x < 2147483644 →
      (dither base)[i]? = some (x + ((i % 5 : Nat) : Int))) ∧
    (smasher_trials std_sort sort_fn base)[5]? =
      some ("dither", trial sort_fn (dither base) (std_sort (dither base))) ∧
    sort_fn (dither base) = some (std_sort (dither base)) ∧
    trial sort_fn (dither base) (std_sort (dither base)) = true := by
  have h := trial_of_perm hstd hfn (List.Perm.refl (dither base))
  refine ⟨dither_length base, ?_, by simp [smasher_trials], h, by simp [trial, h]⟩
  intro i x hx h0 h1
  rw [dither_getElem?, hx, Option.map_some', Int.tmod_eq_emod (Int.ofNat_nonneg i) (by omega)]
  have : ((i : Int) % 5) = ((i % 5 : Nat) : Int) := by push_cast; rfl
  rw [this, int_wrap_of_range (by omega) (by omega)]

/-- Witness of C25: the base `1 3 0 2 4` dithers to `1 4 2 5 8`, whose control
is `1 2 4 5 8` and not the sorted copy `0 1 2 3 4` of the base. -/
theorem C25_dither_witness :
    dither [1, 3, 0, 2, 4] = [1, 4, 2, 5, 8] ∧
    ref_sort (dither [1, 3, 0, 2, 4]) = [1, 2, 4, 5, 8] ∧
    ref_sort [1, 3, 0, 2, 4] = [0, 1, 2, 3, 4] ∧
    algo.qsort ref_sort int_less (dither [1, 3, 0, 2, 4]) =
      some (ref_sort (dither [1, 3, 0, 2, 4])) ∧
    trial (algo.qsort ref_sort int_less) (dither [1, 3, 0, 2, 4])
      (ref_sort [1, 3, 0, 2, 4]) = false :=
  ⟨by decide, by decide, by decide,
    (C25_dither ref_sort ref_sort_contract (algo.qsort ref_sort int_less)
      (qsort_sort_routine ref_sort ref_sort_contract) [1, 3, 0, 2, 4]).2.2.2.1,
    by decide⟩

/-- C26, as stated, fails for `nmax = 10^9`: the size `10^9` is tested, and in
its modulus loop the doubling of `m = 2^30` overflows, so that the body runs
again with `m = -2^31` and then with `m = 0`, the divisor of `i % m` in
`Sawtooth`. -/
theorem C26_counterexample :
    smasher_n_loop 1000000000 10 10 =
      ([10, 100, 1000, 10000, 100000, 1000000, 10000000, 100000000, 1000000000], true) ∧
    (smasher_m_loop 1000000000 33 1).1 =
      [1, 2, 4, 8, 16, 32, 64, 128, 256, 512, 1024, 2048, 4096, 8192, 16384, 32768, 65536,
        131072, 262144, 524288, 1048576, 2097152, 4194304, 8388608, 16777216, 33554432,
        67108864, 134217728, 268435456, 536870912, 1073741824, -2147483648, 0] ∧
    (0 : Int) ∈ (smasher_m_loop 1000000000 33 1).1 ∧
    StrategyKind.divisor .sawtooth 1000000000 0 = some 0 := by
  decide

/-- C26, amended: for every maximum size `nmax < 10^9`, which includes every
size `10^1, ..., 10^7` that the menu offers, both loops of `smasher` end; the
sizes tested are exactly the `n = 10^k` with `10 ≤ 10^k ≤ nmax`, in ascending
order, and for each size the moduli are exactly the `m = 2^j` with
`1 ≤ 2^j < 2n`, in ascending order; six trials are run on each base; so every
call `generate(n, m, i)` has `n ≥ 10`, `m ≥ 1` and `0 ≤ i < n`, and no divisor
of a `%` in a strategy is zero. -/
theorem C26_smasher_loops (nmax : Int) (hnmax : nmax < 1000000000) (fuel : Nat)
    (hfuel : 31 ≤ fuel) :
    ((smasher_n_loop nmax fuel 10).2 = true ∧
      (∀ n, n ∈ (smasher_n_loop nmax fuel 10).1 ↔
        ∃ k : Nat, n = 10 ^ k ∧ 10 ≤ n ∧ n ≤ nmax) ∧
      (smasher_n_loop nmax fuel 10).1.Sorted (fun a b => a < b)) ∧
    (∀ n ∈ (smasher_n_loop nmax fuel 10).1,
      (smasher_m_loop n fuel 1).2 = true ∧
      (∀ m, m ∈ (smasher_m_loop n fuel 1).1 ↔ ∃ j : Nat, m = 2 ^ j ∧ 1 ≤ m ∧ m < 2 * n) ∧
      (smasher_m_loop n fuel 1).1.Sorted (fun a b => a < b) ∧
      (∀ m ∈ (smasher_m_loop n fuel 1).1,
        10 ≤ n ∧ 1 ≤ m ∧
        (∀ i ∈ List.range n.toNat, 0 ≤ (i : Int) ∧ (i : Int) < n) ∧
        (∀ (s : StrategyKind) (d : Int), s.divisor n m = some d → d ≠ 0))) ∧
    (∀ (std_sort : List Int → List Int) (sort_fn : List Int → Option (List Int))
      (base : List Int), (smasher_trials std_sort sort_fn base).length = 6) := by
  obtain ⟨hn1, hn2, hn3⟩ := smasher_n_loop_spec nmax hnmax fuel 1 (by omega) (by omega)
  rw [pow_one] at hn1 hn2 hn3
  have hmem : ∀ n, n ∈ (smasher_n_loop nmax fuel 10).1 ↔
      ∃ k : Nat, n = 10 ^ k ∧ 10 ≤ n ∧ n ≤ nmax := by
    intro n
    rw [hn2]
    constructor
    · rintro ⟨i, hi, rfl, hle⟩
      refine ⟨i, rfl, ?_, hle⟩
      have : (10 : Int) ^ 1 ≤ 10 ^ i := pow_le_pow_right₀ (by norm_num) hi
      simpa using this
    · rintro ⟨k, rfl, h10, hle⟩
      refine ⟨k, ?_, rfl, hle⟩
      by_contra hc
      have hk : k = 0 := by omega
      subst hk
      norm_num at h10
  refine ⟨⟨hn1, hmem, hn3⟩, ?_, fun _ _ _ => by simp [smasher_trials]⟩
  intro n hn
  obtain ⟨k, rfl, h10, hle⟩ := (hmem n).mp hn
  have hk8 : k ≤ 8 := by
    by_contra hc
    have : (10 : Int) ^ 9 ≤ 10 ^ k := pow_le_pow_right₀ (by norm_num) (by omega)
    norm_num at this
    omega
  have h8 : (10 : Int) ^ k ≤ 100000000 := by
    have : (10 : Int) ^ k ≤ 10 ^ 8 := pow_le_pow_right₀ (by norm_num) hk8
    norm_num at this
    exact this
  obtain ⟨hm1, hm2, hm3⟩ :=
    smasher_m_loop_spec (10 ^ k) (by omega) (by omega) fuel 0 (by omega) (by omega)
  rw [pow_zero] at hm1 hm2 hm3
  have hmemm : ∀ m, m ∈ (smasher_m_loop (10 ^ k) fuel 1).1 ↔
      ∃ j : Nat, m = 2 ^ j ∧ 1 ≤ m ∧ m < 2 * 10 ^ k := by
    intro m
    rw [hm2]
    constructor
    · rintro ⟨i, _, rfl, hlt⟩
      exact ⟨i, rfl, by have : (0 : Int) < 2 ^ i := by positivity
                        omega, hlt⟩
    · rintro ⟨j, rfl, _, hlt⟩
      exact ⟨j, Nat.zero_le j, rfl, hlt⟩
  refine ⟨hm1, hmemm, hm3, ?_⟩
  intro m hm
  obtain ⟨j, rfl, h1, _⟩ := (hmemm m).mp hm
  refine ⟨h10, h1, ?_, ?_⟩
  · intro i hi
    have := List.mem_range.mp hi
    omega
  · intro s d hd
    cases s <;> simp [StrategyKind.divisor] at hd <;> omega

/-- Witness of the amended C26 for `nmax = 100`: the sizes are `10` and `100`,
and the moduli for the size `10` are `1, 2, 4, 8, 16`. -/
theorem C26_smasher_loops_witness :
    smasher_n_loop 100 31 10 = ([10, 100], true) ∧
    smasher_m_loop 10 31 1 = ([1, 2, 4, 8, 16], true) ∧
    (smasher_n_loop 100 31 10).2 = true ∧
    (∀ n, n ∈ (smasher_n_loop 100 31 10).1 ↔ ∃ k : Nat, n = 10 ^ k ∧ 10 ≤ n ∧ n ≤ 100) :=
  ⟨by decide, by decide,
    (C26_smasher_loops 100 (by decide) 31 (by decide)).1.1,
    (C26_smasher_loops 100 (by decide) 31 (by decide)).1.2.1⟩

/-- C27, as stated, fails: on the three values `2 1 3` the selector
`iter_median_9` returns `split`, the position of the lowest value, where the
median of three of `first`, `split`, `last - 1` is at `first`; and on the 41
values `2*i mod 41` it returns the nine-sample median at position 15 where the
median of three is at position 40. -/
theorem C27_counterexample :
    iter_median_9 int_less [2, 1, 3] 0 1 3 = some 1 ∧
    iter_median_3 int_less [2, 1, 3] 0 1 2 = some 0 ∧
    iter_median_9 int_less
        ((List.range 41).map (fun (i : Nat) => ((i * 2 % 41 : Nat) : Int))) 0 20 41 =
      some 15 ∧
    iter_median_3 int_less
        ((List.range 41).map (fun (i : Nat) => ((i * 2 % 41 : Nat) : Int))) 0 20 40 =
      some 40 := by
  decide

/-- C27, amended: `iter_median_9` returns `split` itself for every range of at
most `7` elements, the plain median of three of `first`, `split`, `last - 1`
for every range of `8` to `40` elements, and the median of three of the three
medians of three taken at `first, first + d, first + 2d`, at
`split - d, split, split + d` and at `last - 2d, last - d, last - 1`, with
`d = (last - first) / 8`, for every range of more than `40` elements. -/
theorem C27_iter_median_9 (comp : α → α → Bool) (xs : List α) (first split last : Nat) :
    (last - first ≤ 7 → iter_median_9 comp xs first split last = some split) ∧
    (7 < last - first → last - first ≤ 40 →
      iter_median_9 comp xs first split last =
        iter_median_3 comp xs first split (last - 1)) ∧
    (40 < last - first → (last - first) / 8 ≤ split →
      iter_median_9 comp xs first split last =
        (iter_median_3 comp xs first (first + (last - first) / 8)
          (first + (last - first) / 8 * 2)).bind (fun a =>
        (iter_median_3 comp xs (split - (last - first) / 8) split
          (split + (last - first) / 8)).bind (fun b =>
        (iter_median_3 comp xs (last - (last - first) / 8 * 2)
          (last - (last - first) / 8) (last - 1)).bind (fun c =>
        iter_median_3 comp xs a b c)))) := by
  refine ⟨?_, ?_, ?_⟩
  · intro h7
    simp [iter_median_9, h7]
  · intro h7 h40
    simp [iter_median_9, show ¬ last - first ≤ 7 by omega, h40,
      ptr_sub_of_le (show 1 ≤ last by omega)]
  · intro h40 hsd
    simp only [iter_median_9, show ¬ last - first ≤ 7 by omega,
      show ¬ last - first ≤ 40 by omega, if_false, ptr_sub_of_le hsd,
      ptr_sub_of_le (show (last - first) / 8 * 2 ≤ last by omega),
      ptr_sub_of_le (show (last - first) / 8 ≤ last by omega),
      ptr_sub_of_le (show 1 ≤ last by omega), Option.bind_eq_bind, Option.some_bind]

/-- Witness of the amended C27 on a range of `3`, of `9` and of `41` values. -/
theorem C27_iter_median_9_witness :
    iter_median_9 int_less [2, 1, 3] 0 1 3 = some 1 ∧
    iter_median_9 int_less [5, 3, 9, 1, 7, 2, 8, 6, 4] 0 4 9 =
      iter_median_3 int_less [5, 3, 9, 1, 7, 2, 8, 6, 4] 0 4 (9 - 1) ∧
    iter_median_3 int_less [5, 3, 9, 1, 7, 2, 8, 6, 4] 0 4 8 = some 0 ∧
    iter_median_9 int_less
        ((List.range 41).map (fun (i : Nat) => ((i * 2 % 41 : Nat) : Int))) 0 20 41 =
      some 15 :=
  ⟨(C27_iter_median_9 int_less [2, 1, 3] 0 1 3).1 (by decide),
    (C27_iter_median_9 int_less [5, 3, 9, 1, 7, 2, 8, 6, 4] 0 4 9).2.1 (by decide)
      (by decide),
    by decide,
    ((C27_iter_median_9 int_less
      ((List.range 41).map (fun (i : Nat) => ((i * 2 % 41 : Nat) : Int))) 0 20 41).2.2
      (by decide) (by decide)).trans (by decide)⟩

/-- C28: on every non-empty range `algo::qsort` returns, and every value that
the counter `depth` of `introspective_sort_` has on entry of a call, or of a
further pass of its loop, is non-negative: the budget of the first call is not
negative, every later value is obtained by a decrement on the branch
`depth != 0`, and all of them lie between `0` and the budget. -/
theorem C28_depth_nonneg (ps : List α → List α) (comp : α → α → Bool)
    (hswo : StrictWeakOrder comp) (xs : List α) (hne : xs ≠ []) :
    (∃ ys ds, algo.qsort_depths ps comp xs = some (ys, ds) ∧
      algo.qsort ps comp xs = some ys ∧
      ds.head? = some (algo.depth_budget xs.length : Int) ∧
      ∀ d ∈ ds, 0 ≤ d ∧ d ≤ (algo.depth_budget xs.length : Int)) ∧
    (∀ (fuel : Nat) (depth : Int) (r : List α × List Int), 0 ≤ depth →
      algo.introspective_sort_depths ps comp fuel depth xs = some r →
      ∀ d ∈ r.2, 0 ≤ d) := by
  have hlen : xs.length ≠ 0 := by
    intro h
    exact hne (List.length_eq_zero.mp h)
  refine ⟨?_, ?_⟩
  · obtain ⟨ys, t, ht, _⟩ := algo.introspective_sort_traced_spec ps comp hswo
      (algo.depth_budget xs.length) xs
    have hs : algo.introspective_sort_ ps comp (algo.depth_budget xs.length) xs = some ys := by
      rw [← algo.introspective_sort_traced_fst, ht]
      rfl
    have hfst := algo.introspective_sort_depths_fst ps comp
      (algo.depth_budget xs.length + 1) (algo.depth_budget xs.length) xs (Nat.lt_succ_self _)
    rw [hs] at hfst
    obtain ⟨r, hr, hr1⟩ := Option.map_eq_some'.mp hfst
    obtain ⟨h1, h2⟩ := algo.introspective_sort_depths_range ps comp _ _ xs r
      (Int.ofNat_nonneg _) hr
    refine ⟨ys, r.2, ?_, ?_, h1, h2⟩
    · rw [algo.qsort_depths, if_pos hlen, hr, ← hr1]
    · rw [algo.qsort, if_pos hlen, hs]
  · intro fuel depth r h0 hr d hd
    exact ((algo.introspective_sort_depths_range ps comp fuel depth xs r h0 hr).2 d hd).1

/-- Witness of C28 on 23 `int` values: the counter starts at `9` and takes the
value `8` twice. -/
theorem C28_depth_nonneg_witness :
    StrictWeakOrder int_less ∧
    algo.qsort_depths ref_sort int_less
        [5, 3, 9, 1, 7, 2, 8, 6, 4, 0, 15, 13, 19, 11, 17, 12, 18, 16, 14, 10, 25, 23, 29] =
      some ([0, 1, 2, 3, 4, 5, 6, 7, 8, 9, 10, 11, 12, 13, 14, 15, 16, 17, 18, 19, 23, 25,
        29], [9, 8, 8]) ∧
    ∃ ys ds, algo.qsort_depths ref_sort int_less
        [5, 3, 9, 1, 7, 2, 8, 6, 4, 0, 15, 13, 19, 11, 17, 12, 18, 16, 14, 10, 25, 23, 29] =
        some (ys, ds) ∧
      algo.qsort ref_sort int_less
        [5, 3, 9, 1, 7, 2, 8, 6, 4, 0, 15, 13, 19, 11, 17, 12, 18, 16, 14, 10, 25, 23, 29] =
        some ys ∧
      ds.head? = some (algo.depth_budget
        [5, 3, 9, 1, 7, 2, 8, 6, 4, 0, 15, 13, 19, 11, 17, 12, 18, 16, 14, 10, 25, 23,
          29].length : Int) ∧
      ∀ d ∈ ds, 0 ≤ d ∧ d ≤ (algo.depth_budget
        [5, 3, 9, 1, 7, 2, 8, 6, 4, 0, 15, 13, 19, 11, 17, 12, 18, 16, 14, 10, 25, 23,
          29].length : Int) :=
  ⟨int_less_swo, by decide,
    (C28_depth_nonneg ref_sort int_less int_less_swo
      [5, 3, 9, 1, 7, 2, 8, 6, 4, 0, 15, 13, 19, 11, 17, 12, 18, 16, 14, 10, 25, 23, 29]
      (by decide)).1⟩

/-- C29: `algo::qsort` is not stable.  The 17 records with the key `0` and the
tags `0, 1, ..., 16` are pairwise equivalent under the comparison of keys, and
whatever `std::partial_sort` does, the sort returns them in the opposite order:
the records tagged `0` and `1`, first and second in the input, are last and
last but one in the output. -/
theorem C29_unstable :
    StrictWeakOrder key_less ∧
    Equiv key_less (0, 0) (0, 1) ∧ ((0, 0) : Int × Nat) ≠ (0, 1) ∧
    ∀ ps : List (Int × Nat) → List (Int × Nat),
      ∃ ys, algo.qsort ps key_less
          [(0, 0), (0, 1), (0, 2), (0, 3), (0, 4), (0, 5), (0, 6), (0, 7), (0, 8), (0, 9),
            (0, 10), (0, 11), (0, 12), (0, 13), (0, 14), (0, 15), (0, 16)] = some ys ∧
        ys[15]? = some (0, 1) ∧ ys[16]? = some (0, 0) :=
  ⟨key_less_swo, by unfold Equiv; decide, by decide, fun ps =>
    ⟨[(0, 16), (0, 15), (0, 14), (0, 13), (0, 12), (0, 11), (0, 10), (0, 9), (0, 8),
      (0, 7), (0, 6), (0, 5), (0, 4), (0, 3), (0, 2), (0, 1), (0, 0)], rfl, rfl, rfl⟩⟩

/-- C30: let the entries be `junk1`, then an option for the function menu, then
`junk2`, then an option for the strategy menu, then `junk3`, then an option for
the size menu, where each `junk` holds only entries that are not numbers or are
numbers outside the range of its menu (function: `0..size`, strategy:
`0..size + 1`, size: `0..7`).  Every such entry is answered by the same prompt
again.  When the option `0` is entered at one of the three menus, `smasher_ui`
returns `-1` and does not call `smasher`; otherwise it calls `smasher` with the
selected function, the selected strategy (all of them for the option
`size + 1`) and `nmax = 10^option`, and returns `0`. -/
theorem C30_smasher_ui {σ φ : Type} (strategies : List σ) (functions : List φ)
    (junk1 junk2 junk3 rest : List (Option Int)) (f s o : Int)
    (h1 : ∀ v, some v ∈ junk1 → v < 0 ∨ (functions.length : Int) < v)
    (h2 : ∀ v, some v ∈ junk2 → v < 0 ∨ (strategies.length : Int) + 1 < v)
    (h3 : ∀ v, some v ∈ junk3 → v < 0 ∨ 7 < v)
    (hf : 1 ≤ f ∧ f ≤ (functions.length : Int))
    (hs : 1 ≤ s ∧ s ≤ (strategies.length : Int) + 1) (ho : 1 ≤ o ∧ o ≤ 7) :
    smasher_ui strategies functions (junk1 ++ some 0 :: rest) =
      some (-1, none, List.replicate (junk1.length + 1) "Please select a function") ∧
    smasher_ui strategies functions (junk1 ++ some f :: (junk2 ++ some 0 :: rest)) =
      some (-1, none, List.replicate (junk1.length + 1) "Please select a function" ++
        List.replicate (junk2.length + 1) "Please select a strategy") ∧
    smasher_ui strategies functions
        (junk1 ++ some f :: (junk2 ++ some s :: (junk3 ++ some 0 :: rest))) =
      some (-1, none, List.replicate (junk1.length + 1) "Please select a function" ++
        List.replicate (junk2.length + 1) "Please select a strategy" ++
        List.replicate (junk3.length + 1) "Please select maximum size") ∧
    ∃ optfunc optstrat, functions[(f - 1).toNat]? = some optfunc ∧
      (s = (strategies.length : Int) + 1 → optstrat = strategies) ∧
      (s ≠ (strategies.length : Int) + 1 →
        ∃ st, strategies[(s - 1).toNat]? = some st ∧ optstrat = [st]) ∧
      smasher_ui strategies functions
          (junk1 ++ some f :: (junk2 ++ some s :: (junk3 ++ some o :: rest))) =
        some (0, some (optstrat, optfunc, 10 ^ o.toNat),
          List.replicate (junk1.length + 1) "Please select a function" ++
          List.replicate (junk2.length + 1) "Please select a strategy" ++
          List.replicate (junk3.length + 1) "Please select maximum size") := by
  have hj1 := smasher_ui_rejected (functions.length : Int) _ (fun _ => rfl) junk1 h1
  have hj2 := smasher_ui_rejected ((strategies.length : Int) + 1) _ (fun _ => rfl) junk2 h2
  have hj3 : ∀ e ∈ junk3,
      (fun option : Int => decide (option ≥ 0 ∧ option < 8)) (smasher_ui_getopt e) = false :=
    smasher_ui_rejected 7 (fun option : Int => decide (option ≥ 0 ∧ option < 8))
      (fun x => by
        show decide _ = decide _
        rw [decide_eq_decide]
        omega) junk3 h3
  have m1 : ∀ (v : Int) (r : List (Option Int)), 0 ≤ v → v ≤ (functions.length : Int) →
      smasher_ui_menu "Please select a function"
        (fun option => decide (option ≥ 0 ∧ option ≤ (functions.length : Int)))
        (junk1 ++ some v :: r) = some (v, r, List.replicate (junk1.length + 1) _) :=
    fun v r h0 h1 => smasher_ui_menu_skip _ _ v (by simp; omega) r junk1 hj1
  have m2 : ∀ (v : Int) (r : List (Option Int)), 0 ≤ v → v ≤ (strategies.length : Int) + 1 →
      smasher_ui_menu "Please select a strategy"
        (fun option => decide (option ≥ 0 ∧ option ≤ (strategies.length : Int) + 1))
        (junk2 ++ some v :: r) = some (v, r, List.replicate (junk2.length + 1) _) :=
    fun v r h0 h1 => smasher_ui_menu_skip _ _ v (by simp; omega) r junk2 hj2
  have m3 : ∀ (v : Int) (r : List (Option Int)), 0 ≤ v → v ≤ 7 →
      smasher_ui_menu "Please select maximum size"
        (fun option => decide (option ≥ 0 ∧ option < 8))
        (junk3 ++ some v :: r) = some (v, r, List.replicate (junk3.length + 1) _) :=
    fun v r h0 h1 => smasher_ui_menu_skip _ _ v (by simp; omega) r junk3 hj3
  have hfi : (f - 1).toNat < functions.length := by omega
  have hf0 : f ≠ 0 := by omega
  have hs0 : s ≠ 0 := by omega
  have ho0 : o ≠ 0 := by omega
  have hfun : functions[(f - 1).toNat]? = some functions[(f - 1).toNat] :=
    List.getElem?_eq_getElem hfi
  refine ⟨?_, ?_, ?_, ?_⟩
  · simp only [smasher_ui, m1 0 rest (le_refl 0) (by omega), if_true]
  · simp only [smasher_ui, m1 f _ (by omega) hf.2, hf0, if_false, hfun,
      m2 0 rest (le_refl 0) (by omega), if_true]
  · by_cases hall : s = (strategies.length : Int) + 1
    · simp only [smasher_ui, m1 f _ (by omega) hf.2, hf0, if_false, hfun,
        m2 s _ (by omega) hs.2, hs0, eq_true hall, ne_eq, not_true_eq_false,
        m3 0 rest (le_refl 0) (by omega), if_true]
    · have hsi : (s - 1).toNat < strategies.length := by omega
      simp only [smasher_ui, m1 f _ (by omega) hf.2, hf0, if_false, hfun,
        m2 s _ (by omega) hs.2, hs0, hall, ne_eq, not_false_eq_true,
        List.getElem?_eq_getElem hsi, Option.map_some', m3 0 rest (le_refl 0) (by omega),
        if_true]
  · by_cases hall : s = (strategies.length : Int) + 1
    · refine ⟨functions[(f - 1).toNat], strategies, hfun, fun _ => rfl,
        fun h => absurd hall h, ?_⟩
      simp only [smasher_ui, m1 f _ (by omega) hf.2, hf0, if_false, hfun,
        m2 s _ (by omega) hs.2, hs0, eq_true hall, ne_eq, not_true_eq_false,
        m3 o rest (by omega) ho.2, ho0]
    · have hsi : (s - 1).toNat < strategies.length := by omega
      refine ⟨functions[(f - 1).toNat], [strategies[(s - 1).toNat]], hfun,
        fun h => absurd h hall, fun _ => ⟨_, List.getElem?_eq_getElem hsi, rfl⟩, ?_⟩
      simp only [smasher_ui, m1 f _ (by omega) hf.2, hf0, if_false, hfun,
        m2 s _ (by omega) hs.2, hs0, hall, ne_eq, not_false_eq_true, if_true,
        List.getElem?_eq_getElem hsi, Option.map_some', m3 o rest (by omega) ho.2, ho0]

/-- Witness of C30 with the five strategies and two functions: the entries
`x`, `5` are rejected by the function menu, `-1` by the strategy menu and `x`,
`8` by the size menu; the options `2`, `6`, `3` run `smasher` with the second
function, all strategies and `nmax = 1000`, and the option `0` quits. -/
theorem C30_smasher_ui_witness :
    smasher_ui [StrategyKind.random, .sawtooth, .stagger, .plateau, .shuffle]
        ["qsort_v1", "qsort_v2"]
        [none, some 5, some 2, some (-1), some 6, none, some 8, some 3] =
      some (0, some ([.random, .sawtooth, .stagger, .plateau, .shuffle], "qsort_v2", 1000),
        ["Please select a function", "Please select a function",
          "Please select a function", "Please select a strategy",
          "Please select a strategy", "Please select maximum size",
          "Please select maximum size", "Please select maximum size"]) ∧
    smasher_ui [StrategyKind.random, .sawtooth, .stagger, .plateau, .shuffle]
        ["qsort_v1", "qsort_v2"]
        ([none, some 5] ++ some 2 :: ([some (-1)] ++ some 6 :: ([none, some 8] ++
          some 0 :: []))) =
      some (-1, none,
        List.replicate ([none, some (5 : Int)].length + 1) "Please select a function" ++
        List.replicate ([some (-1 : Int)].length + 1) "Please select a strategy" ++
        List.replicate ([none, some (8 : Int)].length + 1) "Please select maximum size") :=
  ⟨rfl,
    (C30_smasher_ui [StrategyKind.random, .sawtooth, .stagger, .plateau, .shuffle]
      ["qsort_v1", "qsort_v2"] [none, some 5] [some (-1)] [none, some 8] [] 2 6 3
      (by intro v hv; simp at hv; subst hv; decide)
      (by intro v hv; simp at hv; subst hv; decide)
      (by intro v hv; simp at hv; subst hv; decide)
      (by decide) (by decide) (by decide)).2.2.1⟩

/-- C31: in every pass of the loop of `introspective_sort_` that partitions,
the range has more than 16 elements, the pivot is a copy of the value at the
midpoint after the median has been swapped there, the unguarded precondition
holds, `partition_unguarded_` returns, so that no access leaves the range, and
the boundary is strictly between `first` and `last`; both the range of the
nested call and the range the loop goes on with are strictly shorter, every
call of `introspective_sort_` returns, and `algo::qsort` returns on every
input. -/
theorem C31_partition_progress (comp : α → α → Bool) (hswo : StrictWeakOrder comp)
    (ps : List α → List α) :
    (∀ xs : List α, 16 < xs.length →
      ∃ m xs1 pivot b ys,
        algo.iter_median_ comp xs 0 (xs.length / 2) xs.length = some m ∧
        iter_swap xs (xs.length / 2) m = some xs1 ∧
        xs1[xs.length / 2]? = some pivot ∧
        (∃ x ∈ xs1, comp x pivot = false) ∧ (∃ x ∈ xs1, comp pivot x = false) ∧
        algo.partition_unguarded_ comp xs1 pivot = some (b, ys) ∧
        0 < b ∧ b < xs.length ∧
        (ys.take b).length < xs.length ∧ (ys.drop b).length < xs.length) ∧
    (∀ (depth : Nat) (xs : List α), ∃ ys t,
      algo.introspective_sort_traced ps comp depth xs = some (ys, t) ∧
      algo.introspective_sort_ ps comp depth xs = some ys ∧
      t.SmallRangeOk ∧ t.size = xs.length ∧ t.Shrinks) ∧
    (∀ xs : List α, ∃ ys, algo.qsort ps comp xs = some ys) := by
  have hgen : ∀ (depth : Nat) (xs : List α), ∃ ys t,
      algo.introspective_sort_traced ps comp depth xs = some (ys, t) ∧
      algo.introspective_sort_ ps comp depth xs = some ys ∧
      t.SmallRangeOk ∧ t.size = xs.length ∧ t.Shrinks := by
    intro depth xs
    obtain ⟨ys, t, h, _, hok, _⟩ := algo.introspective_sort_traced_spec ps comp hswo depth xs
    obtain ⟨hs1, hs2⟩ := algo.introspective_sort_traced_shrinks ps comp hswo depth xs _ h
    refine ⟨ys, t, h, ?_, hok, hs1, hs2⟩
    rw [← algo.introspective_sort_traced_fst, h]; rfl
  refine ⟨?_, hgen, ?_⟩
  · intro xs h16
    obtain ⟨m, xs1, pivot, b, ys, hm, _, hsw, hpv, hge, hle, hpart, hlen, hb0, hbn⟩ :=
      algo.introspective_sort_step comp hswo xs (by omega)
    refine ⟨m, xs1, pivot, b, ys, hm, hsw, hpv, hge, hle, hpart, hb0, hbn, ?_, ?_⟩
    · rw [List.length_take]; omega
    · rw [List.length_drop]; omega
  · intro xs
    unfold algo.qsort
    by_cases h : xs.length ≠ 0
    · rw [if_pos h]
      obtain ⟨ys, _, _, hq, _⟩ := hgen (algo.depth_budget xs.length) xs
      exact ⟨ys, hq⟩
    · rw [if_neg h]
      exact ⟨xs, rfl⟩

/-- Witness of C31 on a range of 23 values: the boundary is at 15, so the two
ranges handed on have 15 and 8 elements. -/
theorem C31_partition_progress_witness :
    StrictWeakOrder int_less ∧
    algo.introspective_sort_traced ref_sort int_less 9
        [3, 1, 4, 1, 5, 9, 2, 6, 4, 4, 8, 7, 6, 5, 4, 3, 2, 1, 0, -1, 5, 5, 5] =
      some ([-1, 0, 1, 1, 1, 2, 2, 3, 3, 4, 4, 4, 4, 5, 5, 5, 5, 5, 6, 6, 7, 8, 9],
        .partition 23 (.insertion 15) (.insertion 8)) ∧
    ∃ ys, algo.qsort ref_sort int_less
      [3, 1, 4, 1, 5, 9, 2, 6, 4, 4, 8, 7, 6, 5, 4, 3, 2, 1, 0, -1, 5, 5, 5] = some ys :=
  ⟨int_less_swo, by decide,
    (C31_partition_progress int_less int_less_swo ref_sort).2.2 _⟩

/-- C32: when the range holds a value equivalent to the pivot, as it does at
every call site, where the pivot is read from the range, each three-way
partition (`partition3_forward`, `partition3_dijkstra`,
`partition3_bentley_mcilroy` and the `partition_unguarded_` of `ext/qsort.hpp`)
returns a pair with `first ≤ lo < hi ≤ last`; the ranges `[first, lo)` and
`[hi, last)` that are handed on lie outside the equal range and are strictly
shorter than the partitioned range. -/
theorem C32_equal_range (part : (α → Bool) → List α → Nat × List α)
    (hpart : StdPartitionContract part) (comp : α → α → Bool)
    (hswo : StrictWeakOrder comp) (a : List α) (pivot : α)
    (hmem : ∃ x ∈ a, Equiv comp x pivot) :
    ((partition3_forward part comp a pivot).1 < (partition3_forward part comp a pivot).2.1 ∧
      (partition3_forward part comp a pivot).2.1 ≤ a.length ∧
      ((partition3_forward part comp a pivot).2.2.take
        (partition3_forward part comp a pivot).1).length < a.length ∧
      ((partition3_forward part comp a pivot).2.2.drop
        (partition3_forward part comp a pivot).2.1).length < a.length) ∧
    (∃ lo hi a', partition3_dijkstra comp a pivot = some (lo, hi, a') ∧
      lo < hi ∧ hi ≤ a.length ∧ (a'.take lo).length < a.length ∧
      (a'.drop hi).length < a.length) ∧
    (∃ lo hi a', partition3_bentley_mcilroy comp a pivot = some (lo, hi, a') ∧
      lo < hi ∧ hi ≤ a.length ∧ (a'.take lo).length < a.length ∧
      (a'.drop hi).length < a.length) ∧
    (∃ lo hi a', ext.partition_unguarded_ comp a pivot = some (lo, hi, a') ∧
      lo < hi ∧ hi ≤ a.length ∧ (a'.take lo).length < a.length ∧
      (a'.drop hi).length < a.length) := by
  have hasym : ∀ x y, comp x y = true → comp y x = false := fun _ _ h => hswo.asymm h
  have hge : ∃ x ∈ a, comp x pivot = false := by
    obtain ⟨x, hx, h1, _⟩ := hmem
    exact ⟨x, hx, h1⟩
  have hle : ∃ x ∈ a, comp pivot x = false := by
    obtain ⟨x, hx, _, h2⟩ := hmem
    exact ⟨x, hx, h2⟩
  refine ⟨?_, ?_, ?_, ?_⟩
  · obtain ⟨hperm, _, _, hlohi, hhi, hL, _, hG⟩ :=
      partition3_forward_spec hpart comp hasym a pivot
    obtain ⟨h1, h2, h3⟩ := equal_range_nonempty_of_equiv hperm hlohi hhi hmem hL hG
    exact ⟨h1, hhi, h2, h3⟩
  · obtain ⟨lo, hi, ys, h, hperm, hlohi, hhi, hL, _, hG⟩ :=
      partition3_dijkstra_spec comp a pivot
    obtain ⟨h1, h2, h3⟩ := equal_range_nonempty_of_equiv hperm hlohi hhi hmem hL hG
    exact ⟨lo, hi, ys, h, h1, hhi, h2, h3⟩
  · obtain ⟨_, lo, hi, ys, _, _, _, h, hperm, _, hlohi, hhi, hL, _, hG⟩ :=
      partition3_bentley_mcilroy_spec comp hasym a pivot hge hle
    obtain ⟨h1, h2, h3⟩ := equal_range_nonempty_of_equiv hperm hlohi hhi hmem hL hG
    exact ⟨lo, hi, ys, h, h1, hhi, h2, h3⟩
  · obtain ⟨lo, hi, ys, h, hperm, hlohi, hhi, hL, _, hG⟩ :=
      ext.partition_unguarded_spec comp hasym a pivot hge hle
    obtain ⟨h1, h2, h3⟩ := equal_range_nonempty_of_equiv hperm hlohi hhi hmem hL hG
    exact ⟨lo, hi, ys, h, h1, hhi, h2, h3⟩

/-- Witness of C32 on the range `3 1 4 1 5 9 2 6 5 3 5` with the pivot `5`: the
equal range of the `ext` partition is `[6, 9)`. -/
theorem C32_equal_range_witness :
    StdPartitionContract (ref_partition (α := Int)) ∧ StrictWeakOrder int_less ∧
    ext.partition_unguarded_ int_less [3, 1, 4, 1, 5, 9, 2, 6, 5, 3, 5] 5 =
      some (6, 9, [2, 1, 4, 1, 3, 3, 5, 5, 5, 9, 6]) ∧
    partition3_bentley_mcilroy int_less [3, 1, 4, 1, 5, 9, 2, 6, 5, 3, 5] 5 =
      some (6, 9, [2, 1, 4, 1, 3, 3, 5, 5, 5, 9, 6]) ∧
    ∃ lo hi a', ext.partition_unguarded_ int_less [3, 1, 4, 1, 5, 9, 2, 6, 5, 3, 5] 5 =
        some (lo, hi, a') ∧
      lo < hi ∧ hi ≤ [3, 1, 4, 1, 5, 9, 2, 6, 5, 3, 5].length ∧
      (a'.take lo).length < [3, 1, 4, 1, 5, 9, 2, 6, 5, 3, 5].length ∧
      (a'.drop hi).length < [3, 1, 4, 1, 5, 9, 2, 6, 5, 3, 5].length :=
  ⟨ref_partition_contract, int_less_swo, by decide, by decide,
    (C32_equal_range ref_partition ref_partition_contract int_less int_less_swo
      [3, 1, 4, 1, 5, 9, 2, 6, 5, 3, 5] 5
      ⟨5, by decide, by unfold Equiv; decide⟩).2.2.2⟩

/-- C33: for every range and every strict weak order, `algo::insertion_sort_`
returns, which certifies that no position before `first` is dereferenced, and
leaves the stable sort of its input: a permutation of the input, in ascending
order under `comp`, in which the elements equivalent to any given value occur
in the same relative order as in the input. -/
theorem C33_insertion_sort_stable (comp : α → α → Bool) (hswo : StrictWeakOrder comp)
    (a : List α) :
    ∃ ys, algo.insertion_sort_ comp a = some ys ∧ ys.Perm a ∧ SortedBy comp ys ∧
      ∀ v, ys.filter (fun x => !comp x v && !comp v x) =
        a.filter (fun x => !comp x v && !comp v x) := by
  obtain ⟨ys, h, hp, hs⟩ := algo.insertion_sort_spec comp hswo a
  refine ⟨ys, h, hp, hs, ?_⟩
  unfold algo.insertion_sort_ at h
  by_cases h0 : a.length = 0
  · rw [if_pos h0] at h
    simp only [Option.some.injEq] at h
    subst h
    exact fun _ => rfl
  · rw [if_neg h0] at h
    obtain ⟨zs, hz, hf⟩ := algo.insertion_sort_loop_stable comp hswo a.length a 0
      (by omega) (by omega) (by
        cases a with
        | nil => simp at h0
        | cons x t => simp [SortedBy])
    rw [h] at hz
    simp only [Option.some.injEq] at hz
    subst hz
    exact hf

/-- Witness of C33 on five records `(key, tag)` compared by key: the records
with the key `2` keep the order of their tags `0, 2`, and so do those with the
key `1`. -/
theorem C33_insertion_sort_stable_witness :
    StrictWeakOrder key_less ∧
    algo.insertion_sort_ key_less [(2, 0), (1, 1), (2, 2), (1, 3), (0, 4)] =
      some [(0, 4), (1, 1), (1, 3), (2, 0), (2, 2)] ∧
    ∃ ys, algo.insertion_sort_ key_less [(2, 0), (1, 1), (2, 2), (1, 3), (0, 4)] =
        some ys ∧
      ys.Perm [(2, 0), (1, 1), (2, 2), (1, 3), (0, 4)] ∧ SortedBy key_less ys ∧
      ∀ v, ys.filter (fun x => !key_less x v && !key_less v x) =
        [(2, 0), (1, 1), (2, 2), (1, 3), (0, 4)].filter
          (fun x => !key_less x v && !key_less v x) :=
  ⟨key_less_swo, by decide,
    C33_insertion_sort_stable key_less key_less_swo
      [(2, 0), (1, 1), (2, 2), (1, 3), (0, 4)]⟩

/-- C34 fails on the code: the harness reaches the size `n = 10^5` with the
modulus `m = 2^17 < 2n`, and at the index `i = 16384` the product `i*m = 2^31`
overflows, so that `Stagger::generate` evaluated with wrap-around gives
`-83647`, which is neither the mathematical value `83649` of `(i*m + 1) mod n`
nor in `[0, n)`. -/
theorem C34_stagger_overflow :
    (100000 : Int) ∈ (smasher_n_loop 10000000 31 10).1 ∧
    (131072 : Int) ∈ (smasher_m_loop 100000 31 1).1 ∧
    Stagger.generate 100000 131072 16384 = -83647 ∧
    ((16384 : Int) * 131072 + 1) % 100000 = 83649 ∧
    ¬ (0 ≤ Stagger.generate 100000 131072 16384) := by
  decide

/-- C35: on every non-empty range with a pivot such that some element is not
less than the pivot and some element is not greater than it,
`partition_squeeze` returns, and it returns the initial `first` exactly when
the first element is not less than the pivot and every later element is
strictly greater than the pivot; so with the value of `*first` as the pivot the
result differs from `first` whenever some later element is not greater than
`*first`, that is whenever `*first` is not the lowest value or is not unique. -/
theorem C35_partition_squeeze_first (comp : α → α → Bool) (hswo : StrictWeakOrder comp)
    (a : List α) (pivot : α) (hge : ∃ x ∈ a, comp x pivot = false)
    (hle : ∃ x ∈ a, comp pivot x = false) :
    (∃ b a', partition_squeeze comp a pivot = some (b, a') ∧
      (b = 0 ↔ (∃ x, a[0]? = some x ∧ comp x pivot = false) ∧
        ∀ k x, 0 < k → a[k]? = some x → comp pivot x = true)) ∧
    (a[0]? = some pivot → (∃ k x, 0 < k ∧ a[k]? = some x ∧ comp pivot x = false) →
      ∃ b a', partition_squeeze comp a pivot = some (b, a') ∧ b ≠ 0) := by
  obtain ⟨b, a', h, _⟩ :=
    partition_squeeze_spec comp (fun _ _ h => hswo.asymm h) a pivot hge hle
  have hiff := partition_squeeze_first_iff comp a pivot hge hle b a' h
  refine ⟨⟨b, a', h, hiff⟩, ?_⟩
  rintro _ ⟨k, x, hk, hkx, hc⟩
  refine ⟨b, a', h, ?_⟩
  intro hb
  have := (hiff.mp hb).2 k x hk hkx
  rw [hc] at this
  exact absurd this (by simp)

/-- Witness of C35: on `5 7 9` with the pivot `5` the result is `first`; on
`5 7 3` and on `5 7 5` with the pivot `5` it is not. -/
theorem C35_partition_squeeze_first_witness :
    partition_squeeze int_less [5, 7, 9] 5 = some (0, [5, 7, 9]) ∧
    partition_squeeze int_less [5, 7, 3] 5 = some (1, [3, 7, 5]) ∧
    partition_squeeze int_less [5, 7, 5] 5 = some (1, [5, 7, 5]) ∧
    ∃ b a', partition_squeeze int_less [5, 7, 5] 5 = some (b, a') ∧ b ≠ 0 :=
  ⟨by decide, by decide, by decide,
    (C35_partition_squeeze_first int_less int_less_swo [5, 7, 5] 5 (by decide)
      (by decide)).2 (by decide) ⟨2, 5, by decide, by decide, by decide⟩⟩

/-- C36: for every `int` sequence, the engine `algo::qsort` of `ext/qsort.hpp`
and the engine `algo::qsort` of `qsort.hpp` both return, with the same final
range, the ascending permutation of the input, whatever their fallbacks
`std::partial_sort` do within the contract. -/
theorem C36_engines_agree (ps1 ps2 ref : List Int → List Int)
    (hps1 : StdSortContract int_less ps1) (hps2 : StdSortContract int_less ps2)
    (href : StdSortContract int_less ref) (xs : List Int) :
    ext.qsort ps1 int_less xs = some (ref xs) ∧
    algo.qsort ps2 int_less xs = some (ref xs) ∧
    ext.qsort ps1 int_less xs = algo.qsort ps2 int_less xs := by
  obtain ⟨ys, h, hp, hs⟩ := ext.qsort_sorts ps1 int_less int_less_swo hps1 xs
  obtain ⟨zs, h', hp', hs'⟩ := algo.qsort_spec ps2 int_less int_less_swo hps2 xs
  have e1 : ys = ref xs := sorted_perm_unique_int hp hs (href xs).1 (href xs).2
  have e2 : zs = ref xs := sorted_perm_unique_int hp' hs' (href xs).1 (href xs).2
  rw [h, h', e1, e2]
  exact ⟨rfl, rfl, rfl⟩

/-- Witness of C36 on the 40 values `7*i mod 40`, which both engines partition
before they sort the small ranges. -/
theorem C36_engines_agree_witness :
    StdSortContract int_less ref_sort ∧
    ext.qsort ref_sort int_less
        ((List.range 40).map (fun (i : Nat) => ((i * 7 % 40 : Nat) : Int))) =
      some ((List.range 40).map (fun (i : Nat) => (i : Int))) ∧
    ext.qsort ref_sort int_less
        ((List.range 40).map (fun (i : Nat) => ((i * 7 % 40 : Nat) : Int))) =
      algo.qsort ref_sort int_less
        ((List.range 40).map (fun (i : Nat) => ((i * 7 % 40 : Nat) : Int))) :=
  ⟨ref_sort_contract, by decide,
    (C36_engines_agree ref_sort ref_sort ref_sort ref_sort_contract ref_sort_contract
      ref_sort_contract
      ((List.range 40).map (fun (i : Nat) => ((i * 7 % 40 : Nat) : Int)))).2.2⟩

/-- C37: on `n ≥ 2` copies of one key, every `std::partition` step of `qsort_v1`
returns `lower == first` and leaves its range unchanged, so each call hands on a
range shorter by one element: the nesting depth of the calls is `n - 1`, the
partitions apply their predicate `n*(n-1)/2` times in total, and the output
equals the input. -/
theorem C37_qsort_v1_quadratic (part : (α → Bool) → List α → Nat × List α)
    (hpart : StdPartitionContract part) (comp : α → α → Bool)
    (hswo : StrictWeakOrder comp) (v : α) (n : Nat) (hn : 2 ≤ n) :
    (∀ k : Nat, part (fun x => comp x v) (List.replicate k v) = (0, List.replicate k v)) ∧
    (∀ fuel : Nat, n ≤ fuel →
      qsort_v1_counted part comp fuel (List.replicate n v) =
        some (List.replicate n v, n * (n - 1) / 2, n - 1)) ∧
    (∀ fuel : Nat, n ≤ fuel →
      (qsort_v1 part comp fuel (List.replicate n v)).map Prod.fst =
        some (List.replicate n v)) := by
  have h := qsort_v1_counted_all_equal hpart comp (hswo.irrefl v) n
  refine ⟨std_partition_all_equal hpart comp (hswo.irrefl v),
    fun fuel hfuel => h fuel (by omega) hfuel, ?_⟩
  intro fuel hfuel
  rw [← qsort_v1_counted_fst, h fuel (by omega) hfuel]
  rfl

/-- Witness of C37 on five copies of `7`: ten comparisons, nesting depth four. -/
theorem C37_qsort_v1_quadratic_witness :
    StdPartitionContract (ref_partition (α := Int)) ∧ StrictWeakOrder int_less ∧
    qsort_v1_counted ref_partition int_less 5 [7, 7, 7, 7, 7] =
      some ([7, 7, 7, 7, 7], 10, 4) ∧
    qsort_v1_counted ref_partition int_less 5 (List.replicate 5 7) =
      some (List.replicate 5 7, 5 * (5 - 1) / 2, 5 - 1) :=
  ⟨ref_partition_contract, int_less_swo, by decide,
    (C37_qsort_v1_quadratic ref_partition ref_partition_contract int_less int_less_swo 7 5
      (by decide)).2.1 5 (by decide)⟩

/-- C38: for all valid positions and every strict weak order, `iter_median_3`
of `build_qsort.hpp` and `algo::iter_median_3_` of `qsort.hpp` both return one
of the three positions, and the values at the two returned positions are
equivalent under the order. -/
theorem C38_median_3_agree (comp : α → α → Bool) (hswo : StrictWeakOrder comp)
    (xs : List α) (a b c : Nat) (ha : a < xs.length) (hb : b < xs.length)
    (hc : c < xs.length) :
    ∃ p q vp vq, iter_median_3 comp xs a b c = some p ∧
      algo.iter_median_3_ comp xs a b c = some q ∧
      (p = a ∨ p = b ∨ p = c) ∧ (q = a ∨ q = b ∨ q = c) ∧
      xs[p]? = some vp ∧ xs[q]? = some vq ∧ Equiv comp vp vq := by
  obtain ⟨p, hp, hpm⟩ := iter_median_3_in_range comp xs a b c ha hb hc
  obtain ⟨q, hq, hqm⟩ := algo.iter_median_3_spec comp xs a b c ha hb hc
  have hpl : p < xs.length := by rcases hpm with h | h | h <;> omega
  have hql : q < xs.length := by rcases hqm with h | h | h <;> omega
  exact ⟨p, q, xs[p], xs[q], hp, hq, hpm, hqm, List.getElem?_eq_getElem hpl,
    List.getElem?_eq_getElem hql,
    iter_median_3_equiv_aux comp hswo xs a b c xs[a] xs[b] xs[c]
      (List.getElem?_eq_getElem ha) (List.getElem?_eq_getElem hb)
      (List.getElem?_eq_getElem hc) p q xs[p] xs[q] hp hq
      (List.getElem?_eq_getElem hpl) (List.getElem?_eq_getElem hql)⟩

/-- Witness of C38 on three copies of `7`, where the two selectors return the
different positions `0` and `1`, and on `5 3 9`, where both return `0`. -/
theorem C38_median_3_agree_witness :
    iter_median_3 int_less [7, 7, 7] 0 1 2 = some 0 ∧
    algo.iter_median_3_ int_less [7, 7, 7] 0 1 2 = some 1 ∧
    iter_median_3 int_less [5, 3, 9] 0 1 2 = some 0 ∧
    algo.iter_median_3_ int_less [5, 3, 9] 0 1 2 = some 0 ∧
    ∃ p q vp vq, iter_median_3 int_less [7, 7, 7] 0 1 2 = some p ∧
      algo.iter_median_3_ int_less [7, 7, 7] 0 1 2 = some q ∧
      (p = 0 ∨ p = 1 ∨ p = 2) ∧ (q = 0 ∨ q = 1 ∨ q = 2) ∧
      [7, 7, 7][p]? = some vp ∧ [7, 7, 7][q]? = some vq ∧ Equiv int_less vp vq :=
  ⟨by decide, by decide, by decide, by decide,
    C38_median_3_agree int_less int_less_swo [7, 7, 7] 0 1 2 (by decide) (by decide)
      (by decide)⟩

/-- C39: on every range of `n ≥ 1` elements with `split = first + n/2`,
`algo::iter_median_` returns, which certifies that every position it
dereferences is inside `[first, last)`, and the position returned is inside the
range; the three positions sampled for `n ≤ 80` and the nine positions sampled
for `n > 80` are all within the range, and no pointer is moved before
`first`. -/
theorem C39_iter_median_safe (comp : α → α → Bool) (xs : List α) (hn : 1 ≤ xs.length) :
    (∃ m, algo.iter_median_ comp xs 0 (xs.length / 2) xs.length = some m ∧
      m < xs.length) ∧
    (xs.length ≤ 80 → xs.length / 2 < xs.length ∧ 1 ≤ xs.length ∧
      xs.length - 1 < xs.length) ∧
    (80 < xs.length →
      xs.length / 8 ≤ xs.length / 2 ∧ xs.length / 8 * 2 ≤ xs.length ∧
      0 + xs.length / 8 < xs.length ∧ 0 + xs.length / 8 * 2 < xs.length ∧
      xs.length / 2 - xs.length / 8 < xs.length ∧ xs.length / 2 < xs.length ∧
      xs.length / 2 + xs.length / 8 < xs.length ∧
      xs.length - xs.length / 8 * 2 < xs.length ∧
      xs.length - xs.length / 8 < xs.length ∧ xs.length - 1 < xs.length) := by
  refine ⟨algo.iter_median_in_range comp xs (by omega), ?_, ?_⟩
  · intro _; omega
  · intro _; omega

/-- Witness of C39 on a range of `5` values and on a range of `88` values. -/
theorem C39_iter_median_safe_witness :
    algo.iter_median_ int_less [5, 3, 9, 1, 7] 0 2 5 = some 4 ∧
    (∃ m, algo.iter_median_ int_less
        ((List.range 88).map (fun (i : Nat) => ((i * 37 % 88 : Nat) : Int))) 0
        (((List.range 88).map (fun (i : Nat) => ((i * 37 % 88 : Nat) : Int))).length / 2)
        ((List.range 88).map (fun (i : Nat) => ((i * 37 % 88 : Nat) : Int))).length =
        some m ∧
      m < ((List.range 88).map (fun (i : Nat) => ((i * 37 % 88 : Nat) : Int))).length) :=
  ⟨by decide,
    (C39_iter_median_safe int_less
      ((List.range 88).map (fun (i : Nat) => ((i * 37 % 88 : Nat) : Int)))
      (by decide)).1⟩

/-- C40, as stated, fails: on the 40 values `7*i mod 40` the sort partitions the
range of 40, then a nested range of 20, runs `insertion_sort_` on two ranges of
10 values, then partitions again and runs `insertion_sort_` on two more ranges
of 10 values: four runs, none over the whole range, two of them before the last
partition. -/
theorem C40_counterexample :
    (algo.introspective_sort_traced ref_sort int_less (algo.depth_budget 40)
        ((List.range 40).map (fun (i : Nat) => ((i * 7 % 40 : Nat) : Int)))).map
      (fun r => r.2.events) =
      some [.partition 40, .partition 20, .insertion 10, .insertion 10, .partition 20,
        .insertion 10, .insertion 10] ∧
    algo.qsort ref_sort int_less
        ((List.range 40).map (fun (i : Nat) => ((i * 7 % 40 : Nat) : Int))) =
      (algo.introspective_sort_traced ref_sort int_less (algo.depth_budget 40)
        ((List.range 40).map (fun (i : Nat) => ((i * 7 % 40 : Nat) : Int)))).map
      (fun r => r.1) := by
  decide

/-- C40, amended: the events of every call of `introspective_sort_`, and so of
the call that `algo::qsort` makes on a non-empty range with its depth budget,
which is not zero on more than 16 elements.  On at most 16 elements the call is
one run of `insertion_sort_` over the whole range and nothing else.  On more
than 16 elements with depth zero it is the fallback and nothing else.  On more
than 16 elements with a non-zero depth the events are, in this order: the
partition of the range, at a boundary `split` strictly inside it; all events of
the nested call on `[first, split)`, the last of which is the run of
`insertion_sort_` of that call, on at most 16 elements, or its fallback; all
events of the rest of the loop on `[split, last)`, the first of which is the
next partition of the enclosing call when more than 16 elements are left and
the decremented depth is not zero, the fallback when more than 16 elements are
left and it is zero, and the run of `insertion_sort_` on what is left
otherwise.  The last event of every call is its run of `insertion_sort_`, on at
most 16 elements, or the fallback.  On more than 16 elements no run of
`insertion_sort_` is over the whole range, and the number of runs of
`insertion_sort_` and of the fallback together is the number of partitions plus
one. -/
theorem C40_insertion_runs (comp : α → α → Bool) (hswo : StrictWeakOrder comp)
    (ps : List α → List α) (depth : Nat) (xs : List α) :
    ∃ ys t, algo.introspective_sort_traced ps comp depth xs = some (ys, t) ∧
      algo.introspective_sort_ ps comp depth xs = some ys ∧
      (xs ≠ [] → depth = algo.depth_budget xs.length →
        algo.qsort ps comp xs = some ys ∧ (16 < xs.length → depth ≠ 0)) ∧
      (xs.length ≤ 16 → t.events = [.insertion xs.length]) ∧
      (16 < xs.length → depth = 0 → t.events = [.fallback xs.length]) ∧
      (16 < xs.length → ∀ d, depth = d + 1 →
        ∃ m xs1 pivot b ws yl tl yr tr,
          algo.iter_median_ comp xs 0 (xs.length / 2) xs.length = some m ∧
          iter_swap xs (xs.length / 2) m = some xs1 ∧
          xs1[xs.length / 2]? = some pivot ∧
          algo.partition_unguarded_ comp xs1 pivot = some (b, ws) ∧
          0 < b ∧ b < xs.length ∧
          algo.introspective_sort_traced ps comp d (ws.take b) = some (yl, tl) ∧
          algo.introspective_sort_traced ps comp d (ws.drop b) = some (yr, tr) ∧
          ys = yl ++ yr ∧ t = .partition xs.length tl tr ∧
          t.events = .partition xs.length :: (tl.events ++ tr.events) ∧
          tl.size = b ∧ tr.size = xs.length - b ∧
          (∃ k, k ≤ b ∧ ((tl.events.getLast? = some (.insertion k) ∧ k ≤ 16) ∨
            (tl.events.getLast? = some (.fallback k) ∧ 16 < k))) ∧
          tr.events.head? =
            some (if 16 < xs.length - b then
                (if d = 0 then .fallback (xs.length - b) else .partition (xs.length - b))
              else .insertion (xs.length - b))) ∧
      (∃ k, k ≤ xs.length ∧ ((t.events.getLast? = some (.insertion k) ∧ k ≤ 16) ∨
        (t.events.getLast? = some (.fallback k) ∧ 16 < k))) ∧
      (16 < xs.length → ∀ k, Event.insertion k ∈ t.events → k ≤ 16 ∧ k < xs.length) ∧
      t.insertions + t.fallbacks = t.partitions + 1 := by
  obtain ⟨ys, t, h, _, hok, _⟩ :=
    algo.introspective_sort_traced_spec ps comp hswo depth xs
  obtain ⟨hsz, hsh⟩ := algo.introspective_sort_traced_shrinks ps comp hswo depth xs _ h
  have hfst : algo.introspective_sort_ ps comp depth xs = some ys := by
    rw [← algo.introspective_sort_traced_fst, h]; rfl
  refine ⟨ys, t, h, hfst, ?_, ?_, ?_, ?_, ?_, ?_, t.leaves_eq⟩
  · intro hne hd
    have hlen : xs.length ≠ 0 := fun h => hne (List.length_eq_zero.1 h)
    refine ⟨?_, fun h16 => ?_⟩
    · rw [algo.qsort, if_pos hlen, ← hd, hfst]
    · rw [hd]; exact depth_budget_ne_zero h16
  · intro h16
    have hn : ¬ 16 < xs.length := by omega
    have h2 : algo.introspective_sort_traced ps comp depth xs =
        (algo.insertion_sort_ comp xs).map (fun ys => (ys, .insertion xs.length)) := by
      cases depth <;> simp [algo.introspective_sort_traced, hn]
    rw [h2] at h
    obtain ⟨zs, _, hz⟩ := Option.map_eq_some'.mp h
    simp only [Prod.mk.injEq] at hz
    rw [← hz.2]
    rfl
  · intro h16 hd
    subst hd
    simp only [algo.introspective_sort_traced, if_pos h16, Option.some.injEq,
      Prod.mk.injEq] at h
    rw [← h.2]
    rfl
  · intro h16 d hd
    subst hd
    obtain ⟨m, xs1, pivot, b, ws, yl, tl, yr, tr, hm, hsw, hpv, hpart, hb0, hbn, hwl, hl, hr, ht,
      hsl, hsr, hokl, _, hshl, _⟩ := algo.introspective_sort_traced_pass ps comp hswo d xs h16
    rw [ht, Option.some.injEq, Prod.mk.injEq] at h
    obtain ⟨k, hk, hlast⟩ := Trace.events_getLast hokl hshl
    have hhead := algo.introspective_sort_traced_head ps comp hswo d _ _ hr
    rw [List.length_drop] at hhead
    rw [hwl] at hhead
    exact ⟨m, xs1, pivot, b, ws, yl, tl, yr, tr, hm, hsw, hpv, hpart, hb0, hbn, hl, hr,
      h.1.symm, h.2.symm, by rw [← h.2]; rfl, hsl, hsr, ⟨k, by omega, hlast⟩, hhead⟩
  · obtain ⟨k, hk, hlast⟩ := Trace.events_getLast hok hsh
    exact ⟨k, by simp only at hsz; omega, hlast⟩
  · intro h16 k hk
    have := Trace.insertion_mem_events hok k hk
    exact ⟨this, by omega⟩

/-- Witness of the amended C40 on a range of 23 values with the depth budget
of `algo::qsort`: one partition with the boundary at offset `15`, then the
nested call, which is a run of `insertion_sort_` on 15 values, then the rest of
the loop, which is a run of `insertion_sort_` on the 8 values that are left. -/
theorem C40_insertion_runs_witness :
    (algo.introspective_sort_traced ref_sort int_less (algo.depth_budget 23)
        [3, 1, 4, 1, 5, 9, 2, 6, 4, 4, 8, 7, 6, 5, 4, 3, 2, 1, 0, -1, 5, 5, 5]).map
      (fun r => r.2.events) = some [.partition 23, .insertion 15, .insertion 8] ∧
    ∃ ys t, algo.introspective_sort_traced ref_sort int_less (algo.depth_budget 23)
        [3, 1, 4, 1, 5, 9, 2, 6, 4, 4, 8, 7, 6, 5, 4, 3, 2, 1, 0, -1, 5, 5, 5] = some (ys, t) ∧
      algo.introspective_sort_ ref_sort int_less (algo.depth_budget 23)
        [3, 1, 4, 1, 5, 9, 2, 6, 4, 4, 8, 7, 6, 5, 4, 3, 2, 1, 0, -1, 5, 5, 5] = some ys ∧
      ([3, 1, 4, 1, 5, 9, 2, 6, 4, 4, 8, 7, 6, 5, 4, 3, 2, 1, 0, -1, 5, 5, 5] ≠ [] →
        algo.depth_budget 23 = algo.depth_budget 23 →
        algo.qsort ref_sort int_less
          [3, 1, 4, 1, 5, 9, 2, 6, 4, 4, 8, 7, 6, 5, 4, 3, 2, 1, 0, -1, 5, 5, 5] = some ys ∧
        (16 < 23 → algo.depth_budget 23 ≠ 0)) ∧
      (23 ≤ 16 → t.events = [.insertion 23]) ∧
      (16 < 23 → algo.depth_budget 23 = 0 → t.events = [.fallback 23]) ∧
      (16 < 23 → ∀ d, algo.depth_budget 23 = d + 1 →
        ∃ m xs1 pivot b ws yl tl yr tr,
          algo.iter_median_ int_less
            [3, 1, 4, 1, 5, 9, 2, 6, 4, 4, 8, 7, 6, 5, 4, 3, 2, 1, 0, -1, 5, 5, 5] 0 (23 / 2) 23 =
            some m ∧
          iter_swap [3, 1, 4, 1, 5, 9, 2, 6, 4, 4, 8, 7, 6, 5, 4, 3, 2, 1, 0, -1, 5, 5, 5]
            (23 / 2) m = some xs1 ∧
          xs1[23 / 2]? = some pivot ∧
          algo.partition_unguarded_ int_less xs1 pivot = some (b, ws) ∧
          0 < b ∧ b < 23 ∧
          algo.introspective_sort_traced ref_sort int_less d (ws.take b) = some (yl, tl) ∧
          algo.introspective_sort_traced ref_sort int_less d (ws.drop b) = some (yr, tr) ∧
          ys = yl ++ yr ∧ t = .partition 23 tl tr ∧
          t.events = .partition 23 :: (tl.events ++ tr.events) ∧
          tl.size = b ∧ tr.size = 23 - b ∧
          (∃ k, k ≤ b ∧ ((tl.events.getLast? = some (.insertion k) ∧ k ≤ 16) ∨
            (tl.events.getLast? = some (.fallback k) ∧ 16 < k))) ∧
          tr.events.head? =
            some (if 16 < 23 - b then
                (if d = 0 then .fallback (23 - b) else .partition (23 - b))
              else .insertion (23 - b))) ∧
      (∃ k, k ≤ 23 ∧ ((t.events.getLast? = some (.insertion k) ∧ k ≤ 16) ∨
        (t.events.getLast? = some (.fallback k) ∧ 16 < k))) ∧
      (16 < 23 → ∀ k, Event.insertion k ∈ t.events → k ≤ 16 ∧ k < 23) ∧
      t.insertions + t.fallbacks = t.partitions + 1 :=
  ⟨by decide,
    C40_insertion_runs int_less int_less_swo ref_sort (algo.depth_budget 23)
      [3, 1, 4, 1, 5, 9, 2, 6, 4, 4, 8, 7, 6, 5, 4, 3, 2, 1, 0, -1, 5, 5, 5]⟩

end QSort
